import Mathlib

/-!
# The field registrar and the dissection tree of `epan/proto.c`

A shallow embedding of `src/epan/proto.c`: the registrar, that is the dense
vector of header-field descriptors (`gpa_hfinfo`), the abbreviation tree
(`gpa_name_tree`), the protocol list (`protocols`) and the registration
routines that fill them; the dissection tree with the routines that add
typed items to it from a byte buffer; and the routines that read the tree:
the index of interesting fields, the lookup by offset, the labels and the
display-filter strings.

Conventions of the embedding.

* A pointer to a registered `header_field_info` is its position in
  `gpa_hfinfo`: every descriptor the registrar knows was appended there by
  `proto_register_field_init`, and a descriptor is registered once.
* An `int *` out-slot is an address (a `Nat`) into a store of integers
  `Nat → Int`, so that two records may name the same slot.
* `g_assert` aborts the program; a routine that can reach one returns
  `Except fault _`.
* C strings are `String`; a `char *` that may be `NULL` is `Option String`.
* The byte buffer (`tvbuff_t`) and the value cell (`fvalue_t`) are used by
  `proto.c` through their interfaces only; they are modelled from the
  specification of those interfaces.
* A pointer to a node of a dissection tree is the path from the root to the
  node. A routine that changes a tree takes the tree and gives back the new
  one; when it fails, the caller keeps the tree it passed.
* Text buffers read from a packet are lists of octets, their terminating NUL
  included.
* A label buffer is the string it holds. Its size, `ITEM_LABEL_LENGTH` of
  `proto.h`, is a parameter `size` of the label routines. The text a `printf`
  format expands to is computed by `sprintf`, and `snprintf` is its bounded
  print into a buffer.
* The renderers and resolvers of other files that the label and filter
  routines call are fields of the records `label_env` and `repr_env`.
-/

namespace Proto

/-! ## Outcomes -/

/-- How a routine can fail to return: a `g_assert` that does not hold, a
shift whose count is not below the width of `int` (for which C defines no
value), the bounded-read fault the byte buffer raises on an access out of
range (an exception the caller of the dissection can catch), or the use of a
pointer that is null or leads to no node of the tree, or another operation
for which C defines no behaviour (a write past the end of a character buffer,
the use of a table as one of another type). -/
inductive fault
  | assertion
  | undefined_shift
  | bounds
  | null_pointer
  | undefined
deriving DecidableEq, Repr

deriving instance DecidableEq for Except

/-- The `g_assert(c)` of GLib: continue when `c` holds, abort otherwise. -/
def g_assert (c : Bool) : Except fault Unit :=
  if c then .ok () else .error fault.assertion

/-! ## Data model -/

/-- Modelled from the spec: the closed enumeration of field types (`enum ftenum`
of `ftypes.h`, which is not among the sources). The tags are the ones
`proto.c` names. -/
inductive ftenum
  | FT_NONE
  | FT_PROTOCOL
  | FT_BOOLEAN
  | FT_UINT8
  | FT_UINT16
  | FT_UINT24
  | FT_UINT32
  | FT_UINT64
  | FT_INT8
  | FT_INT16
  | FT_INT24
  | FT_INT32
  | FT_INT64
  | FT_FLOAT
  | FT_DOUBLE
  | FT_ABSOLUTE_TIME
  | FT_RELATIVE_TIME
  | FT_STRING
  | FT_STRINGZ
  | FT_UINT_STRING
  | FT_ETHER
  | FT_BYTES
  | FT_UINT_BYTES
  | FT_IPv4
  | FT_IPv6
  | FT_IPXNET
  | FT_FRAMENUM
deriving DecidableEq, Repr

open ftenum

/-- Modelled from the spec: display base `None` (`proto.h` is not among the
sources); `display` is an `int` in the descriptor. -/
def BASE_NONE : Int := 0

/-- Modelled from the spec: display base `Dec`. -/
def BASE_DEC : Int := 1

/-- Modelled from the spec: display base `Hex`. -/
def BASE_HEX : Int := 2

/-- Modelled from the spec: display base `Oct`. -/
def BASE_OCT : Int := 3

/-- What the untyped `strings` pointer of a descriptor points at: a
`value_string` table (integer to label) or a `true_false_string` pair. -/
inductive hf_strings
  | vals (table : List (Nat × String))
  | tfs (true_string false_string : String)
deriving DecidableEq, Repr

/-- The `header_field_info` record. `bitmask` is a `guint32`; `bitshift` is
an `int` that the code only ever counts upwards from zero; `abbrev_` is the
field `abbrev`. The two links are
pointers to registered descriptors, or `NULL`. -/
structure header_field_info where
  name : Option String
  abbrev_ : Option String
  type : ftenum
  display : Int
  strings : Option hf_strings
  bitmask : Nat
  blurb : Option String
  id : Int
  parent : Int
  bitshift : Nat
  same_name_next : Option Nat
  same_name_prev : Option Nat
deriving DecidableEq, Repr

/-- The `hf_register_info` record: the out-pointer `p_id` and the descriptor. -/
structure hf_register_info where
  p_id : Nat
  hfinfo : header_field_info
deriving DecidableEq, Repr

/-- The `protocol_t` record. `fields` lists the registered records of the
protocol in order of registration (each given as the handle its descriptor
receives); the cached tail pointer `last_field` is not kept. -/
structure protocol_t where
  name : String
  short_name : String
  filter_name : String
  proto_id : Int
  fields : List Nat
  is_enabled : Bool
  can_disable : Bool
deriving DecidableEq, Repr

/-- The file-level state of the registrar: `gpa_hfinfo`, `gpa_name_tree`
(abbreviation to descriptor) and `protocols`. -/
structure registrar where
  gpa_hfinfo : List header_field_info
  gpa_name_tree : List (String × Nat)
  protocols : List protocol_t
deriving DecidableEq, Repr

/-- A descriptor as a dissector writes it in a static array: the seven
fields it may set, followed by `HFILL`, which zeroes `id`, `parent`,
`bitshift` and the two links. -/
def hf_entry (name abbrev_ : String) (type : ftenum) (display : Int)
    (strings : Option hf_strings) (bitmask : Nat) (blurb : Option String) :
    header_field_info :=
  { name := some name, abbrev_ := some abbrev_, type := type, display := display,
    strings := strings, bitmask := bitmask, blurb := blurb,
    id := 0, parent := 0, bitshift := 0,
    same_name_next := none, same_name_prev := none }

/-! ## GLib collaborators -/

/-- The `g_tree_lookup` of GLib on a tree keyed by `strcmp`. -/
def g_tree_lookup : List (String × Nat) → String → Option Nat
  | [], _ => none
  | (k, v) :: rest, key => if k = key then some v else g_tree_lookup rest key

/-- The `g_tree_insert` of GLib: a key already present gets the new value. -/
def g_tree_insert : List (String × Nat) → String → Nat → List (String × Nat)
  | [], key, value => [(key, value)]
  | (k, v) :: rest, key, value =>
    if k = key then (k, value) :: rest else (k, v) :: g_tree_insert rest key value

/-- The case folding `g_strcasecmp` applies to each byte. -/
def fold_case (c : Char) : Char :=
  if c.isUpper then c.toLower else c

/-- The `g_strcasecmp` of GLib on the bytes of two strings: the first pair of
bytes that differ after case folding decides; when one string ends first
GLib returns the difference with its terminating NUL, of which the sign is
kept here. -/
def g_strcasecmp_chars : List Char → List Char → Int
  | [], [] => 0
  | [], _ :: _ => -1
  | _ :: _, [] => 1
  | c1 :: s1, c2 :: s2 =>
    if fold_case c1 = fold_case c2 then g_strcasecmp_chars s1 s2
    else (fold_case c1).toNat - (fold_case c2).toNat

/-- The `g_strcasecmp` of GLib. -/
def g_strcasecmp (s1 s2 : String) : Int :=
  g_strcasecmp_chars s1.data s2.data

/-- The `g_list_find_custom` of GLib: the first element that `func` reports
as equal (zero) to the datum. -/
def g_list_find_custom {α : Type} (list : List α) (func : α → Int) : Option α :=
  list.find? (fun x => func x == 0)

/-- The `g_list_insert_sorted` of GLib: before the first element that the new
one does not sort after, at the end when there is none. -/
def g_list_insert_sorted {α : Type} (func : α → α → Int) (data : α) : List α → List α
  | [] => [data]
  | x :: rest =>
    if func data x > 0 then x :: g_list_insert_sorted func data rest
    else data :: x :: rest

/-! ## The registrar -/

/-- A registrar right after `g_ptr_array_new` and `g_tree_new` in
`proto_init`, with the static `protocols` list still `NULL`. -/
def registrar_new : registrar :=
  { gpa_hfinfo := [], gpa_name_tree := [], protocols := [] }

/-- Store through a pointer to a registered descriptor. -/
def hfinfo_update (l : List header_field_info) (p : Nat)
    (f : header_field_info → header_field_info) : List header_field_info :=
  match l[p]? with
  | some x => l.set p (f x)
  | none => l

/-- The function `proto_registrar_n`. -/
def proto_registrar_n (r : registrar) : Int :=
  r.gpa_hfinfo.length

/-- The function `proto_registrar_get_nth`: asserts the handle is in range. -/
def proto_registrar_get_nth (r : registrar) (hfindex : Int) :
    Except fault header_field_info :=
  if 0 ≤ hfindex ∧ hfindex < r.gpa_hfinfo.length then
    match r.gpa_hfinfo[hfindex.toNat]? with
    | some x => .ok x
    | none => .error fault.assertion
  else .error fault.assertion

/-- The function `proto_registrar_get_byname`; `none` is the `NULL` result. -/
def proto_registrar_get_byname (r : registrar) (field_name : String) :
    Option header_field_info :=
  (g_tree_lookup r.gpa_name_tree field_name).bind (fun p => r.gpa_hfinfo[p]?)

/-- The types that may carry a `strings` pointer (first assertion on the type
in `proto_register_field_init`). -/
def strings_allowed (t : ftenum) : Bool :=
  t == FT_UINT8 || t == FT_UINT16 || t == FT_UINT24 || t == FT_UINT32 ||
  t == FT_INT8 || t == FT_INT16 || t == FT_INT24 || t == FT_INT32 ||
  t == FT_BOOLEAN || t == FT_FRAMENUM

/-- The `switch (hfinfo->type)` of `proto_register_field_init`. -/
def check_type_switch (hfinfo : header_field_info) : Except fault Unit :=
  match hfinfo.type with
  | FT_UINT8 | FT_UINT16 | FT_UINT24 | FT_UINT32
  | FT_INT8 | FT_INT16 | FT_INT24 | FT_INT32 =>
    g_assert (hfinfo.display != BASE_NONE)
  | FT_FRAMENUM => do
    g_assert (hfinfo.bitmask == 0)
    g_assert hfinfo.strings.isNone
  | _ => .ok ()

/-- The loop `while ((bitmask & (1 << bitshift)) == 0) bitshift++;`. The first
argument counts the shift counts still below the width of `int`; the caller
passes `32 - bitshift`. -/
def bitshift_loop (bitmask : Nat) : Nat → Nat → Except fault Nat
  | 0, _ => .error fault.undefined_shift
  | legal + 1, bitshift =>
    if bitmask &&& (1 <<< bitshift) = 0 then bitshift_loop bitmask legal (bitshift + 1)
    else .ok bitshift

/-- The statement `if (hfinfo->bitmask) { while ... }`. -/
def compute_bitshift (hfinfo : header_field_info) : Except fault Nat :=
  if hfinfo.bitmask != 0 then
    bitshift_loop hfinfo.bitmask (32 - hfinfo.bitshift) hfinfo.bitshift
  else .ok hfinfo.bitshift

/-- The block of `proto_register_field_init` that enters descriptor `n`
(already appended to `gpa_hfinfo`) in the name tree and links it to the
descriptor the tree held for the same abbreviation. -/
def enter_name_tree (r : registrar) (n : Nat) (abbrev_ : String) : registrar :=
  let l :=
    match g_tree_lookup r.gpa_name_tree abbrev_ with
    | some same_name_hfinfo =>
      let same_name_next_hfinfo :=
        (r.gpa_hfinfo[same_name_hfinfo]?).bind (fun x => x.same_name_next)
      let l1 := hfinfo_update r.gpa_hfinfo n
        (fun x => { x with same_name_next := same_name_next_hfinfo })
      let l2 :=
        match same_name_next_hfinfo with
        | some nx => hfinfo_update l1 nx (fun x => { x with same_name_prev := some n })
        | none => l1
      let l3 := hfinfo_update l2 same_name_hfinfo
        (fun x => { x with same_name_next := some n })
      hfinfo_update l3 n (fun x => { x with same_name_prev := some same_name_hfinfo })
    | none => r.gpa_hfinfo
  { r with gpa_hfinfo := l, gpa_name_tree := g_tree_insert r.gpa_name_tree abbrev_ n }

/-- The first half of `proto_register_field_init`: the assertions on the
descriptor and the computation of `bitshift`, which is returned. -/
def check_field (hfinfo : header_field_info) : Except fault Nat := do
  g_assert hfinfo.name.isSome
  g_assert hfinfo.abbrev_.isSome
  g_assert (hfinfo.strings.isNone || strings_allowed hfinfo.type)
  check_type_switch hfinfo
  compute_bitshift hfinfo

/-- The second half of `proto_register_field_init`: the descriptor gets its
parent, cleared links and its handle, is appended to `gpa_hfinfo`, and is
entered in the name tree when its name and abbreviation are not empty. -/
def enter_field (r : registrar) (hfinfo : header_field_info) (parent : Int)
    (bitshift : Nat) : registrar × Int :=
  let n := r.gpa_hfinfo.length
  let id : Int := ((n + 1 : Nat) : Int) - 1
  let hfinfo1 : header_field_info :=
    { hfinfo with bitshift := bitshift, parent := parent,
                  same_name_next := none, same_name_prev := none, id := id }
  let r1 : registrar := { r with gpa_hfinfo := r.gpa_hfinfo ++ [hfinfo1] }
  let name := hfinfo.name.getD ""
  let abbrev_ := hfinfo.abbrev_.getD ""
  let r2 := if name ≠ "" ∧ abbrev_ ≠ "" then enter_name_tree r1 n abbrev_ else r1
  (r2, id)

/-- The function `proto_register_field_init`: returns the new state and the
handle given to the descriptor. -/
def proto_register_field_init (r : registrar) (hfinfo : header_field_info)
    (parent : Int) : Except fault (registrar × Int) := do
  let bitshift ← check_field hfinfo
  return enter_field r hfinfo parent bitshift

/-- The comparison `proto_match_name`. -/
def proto_match_name (name : String) (p : protocol_t) : Int :=
  g_strcasecmp p.name name

/-- The comparison `proto_match_short_name`. -/
def proto_match_short_name (name : String) (p : protocol_t) : Int :=
  g_strcasecmp p.short_name name

/-- The comparison `proto_match_filter_name`. -/
def proto_match_filter_name (name : String) (p : protocol_t) : Int :=
  g_strcasecmp p.filter_name name

/-- The comparison `proto_compare_name`. -/
def proto_compare_name (p1 p2 : protocol_t) : Int :=
  g_strcasecmp p1.short_name p2.short_name

/-- The function `proto_register_protocol`. `chunk` is the block that
`g_mem_chunk_alloc` hands out, whose contents are not initialised: the code
assigns every field of it except `display`. The protocol record is built
here with the `proto_id` the code stores into it on its last line; nothing
in between reads the list. -/
def proto_register_protocol (r : registrar) (chunk : header_field_info)
    (name short_name filter_name : String) : Except fault (registrar × Int) := do
  g_assert (g_list_find_custom r.protocols (proto_match_name name)).isNone
  g_assert (g_list_find_custom r.protocols (proto_match_short_name short_name)).isNone
  g_assert (g_list_find_custom r.protocols (proto_match_filter_name filter_name)).isNone
  let hfinfo : header_field_info :=
    { chunk with name := some name, abbrev_ := some filter_name, type := FT_PROTOCOL,
                 strings := none, bitmask := 0, bitshift := 0, blurb := some "",
                 parent := -1 }
  let (r1, proto_id) ← proto_register_field_init r hfinfo hfinfo.parent
  let protocol : protocol_t :=
    { name := name, short_name := short_name, filter_name := filter_name,
      proto_id := proto_id, fields := [], is_enabled := true, can_disable := true }
  return ({ r1 with protocols := g_list_insert_sorted proto_compare_name protocol r.protocols },
          proto_id)

/-- The comparison `compare_proto_id`. -/
def compare_proto_id (id : Int) (p : protocol_t) : Int :=
  if p.proto_id = id then 0 else 1

/-- The function `find_protocol_by_id`. -/
def find_protocol_by_id (r : registrar) (proto_id : Int) : Option protocol_t :=
  g_list_find_custom r.protocols (compare_proto_id proto_id)

/-- The comparison `compare_filter_name`, a `strcmp`; only whether it is zero
is used. -/
def compare_filter_name (f_name : String) (p : protocol_t) : Int :=
  if p.filter_name = f_name then 0 else 1

/-- The function `proto_get_id_by_filter_name`. -/
def proto_get_id_by_filter_name (r : registrar) (filter_name : String) : Int :=
  match g_list_find_custom r.protocols (compare_filter_name filter_name) with
  | none => -1
  | some protocol => protocol.proto_id

/-- The append to `proto->fields` in `proto_register_field_array`, on the
record `find_protocol_by_id` found: the first one with that `proto_id`. -/
def append_field (parent : Int) (handle : Nat) : List protocol_t → List protocol_t
  | [] => []
  | p :: rest =>
    if p.proto_id = parent then { p with fields := p.fields ++ [handle] } :: rest
    else p :: append_field parent handle rest

/-- The loop of `proto_register_field_array` over the records `hf[0]` to
`hf[num_records - 1]`, given as a list; `mem` holds the out-slots. -/
def proto_register_field_array (parent : Int) :
    registrar → (Nat → Int) → List hf_register_info → Except fault (registrar × (Nat → Int))
  | r, mem, [] => .ok (r, mem)
  | r, mem, ptr :: rest => do
    g_assert (mem ptr.p_id == -1 || mem ptr.p_id == 0)
    let r1 : registrar :=
      { r with protocols := append_field parent r.gpa_hfinfo.length r.protocols }
    let (r2, field_id) ← proto_register_field_init r1 ptr.hfinfo parent
    proto_register_field_array parent r2 (Function.update mem ptr.p_id field_id) rest

/-- The address of the global `hf_text_only`. -/
def hf_text_only : Nat := 0

/-- The static array `hf` of `proto_init`: the text-only pseudo-field. -/
def proto_init_hf : List hf_register_info :=
  [{ p_id := hf_text_only, hfinfo := hf_entry "" "" FT_NONE BASE_NONE none 0 none }]

/-- The registrar part of `proto_init`, up to the registration of the
text-only pseudo-field; the registration callbacks that follow are calls of
the two registration routines. -/
def proto_init (mem : Nat → Int) : Except fault (registrar × (Nat → Int)) :=
  proto_register_field_array (-1) registrar_new mem proto_init_hf

/-- The function `proto_registrar_is_protocol`. -/
def proto_registrar_is_protocol (r : registrar) (n : Int) : Except fault Bool := do
  let hfinfo ← proto_registrar_get_nth r n
  return (if hfinfo.parent = -1 then true else false)

/-! ## Registration histories -/

/-- The registrar states that calls of `proto_register_protocol` and of
`proto_register_field_array` (with a parent that satisfies `Q`) lead to from
the state `r0`, whenever the calls return. -/
inductive Registered (Q : Int → Prop) (r0 : registrar) : registrar → Prop
  | start : Registered Q r0 r0
  | protocol {r r1 : registrar} {chunk : header_field_info}
      {name short_name filter_name : String} {id : Int} :
      Registered Q r0 r →
      proto_register_protocol r chunk name short_name filter_name = .ok (r1, id) →
      Registered Q r0 r1
  | field_array {r r1 : registrar} {parent : Int} {mem mem1 : Nat → Int}
      {hf : List hf_register_info} :
      Registered Q r0 r → Q parent →
      proto_register_field_array parent r mem hf = .ok (r1, mem1) →
      Registered Q r0 r1

/-- A registrar state reached from the empty registrar by registrations. -/
def Reachable (r : registrar) : Prop :=
  Registered (fun _ => True) registrar_new r

/-! ## Notions the properties are stated with -/

/-- The number of trailing zero bits of a 32-bit word: how many of the bits
0, 1, 2, ... are clear before the first one that is set (32 for the word 0). -/
def count_trailing_zeros (m : Nat) : Nat :=
  ((List.range 32).takeWhile (fun j => !m.testBit j)).length

/-- The eight integer types of at most 32 bits. -/
def int_types : List ftenum :=
  [FT_UINT8, FT_UINT16, FT_UINT24, FT_UINT32, FT_INT8, FT_INT16, FT_INT24, FT_INT32]

/-- The descriptors that validation turns down, in the words of the
specification: a name or abbreviation that is absent, a mapping on a type
that may not carry one, an integer type without display base, a frame number
with a bitmask or a mapping. -/
def rejected (hf : header_field_info) : Prop :=
  hf.name = none ∨ hf.abbrev_ = none ∨
  (hf.strings ≠ none ∧ hf.type ∉ int_types ++ [FT_BOOLEAN, FT_FRAMENUM]) ∨
  (hf.type ∈ int_types ∧ hf.display = BASE_NONE) ∨
  (hf.type = FT_FRAMENUM ∧ (hf.bitmask ≠ 0 ∨ hf.strings ≠ none))

instance (hf : header_field_info) : Decidable (rejected hf) := by
  unfold rejected; infer_instance

/-- The test `name[0] != 0 && abbrev[0] != 0` of `proto_register_field_init`. -/
def filterable (x : header_field_info) : Bool :=
  x.name.getD "" != "" && x.abbrev_.getD "" != ""

/-- A descriptor that was entered in the name tree under the abbreviation `a`. -/
def under (a : String) (x : header_field_info) : Bool :=
  filterable x && x.abbrev_.getD "" == a

/-- A descriptor with a non-empty name registered under the abbreviation `a`,
in the words of the specification. -/
def registered_under (a : String) (x : header_field_info) : Bool :=
  x.abbrev_ == some a && x.name != none && x.name != some ""

/-- The handle of the last descriptor under `a` among the first `k`. -/
def last_under (l : List header_field_info) (a : String) : Nat → Option Nat
  | 0 => none
  | k + 1 =>
    match l[k]? with
    | some x => if under a x then some k else last_under l a k
    | none => last_under l a k

/-- The descriptors met from pointer `p` on by following `same_name_prev`, at
most `fuel` of them. -/
def chain_prev (r : registrar) : Nat → Option Nat → List header_field_info
  | 0, _ => []
  | _ + 1, none => []
  | fuel + 1, some p =>
    match r.gpa_hfinfo[p]? with
    | some x => x :: chain_prev r fuel x.same_name_prev
    | none => []

/-- The descriptors met from pointer `p` on by following `same_name_next`, at
most `fuel` of them. -/
def chain_next (r : registrar) : Nat → Option Nat → List header_field_info
  | 0, _ => []
  | _ + 1, none => []
  | fuel + 1, some p =>
    match r.gpa_hfinfo[p]? with
    | some x => x :: chain_next r fuel x.same_name_next
    | none => []

/-- A descriptor without its two links. -/
def core (x : header_field_info) : header_field_info :=
  { x with same_name_next := none, same_name_prev := none }

/-- The descriptor as `proto_register_field_init` appends it to `gpa_hfinfo`. -/
def new_hfinfo (r : registrar) (hf : header_field_info) (parent : Int) (bs : Nat) :
    header_field_info :=
  { hf with bitshift := bs, parent := parent, same_name_next := none,
            same_name_prev := none, id := (r.gpa_hfinfo.length : Int) }

/-- The registrar once the new descriptor is appended. -/
def append_new (r : registrar) (hf : header_field_info) (parent : Int) (bs : Nat) :
    registrar :=
  { r with gpa_hfinfo := r.gpa_hfinfo ++ [new_hfinfo r hf parent bs] }

/-- The shape of the name tree and of the links: the tree maps an
abbreviation to the last descriptor entered under it, which has no
successor, and the predecessor of a descriptor is the one entered before it
under the same abbreviation. -/
structure link_inv (r : registrar) : Prop where
  tree : ∀ a, g_tree_lookup r.gpa_name_tree a = last_under r.gpa_hfinfo a r.gpa_hfinfo.length
  prev : ∀ i x, r.gpa_hfinfo[i]? = some x → filterable x = true →
    x.same_name_prev = last_under r.gpa_hfinfo (x.abbrev_.getD "") i
  next : ∀ a h, g_tree_lookup r.gpa_name_tree a = some h →
    ∃ x, r.gpa_hfinfo[h]? = some x ∧ x.same_name_next = none

/-- The types for which the type switch asks for a display base. -/
def needs_base (t : ftenum) : Bool :=
  t == FT_UINT8 || t == FT_UINT16 || t == FT_UINT24 || t == FT_UINT32 ||
  t == FT_INT8 || t == FT_INT16 || t == FT_INT24 || t == FT_INT32

/-- The descriptor `proto_register_protocol` fills in before it registers it. -/
def protocol_hfinfo (chunk : header_field_info) (name filter_name : String) :
    header_field_info :=
  { chunk with name := some name, abbrev_ := some filter_name, type := FT_PROTOCOL,
               strings := none, bitmask := 0, bitshift := 0, blurb := some "",
               parent := -1 }

/-- The three assertions of `proto_register_protocol`: no protocol of the list
compares equal on the long name, the short name or the filter name. -/
def no_collision (r : registrar) (name short_name filter_name : String) : Bool :=
  (g_list_find_custom r.protocols (proto_match_name name)).isNone &&
  (g_list_find_custom r.protocols (proto_match_short_name short_name)).isNone &&
  (g_list_find_custom r.protocols (proto_match_filter_name filter_name)).isNone

/-- The protocol record `proto_register_protocol` adds to the list. -/
def new_protocol (r : registrar) (name short_name filter_name : String) : protocol_t :=
  { name := name, short_name := short_name, filter_name := filter_name,
    proto_id := (r.gpa_hfinfo.length : Int), fields := [], is_enabled := true,
    can_disable := true }

/-- A string with its upper case ASCII letters folded to lower case. -/
def casefold (s : String) : List Char := s.data.map fold_case

/-- A protocol record without its list of fields. -/
def static_part (p : protocol_t) : String × String × String × Int × Bool × Bool :=
  (p.name, p.short_name, p.filter_name, p.proto_id, p.is_enabled, p.can_disable)

/-- Every descriptor of the vector carries its position as `id`. -/
def ids_inv (r : registrar) : Prop :=
  ∀ (i : Nat) (x : header_field_info), r.gpa_hfinfo[i]? = some x → (core x).id = (i : Int)

/-- A store in which every out-slot holds the sentinel `-1`. -/
def example_mem : Nat → Int := fun _ => -1

/-- The registrar `proto_init` leaves before it calls the registration
callbacks: the text-only pseudo-field alone. -/
def init_state : registrar :=
  { gpa_hfinfo := [{ hf_entry "" "" FT_NONE BASE_NONE none 0 none with parent := -1 }],
    gpa_name_tree := [], protocols := [] }

/-- The registrar after `proto_init`, the registration of protocol `Foo`, and
the registration of two bit-slices under the abbreviation `foo.flags`. -/
def foo_state : registrar :=
  { gpa_hfinfo :=
      [{ hf_entry "" "" FT_NONE BASE_NONE none 0 none with parent := -1 },
       { hf_entry "Foo" "foo" FT_PROTOCOL 0 none 0 (some "") with parent := -1, id := 1 },
       { hf_entry "Flags" "foo.flags" FT_UINT8 BASE_HEX none 0x0F none with
           parent := 1, id := 2, same_name_next := some 3 },
       { hf_entry "Flags" "foo.flags" FT_UINT8 BASE_HEX none 0xF0 none with
           parent := 1, id := 3, bitshift := 4, same_name_prev := some 2 }],
    gpa_name_tree := [("foo", 1), ("foo.flags", 3)],
    protocols := [{ name := "Foo", short_name := "FOO", filter_name := "foo", proto_id := 1,
                    fields := [2, 3], is_enabled := true, can_disable := true }] }

/-- Two bit-slices of one byte registered under the same abbreviation. -/
def foo_fields : List hf_register_info :=
  [⟨1, hf_entry "Flags" "foo.flags" FT_UINT8 BASE_HEX none 0x0F none⟩,
   ⟨2, hf_entry "Flags" "foo.flags" FT_UINT8 BASE_HEX none 0xF0 none⟩]

/-- One step along a link of the same-name chain, from pointer `p` to `q`. -/
def link_step (r : registrar) (p q : Nat) : Prop :=
  ∃ x, r.gpa_hfinfo[p]? = some x ∧ (x.same_name_next = some q ∨ x.same_name_prev = some q)

/-- Descriptor `q` can be reached from the descriptor the name tree holds for
`a` by following links of the same-name chain. -/
def chain_reachable (r : registrar) (a : String) (q : Nat) : Prop :=
  ∃ p, g_tree_lookup r.gpa_name_tree a = some p ∧ Relation.ReflTransGen (link_step r) p q

/-- A registrar in which a field with a name and the empty abbreviation was
registered after `proto_init`. -/
def unnamed_state : registrar :=
  { gpa_hfinfo :=
      [{ hf_entry "" "" FT_NONE BASE_NONE none 0 none with parent := -1 },
       { hf_entry "Foo" "" FT_NONE BASE_NONE none 0 none with parent := 7, id := 1 }],
    gpa_name_tree := [], protocols := [] }

/-- A protocol of the list has the long name, the short name or the filter
name of the arguments, compared without regard to case. -/
def collides (r : registrar) (name short_name filter_name : String) : Prop :=
  ∃ p ∈ r.protocols, casefold p.name = casefold name ∨
    casefold p.short_name = casefold short_name ∨
    casefold p.filter_name = casefold filter_name

/-- The long names, the short names and the filter names of the protocols are
each pairwise distinct, also when case is disregarded. -/
def names_inv (r : registrar) : Prop :=
  (r.protocols.map (fun p => casefold (static_part p).1)).Nodup ∧
  (r.protocols.map (fun p => casefold (static_part p).2.1)).Nodup ∧
  (r.protocols.map (fun p => casefold (static_part p).2.2.1)).Nodup

/-- Every protocol record names, as `proto_id`, a descriptor of type Protocol
with bitmask 0 and parent -1. -/
def proto_inv (r : registrar) : Prop :=
  ∀ p ∈ r.protocols, ∃ (i : Nat) (x : header_field_info), p.proto_id = (i : Int) ∧
    r.gpa_hfinfo[i]? = some x ∧ (core x).type = FT_PROTOCOL ∧ (core x).bitmask = 0 ∧
    (core x).parent = -1

/-- No frame-number descriptor of the vector has a bitmask. -/
def framenum_inv (r : registrar) : Prop :=
  ∀ (i : Nat) (x : header_field_info), r.gpa_hfinfo[i]? = some x →
    (core x).type = FT_FRAMENUM → (core x).bitmask = 0

/-- The state after `proto_init` as far as parents go: descriptor 0 is the
text-only pseudo-field with parent -1, every protocol handle is at least 1,
and a descriptor other than 0 with parent -1 is that of a protocol record. -/
def parent_inv (r : registrar) : Prop :=
  (∃ x, r.gpa_hfinfo[0]? = some x ∧ (core x).parent = -1 ∧ (core x).type = FT_NONE) ∧
  (∀ p ∈ r.protocols, 1 ≤ p.proto_id) ∧
  (∀ (i : Nat) (x : header_field_info), r.gpa_hfinfo[i]? = some x → 1 ≤ i →
    (core x).parent = -1 → ∃ p ∈ r.protocols, p.proto_id = (i : Int))

/-- A registrar in which a String field with a bitmask was registered after
`proto_init`. -/
def string_mask_state : registrar :=
  { gpa_hfinfo :=
      [{ hf_entry "" "" FT_NONE BASE_NONE none 0 none with parent := -1 },
       { hf_entry "Text" "foo.text" FT_STRING BASE_NONE none 1 none with parent := 7, id := 1 }],
    gpa_name_tree := [("foo.text", 1)], protocols := [] }

/-- The out-slot of a record holds one of the two sentinels. -/
def slot_free (mem : Nat → Int) (ptr : hf_register_info) : Prop :=
  mem ptr.p_id = -1 ∨ mem ptr.p_id = 0

/-- The descriptor of a record passes the assertions of
`proto_register_field_init` and its `bitshift` is computed. -/
def passes_validation (ptr : hf_register_info) : Prop :=
  ∃ bs, check_field ptr.hfinfo = .ok bs

/-- Two records that name the same out-slot, which holds -1. -/
def shared_slot_fields : List hf_register_info :=
  [⟨1, hf_entry "Flags" "foo.flags" FT_UINT8 BASE_HEX none 0x0F none⟩,
   ⟨1, hf_entry "Ver" "foo.ver" FT_UINT8 BASE_HEX none 0xF0 none⟩]

/-! ## The byte buffer, the value cell and the dissection tree -/

/-- Modelled from the spec: the byte buffer of the facade (section 4.1), which
the sources of this file only use through its interface. It is its octets, the
offset of the buffer inside its data source and the identity of that data
source. -/
structure tvbuff where
  octets : List Nat
  raw_offset : Int
  ds_tvb : Nat
deriving DecidableEq, Repr

/-- Modelled from the spec: `get_ptr(off, len)`, the span of `length` octets at
`offset`. An access that is not wholly inside the buffer raises the
bounded-read fault; a null buffer cannot be read. -/
def tvb_get_ptr (tvb : Option tvbuff) (offset length : Int) : Except fault (List Nat) :=
  match tvb with
  | none => .error fault.null_pointer
  | some t =>
    if 0 ≤ offset ∧ 0 ≤ length ∧ offset + length ≤ t.octets.length then
      .ok (((t.octets.drop offset.toNat).take length.toNat).map (fun b => b % 256))
    else .error fault.bounds

/-- Modelled from the spec: `memcpy(dst, off, len)`; the result is what the
destination holds afterwards. -/
def tvb_memcpy (tvb : Option tvbuff) (offset length : Int) : Except fault (List Nat) :=
  tvb_get_ptr tvb offset length

/-- The number a sequence of octets denotes, most significant octet first. -/
def pntoh (octets : List Nat) : Nat :=
  octets.foldl (fun acc b => acc * 256 + b) 0

/-- The number a sequence of octets denotes, least significant octet first. -/
def pletoh (octets : List Nat) : Nat :=
  pntoh octets.reverse

/-- Modelled from the spec: `get_u8(off)`. -/
def tvb_get_guint8 (tvb : Option tvbuff) (offset : Int) : Except fault Nat :=
  (tvb_get_ptr tvb offset 1).map pntoh

/-- Modelled from the spec: `get_u16(off, big-endian)`. -/
def tvb_get_ntohs (tvb : Option tvbuff) (offset : Int) : Except fault Nat :=
  (tvb_get_ptr tvb offset 2).map pntoh

/-- Modelled from the spec: `get_u24(off, big-endian)`. -/
def tvb_get_ntoh24 (tvb : Option tvbuff) (offset : Int) : Except fault Nat :=
  (tvb_get_ptr tvb offset 3).map pntoh

/-- Modelled from the spec: `get_u32(off, big-endian)`. -/
def tvb_get_ntohl (tvb : Option tvbuff) (offset : Int) : Except fault Nat :=
  (tvb_get_ptr tvb offset 4).map pntoh

/-- Modelled from the spec: `get_u16(off, little-endian)`. -/
def tvb_get_letohs (tvb : Option tvbuff) (offset : Int) : Except fault Nat :=
  (tvb_get_ptr tvb offset 2).map pletoh

/-- Modelled from the spec: `get_u24(off, little-endian)`. -/
def tvb_get_letoh24 (tvb : Option tvbuff) (offset : Int) : Except fault Nat :=
  (tvb_get_ptr tvb offset 3).map pletoh

/-- Modelled from the spec: `get_u32(off, little-endian)`. -/
def tvb_get_letohl (tvb : Option tvbuff) (offset : Int) : Except fault Nat :=
  (tvb_get_ptr tvb offset 4).map pletoh

/-- Modelled from the spec: `length()`. -/
def tvb_length (tvb : Option tvbuff) : Except fault Nat :=
  match tvb with
  | none => .error fault.null_pointer
  | some t => .ok t.octets.length

/-- Modelled from the spec: `ensure_remaining(off)`, the number of octets from
`offset` to the end of the buffer, with the bounded-read fault when `offset`
is not inside the buffer. -/
def tvb_ensure_length_remaining (tvb : Option tvbuff) (offset : Int) : Except fault Int :=
  match tvb with
  | none => .error fault.null_pointer
  | some t =>
    if 0 ≤ offset ∧ offset ≤ t.octets.length then .ok (t.octets.length - offset)
    else .error fault.bounds

/-- The position of the first NUL octet of a sequence, if it has one. -/
def find_nul : List Nat → Option Nat
  | [] => none
  | b :: rest => if b % 256 = 0 then some 0 else (find_nul rest).map (fun k => k + 1)

/-- Modelled from the spec: `strsize(off)`, the length up to and including the
first NUL at or after `offset`; the bounded-read fault when there is none. -/
def tvb_strsize (tvb : Option tvbuff) (offset : Int) : Except fault Nat :=
  match tvb with
  | none => .error fault.null_pointer
  | some t =>
    if 0 ≤ offset ∧ offset ≤ t.octets.length then
      match find_nul (t.octets.drop offset.toNat) with
      | some k => .ok (k + 1)
      | none => .error fault.bounds
    else .error fault.bounds

/-- Modelled from the spec: the counted string read of section 4.4, which
copies exactly `length` octets into a buffer of `length + 1` and ends it with
a NUL. -/
def tvb_get_string (tvb : Option tvbuff) (offset length : Int) : Except fault (List Nat) :=
  (tvb_get_ptr tvb offset length).map (fun s => s ++ [0])

/-- Modelled from the spec: `raw_offset()`. -/
def tvb_raw_offset (t : tvbuff) : Int := t.raw_offset

/-- Modelled from the spec: `data_source()`. -/
def tvb_get_ds_tvb (t : tvbuff) : Nat := t.ds_tvb

/-- Modelled from the spec: the value cell (section 3, Value), a tagged union.
Integers, booleans, frame numbers, IPX networks and IPv4 addresses are an
integer; byte strings, 64-bit quantities, Ethernet and IPv6 addresses are
their octets; a text string is the buffer the cell owns, terminator
included, or no buffer at all; a protocol segment is its buffer. -/
inductive fvalue
  | empty
  | integer (n : Nat)
  | bytes (b : List Nat)
  | string (s : Option (List Nat))
  | protocol (tvb : Option tvbuff)
  | time (secs nsecs : Int)
  | floating (bits : Nat)
deriving DecidableEq, Repr

/-- Modelled from the spec: the fresh value cell of a field type. -/
def fvalue_new (t : ftenum) : fvalue :=
  match t with
  | FT_NONE => fvalue.empty
  | FT_PROTOCOL => fvalue.protocol none
  | FT_BOOLEAN | FT_UINT8 | FT_UINT16 | FT_UINT24 | FT_UINT32
  | FT_INT8 | FT_INT16 | FT_INT24 | FT_INT32
  | FT_FRAMENUM | FT_IPXNET | FT_IPv4 => fvalue.integer 0
  | FT_UINT64 | FT_INT64 | FT_ETHER | FT_IPv6 | FT_BYTES | FT_UINT_BYTES => fvalue.bytes []
  | FT_STRING | FT_STRINGZ | FT_UINT_STRING => fvalue.string none
  | FT_ABSOLUTE_TIME | FT_RELATIVE_TIME => fvalue.time 0 0
  | FT_FLOAT | FT_DOUBLE => fvalue.floating 0

/-- Modelled from the spec: reading the integer of a value cell. -/
def fvalue_get_integer (v : fvalue) : Nat :=
  match v with
  | fvalue.integer n => n
  | _ => 0

/-- The text a C string buffer holds: its octets before the first NUL. -/
def c_string (buf : List Nat) : List Nat :=
  buf.takeWhile (fun b => b ≠ 0)

/-- The copy `g_strdup` makes of a C string. -/
def g_strdup (buf : List Nat) : List Nat :=
  c_string buf ++ [0]

/-- The payload of a tree node (`field_info`). `hfinfo` is the registered
descriptor the C pointer points at; the registrar is not changed while a
tree is built. `ds_tvb` is the identity of the data source, if any. -/
structure field_info where
  hfinfo : header_field_info
  start : Int
  length : Int
  tree_type : Int
  visible : Bool
  representation : Option String
  value : fvalue
  ds_tvb : Option Nat
deriving DecidableEq, Repr

/-- A node of the dissection tree (a `GNode` with its `proto_node`): the
payload, absent at the root, and the children from left to right. -/
inductive proto_node
  | mk (finfo : Option field_info) (children : List proto_node)
deriving Repr

/-- The side data all nodes of one tree share (`tree_data_t`): the index of
interesting fields, which maps a primed handle to the nodes added for it, in
the order they were added, and the visibility flag. A node is named by the
path that leads to it from the root. -/
structure tree_data_t where
  interesting_hfids : List (Int × List (List Nat))
  visible : Bool
deriving DecidableEq, Repr

/-- A dissection tree: the root node and the side data. A pointer to a node
(`proto_tree *`, `proto_item *`) is the path from the root to it, the list of
child positions to follow; nodes are only ever appended, so a path keeps its
meaning while the tree grows. -/
structure ptree where
  root : proto_node
  tree_data : tree_data_t
deriving Repr

/-- The payload of a node (`PITEM_FINFO`). -/
def proto_node.finfo : proto_node → Option field_info
  | .mk fi _ => fi

/-- The children of a node, from left to right. -/
def proto_node.children : proto_node → List proto_node
  | .mk _ cs => cs

/-- The node a path leads to, if it leads to one. -/
def node_at : proto_node → List Nat → Option proto_node
  | n, [] => some n
  | .mk _ cs, i :: p =>
    match cs[i]? with
    | some c => node_at c p
    | none => none

/-- Appends `node` as the last child of the node at `parent`
(`g_node_append`). -/
def g_node_append : proto_node → List Nat → proto_node → proto_node
  | .mk fi cs, [], node => .mk fi (cs ++ [node])
  | .mk fi cs, i :: p, node =>
    match cs[i]? with
    | some c => .mk fi (cs.set i (g_node_append c p node))
    | none => .mk fi cs

/-- Replaces the payload of the node at a path by its image under `f`: an
assignment through `PITEM_FINFO(pi)`. -/
def update_finfo (f : field_info → field_info) : proto_node → List Nat → proto_node
  | .mk fi cs, [] => .mk (fi.map f) cs
  | .mk fi cs, i :: p =>
    match cs[i]? with
    | some c => .mk fi (cs.set i (update_finfo f c p))
    | none => .mk fi cs

/-- `proto_tree_create_root`: a root without payload, an empty index of
interesting fields, and the tree not visible. -/
def proto_tree_create_root : ptree :=
  { root := .mk none [], tree_data := { interesting_hfids := [], visible := false } }

/-- `proto_tree_prime_hfid`: the handle gets a fresh, empty list in the index
of interesting fields (`g_hash_table_insert` with a new pointer array). -/
def proto_tree_prime_hfid (t : ptree) (hfid : Int) : ptree :=
  { t with tree_data :=
      { t.tree_data with
        interesting_hfids :=
          if t.tree_data.interesting_hfids.any (fun e => e.1 == hfid) then
            t.tree_data.interesting_hfids.map
              (fun e => if e.1 = hfid then (hfid, []) else e)
          else t.tree_data.interesting_hfids ++ [(hfid, [])] } }

/-- `g_hash_table_lookup` on the index of interesting fields. -/
def g_hash_table_lookup (h : List (Int × List (List Nat))) (key : Int) :
    Option (List (List Nat)) :=
  (h.find? (fun e => e.1 == key)).map (fun e => e.2)

/-- The closing lines of the add routines: if the handle is primed, the new
node is appended to its list (`g_ptr_array_add`). -/
def record_interesting (td : tree_data_t) (hfindex : Int) (node : List Nat) : tree_data_t :=
  match g_hash_table_lookup td.interesting_hfids hfindex with
  | some _ =>
    { td with
      interesting_hfids :=
        td.interesting_hfids.map
          (fun e => if e.1 = hfindex then (e.1, e.2 ++ [node]) else e) }
  | none => td

/-- Conversion of an unsigned number to the signed integer type of `w` bits
(two's complement). -/
def to_gint (w : Nat) (n : Nat) : Int :=
  if n % 2 ^ w < 2 ^ (w - 1) then ((n % 2 ^ w : Nat) : Int)
  else ((n % 2 ^ w : Nat) : Int) - 2 ^ w

/-- Conversion of a signed integer to `guint32`. -/
def to_guint32 (x : Int) : Nat :=
  (x % 2 ^ 32).toNat

/-- `get_uint_value`: the unsigned integer of `length` octets at `offset`. -/
def get_uint_value (tvb : Option tvbuff) (offset length : Int) (little_endian : Bool) :
    Except fault Nat :=
  if length = 1 then tvb_get_guint8 tvb offset
  else if length = 2 then
    (if little_endian then tvb_get_letohs tvb offset else tvb_get_ntohs tvb offset)
  else if length = 3 then
    (if little_endian then tvb_get_letoh24 tvb offset else tvb_get_ntoh24 tvb offset)
  else if length = 4 then
    (if little_endian then tvb_get_letohl tvb offset else tvb_get_ntohl tvb offset)
  else .error fault.assertion

/-- `get_int_value`: the signed integer (`gint32`) of `length` octets at
`offset`; three octets are sign-extended from bit 23. -/
def get_int_value (tvb : Option tvbuff) (offset length : Int) (little_endian : Bool) :
    Except fault Int :=
  if length = 1 then (tvb_get_guint8 tvb offset).map (to_gint 8)
  else if length = 2 then
    (if little_endian then tvb_get_letohs tvb offset
      else tvb_get_ntohs tvb offset).map (to_gint 16)
  else if length = 3 then
    (if little_endian then tvb_get_letoh24 tvb offset
      else tvb_get_ntoh24 tvb offset).map
      (fun value =>
        if value &&& 0x00800000 ≠ 0 then to_gint 32 (value ||| 0xFF000000)
        else to_gint 32 value)
  else if length = 4 then
    (if little_endian then tvb_get_letohl tvb offset
      else tvb_get_ntohl tvb offset).map (to_gint 32)
  else .error fault.assertion

/-- `fvalue_set_integer` as `proto_tree_set_uint` and its like use it. -/
def fvalue_set_integer (_ : fvalue) (n : Nat) : fvalue :=
  fvalue.integer n

/-- `proto_tree_set_uint`: `integer` is a `guint32`; with a bitmask it is
masked and, for a positive bitshift, shifted right. A shift count that is not
below 32 has no defined value. -/
def proto_tree_set_uint (fi : field_info) (value : Nat) : Except fault field_info :=
  let hfinfo := fi.hfinfo
  let integer := value % 2 ^ 32
  if hfinfo.bitmask ≠ 0 then
    let integer := integer &&& hfinfo.bitmask
    if hfinfo.bitshift > 0 then
      if hfinfo.bitshift < 32 then
        .ok { fi with value := fvalue_set_integer fi.value (integer >>> hfinfo.bitshift) }
      else .error fault.undefined_shift
    else .ok { fi with value := fvalue_set_integer fi.value integer }
  else .ok { fi with value := fvalue_set_integer fi.value integer }

/-- `proto_tree_set_boolean`. -/
def proto_tree_set_boolean (fi : field_info) (value : Nat) : Except fault field_info :=
  proto_tree_set_uint fi value

/-- `proto_tree_set_int`: the value is converted to `guint32` and then
treated as in `proto_tree_set_uint`. -/
def proto_tree_set_int (fi : field_info) (value : Int) : Except fault field_info :=
  let hfinfo := fi.hfinfo
  let integer := to_guint32 value
  if hfinfo.bitmask ≠ 0 then
    let integer := integer &&& hfinfo.bitmask
    if hfinfo.bitshift > 0 then
      if hfinfo.bitshift < 32 then
        .ok { fi with value := fvalue_set_integer fi.value (integer >>> hfinfo.bitshift) }
      else .error fault.undefined_shift
    else .ok { fi with value := fvalue_set_integer fi.value integer }
  else .ok { fi with value := fvalue_set_integer fi.value integer }

/-- `proto_tree_set_protocol_tvb`. -/
def proto_tree_set_protocol_tvb (fi : field_info) (tvb : Option tvbuff) : field_info :=
  { fi with value := fvalue.protocol tvb }

/-- `proto_tree_set_bytes`: the cell gets a new byte array, to which the
`length` octets at `start_ptr` are appended if `length` is positive. -/
def proto_tree_set_bytes (fi : field_info) (start_ptr : List Nat) (length : Int) :
    field_info :=
  { fi with value :=
      fvalue.bytes (if length > 0 then start_ptr.take length.toNat else []) }

/-- `proto_tree_set_bytes_tvb`. -/
def proto_tree_set_bytes_tvb (fi : field_info) (tvb : Option tvbuff) (offset length : Int) :
    Except fault field_info :=
  (tvb_get_ptr tvb offset length).map (fun p => proto_tree_set_bytes fi p length)

/-- `proto_tree_set_uint64`: the eight octets at `value_ptr`, in reverse order
if `little_endian`. -/
def proto_tree_set_uint64 (fi : field_info) (value_ptr : List Nat) (little_endian : Bool) :
    field_info :=
  if little_endian then
    { fi with value :=
        fvalue.bytes ((List.range 8).map (fun i => value_ptr.getD (7 - i) 0)) }
  else { fi with value := fvalue.bytes (value_ptr.take 8) }

/-- `proto_tree_set_uint64_tvb`. -/
def proto_tree_set_uint64_tvb (fi : field_info) (tvb : Option tvbuff) (start : Int)
    (little_endian : Bool) : Except fault field_info :=
  (tvb_get_ptr tvb start 8).map (fun p => proto_tree_set_uint64 fi p little_endian)

/-- `proto_tree_set_ipv4`. -/
def proto_tree_set_ipv4 (fi : field_info) (value : Nat) : field_info :=
  { fi with value := fvalue_set_integer fi.value value }

/-- `proto_tree_set_ipxnet`. -/
def proto_tree_set_ipxnet (fi : field_info) (value : Nat) : field_info :=
  { fi with value := fvalue_set_integer fi.value value }

/-- `proto_tree_set_ipv6_tvb`: the sixteen octets at `start`. -/
def proto_tree_set_ipv6_tvb (fi : field_info) (tvb : Option tvbuff) (start : Int) :
    Except fault field_info :=
  (tvb_get_ptr tvb start 16).map (fun p => { fi with value := fvalue.bytes p })

/-- `proto_tree_set_ether_tvb`: the six octets at `start`. -/
def proto_tree_set_ether_tvb (fi : field_info) (tvb : Option tvbuff) (start : Int) :
    Except fault field_info :=
  (tvb_get_ptr tvb start 6).map (fun p => { fi with value := fvalue.bytes p })

/-- `proto_tree_set_string`: the cell takes the buffer over if it was
allocated for it, and a copy of the C string in it otherwise. -/
def proto_tree_set_string (fi : field_info) (value : List Nat) (already_allocated : Bool) :
    field_info :=
  { fi with value := fvalue.string (some (if already_allocated then value else g_strdup value)) }

/-- `proto_tree_set_string_tvb`: a buffer of `length + 1` octets is filled
with the `length` octets at `start` and a closing NUL; `length` -1 stands for
what remains in the buffer. -/
def proto_tree_set_string_tvb (fi : field_info) (tvb : Option tvbuff) (start length : Int) :
    Except fault field_info := do
  let length ← if length = -1 then tvb_ensure_length_remaining tvb start else pure length
  let string ← tvb_memcpy tvb start length
  return proto_tree_set_string fi (string ++ [0]) true

/-- `alloc_field_info`: checks the handle, resolves a `length` of -1 and
builds the payload of a new node. The result carries the resolved length
(`*length`) next to the payload. -/
def alloc_field_info (r : registrar) (t : ptree) (hfindex : Int) (tvb : Option tvbuff)
    (start length : Int) : Except fault (field_info × Int) := do
  g_assert (tvb.isSome || length == 0)
  g_assert (decide (0 ≤ hfindex) && decide (hfindex < r.gpa_hfinfo.length))
  let hfinfo ← proto_registrar_get_nth r hfindex
  let length ←
    if length = -1 then
      match hfinfo.type with
      | FT_PROTOCOL | FT_NONE | FT_BYTES | FT_STRING => tvb_ensure_length_remaining tvb start
      | FT_STRINGZ => pure length
      | _ => .error fault.assertion
    else pure length
  return ({ hfinfo := hfinfo
            start := match tvb with
              | some b => start + tvb_raw_offset b
              | none => start
            length := length
            tree_type := -1
            visible := t.tree_data.visible
            representation := none
            value := fvalue_new hfinfo.type
            ds_tvb := tvb.map tvb_get_ds_tvb }, length)

/-- `proto_tree_add_node`: the node at `tree` must be the root or have been
given a subtree type; a new node with payload `fi` becomes its last child.
The result is the tree and the pointer to the new node. A pointer that leads
to no node of the tree cannot be used. -/
def proto_tree_add_node (num_tree_types : Int) (t : ptree) (tree : List Nat)
    (fi : field_info) : Except fault (List Nat × ptree) :=
  match node_at t.root tree with
  | none => .error fault.null_pointer
  | some tnode => do
    g_assert (match tnode.finfo with
      | none => true
      | some tfi => decide (tfi.tree_type ≥ 0) && decide (tfi.tree_type < num_tree_types))
    return (tree ++ [tnode.children.length],
      { t with root := g_node_append t.root tree (.mk (some fi) []) })

/-- The `switch` of `proto_tree_add_item`: the value of the new payload is
read from the buffer according to the type of the field. The four octets of
an IPv4 address are copied into a `guint32` as they are; the number kept for
them here is the one they denote in network order. -/
def add_item_value (new_fi : field_info) (tvb : Option tvbuff) (start length : Int)
    (little_endian : Bool) : Except fault field_info :=
  match new_fi.hfinfo.type with
  | FT_NONE => .ok new_fi
  | FT_PROTOCOL => .ok (proto_tree_set_protocol_tvb new_fi tvb)
  | FT_BYTES => proto_tree_set_bytes_tvb new_fi tvb start length
  | FT_UINT_BYTES => do
    let n ← get_uint_value tvb start length little_endian
    let fi ← proto_tree_set_bytes_tvb new_fi tvb (start + length) (to_gint 32 n)
    return { fi with length := to_gint 32 (n + to_guint32 length) }
  | FT_BOOLEAN => do
    let v ← get_uint_value tvb start length little_endian
    proto_tree_set_boolean new_fi v
  | FT_UINT8 | FT_UINT16 | FT_UINT24 | FT_UINT32 => do
    let v ← get_uint_value tvb start length little_endian
    proto_tree_set_uint new_fi v
  | FT_INT64 | FT_UINT64 => do
    g_assert (length == 8)
    proto_tree_set_uint64_tvb new_fi tvb start little_endian
  | FT_INT8 | FT_INT16 | FT_INT24 | FT_INT32 => do
    let v ← get_int_value tvb start length little_endian
    proto_tree_set_int new_fi v
  | FT_IPv4 => do
    g_assert (length == 4)
    let value ← tvb_memcpy tvb start 4
    return proto_tree_set_ipv4 new_fi (pntoh value)
  | FT_IPXNET => do
    g_assert (length == 4)
    let v ← get_uint_value tvb start 4 false
    return proto_tree_set_ipxnet new_fi v
  | FT_IPv6 => do
    g_assert (length == 16)
    proto_tree_set_ipv6_tvb new_fi tvb start
  | FT_ETHER => do
    g_assert (length == 6)
    proto_tree_set_ether_tvb new_fi tvb start
  | FT_STRING => proto_tree_set_string_tvb new_fi tvb start length
  | FT_STRINGZ =>
    if length ≠ 0 then
      if length = -1 then do
        let length ← tvb_strsize tvb start
        let string ← tvb_memcpy tvb start (to_gint 32 length)
        return proto_tree_set_string { new_fi with length := to_gint 32 length } string true
      else do
        let string ← tvb_get_string tvb start length
        return proto_tree_set_string { new_fi with length := length } string true
    else .ok new_fi
  | FT_UINT_STRING => do
    let n ← get_uint_value tvb start length little_endian
    let fi ← proto_tree_set_string_tvb new_fi tvb (start + length) (to_gint 32 n)
    return { fi with length := to_gint 32 (n + to_guint32 length) }
  | _ => .error fault.assertion

/-- `proto_tree_add_item`: nothing is done without a tree; otherwise the
payload is allocated, its value read from the buffer, the node appended
under `tree` and, if the handle is primed, recorded in the index of
interesting fields. The tree is touched only after the last step that can
fail, so a call that fails leaves the caller with the tree it had. -/
def proto_tree_add_item (r : registrar) (num_tree_types : Int) (t : ptree)
    (tree : Option (List Nat)) (hfindex : Int) (tvb : Option tvbuff) (start length : Int)
    (little_endian : Bool) : Except fault (Option (List Nat) × ptree) :=
  match tree with
  | none => .ok (none, t)
  | some tree => do
    let (new_fi, length) ← alloc_field_info r t hfindex tvb start length
    let new_fi ← add_item_value new_fi tvb start length little_endian
    let (pi, t) ← proto_tree_add_node num_tree_types t tree new_fi
    return (some pi, { t with tree_data := record_interesting t.tree_data hfindex pi })

/-- `proto_tree_add_pi`: the way every other add routine makes its node: the
payload is allocated, appended under `tree` and recorded if the handle is
primed. The result carries the pointer to the new node and the resolved
length. -/
def proto_tree_add_pi (r : registrar) (num_tree_types : Int) (t : ptree)
    (tree : Option (List Nat)) (hfindex : Int) (tvb : Option tvbuff) (start length : Int) :
    Except fault (Option (List Nat × Int) × ptree) :=
  match tree with
  | none => .ok (none, t)
  | some tree => do
    let (fi, length) ← alloc_field_info r t hfindex tvb start length
    let (pi, t) ← proto_tree_add_node num_tree_types t tree fi
    return (some (pi, length),
      { t with tree_data := record_interesting t.tree_data hfindex pi })

/-- `proto_item_add_subtree`: the item gets the subtree type `idx`, which must
be a registered one, and is from then on a tree under which nodes can be
added. Nothing is done without an item. -/
def proto_item_add_subtree (num_tree_types : Int) (t : ptree) (pi : Option (List Nat))
    (idx : Int) : Except fault (Option (List Nat) × ptree) :=
  match pi with
  | none => .ok (none, t)
  | some pi =>
    match node_at t.root pi with
    | none => .error fault.null_pointer
    | some pnode => do
      g_assert (decide (idx ≥ 0) && decide (idx < num_tree_types))
      match pnode.finfo with
      | none => .error fault.null_pointer
      | some _ =>
        return (some pi,
          { t with root := update_finfo (fun fi => { fi with tree_type := idx }) t.root pi })

/-- The field types for which `alloc_field_info` resolves a length of -1 to
what remains in the buffer. -/
def remaining_types : List ftenum :=
  [FT_NONE, FT_PROTOCOL, FT_BYTES, FT_STRING]

/-- A one-octet buffer at the start of its data source. -/
def one_byte (b : Nat) : tvbuff :=
  { octets := [b], raw_offset := 0, ds_tvb := 1 }

/-- The payload `alloc_field_info` builds for the descriptor `hf` once the
length is resolved to `length`. -/
def new_field_info (t : ptree) (hf : header_field_info) (tvb : Option tvbuff)
    (start length : Int) : field_info :=
  { hfinfo := hf
    start := match tvb with
      | some b => start + tvb_raw_offset b
      | none => start
    length := length
    tree_type := -1
    visible := t.tree_data.visible
    representation := none
    value := fvalue_new hf.type
    ds_tvb := tvb.map tvb_get_ds_tvb }

/-- The length `alloc_field_info` leaves in `*length`: a length of -1 is what
remains in the buffer for the types None, Protocol, Bytes and String, stays -1
for StringZ and is not allowed for any other type. -/
def resolve_length (hf : header_field_info) (tvb : Option tvbuff) (start length : Int) :
    Except fault Int :=
  if length = -1 then
    match hf.type with
    | FT_PROTOCOL | FT_NONE | FT_BYTES | FT_STRING => tvb_ensure_length_remaining tvb start
    | FT_STRINGZ => pure length
    | _ => .error fault.assertion
  else pure length

/-- What `proto_tree_add_node` asks of the node it adds under: it is the root
(no payload) or its payload has a registered subtree type. -/
def accepts_children (num_tree_types : Int) (tnode : proto_node) : Bool :=
  match tnode.finfo with
  | none => true
  | some tfi => decide (tfi.tree_type ≥ 0) && decide (tfi.tree_type < num_tree_types)

/-- The payload of the node a successful add returned, read back from the
tree. -/
def added_fi (res : Except fault (Option (List Nat) × ptree)) : Option field_info :=
  match res with
  | .ok (some pi, t) => (node_at t.root pi).bind proto_node.finfo
  | _ => none

/-- The octets of a buffer from `offset` on, `length` of them. -/
def span (b : tvbuff) (offset length : Int) : List Nat :=
  ((b.octets.drop offset.toNat).take length.toNat).map (fun x => x % 256)

/-- The number that `length` octets denote in the byte order asked for. -/
def octets_value (little_endian : Bool) (octets : List Nat) : Nat :=
  if little_endian then pletoh octets else pntoh octets

/-- The conversion `get_int_value` applies to the unsigned number it read from
`length` octets. -/
def int_of_uint (length : Int) (value : Nat) : Int :=
  if length = 1 then to_gint 8 value
  else if length = 2 then to_gint 16 value
  else if length = 3 then
    (if value &&& 0x00800000 ≠ 0 then to_gint 32 (value ||| 0xFF000000)
     else to_gint 32 value)
  else to_gint 32 value

/-- The integer `proto_tree_set_uint` stores for the 32-bit number `x`: with a
bitmask the masked number shifted right, zero-filled, by the bitshift, and `x`
itself without one. -/
def bitfield (hf : header_field_info) (x : Nat) : Nat :=
  if hf.bitmask ≠ 0 then (x &&& hf.bitmask) >>> hf.bitshift else x

/-- Modelled from the spec: the intrinsic width in octets of the field types
that have a fixed width. -/
def fixed_width (t : ftenum) : Option Int :=
  match t with
  | FT_UINT8 | FT_INT8 => some 1
  | FT_UINT16 | FT_INT16 => some 2
  | FT_UINT24 | FT_INT24 => some 3
  | FT_UINT32 | FT_INT32 | FT_IPv4 | FT_IPXNET => some 4
  | FT_ETHER => some 6
  | FT_UINT64 | FT_INT64 => some 8
  | FT_IPv6 => some 16
  | _ => none

/-- The fixed-width types for which `proto_tree_add_item` asserts the
length. -/
def width_checked_types : List ftenum :=
  [FT_UINT64, FT_INT64, FT_IPv4, FT_IPXNET, FT_IPv6, FT_ETHER]

/-- The fields registered for the example dissections. -/
def dissect_fields : List hf_register_info :=
  [⟨1, hf_entry "Flags" "foo.flags" FT_UINT8 BASE_HEX none 0x0F none⟩,
   ⟨2, hf_entry "Version" "foo.ver" FT_UINT8 BASE_HEX none 0xF0 none⟩,
   ⟨3, hf_entry "Count" "foo.count" FT_UINT8 BASE_DEC none 0 none⟩,
   ⟨4, hf_entry "Serial" "foo.serial" FT_UINT32 BASE_DEC none 0 none⟩,
   ⟨5, hf_entry "Delta" "foo.delta" FT_INT24 BASE_DEC none 0 none⟩,
   ⟨6, hf_entry "U64" "foo.u64" FT_UINT64 BASE_HEX none 0 none⟩,
   ⟨7, hf_entry "Text" "foo.text" FT_STRINGZ BASE_NONE none 0 none⟩,
   ⟨8, hf_entry "Name" "foo.name" FT_STRING BASE_NONE none 0 none⟩,
   ⟨9, hf_entry "Label" "foo.label" FT_UINT_STRING BASE_NONE none 0 none⟩,
   ⟨10, hf_entry "Top" "foo.top" FT_UINT32 BASE_HEX none 0x80000000 none⟩]

/-- The registrar after `proto_init`, the registration of protocol `Foo` and
of `dissect_fields` under it: handle 1 is the protocol and handles 2 to 11
are the fields, in the order of the array. -/
def dissect_state : registrar :=
  match proto_register_protocol init_state (hf_entry "" "" FT_NONE 0 none 0 none)
      "Foo" "FOO" "foo" with
  | .ok (r1, id) =>
    match proto_register_field_array id r1 example_mem dissect_fields with
    | .ok (r2, _) => r2
    | .error _ => r1
  | .error _ => init_state

/-- A buffer with the given octets at the start of its data source. -/
def buffer_of (octets : List Nat) : tvbuff :=
  { octets := octets, raw_offset := 0, ds_tvb := 1 }

/-- The shift the specification names: the 32-bit pattern `x` read as a signed
number, shifted right arithmetically (the sign bit is copied in) by `s`, and
given back as a 32-bit pattern. -/
def arith_shift_right32 (x s : Nat) : Nat :=
  to_guint32 (Int.shiftRight (to_gint 32 x) s)

/-- The descriptor of `foo.top` as `dissect_state` holds it: a Uint32 field
whose bitmask is the top bit, with the bitshift 31 registration derived. -/
def hf_top : header_field_info :=
  { hf_entry "Top" "foo.top" FT_UINT32 BASE_HEX none 0x80000000 none with
      parent := 1, id := 11, bitshift := 31 }

/-- The descriptor of `foo.flags` as `dissect_state` holds it: the low nibble,
bitshift 0. -/
def hf_flags : header_field_info :=
  { hf_entry "Flags" "foo.flags" FT_UINT8 BASE_HEX none 0x0F none with
      parent := 1, id := 2 }

/-- The descriptor of `foo.ver` as `dissect_state` holds it: the high nibble,
with the bitshift 4 registration derived. -/
def hf_ver : header_field_info :=
  { hf_entry "Version" "foo.ver" FT_UINT8 BASE_HEX none 0xF0 none with
      parent := 1, id := 3, bitshift := 4 }

/-- The payload of a node added for the integer field `hf` over the first
`length` octets of a buffer made by `buffer_of`, in a tree that is not
visible, holding the integer `v`. -/
def integer_fi (hf : header_field_info) (length : Int) (v : Nat) : field_info :=
  { hfinfo := hf, start := 0, length := length, tree_type := -1, visible := false,
    representation := none, value := fvalue.integer v, ds_tvb := some 1 }

/-- The unsigned integer types of at most 32 bits. -/
def uint_types : List ftenum :=
  [FT_UINT8, FT_UINT16, FT_UINT24, FT_UINT32]

/-- The signed integer types of at most 32 bits. -/
def sint_types : List ftenum :=
  [FT_INT8, FT_INT16, FT_INT24, FT_INT32]

/-- The descriptor of `foo.u64` as `dissect_state` holds it. -/
def hf_u64 : header_field_info :=
  { hf_entry "U64" "foo.u64" FT_UINT64 BASE_HEX none 0 none with parent := 1, id := 7 }

/-- The value cell holds a text buffer that consists of `text` followed by a
NUL, so that the NUL is at index `k`, the number of octets of `text`. -/
def terminated_at (v : fvalue) (k : Int) (text : List Nat) : Prop :=
  v = fvalue.string (some (text ++ [0])) ∧ (text.length : Int) = k

/-- The string types of the field builder. -/
def string_types : List ftenum :=
  [FT_STRING, FT_STRINGZ, FT_UINT_STRING]

/-- The descriptor of `foo.text` as `dissect_state` holds it. -/
def hf_text : header_field_info :=
  { hf_entry "Text" "foo.text" FT_STRINGZ BASE_NONE none 0 none with parent := 1, id := 8 }

/-- The buffer of the octets of "hi", a NUL and the octets of "rest". -/
def hi_rest : tvbuff :=
  buffer_of [0x68, 0x69, 0, 0x72, 0x65, 0x73, 0x74]

/-- The operations that build a tree: `proto_tree_add_item`; `proto_tree_add_pi`
followed by what the add routine that called it stores in the new payload
(its value, its label, its visibility), which is how every other add routine
works; and `proto_item_add_subtree`, which turns an item into a tree that can
be added to. -/
inductive tree_op
  | add_item (tree : List Nat) (hfindex : Int) (tvb : Option tvbuff) (start length : Int)
      (little_endian : Bool)
  | add_pi (tree : List Nat) (hfindex : Int) (tvb : Option tvbuff) (start length : Int)
      (finish : field_info → field_info)
  | add_subtree (pi : List Nat) (idx : Int)

/-- The record of an add: the parent it was called with and the payload of the
node it returned, read back from the tree. An add without result leaves no
record. -/
def created (tree : List Nat) (pi : Option (List Nat)) (t : ptree) :
    List (List Nat × field_info) :=
  match pi.bind (fun p => (node_at t.root p).bind proto_node.finfo) with
  | some fi => [(tree, fi)]
  | none => []

/-- One operation on a tree: the tree afterwards and the record of the add, if
the operation was one. -/
def run_op (r : registrar) (num_tree_types : Int) (t : ptree) :
    tree_op → Except fault (ptree × List (List Nat × field_info))
  | .add_item tree hfindex tvb start length little_endian => do
    let (pi, t1) ←
      proto_tree_add_item r num_tree_types t (some tree) hfindex tvb start length
        little_endian
    return (t1, created tree pi t1)
  | .add_pi tree hfindex tvb start length finish => do
    let (res, t1) ← proto_tree_add_pi r num_tree_types t (some tree) hfindex tvb start length
    match res with
    | some (pi, _) =>
      let t2 : ptree := { t1 with root := update_finfo finish t1.root pi }
      return (t2, created tree (some pi) t2)
    | none => return (t1, [])
  | .add_subtree pi idx => do
    let (_, t1) ← proto_item_add_subtree num_tree_types t (some pi) idx
    return (t1, [])

/-- A sequence of operations, each of which succeeds: the tree afterwards and
the records of the adds, in call order. -/
def run_ops (r : registrar) (num_tree_types : Int) :
    ptree → List tree_op → Except fault (ptree × List (List Nat × field_info))
  | t, [] => .ok (t, [])
  | t, op :: rest => do
    let (t1, l1) ← run_op r num_tree_types t op
    let (t2, l2) ← run_ops r num_tree_types t1 rest
    return (t2, l1 ++ l2)

/-- A payload without its subtree type, which `proto_item_add_subtree` sets
after the node was added. -/
def erase_tree_type (fi : field_info) : field_info :=
  { fi with tree_type := -1 }

/-- The payloads of the children of the node at `P`, from left to right,
without their subtree types; empty if there is no node at `P`. -/
def kids (n : proto_node) (P : List Nat) : List field_info :=
  match node_at n P with
  | some m => m.children.filterMap (fun c => c.finfo.map erase_tree_type)
  | none => []

mutual
/-- The nodes of a tree in pre-order (`g_node_traverse` with `G_PRE_ORDER` and
`G_TRAVERSE_ALL`): a node, named by its path, then its subtrees from left to
right. -/
def pre_order (path : List Nat) : proto_node → List (List Nat × Option field_info)
  | .mk fi cs => (path, fi) :: pre_order_children path 0 cs
/-- The nodes of the subtrees `cs`, the first of which is child `i` of the node
at `path`, in pre-order. -/
def pre_order_children (path : List Nat) (i : Nat) :
    List proto_node → List (List Nat × Option field_info)
  | [] => []
  | c :: cs => pre_order (path ++ [i]) c ++ pre_order_children path (i + 1) cs
end

/-- `proto_get_finfo_ptr_array`: the list the index of interesting fields
holds for the handle `id`; nothing if the handle was not primed. -/
def proto_get_finfo_ptr_array (t : ptree) (id : Int) : Option (List (List Nat)) :=
  g_hash_table_lookup t.tree_data.interesting_hfids id

/-- `proto_check_for_protocol_or_field`: whether the list of the handle
exists and is not empty. -/
def proto_check_for_protocol_or_field (t : ptree) (id : Int) : Bool :=
  match proto_get_finfo_ptr_array t id with
  | none => false
  | some ptrs => if ptrs.length > 0 then true else false

/-- `proto_tree_set_visible`. -/
def proto_tree_set_visible (t : ptree) (visible : Bool) : ptree :=
  { t with tree_data := { t.tree_data with visible := visible } }

/-- The payload of an item (`PITEM_FINFO(pi)`) for a routine that goes on to
use it: a pointer that leads to no node, or to the root, which has no
payload, cannot be used. -/
def pitem_finfo (t : ptree) (pi : List Nat) : Except fault field_info :=
  match (node_at t.root pi).bind proto_node.finfo with
  | some fi => .ok fi
  | none => .error fault.null_pointer

/-- `proto_item_set_len`: nothing is done without an item. -/
def proto_item_set_len (t : ptree) (pi : Option (List Nat)) (length : Int) :
    Except fault ptree :=
  match pi with
  | none => .ok t
  | some pi => do
    let _ ← pitem_finfo t pi
    return { t with root := update_finfo (fun fi => { fi with length := length }) t.root pi }

/-- `proto_item_set_end`: the length of the item becomes the distance from its
start to the offset `end_offset` of the buffer `tvb`, both taken in the data
source. Nothing is done without an item. -/
def proto_item_set_end (t : ptree) (pi : Option (List Nat)) (tvb : Option tvbuff)
    (end_offset : Int) : Except fault ptree :=
  match pi with
  | none => .ok t
  | some pi => do
    let _ ← pitem_finfo t pi
    match tvb with
    | none => .error fault.null_pointer
    | some b =>
      let end_offset := end_offset + tvb_raw_offset b
      return { t with
               root := update_finfo (fun fi => { fi with length := end_offset - fi.start })
                 t.root pi }

/-- `proto_tree_add_item_hidden`: `proto_tree_add_item`, after which the new
payload is marked not visible. -/
def proto_tree_add_item_hidden (r : registrar) (num_tree_types : Int) (t : ptree)
    (tree : Option (List Nat)) (hfindex : Int) (tvb : Option tvbuff) (start length : Int)
    (little_endian : Bool) : Except fault (Option (List Nat) × ptree) := do
  let (pi, t1) ←
    proto_tree_add_item r num_tree_types t tree hfindex tvb start length little_endian
  match pi with
  | none => return (none, t1)
  | some p => do
    let _ ← pitem_finfo t1 p
    return (some p,
      { t1 with root := update_finfo (fun fi => { fi with visible := false }) t1.root p })

/-- The store of a value into the payload of the item `pi` by a routine
`set` that can fail (`proto_tree_set_uint(new_fi, value)` after
`proto_tree_add_pi` gave `new_fi`). -/
def set_item_value (t : ptree) (pi : List Nat) (set : field_info → Except fault field_info) :
    Except fault ptree := do
  let new_fi ← pitem_finfo t pi
  let fi ← set new_fi
  return { t with root := update_finfo (fun _ => fi) t.root pi }

/-- `proto_tree_add_uint`: for a field of an unsigned type or a frame number,
the node is made by `proto_tree_add_pi` and the value stored by
`proto_tree_set_uint`; any other type is an assertion failure. -/
def proto_tree_add_uint (r : registrar) (num_tree_types : Int) (t : ptree)
    (tree : Option (List Nat)) (hfindex : Int) (tvb : Option tvbuff) (start length : Int)
    (value : Nat) : Except fault (Option (List Nat) × ptree) :=
  match tree with
  | none => .ok (none, t)
  | some tree => do
    let hfinfo ← proto_registrar_get_nth r hfindex
    match hfinfo.type with
    | FT_UINT8 | FT_UINT16 | FT_UINT24 | FT_UINT32 | FT_FRAMENUM => do
      let (res, t1) ←
        proto_tree_add_pi r num_tree_types t (some tree) hfindex tvb start length
      match res with
      | some (pi, _) => do
        let t2 ← set_item_value t1 pi (fun new_fi => proto_tree_set_uint new_fi value)
        return (some pi, t2)
      | none => return (none, t1)
    | _ => .error fault.assertion

/-- `proto_tree_add_uint_hidden`: `proto_tree_add_uint`, after which the new
payload is marked not visible. -/
def proto_tree_add_uint_hidden (r : registrar) (num_tree_types : Int) (t : ptree)
    (tree : Option (List Nat)) (hfindex : Int) (tvb : Option tvbuff) (start length : Int)
    (value : Nat) : Except fault (Option (List Nat) × ptree) := do
  let (pi, t1) ← proto_tree_add_uint r num_tree_types t tree hfindex tvb start length value
  match pi with
  | none => return (none, t1)
  | some p => do
    let _ ← pitem_finfo t1 p
    return (some p,
      { t1 with root := update_finfo (fun fi => { fi with visible := false }) t1.root p })

/-- The payload at a path, if the path leads to a node that has one. -/
def finfo_at (n : proto_node) (q : List Nat) : Option field_info :=
  (node_at n q).bind proto_node.finfo

/-- The fields of a payload that the value switch of `proto_tree_add_item`
leaves alone: all but the value and the length. -/
def same_frame (a b : field_info) : Prop :=
  a.hfinfo = b.hfinfo ∧ a.start = b.start ∧ a.tree_type = b.tree_type ∧
  a.visible = b.visible ∧ a.representation = b.representation ∧ a.ds_tvb = b.ds_tvb

/-- `proto_tree_add_item` as the statements it executes on the tree in place:
the outcome of the call, a pointer or the fault that ended it, next to the
tree as the call leaves it. The payload is allocated and its value read from
the buffer first; the tree is written only by the two last statements, the
append of the node and the entry in the index of interesting fields. -/
def proto_tree_add_item_in_place (r : registrar) (num_tree_types : Int) (t : ptree)
    (tree : Option (List Nat)) (hfindex : Int) (tvb : Option tvbuff) (start length : Int)
    (little_endian : Bool) : Except fault (Option (List Nat)) × ptree :=
  match tree with
  | none => (.ok none, t)
  | some tree =>
    match alloc_field_info r t hfindex tvb start length with
    | .error e => (.error e, t)
    | .ok (new_fi, length) =>
      match add_item_value new_fi tvb start length little_endian with
      | .error e => (.error e, t)
      | .ok new_fi =>
        match proto_tree_add_node num_tree_types t tree new_fi with
        | .error e => (.error e, t)
        | .ok (pi, t1) =>
          (.ok (some pi),
            { t1 with tree_data := record_interesting t1.tree_data hfindex pi })

/-- The outcome of a call and the tree it leaves, as the result of the
state-passing form of the routine: the new tree on success, nothing but the
fault otherwise. -/
def outcome_of {α : Type} (x : Except fault α × ptree) : Except fault (α × ptree) :=
  match x with
  | (.ok a, t) => .ok (a, t)
  | (.error e, _) => .error e

/-- The tree `t` with the payload of the item `pi` marked not visible and
nothing else changed. -/
def hide_item (t : ptree) (pi : List Nat) : ptree :=
  { t with root := update_finfo (fun fi => { fi with visible := false }) t.root pi }

/-- The handle and the pointer an add returned; nothing for an operation that
is not an add or did not succeed. -/
def op_result (r : registrar) (num_tree_types : Int) (t : ptree) :
    tree_op → Option (Int × List Nat)
  | .add_item tree hfindex tvb start length little_endian =>
    match proto_tree_add_item r num_tree_types t (some tree) hfindex tvb start length
        little_endian with
    | .ok (some pi, _) => some (hfindex, pi)
    | _ => none
  | .add_pi tree hfindex tvb start length _ =>
    match proto_tree_add_pi r num_tree_types t (some tree) hfindex tvb start length with
    | .ok (some (pi, _), _) => some (hfindex, pi)
    | _ => none
  | .add_subtree _ _ => none

/-- The adds of a sequence of operations in call order: for each, the handle
it was called with and the pointer it returned. -/
def add_trace (r : registrar) (num_tree_types : Int) :
    ptree → List tree_op → List (Int × List Nat)
  | _, [] => []
  | t, op :: rest =>
    (op_result r num_tree_types t op).toList ++
      match run_op r num_tree_types t op with
      | .ok (t1, _) => add_trace r num_tree_types t1 rest
      | .error _ => []

/-- The pointers the adds of handle `h` returned, in call order. -/
def adds_of (r : registrar) (num_tree_types : Int) (t : ptree) (ops : List tree_op)
    (h : Int) : List (List Nat) :=
  ((add_trace r num_tree_types t ops).filter (fun e => e.1 = h)).map (fun e => e.2)

/-- What an add routine may store into the payload `proto_tree_add_pi` gave
it: anything but another descriptor. -/
def keeps_hfinfo : tree_op → Prop
  | .add_pi _ _ _ _ _ finish => ∀ fi, (finish fi).hfinfo = fi.hfinfo
  | _ => True

/-- The paths of the nodes whose payload has the handle `h`, in pre-order. -/
def handle_paths (n : proto_node) (h : Int) : List (List Nat) :=
  ((pre_order [] n).filter
    (fun e => e.2.map (fun fi => fi.hfinfo.id) == some h)).map (fun e => e.1)

/-- The handle of the payload of the node at `q`, if there is such a node and
it has a payload. -/
def handle_at (n : proto_node) (q : List Nat) : Option Int :=
  (finfo_at n q).map (fun fi => fi.hfinfo.id)

/-- Whether an operation is an add of the handle `h`. -/
def is_add_of (h : Int) : tree_op → Bool
  | .add_item _ hfindex _ _ _ _ => hfindex == h
  | .add_pi _ hfindex _ _ _ _ => hfindex == h
  | .add_subtree _ _ => false

/-- A dissection that adds to the top-level tree after it opened a subtree:
the protocol item, its subtree, `foo.count` under the root, then `foo.count`
under the protocol item. -/
def crossed_ops : List tree_op :=
  [tree_op.add_item [] 1 (some (buffer_of [7, 8, 9])) 0 (-1) false,
   tree_op.add_subtree [0] 0,
   tree_op.add_item [] 4 (some (buffer_of [7, 8, 9])) 0 1 false,
   tree_op.add_item [0] 4 (some (buffer_of [7, 8, 9])) 1 1 false]

/-- Three adds of `foo.count` under the root, over the octets 1, 2 and 3. -/
def three_adds : List tree_op :=
  [tree_op.add_item [] 4 (some (buffer_of [1, 2, 3])) 0 1 false,
   tree_op.add_item [] 4 (some (buffer_of [1, 2, 3])) 1 1 false,
   tree_op.add_item [] 4 (some (buffer_of [1, 2, 3])) 2 1 false]

/-- The character of a digit below 16; `upper` chooses `A` to `F` over `a` to
`f`. -/
def digit_char (upper : Bool) (d : Nat) : Char :=
  if d < 10 then Char.ofNat (48 + d)
  else if upper then Char.ofNat (55 + d) else Char.ofNat (87 + d)

/-- The digits of `n` in base `base`, most significant first, in front of
`acc`; `fuel` bounds the number of digits, and 11 are enough for a 32-bit
number in the bases 8, 10 and 16. -/
def to_digits (upper : Bool) (base : Nat) : Nat → Nat → List Char → List Char
  | 0, _, acc => acc
  | fuel + 1, n, acc =>
    if n < base then digit_char upper n :: acc
    else to_digits upper base fuel (n / base) (digit_char upper (n % base) :: acc)

/-- The conversion `%u` of `printf` for an `unsigned int` of 32 bits. -/
def fmt_u (n : Nat) : List Char :=
  to_digits false 10 11 (n % 2 ^ 32) []

/-- The conversion `%o` of `printf` for an `unsigned int` of 32 bits. -/
def fmt_o (n : Nat) : List Char :=
  to_digits false 8 11 (n % 2 ^ 32) []

/-- The conversion `%d` of `printf` for the `int` with the 32-bit pattern
`n`. -/
def fmt_d (n : Nat) : List Char :=
  if to_gint 32 n < 0 then '-' :: to_digits false 10 11 (- to_gint 32 n).toNat []
  else to_digits false 10 11 (to_gint 32 n).toNat []

/-- The conversions `%0Wx` and `%0WX` of `printf` for an `unsigned int` of 32
bits: hexadecimal digits, zeros in front up to the width `w`. -/
def fmt_x (upper : Bool) (w : Nat) (n : Nat) : List Char :=
  List.replicate (w - (to_digits upper 16 11 (n % 2 ^ 32) []).length) '0' ++
    to_digits upper 16 11 (n % 2 ^ 32) []

/-- An argument of `printf`: a string for `%s`, or a 32-bit pattern for a
numeric conversion. -/
inductive fmt_arg
  | str (s : String)
  | num (n : Nat)
deriving DecidableEq, Repr

/-- The width digit of a conversion `%0W`. -/
def width_of (c : Char) : Nat :=
  c.toNat - 48

/-- The expansion of a `printf` format with the conversions this file uses:
`%s`, `%u`, `%d`, `%o`, `%0Wx` and `%0WX` with one digit `W`. A conversion
takes the next argument; every other character is copied. A conversion
without an argument of its kind, for which C defines nothing, expands to
nothing here. -/
def expand : List Char → List fmt_arg → List Char
  | [], _ => []
  | '%' :: 's' :: rest, fmt_arg.str s :: args => s.data ++ expand rest args
  | '%' :: 'u' :: rest, fmt_arg.num n :: args => fmt_u n ++ expand rest args
  | '%' :: 'd' :: rest, fmt_arg.num n :: args => fmt_d n ++ expand rest args
  | '%' :: 'o' :: rest, fmt_arg.num n :: args => fmt_o n ++ expand rest args
  | '%' :: '0' :: w :: 'x' :: rest, fmt_arg.num n :: args =>
    fmt_x false (width_of w) n ++ expand rest args
  | '%' :: '0' :: w :: 'X' :: rest, fmt_arg.num n :: args =>
    fmt_x true (width_of w) n ++ expand rest args
  | '%' :: _, _ => []
  | c :: rest, args => c :: expand rest args

/-- The text `sprintf` writes for a format and its arguments. -/
def sprintf (format : String) (args : List fmt_arg) : String :=
  String.mk (expand format.data args)

/-- The bounded print of the C library, `snprintf` or `vsnprintf` into `size`
octets, together with the terminator its callers in this file put at the last
octet when the return value reports that the text did not fit (-1 before C99,
the length of the whole text since): the buffer holds the text if that is
shorter than `size`, and its first `size - 1` characters otherwise. The
argument is the expansion of the format. -/
def snprintf (size : Nat) (text : String) : String :=
  String.mk (text.data.take (size - 1))

/-- Modelled from the spec: the bit diagram of section 4.6
(`other_decode_bitfield_value` of `to_str.c`, which is not among the
sources): the `width` low bits of `val`, most significant first, `.` for a
position outside `mask`, a blank after every fourth position but the last. -/
def other_decode_bitfield_value (val mask width : Nat) : List Char :=
  (List.range width).flatMap (fun i =>
    (if i ≠ 0 ∧ i % 4 = 0 then [' '] else []) ++
      [if mask.testBit (width - 1 - i) then
         (if val.testBit (width - 1 - i) then '1' else '0')
       else '.'])

/-- Modelled from the spec: `decode_bitfield_value`, the bit diagram followed
by ` = ` (the scenario of section 8 has `0101 .... = `). The result is the
text written at the start of the buffer; the returned pointer is its end. -/
def decode_bitfield_value (val mask width : Nat) : String :=
  String.mk (other_decode_bitfield_value val mask width ++ [' ', '=', ' '])

/-- Modelled from the spec: `val_to_str(value, table, "Unknown")`, the label of
the first entry of the value map for `value`, and `Unknown` if there is
none. -/
def val_to_str (value : Nat) (table : List (Nat × String)) : String :=
  match table.find? (fun e => e.1 == value) with
  | some e => e.2
  | none => "Unknown"

/-- The helpers of other files the label routines call, none of which is among
the sources: the accessors of the value cell (`fvalue_get` gives the octets the
cell points at, `none` being `NULL`), the renderers of `to_str.c` and the name
resolvers. The two conversions of a floating-point number, `%.*f` and `%.*g`
of `fvalue_get_floating`, are taken with them. -/
structure label_env where
  fvalue_get : fvalue → Option (List Nat)
  fvalue_length : fvalue → Nat
  float_f : fvalue → String
  double_g : fvalue → String
  bytes_to_str : List Nat → Nat → String
  u64toa : List Nat → String
  i64toa : List Nat → String
  u64toh : List Nat → String
  abs_time_to_str : List Nat → String
  rel_time_to_secs_str : List Nat → String
  get_ipxnet_name : Nat → String
  ether_to_str : List Nat → String
  get_ether_name : List Nat → String
  ipv4_get_net_order_addr : List Nat → Nat
  get_hostname : Nat → String
  ip_to_str : Nat → String
  get_hostname6 : List Nat → String
  ip6_to_str : List Nat → String
  format_text : List Nat → Nat → String

/-- A string pointer given to `%s` or to a routine that reads it: `NULL`
cannot be used. -/
def deref {α : Type} (p : Option α) : Except fault α :=
  match p with
  | some s => .ok s
  | none => .error fault.null_pointer

/-- The write of a label of which `pre` is already in the buffer of `size`
octets at `label_str` and `text` is printed behind it by
`snprintf(p, size - (p - label_str), ...)` with the terminator put at the
last octet on overflow. A `pre` that does not fit the buffer with its
terminator was written past its end. -/
def label_write (size : Nat) (pre text : String) : Except fault String :=
  if pre.length < size then .ok (pre ++ snprintf (size - pre.length) text)
  else .error fault.undefined

/-- `hfinfo_bitwidth`. -/
def hfinfo_bitwidth (hfinfo : header_field_info) : Except fault Int :=
  if hfinfo.bitmask = 0 then pure 0
  else
    match hfinfo.type with
    | FT_UINT8 | FT_INT8 => pure 8
    | FT_UINT16 | FT_INT16 => pure 16
    | FT_UINT24 | FT_INT24 => pure 24
    | FT_UINT32 | FT_INT32 => pure 32
    | FT_BOOLEAN => pure hfinfo.display
    | _ => .error fault.assertion

/-- `hfinfo_uint_vals_format`. -/
def hfinfo_uint_vals_format (hfinfo : header_field_info) : Except fault String :=
  if hfinfo.display = BASE_DEC then pure "%s: %s (%u)"
  else if hfinfo.display = BASE_OCT then pure "%s: %s (%o)"
  else if hfinfo.display = BASE_HEX then
    match hfinfo.type with
    | FT_UINT8 => pure "%s: %s (0x%02x)"
    | FT_UINT16 => pure "%s: %s (0x%04x)"
    | FT_UINT24 => pure "%s: %s (0x%06x)"
    | FT_UINT32 => pure "%s: %s (0x%08x)"
    | _ => .error fault.assertion
  else .error fault.assertion

/-- `hfinfo_uint_format`: a frame number is always displayed in decimal. -/
def hfinfo_uint_format (hfinfo : header_field_info) : Except fault String :=
  if hfinfo.type = FT_FRAMENUM then pure "%s: %u"
  else if hfinfo.display = BASE_DEC then pure "%s: %u"
  else if hfinfo.display = BASE_OCT then pure "%s: %o"
  else if hfinfo.display = BASE_HEX then
    match hfinfo.type with
    | FT_UINT8 => pure "%s: 0x%02x"
    | FT_UINT16 => pure "%s: 0x%04x"
    | FT_UINT24 => pure "%s: 0x%06x"
    | FT_UINT32 => pure "%s: 0x%08x"
    | _ => .error fault.assertion
  else .error fault.assertion

/-- `hfinfo_int_vals_format`. -/
def hfinfo_int_vals_format (hfinfo : header_field_info) : Except fault String :=
  if hfinfo.display = BASE_DEC then pure "%s: %s (%d)"
  else if hfinfo.display = BASE_OCT then pure "%s: %s (%o)"
  else if hfinfo.display = BASE_HEX then
    match hfinfo.type with
    | FT_INT8 => pure "%s: %s (0x%02x)"
    | FT_INT16 => pure "%s: %s (0x%04x)"
    | FT_INT24 => pure "%s: %s (0x%06x)"
    | FT_INT32 => pure "%s: %s (0x%08x)"
    | _ => .error fault.assertion
  else .error fault.assertion

/-- `hfinfo_int_format`. -/
def hfinfo_int_format (hfinfo : header_field_info) : Except fault String :=
  if hfinfo.display = BASE_DEC then pure "%s: %d"
  else if hfinfo.display = BASE_OCT then pure "%s: %o"
  else if hfinfo.display = BASE_HEX then
    match hfinfo.type with
    | FT_INT8 => pure "%s: 0x%02x"
    | FT_INT16 => pure "%s: 0x%04x"
    | FT_INT24 => pure "%s: 0x%06x"
    | FT_INT32 => pure "%s: 0x%08x"
    | _ => .error fault.assertion
  else .error fault.assertion

/-- The un-shift of the label routines: `unshifted_value <<= hfinfo->bitshift`
on a `guint32`, done when the bitshift is positive. -/
def unshift (hfinfo : header_field_info) (value : Nat) : Except fault Nat :=
  if hfinfo.bitshift > 0 then
    if hfinfo.bitshift < 32 then pure ((value <<< hfinfo.bitshift) % 2 ^ 32)
    else .error fault.undefined_shift
  else pure value

/-- The `true_false_string` the `strings` pointer of a Boolean field is used
as; a value map cannot be used as one. -/
def tfs_of (strings : Option hf_strings) : Except fault (String × String) :=
  match strings with
  | none => pure ("True", "False")
  | some (hf_strings.tfs t f) => pure (t, f)
  | some (hf_strings.vals _) => .error fault.undefined

/-- The `value_string` table the `strings` pointer of an integer field is used
as (`cVALS`); the routines that use it are called with a pointer that is not
`NULL`, and a `true_false_string` cannot be used as a table. -/
def cVALS (strings : Option hf_strings) : Except fault (List (Nat × String)) :=
  match strings with
  | some (hf_strings.vals table) => pure table
  | some (hf_strings.tfs _ _) => .error fault.undefined
  | none => .error fault.null_pointer

/-- `fill_label_uint64`. -/
def fill_label_uint64 (size : Nat) (env : label_env) (fi : field_info) :
    Except fault String := do
  let hfinfo := fi.hfinfo
  let bytes := env.fvalue_get fi.value
  if hfinfo.display = BASE_DEC then
    let name ← deref hfinfo.name
    let b ← deref bytes
    label_write size "" (sprintf "%s: %s" [.str name, .str (env.u64toa b)])
  else if hfinfo.display = BASE_HEX then
    let name ← deref hfinfo.name
    let b ← deref bytes
    label_write size "" (sprintf "%s: %s" [.str name, .str (env.u64toh b)])
  else .error fault.assertion

/-- `fill_label_int64`. -/
def fill_label_int64 (size : Nat) (env : label_env) (fi : field_info) :
    Except fault String := do
  let hfinfo := fi.hfinfo
  let bytes := env.fvalue_get fi.value
  if hfinfo.display = BASE_DEC then
    let name ← deref hfinfo.name
    let b ← deref bytes
    label_write size "" (sprintf "%s: %s" [.str name, .str (env.i64toa b)])
  else if hfinfo.display = BASE_HEX then
    let name ← deref hfinfo.name
    let b ← deref bytes
    label_write size "" (sprintf "%s: %s" [.str name, .str (env.u64toh b)])
  else .error fault.assertion

/-- `fill_label_boolean`: the bit diagram if the field has a bitmask, with the
width `hfinfo_bitwidth` gives, then the name and the true or the false
string. -/
def fill_label_boolean (size : Nat) (fi : field_info) : Except fault String := do
  let hfinfo := fi.hfinfo
  let value := fvalue_get_integer fi.value
  let p ←
    if hfinfo.bitmask ≠ 0 then do
      let bitwidth ← hfinfo_bitwidth hfinfo
      let unshifted_value ← unshift hfinfo value
      pure (decode_bitfield_value unshifted_value hfinfo.bitmask bitwidth.toNat)
    else pure ""
  let name ← deref hfinfo.name
  let tfstring ← tfs_of hfinfo.strings
  label_write size p
    (sprintf "%s: %s" [.str name, .str (if value ≠ 0 then tfstring.1 else tfstring.2)])

/-- `fill_label_enumerated_bitfield`. -/
def fill_label_enumerated_bitfield (size : Nat) (fi : field_info) :
    Except fault String := do
  let hfinfo := fi.hfinfo
  let bitwidth ← hfinfo_bitwidth hfinfo
  let format ← hfinfo_uint_vals_format hfinfo
  let value := fvalue_get_integer fi.value
  let unshifted_value ← unshift hfinfo value
  let p := decode_bitfield_value unshifted_value hfinfo.bitmask bitwidth.toNat
  let name ← deref hfinfo.name
  let table ← cVALS hfinfo.strings
  label_write size p
    (sprintf format [.str name, .str (val_to_str value table), .num value])

/-- `fill_label_numeric_bitfield`. -/
def fill_label_numeric_bitfield (size : Nat) (fi : field_info) : Except fault String := do
  let hfinfo := fi.hfinfo
  let bitwidth ← hfinfo_bitwidth hfinfo
  let format ← hfinfo_uint_format hfinfo
  let value := fvalue_get_integer fi.value
  let unshifted_value ← unshift hfinfo value
  let p := decode_bitfield_value unshifted_value hfinfo.bitmask bitwidth.toNat
  let name ← deref hfinfo.name
  label_write size p (sprintf format [.str name, .num value])

/-- `fill_label_enumerated_uint`. -/
def fill_label_enumerated_uint (size : Nat) (fi : field_info) : Except fault String := do
  let hfinfo := fi.hfinfo
  let format ← hfinfo_uint_vals_format hfinfo
  let value := fvalue_get_integer fi.value
  let name ← deref hfinfo.name
  let table ← cVALS hfinfo.strings
  label_write size ""
    (sprintf format [.str name, .str (val_to_str value table), .num value])

/-- `fill_label_uint`. -/
def fill_label_uint (size : Nat) (fi : field_info) : Except fault String := do
  let hfinfo := fi.hfinfo
  let format ← hfinfo_uint_format hfinfo
  let value := fvalue_get_integer fi.value
  let name ← deref hfinfo.name
  label_write size "" (sprintf format [.str name, .num value])

/-- `fill_label_enumerated_int`. -/
def fill_label_enumerated_int (size : Nat) (fi : field_info) : Except fault String := do
  let hfinfo := fi.hfinfo
  let format ← hfinfo_int_vals_format hfinfo
  let value := fvalue_get_integer fi.value
  let name ← deref hfinfo.name
  let table ← cVALS hfinfo.strings
  label_write size ""
    (sprintf format [.str name, .str (val_to_str value table), .num value])

/-- `fill_label_int`. -/
def fill_label_int (size : Nat) (fi : field_info) : Except fault String := do
  let hfinfo := fi.hfinfo
  let format ← hfinfo_int_format hfinfo
  let value := fvalue_get_integer fi.value
  let name ← deref hfinfo.name
  label_write size "" (sprintf format [.str name, .num value])

/-- `proto_item_fill_label`: the default label of a payload, written into a
buffer of `size` octets (`ITEM_LABEL_LENGTH`, a constant of `proto.h`, which is
not among the sources). The result is the string the buffer holds. -/
def proto_item_fill_label (size : Nat) (env : label_env) (fi : field_info) :
    Except fault String := do
  let hfinfo := fi.hfinfo
  match hfinfo.type with
  | FT_NONE | FT_PROTOCOL =>
    let name ← deref hfinfo.name
    label_write size "" (sprintf "%s" [.str name])
  | FT_BOOLEAN => fill_label_boolean size fi
  | FT_BYTES | FT_UINT_BYTES =>
    match env.fvalue_get fi.value with
    | some bytes =>
      let name ← deref hfinfo.name
      label_write size ""
        (sprintf "%s: %s"
          [.str name, .str (env.bytes_to_str bytes (env.fvalue_length fi.value))])
    | none =>
      let name ← deref hfinfo.name
      label_write size "" (sprintf "%s: <MISSING>" [.str name])
  | FT_UINT8 | FT_UINT16 | FT_UINT24 | FT_UINT32 | FT_FRAMENUM =>
    if hfinfo.bitmask ≠ 0 then
      if hfinfo.strings.isSome then fill_label_enumerated_bitfield size fi
      else fill_label_numeric_bitfield size fi
    else
      if hfinfo.strings.isSome then fill_label_enumerated_uint size fi
      else fill_label_uint size fi
  | FT_UINT64 => fill_label_uint64 size env fi
  | FT_INT8 | FT_INT16 | FT_INT24 | FT_INT32 => do
    g_assert (hfinfo.bitmask == 0)
    if hfinfo.strings.isSome then fill_label_enumerated_int size fi
    else fill_label_int size fi
  | FT_INT64 => fill_label_int64 size env fi
  | FT_FLOAT =>
    let name ← deref hfinfo.name
    label_write size "" (sprintf "%s: %s" [.str name, .str (env.float_f fi.value)])
  | FT_DOUBLE =>
    let name ← deref hfinfo.name
    label_write size "" (sprintf "%s: %s" [.str name, .str (env.double_g fi.value)])
  | FT_ABSOLUTE_TIME =>
    let name ← deref hfinfo.name
    let t ← deref (env.fvalue_get fi.value)
    label_write size "" (sprintf "%s: %s" [.str name, .str (env.abs_time_to_str t)])
  | FT_RELATIVE_TIME =>
    let name ← deref hfinfo.name
    let t ← deref (env.fvalue_get fi.value)
    label_write size ""
      (sprintf "%s: %s seconds" [.str name, .str (env.rel_time_to_secs_str t)])
  | FT_IPXNET =>
    let integer := fvalue_get_integer fi.value
    let name ← deref hfinfo.name
    label_write size ""
      (sprintf "%s: 0x%08X (%s)"
        [.str name, .num integer, .str (env.get_ipxnet_name integer)])
  | FT_ETHER =>
    let name ← deref hfinfo.name
    let bytes ← deref (env.fvalue_get fi.value)
    label_write size ""
      (sprintf "%s: %s (%s)"
        [.str name, .str (env.ether_to_str bytes), .str (env.get_ether_name bytes)])
  | FT_IPv4 =>
    let ipv4 ← deref (env.fvalue_get fi.value)
    let n_addr := env.ipv4_get_net_order_addr ipv4
    let name ← deref hfinfo.name
    label_write size ""
      (sprintf "%s: %s (%s)"
        [.str name, .str (env.get_hostname n_addr), .str (env.ip_to_str n_addr)])
  | FT_IPv6 =>
    let name ← deref hfinfo.name
    let bytes ← deref (env.fvalue_get fi.value)
    label_write size ""
      (sprintf "%s: %s (%s)"
        [.str name, .str (env.get_hostname6 bytes), .str (env.ip6_to_str bytes)])
  | FT_STRING | FT_STRINGZ | FT_UINT_STRING =>
    let name ← deref hfinfo.name
    let bytes ← deref (env.fvalue_get fi.value)
    label_write size ""
      (sprintf "%s: %s"
        [.str name, .str (env.format_text bytes (c_string bytes).length)])

/-- `proto_tree_set_representation` on the payload of the item: if it is
visible, its representation becomes the bounded print of `text`, the
expansion of the format with the arguments, into a fresh buffer of `size`
octets. -/
def set_representation (size : Nat) (fi : field_info) (text : String) : field_info :=
  if fi.visible then { fi with representation := some (snprintf size text) } else fi

/-- `proto_tree_set_representation`. -/
def proto_tree_set_representation (size : Nat) (t : ptree) (pi : List Nat) (text : String) :
    Except fault ptree := do
  let _ ← pitem_finfo t pi
  return { t with root := update_finfo (fun fi => set_representation size fi text) t.root pi }

/-- `proto_item_set_text`: nothing is done without an item; the old label is
released and `proto_tree_set_representation` called, which leaves the pointer
to the released label in a payload that is not visible. -/
def proto_item_set_text (size : Nat) (t : ptree) (pi : Option (List Nat)) (text : String) :
    Except fault ptree :=
  match pi with
  | none => .ok t
  | some pi => proto_tree_set_representation size t pi text

/-- `proto_item_append_text` on the payload of the item: if it is visible, a
payload without a representation gets the default label first, and `text` is
then printed behind what the buffer holds, if that is shorter than the
buffer. -/
def append_text (size : Nat) (env : label_env) (fi : field_info) (text : String) :
    Except fault field_info := do
  if fi.visible then
    let representation ←
      match fi.representation with
      | none => proto_item_fill_label size env fi
      | some s => pure s
    let curlen := representation.length
    if size > curlen then
      return { fi with
               representation := some (representation ++ snprintf (size - curlen) text) }
    else return { fi with representation := some representation }
  else return fi

/-- `proto_item_append_text`: nothing is done without an item. -/
def proto_item_append_text (size : Nat) (env : label_env) (t : ptree)
    (pi : Option (List Nat)) (text : String) : Except fault ptree :=
  match pi with
  | none => .ok t
  | some pi => set_item_value t pi (fun fi => append_text size env fi text)

/-- A label routine, as a function of the size of the buffer, fails whatever
the size, or writes one text behind one text already in the buffer. -/
def one_write (f : Nat → Except fault String) : Prop :=
  (∃ e, ∀ size, f size = .error e) ∨ (∃ pre text, ∀ size, f size = label_write size pre text)

/-- An environment whose renderers all give the empty string and whose value
cell points at no octets. -/
def plain_env : label_env :=
  { fvalue_get := fun _ => none
    fvalue_length := fun _ => 0
    float_f := fun _ => ""
    double_g := fun _ => ""
    bytes_to_str := fun _ _ => ""
    u64toa := fun _ => ""
    i64toa := fun _ => ""
    u64toh := fun _ => ""
    abs_time_to_str := fun _ => ""
    rel_time_to_secs_str := fun _ => ""
    get_ipxnet_name := fun _ => ""
    ether_to_str := fun _ => ""
    get_ether_name := fun _ => ""
    ipv4_get_net_order_addr := fun _ => 0
    get_hostname := fun _ => ""
    ip_to_str := fun _ => ""
    get_hostname6 := fun _ => ""
    ip6_to_str := fun _ => ""
    format_text := fun _ _ => "" }

/-- A visible tree with one item, the field `foo.ver` holding 5, without a
representation. -/
def ver_tree : ptree :=
  { root := .mk none
      [.mk (some { integer_fi hf_ver 1 5 with visible := true }) []],
    tree_data := { interesting_hfids := [], visible := true } }

/-- Modelled from the spec: the dissection context (`epan_dissect_t` of
`epan_dissect.h`, which is not among the sources), of which only the root
frame buffer is used. The pointer `edt->tvb` is named by the identity of the
data source that buffer is. -/
structure epan_dissect_t where
  tvb : Option tvbuff
deriving DecidableEq, Repr

/-- The two routines of the value cell the display-filter string is made
with, which are not among the sources: `fvalue_string_repr_len` and
`fvalue_to_string_repr`, both for `FTREPR_DFILTER`. -/
structure repr_env where
  fvalue_string_repr_len : fvalue → Nat
  fvalue_to_string_repr : fvalue → String

/-- `hfinfo_numeric_format`. -/
def hfinfo_numeric_format (hfinfo : header_field_info) : Except fault String :=
  if hfinfo.type = FT_FRAMENUM then pure "%s == %u"
  else if hfinfo.display = BASE_DEC ∨ hfinfo.display = BASE_OCT then
    match hfinfo.type with
    | FT_UINT8 | FT_UINT16 | FT_UINT24 | FT_UINT32 => pure "%s == %u"
    | FT_INT8 | FT_INT16 | FT_INT24 | FT_INT32 => pure "%s == %d"
    | _ => .error fault.assertion
  else if hfinfo.display = BASE_HEX then
    match hfinfo.type with
    | FT_UINT8 => pure "%s == 0x%02x"
    | FT_UINT16 => pure "%s == 0x%04x"
    | FT_UINT24 => pure "%s == 0x%06x"
    | FT_UINT32 => pure "%s == 0x%08x"
    | _ => .error fault.assertion
  else .error fault.assertion

/-- The octets `tvb_get_guint8` reads at `start`, `start + 1` and so on, `n` of
them; the first read out of range raises the bounded-read fault. -/
def read_octets (tvb : Option tvbuff) (start : Int) : Nat → Except fault (List Nat)
  | 0 => pure []
  | n + 1 => do
    let c ← tvb_get_guint8 tvb start
    let rest ← read_octets tvb (start + 1) n
    pure (c :: rest)

/-- The octets as the loop of the raw-bytes fallback prints them: `%02x` for
the first and `:%02x` for every other one. -/
def hex_octets : List Nat → List Char
  | [] => []
  | [c] => fmt_x false 2 c
  | c :: rest => fmt_x false 2 c ++ ':' :: hex_octets rest

/-- A text written by `sprintf` and `strcpy` into a fresh buffer of `size`
octets, for which it has to fit with its terminator. -/
def write_all (size : Nat) (text : String) : Except fault String :=
  if text.length < size then .ok text else .error fault.undefined

/-- The `default` case of `proto_construct_dfilter_string`, the raw-bytes
fallback: nothing without a context, for a payload of another data source
than the frame, or without octets; otherwise `frame[S:L] == ` and the `L`
octets read from the frame at `S`, `S + 1` and so on, `L` being the length of
the payload cut to the length of the frame. -/
def dfilter_raw_bytes (finfo : field_info) (edt : Option epan_dissect_t) :
    Except fault (Option String) :=
  match edt with
  | none => pure none
  | some edt =>
    if finfo.ds_tvb ≠ edt.tvb.map tvb_get_ds_tvb then pure none
    else if finfo.length ≤ 0 then pure none
    else do
      let frame_length ← tvb_length edt.tvb
      let length : Int :=
        if to_guint32 finfo.length > frame_length then (frame_length : Int)
        else finfo.length
      if length ≤ 0 then pure none
      else do
        let octets ← read_octets edt.tvb finfo.start length.toNat
        let buf ← write_all (32 + length.toNat * 3)
          (sprintf "frame[%d:%d] == "
            [.num (to_guint32 finfo.start), .num (to_guint32 length)]
            ++ String.mk (hex_octets octets))
        pure (some buf)

/-- `proto_construct_dfilter_string`; `none` is the `NULL` result. -/
def proto_construct_dfilter_string (env : label_env) (renv : repr_env) (finfo : field_info)
    (edt : Option epan_dissect_t) : Except fault (Option String) := do
  let hfinfo := finfo.hfinfo
  let abbrev_ ← deref hfinfo.abbrev_
  let abbrev_len := abbrev_.length
  match hfinfo.type with
  | FT_UINT8 | FT_UINT16 | FT_UINT24 | FT_UINT32
  | FT_INT8 | FT_INT16 | FT_INT24 | FT_INT32 | FT_FRAMENUM =>
    let dfilter_len := abbrev_len + 4 + 11 + 1
    let format ← hfinfo_numeric_format hfinfo
    pure (some (snprintf dfilter_len
      (sprintf format [.str abbrev_, .num (fvalue_get_integer finfo.value)])))
  | FT_UINT64 =>
    let bytes ← deref (env.fvalue_get finfo.value)
    let stringified := env.u64toa bytes
    let dfilter_len := abbrev_len + 4 + stringified.length + 1
    pure (some (snprintf dfilter_len (sprintf "%s == %s" [.str abbrev_, .str stringified])))
  | FT_INT64 =>
    let bytes ← deref (env.fvalue_get finfo.value)
    let stringified := env.i64toa bytes
    let dfilter_len := abbrev_len + 4 + stringified.length + 1
    pure (some (snprintf dfilter_len (sprintf "%s == %s" [.str abbrev_, .str stringified])))
  | FT_IPXNET =>
    let dfilter_len := abbrev_len + 4 + 2 + 8 + 1
    pure (some (snprintf dfilter_len
      (sprintf "%s == 0x%08x" [.str abbrev_, .num (fvalue_get_integer finfo.value)])))
  | FT_IPv6 =>
    let bytes ← deref (env.fvalue_get finfo.value)
    let stringified := env.ip6_to_str bytes
    let dfilter_len := abbrev_len + 4 + stringified.length + 1
    pure (some (snprintf dfilter_len (sprintf "%s == %s" [.str abbrev_, .str stringified])))
  | FT_BOOLEAN | FT_STRING | FT_ETHER | FT_BYTES | FT_UINT_BYTES | FT_FLOAT | FT_DOUBLE
  | FT_ABSOLUTE_TIME | FT_RELATIVE_TIME | FT_IPv4 =>
    let dfilter_len := renv.fvalue_string_repr_len finfo.value + (abbrev_len + 4 + 1)
    let buf ← write_all dfilter_len
      (snprintf dfilter_len (sprintf "%s == " [.str abbrev_])
        ++ renv.fvalue_to_string_repr finfo.value)
    pure (some buf)
  | FT_PROTOCOL => pure (some abbrev_)
  | FT_NONE | FT_STRINGZ | FT_UINT_STRING => dfilter_raw_bytes finfo edt

/-- An environment of the value cell whose representation is empty. -/
def plain_repr : repr_env :=
  { fvalue_string_repr_len := fun _ => 0
    fvalue_to_string_repr := fun _ => "" }

/-- A frame-number field registered with the display base Hex. -/
def hf_ref : header_field_info :=
  hf_entry "Ref" "foo.ref" FT_FRAMENUM BASE_HEX none 0 none

/-- A signed field of one octet registered with the display base Hex. -/
def hf_temp : header_field_info :=
  hf_entry "Temp" "foo.temp" FT_INT8 BASE_HEX none 0 none

/-- An unsigned field of two octets registered with the display base Dec. -/
def hf_id : header_field_info :=
  hf_entry "Id" "foo.id" FT_UINT16 BASE_DEC none 0 none

/-- The descriptor of the text-only pseudo-field, of type None. -/
def hf_text_only_entry : header_field_info :=
  { hf_entry "" "" FT_NONE BASE_NONE none 0 none with parent := -1 }

/-- A payload of type None over the octets `start` to `start + length - 1` of
the data source 1. -/
def none_fi (start length : Int) : field_info :=
  { hfinfo := hf_text_only_entry, start := start, length := length, tree_type := -1,
    visible := true, representation := none, value := fvalue.empty, ds_tvb := some 1 }

/-- A dissection context whose frame is the data source 1 with ten octets. -/
def frame_edt : epan_dissect_t :=
  { tvb := some (buffer_of [0xde, 0xad, 0xbe, 0xef, 0, 1, 2, 3, 4, 5]) }

/-- `proto_get_first_protocol`: the handle of the first protocol of the list
and the cookie, which is the `GList` pointer to it, given as the list from
that element on; -1, with the cookie as it was, if the list is empty. -/
def proto_get_first_protocol (r : registrar) (cookie : List protocol_t) :
    Int × List protocol_t :=
  match r.protocols with
  | [] => (-1, cookie)
  | protocol :: rest => (protocol.proto_id, protocol :: rest)

/-- `proto_get_next_protocol`: `g_list_next` of the cookie; -1, with the cookie
as it was, at the end of the list. -/
def proto_get_next_protocol (cookie : List protocol_t) : Int × List protocol_t :=
  match cookie.tail with
  | [] => (-1, cookie)
  | protocol :: rest => (protocol.proto_id, protocol :: rest)

/-- The loop `for (i = proto_get_first_protocol(&cookie); i != -1;
i = proto_get_next_protocol(&cookie)) body(i)` from the point where `i` has
its value and `after` is what `g_list_next` of the cookie points at: the
results of the body, in order. At the end of the list
`proto_get_next_protocol` gives -1, and the handle of the next protocol
otherwise. -/
def protocol_loop_from {α : Type} (body : Int → Except fault α) :
    Int → List protocol_t → Except fault (List α)
  | i, [] =>
    if i = -1 then pure []
    else do
      let x ← body i
      pure [x]
  | i, next :: rest =>
    if i = -1 then pure []
    else do
      let x ← body i
      let xs ← protocol_loop_from body next.proto_id rest
      pure (x :: xs)

/-- The loop over the protocols from the point where `i` and the cookie have
their values. -/
def protocol_loop {α : Type} (body : Int → Except fault α) (i : Int)
    (cookie : List protocol_t) : Except fault (List α) :=
  protocol_loop_from body i cookie.tail

/-- The handles met by iterating with `proto_get_first_protocol` and
`proto_get_next_protocol` until -1. -/
def protocol_handles (r : registrar) : Except fault (List Int) :=
  protocol_loop (fun i => pure i) (proto_get_first_protocol r []).1
    (proto_get_first_protocol r []).2

/-- The line `proto_registrar_dump_protocols` prints for the handle `i`. -/
def dump_protocol_line (r : registrar) (i : Int) : Except fault String := do
  let protocol ← deref (find_protocol_by_id r i)
  pure (sprintf "%s\t%s\t%s\n"
    [.str protocol.name, .str protocol.short_name, .str protocol.filter_name])

/-- `proto_registrar_dump_protocols`: the lines printed, in order. -/
def proto_registrar_dump_protocols (r : registrar) : Except fault (List String) :=
  protocol_loop (dump_protocol_line r) (proto_get_first_protocol r []).1
    (proto_get_first_protocol r []).2

/-- The store through the pointer `find_protocol_by_id` returns: the first
record of the list with the handle `proto_id` becomes its image under `f`. -/
def protocol_update (proto_id : Int) (f : protocol_t → protocol_t) :
    List protocol_t → List protocol_t
  | [] => []
  | p :: rest =>
    if p.proto_id = proto_id then f p :: rest
    else p :: protocol_update proto_id f rest

/-- `proto_is_protocol_enabled`. -/
def proto_is_protocol_enabled (r : registrar) (proto_id : Int) : Except fault Bool := do
  let protocol ← deref (find_protocol_by_id r proto_id)
  pure protocol.is_enabled

/-- `proto_can_disable_protocol`. -/
def proto_can_disable_protocol (r : registrar) (proto_id : Int) : Except fault Bool := do
  let protocol ← deref (find_protocol_by_id r proto_id)
  pure protocol.can_disable

/-- `proto_set_decoding`. -/
def proto_set_decoding (r : registrar) (proto_id : Int) (enabled : Bool) :
    Except fault registrar := do
  let protocol ← deref (find_protocol_by_id r proto_id)
  g_assert (enabled || protocol.can_disable)
  pure { r with
         protocols := protocol_update proto_id (fun p => { p with is_enabled := enabled })
           r.protocols }

/-- `proto_set_cant_disable`. -/
def proto_set_cant_disable (r : registrar) (proto_id : Int) : Except fault registrar := do
  let _ ← deref (find_protocol_by_id r proto_id)
  pure { r with
         protocols := protocol_update proto_id (fun p => { p with can_disable := false })
           r.protocols }

/-- The protocol list as the registrations keep it: sorted by short name
under `g_strcasecmp`, with handles that are pairwise distinct and are
positions of `gpa_hfinfo`. -/
def list_inv (r : registrar) : Prop :=
  (r.protocols.map (fun p => (static_part p).2.1)).Pairwise
    (fun a b => g_strcasecmp a b ≤ 0) ∧
  (r.protocols.map (fun p => (static_part p).2.2.2.1)).Nodup ∧
  ∀ k ∈ r.protocols.map (fun p => (static_part p).2.2.2.1),
    0 ≤ k ∧ k < (r.gpa_hfinfo.length : Int)

/-- The registrar after `proto_init` and the registration of the protocols
`Zeta` and `Alpha`, in that order (handles 1 and 2). -/
def two_protocols : registrar :=
  match proto_register_protocol init_state (hf_entry "" "" FT_NONE 0 none 0 none)
      "Zeta" "ZETA" "zeta" with
  | .ok (r1, _) =>
    match proto_register_protocol r1 (hf_entry "" "" FT_NONE 0 none 0 none)
        "Alpha" "alpha" "alpha" with
    | .ok (r2, _) => r2
    | .error _ => r1
  | .error _ => init_state

/-- The registrar states that successful calls of the registration routines,
of `proto_set_decoding` and of `proto_set_cant_disable` lead to from `r0`. -/
inductive Later (r0 : registrar) : registrar → Prop
  | start : Later r0 r0
  | protocol {r r1 : registrar} {chunk : header_field_info}
      {name short_name filter_name : String} {id : Int} :
      Later r0 r →
      proto_register_protocol r chunk name short_name filter_name = .ok (r1, id) →
      Later r0 r1
  | field_array {r r1 : registrar} {parent : Int} {mem mem1 : Nat → Int}
      {hf : List hf_register_info} :
      Later r0 r →
      proto_register_field_array parent r mem hf = .ok (r1, mem1) →
      Later r0 r1
  | set_decoding {r r1 : registrar} {proto_id : Int} {enabled : Bool} :
      Later r0 r → proto_set_decoding r proto_id enabled = .ok r1 → Later r0 r1
  | set_cant_disable {r r1 : registrar} {proto_id : Int} :
      Later r0 r → proto_set_cant_disable r proto_id = .ok r1 → Later r0 r1

/-- The protocol with the handle `id` is enabled and cannot be disabled, and
the handles of the protocol list are positions of `gpa_hfinfo`. -/
def locked (id : Int) (r : registrar) : Prop :=
  (∃ p, find_protocol_by_id r id = some p ∧ p.is_enabled = true ∧ p.can_disable = false) ∧
  ∀ q ∈ r.protocols, q.proto_id < (r.gpa_hfinfo.length : Int)

/-- One turn of the loop of `proto_registrar_dump_fields`, for the handle `i`:
the line printed, if one is; `ftype_name` is the routine of that name, which
is not among the sources. -/
def dump_fields_entry (ftype_name : ftenum → String) (r : registrar) (i : Nat) :
    Except fault (Option String) := do
  let hfinfo ← proto_registrar_get_nth r i
  let name ← deref hfinfo.name
  if name = "" then pure none
  else do
    let abbrev_ ← deref hfinfo.abbrev_
    if abbrev_ = "" then pure none
    else do
      let is_protocol ← proto_registrar_is_protocol r i
      if is_protocol then
        pure (some (sprintf "P\t%s\t%s\n" [.str name, .str abbrev_]))
      else if hfinfo.same_name_prev.isSome then pure none
      else do
        let parent_hfinfo ← proto_registrar_get_nth r hfinfo.parent
        let enum_name := ftype_name hfinfo.type
        let parent_abbrev ← deref parent_hfinfo.abbrev_
        let blurb ← deref hfinfo.blurb
        pure (some (sprintf "F\t%s\t%s\t%s\t%s\t%s\n"
          [.str name, .str abbrev_, .str enum_name, .str parent_abbrev, .str blurb]))

/-- The loop of `proto_registrar_dump_fields` over the handles of a list: the
lines printed, in order, each with the handle it was printed for. -/
def dump_fields_loop (ftype_name : ftenum → String) (r : registrar) :
    List Nat → Except fault (List (Nat × String))
  | [] => pure []
  | i :: rest => do
    let e ← dump_fields_entry ftype_name r i
    let out ← dump_fields_loop ftype_name r rest
    match e with
    | some line => pure ((i, line) :: out)
    | none => pure out

/-- `proto_registrar_dump_fields`: the lines printed, in order, each with the
handle it was printed for. -/
def proto_registrar_dump_fields (ftype_name : ftenum → String) (r : registrar) :
    Except fault (List (Nat × String)) :=
  dump_fields_loop ftype_name r (List.range r.gpa_hfinfo.length)

/-- Every descriptor of the vector passed the assertions of
`proto_register_field_init`. -/
def accepted_inv (r : registrar) : Prop :=
  ∀ (i : Nat) (x : header_field_info), r.gpa_hfinfo[i]? = some x → ¬ rejected (core x)

/-- The rendering of a field type the examples use for `ftype_name`. -/
def example_ftype_name (t : ftenum) : String :=
  match t with
  | FT_UINT8 => "FT_UINT8"
  | FT_BOOLEAN => "FT_BOOLEAN"
  | _ => "FT_OTHER"

/-- The registrar after `proto_init`, the registration of protocol `Foo` with
the filter name `foo`, and of one field under it whose abbreviation is `foo`
as well. -/
def shadowed_state : registrar :=
  { gpa_hfinfo :=
      [{ hf_entry "" "" FT_NONE BASE_NONE none 0 none with parent := -1 },
       { hf_entry "Foo" "foo" FT_PROTOCOL 0 none 0 (some "") with
           parent := -1, id := 1, same_name_next := some 2 },
       { hf_entry "Present" "foo" FT_BOOLEAN 0 none 0 (some "") with
           parent := 1, id := 2, same_name_prev := some 1 }],
    gpa_name_tree := [("foo", 2)],
    protocols := [{ name := "Foo", short_name := "FOO", filter_name := "foo", proto_id := 1,
                    fields := [2], is_enabled := true, can_disable := true }] }

/-- The registrar after `proto_init`, the registration of protocol `Foo`, and
the registration of two bit-slices under the abbreviation `foo.flags`, each
with a description. -/
def described_state : registrar :=
  { gpa_hfinfo :=
      [{ hf_entry "" "" FT_NONE BASE_NONE none 0 none with parent := -1 },
       { hf_entry "Foo" "foo" FT_PROTOCOL 0 none 0 (some "") with parent := -1, id := 1 },
       { hf_entry "Flags" "foo.flags" FT_UINT8 BASE_HEX none 0x0F (some "Low bits") with
           parent := 1, id := 2, same_name_next := some 3 },
       { hf_entry "Flags" "foo.flags" FT_UINT8 BASE_HEX none 0xF0 (some "High bits") with
           parent := 1, id := 3, bitshift := 4, same_name_prev := some 2 }],
    gpa_name_tree := [("foo", 1), ("foo.flags", 3)],
    protocols := [{ name := "Foo", short_name := "FOO", filter_name := "foo", proto_id := 1,
                    fields := [2, 3], is_enabled := true, can_disable := true }] }

/-- The registrar after `proto_init`, the registration of protocol `Foo`, and
of a signed field of one octet with the bitmask `0x0F` under it. -/
def signed_mask_state : registrar :=
  { gpa_hfinfo :=
      [{ hf_entry "" "" FT_NONE BASE_NONE none 0 none with parent := -1 },
       { hf_entry "Foo" "foo" FT_PROTOCOL 0 none 0 (some "") with parent := -1, id := 1 },
       { hf_entry "Level" "foo.level" FT_INT8 BASE_DEC none 0x0F none with
           parent := 1, id := 2 }],
    gpa_name_tree := [("foo", 1), ("foo.level", 2)],
    protocols := [{ name := "Foo", short_name := "FOO", filter_name := "foo", proto_id := 1,
                    fields := [2], is_enabled := true, can_disable := true }] }

/-- `proto_can_match_selected`: the types listed as having a value can be
matched; for the others, which is the type None alone, the raw octets must be
available: a context, a payload in the data source of the frame, and a length
that is positive, also once it is cut to the length of the frame. -/
def proto_can_match_selected (finfo : field_info) (edt : Option epan_dissect_t) :
    Except fault Bool :=
  let hfinfo := finfo.hfinfo
  match hfinfo.type with
  | FT_BOOLEAN | FT_UINT8 | FT_UINT16 | FT_UINT24 | FT_UINT32
  | FT_INT8 | FT_INT16 | FT_INT24 | FT_INT32 | FT_FRAMENUM | FT_UINT64 | FT_INT64
  | FT_IPv4 | FT_IPXNET | FT_IPv6 | FT_FLOAT | FT_DOUBLE | FT_ABSOLUTE_TIME
  | FT_RELATIVE_TIME | FT_STRING | FT_STRINGZ | FT_UINT_STRING | FT_ETHER | FT_BYTES
  | FT_UINT_BYTES | FT_PROTOCOL => pure true
  | FT_NONE =>
    match edt with
    | none => pure false
    | some edt =>
      if finfo.ds_tvb ≠ edt.tvb.map tvb_get_ds_tvb then pure false
      else if finfo.length ≤ 0 then pure false
      else do
        let frame_length ← tvb_length edt.tvb
        let length : Int :=
          if to_guint32 finfo.length > frame_length then (frame_length : Int)
          else finfo.length
        if length ≤ 0 then pure false
        else pure true

/-- A payload of the field `foo.text` of `dissect_state`, of type StringZ, over
the first four octets of the data source 1, holding the text `abc`. -/
def stringz_fi : field_info :=
  { hfinfo := { hf_entry "Text" "foo.text" FT_STRINGZ BASE_NONE none 0 none with
                parent := 1, id := 8 },
    start := 0, length := 4, tree_type := -1, visible := true, representation := none,
    value := fvalue.string (some [0x61, 0x62, 0x63, 0]), ds_tvb := some 1 }

/-- No payload of the tree has a representation without being visible. -/
def repr_visible (t : ptree) : Prop :=
  ∀ (q : List Nat) (fi : field_info), finfo_at t.root q = some fi →
    fi.representation ≠ none → fi.visible = true

/-- The trees a dissection builds from `proto_tree_create_root`: by
`proto_tree_add_item` and `proto_tree_add_uint`, plain and hidden; by
`proto_tree_add_pi` alone, which is how the text nodes are made, or followed
by the store of a value in the new payload, which is what every other typed
add routine does after it, and then by the mark of the hidden variant; by
`proto_tree_set_representation` on an item, the second statement of every
format variant; and by `proto_item_set_text`, `proto_item_append_text`,
`proto_item_set_len`, `proto_item_set_end`, `proto_item_add_subtree` and
`proto_tree_set_visible`. -/
inductive Dissected (r : registrar) (num_tree_types : Int) (size : Nat) (env : label_env) :
    ptree → Prop
  | root : Dissected r num_tree_types size env proto_tree_create_root
  | add_item {t t1 : ptree} {tree pi : Option (List Nat)} {hfindex : Int}
      {tvb : Option tvbuff} {start length : Int} {little_endian : Bool} :
      Dissected r num_tree_types size env t →
      proto_tree_add_item r num_tree_types t tree hfindex tvb start length little_endian
        = .ok (pi, t1) →
      Dissected r num_tree_types size env t1
  | add_item_hidden {t t1 : ptree} {tree pi : Option (List Nat)} {hfindex : Int}
      {tvb : Option tvbuff} {start length : Int} {little_endian : Bool} :
      Dissected r num_tree_types size env t →
      proto_tree_add_item_hidden r num_tree_types t tree hfindex tvb start length
        little_endian = .ok (pi, t1) →
      Dissected r num_tree_types size env t1
  | add_uint {t t1 : ptree} {tree pi : Option (List Nat)} {hfindex : Int}
      {tvb : Option tvbuff} {start length : Int} {value : Nat} :
      Dissected r num_tree_types size env t →
      proto_tree_add_uint r num_tree_types t tree hfindex tvb start length value
        = .ok (pi, t1) →
      Dissected r num_tree_types size env t1
  | add_uint_hidden {t t1 : ptree} {tree pi : Option (List Nat)} {hfindex : Int}
      {tvb : Option tvbuff} {start length : Int} {value : Nat} :
      Dissected r num_tree_types size env t →
      proto_tree_add_uint_hidden r num_tree_types t tree hfindex tvb start length value
        = .ok (pi, t1) →
      Dissected r num_tree_types size env t1
  | add_pi {t t1 : ptree} {tree : Option (List Nat)} {res : Option (List Nat × Int)}
      {hfindex : Int} {tvb : Option tvbuff} {start length : Int} :
      Dissected r num_tree_types size env t →
      proto_tree_add_pi r num_tree_types t tree hfindex tvb start length = .ok (res, t1) →
      Dissected r num_tree_types size env t1
  | add_value {t t1 : ptree} {tree : Option (List Nat)} {pi : List Nat} {len : Int}
      {hfindex : Int} {tvb : Option tvbuff} {start length : Int} (v : fvalue) :
      Dissected r num_tree_types size env t →
      proto_tree_add_pi r num_tree_types t tree hfindex tvb start length
        = .ok (some (pi, len), t1) →
      Dissected r num_tree_types size env
        { t1 with root := update_finfo (fun fi => { fi with value := v }) t1.root pi }
  | add_value_hidden {t t1 : ptree} {tree : Option (List Nat)} {pi : List Nat} {len : Int}
      {hfindex : Int} {tvb : Option tvbuff} {start length : Int} (v : fvalue) :
      Dissected r num_tree_types size env t →
      proto_tree_add_pi r num_tree_types t tree hfindex tvb start length
        = .ok (some (pi, len), t1) →
      Dissected r num_tree_types size env
        (hide_item
          { t1 with root := update_finfo (fun fi => { fi with value := v }) t1.root pi } pi)
  | format {t t1 : ptree} {pi : List Nat} {text : String} :
      Dissected r num_tree_types size env t →
      proto_tree_set_representation size t pi text = .ok t1 →
      Dissected r num_tree_types size env t1
  | set_text {t t1 : ptree} {pi : Option (List Nat)} {text : String} :
      Dissected r num_tree_types size env t →
      proto_item_set_text size t pi text = .ok t1 →
      Dissected r num_tree_types size env t1
  | append_text {t t1 : ptree} {pi : Option (List Nat)} {text : String} :
      Dissected r num_tree_types size env t →
      proto_item_append_text size env t pi text = .ok t1 →
      Dissected r num_tree_types size env t1
  | set_len {t t1 : ptree} {pi : Option (List Nat)} {length : Int} :
      Dissected r num_tree_types size env t →
      proto_item_set_len t pi length = .ok t1 →
      Dissected r num_tree_types size env t1
  | set_end {t t1 : ptree} {pi : Option (List Nat)} {tvb : Option tvbuff}
      {end_offset : Int} :
      Dissected r num_tree_types size env t →
      proto_item_set_end t pi tvb end_offset = .ok t1 →
      Dissected r num_tree_types size env t1
  | add_subtree {t t1 : ptree} {pi res : Option (List Nat)} {idx : Int} :
      Dissected r num_tree_types size env t →
      proto_item_add_subtree num_tree_types t pi idx = .ok (res, t1) →
      Dissected r num_tree_types size env t1
  | set_visible {t : ptree} (visible : Bool) :
      Dissected r num_tree_types size env t →
      Dissected r num_tree_types size env (proto_tree_set_visible t visible)

/-- The registrar after `proto_init`, the registration of protocol `Foo`, and
of a Boolean field under it whose bitmask is the lowest bit and whose display,
the width of the bitfield it is taken from, is 300. -/
def wide_flag_state : registrar :=
  { gpa_hfinfo :=
      [{ hf_entry "" "" FT_NONE BASE_NONE none 0 none with parent := -1 },
       { hf_entry "Foo" "foo" FT_PROTOCOL 0 none 0 (some "") with parent := -1, id := 1 },
       { hf_entry "Wide" "foo.wide" FT_BOOLEAN 300 none 1 none with
           parent := 1, id := 2 }],
    gpa_name_tree := [("foo", 1), ("foo.wide", 2)],
    protocols := [{ name := "Foo", short_name := "FOO", filter_name := "foo", proto_id := 1,
                    fields := [2], is_enabled := true, can_disable := true }] }

/-- A Boolean field without bitmask whose name has 300 characters. -/
def hf_long_name : header_field_info :=
  hf_entry (String.mk (List.replicate 300 'a')) "foo.long" FT_BOOLEAN 0 none 0 none

/-! ## Lemmas -/

theorem and_shift_eq_zero_iff (m s : Nat) :
    m &&& (1 <<< s) = 0 ↔ m.testBit s = false := by
  rw [Nat.one_shiftLeft]
  constructor
  · intro h
    have := congrArg (fun x => x.testBit s) h
    simpa [Nat.testBit_and, Nat.testBit_two_pow] using this
  · intro h
    apply Nat.eq_of_testBit_eq
    intro j
    by_cases hj : s = j
    · subst hj; simp [Nat.testBit_and, h]
    · simp [Nat.testBit_and, Nat.testBit_two_pow, hj]

theorem bitshift_loop_spec (m : Nat) :
    ∀ (legal s k : Nat), s ≤ k → k < s + legal →
      (∀ j, s ≤ j → j < k → m.testBit j = false) → m.testBit k = true →
      bitshift_loop m legal s = .ok k := by
  intro legal
  induction legal with
  | zero => intro s k h1 h2; omega
  | succ legal ih =>
    intro s k h1 h2 hlow hk
    unfold bitshift_loop
    by_cases hs : m.testBit s = true
    · have : s = k := by
        by_contra hne
        have := hlow s (le_refl _) (by omega)
        simp [this] at hs
      subst this
      have : ¬ (m &&& (1 <<< s) = 0) := by
        rw [and_shift_eq_zero_iff]; simp [hs]
      simp [this]
    · have hs' : m.testBit s = false := by simpa using hs
      have hz : m &&& (1 <<< s) = 0 := (and_shift_eq_zero_iff m s).2 hs'
      have hne : s ≠ k := by rintro rfl; simp [hk] at hs'
      simp only [hz, if_true]
      exact ih (s + 1) k (by omega) (by omega) (fun j hj1 hj2 => hlow j (by omega) hj2) hk

theorem exists_lowest_bit (m : Nat) (h0 : m ≠ 0) (h32 : m < 2 ^ 32) :
    ∃ k, k < 32 ∧ m.testBit k = true ∧ ∀ j, j < k → m.testBit j = false := by
  have hex : ∃ k, m.testBit k = true := Nat.ne_zero_implies_bit_true h0
  classical
  refine ⟨Nat.find hex, ?_, Nat.find_spec hex, ?_⟩
  · by_contra hge
    have hge' : 32 ≤ Nat.find hex := by omega
    have hlt : m < 2 ^ (Nat.find hex) :=
      lt_of_lt_of_le h32 (Nat.pow_le_pow_right (by norm_num) hge')
    have := Nat.testBit_lt_two_pow hlt
    rw [Nat.find_spec hex] at this
    exact absurd this (by simp)
  · intro j hj
    have := Nat.find_min hex hj
    simpa using this

theorem takeWhile_range_length (p : Nat → Bool) :
    ∀ (n s k : Nat), s ≤ k → k < s + n → (∀ j, s ≤ j → j < k → p j = true) →
      p k = false → ((List.range' s n).takeWhile p).length = k - s := by
  intro n
  induction n with
  | zero => intro s k h1 h2; omega
  | succ n ih =>
    intro s k h1 h2 hlow hk
    rw [List.range'_succ]
    by_cases hs : s = k
    · subst hs; simp [List.takeWhile, hk]
    · have hps : p s = true := hlow s (le_refl _) (by omega)
      simp only [List.takeWhile, hps, List.length_cons]
      rw [ih (s + 1) k (by omega) (by omega) (fun j h3 h4 => hlow j (by omega) h4) hk]
      omega

theorem count_trailing_zeros_eq (m k : Nat) (hk : k < 32) (hbit : m.testBit k = true)
    (hlow : ∀ j, j < k → m.testBit j = false) : count_trailing_zeros m = k := by
  unfold count_trailing_zeros
  rw [List.range_eq_range']
  have := takeWhile_range_length (fun j => !m.testBit j) 32 0 k (Nat.zero_le _) (by omega)
    (fun j _ h => by simp [hlow j h]) (by simp [hbit])
  simpa using this

theorem check_field_eq (hf : header_field_info) :
    check_field hf =
      if hf.name.isSome && hf.abbrev_.isSome && (hf.strings.isNone || strings_allowed hf.type)
      then (match check_type_switch hf with
            | .ok _ => compute_bitshift hf
            | .error e => .error e)
      else .error fault.assertion := by
  unfold check_field g_assert
  cases hn : hf.name.isSome <;> cases ha : hf.abbrev_.isSome <;>
    cases hs : (hf.strings.isNone || strings_allowed hf.type) <;>
    simp [bind, Except.bind]
  cases check_type_switch hf <;> rfl

theorem check_type_switch_eq (hf : header_field_info) :
    check_type_switch hf =
      if (needs_base hf.type && hf.display == BASE_NONE) ||
         (hf.type == FT_FRAMENUM && (hf.bitmask != 0 || hf.strings.isSome))
      then .error fault.assertion else .ok () := by
  unfold check_type_switch g_assert needs_base
  cases ht : hf.type <;> simp [bind, Except.bind]
  by_cases hb : hf.bitmask = 0 <;> cases hs : hf.strings <;> simp [hb, hs]

theorem bitshift_loop_not_assertion (m : Nat) :
    ∀ (legal s : Nat), bitshift_loop m legal s ≠ .error fault.assertion := by
  intro legal
  induction legal with
  | zero => intro s; simp [bitshift_loop]
  | succ legal ih =>
    intro s
    unfold bitshift_loop
    split
    · exact ih _
    · simp

theorem compute_bitshift_not_assertion (hf : header_field_info) :
    compute_bitshift hf ≠ .error fault.assertion := by
  unfold compute_bitshift
  split
  · exact bitshift_loop_not_assertion _ _ _
  · simp

theorem asserts_pass_iff (hf : header_field_info) :
    ((hf.name.isSome && hf.abbrev_.isSome && (hf.strings.isNone || strings_allowed hf.type)) = true ∧
      ((needs_base hf.type && hf.display == BASE_NONE) ||
         (hf.type == FT_FRAMENUM && (hf.bitmask != 0 || hf.strings.isSome))) = false)
      ↔ ¬ rejected hf := by
  unfold rejected int_types strings_allowed needs_base
  cases hn : hf.name <;> cases ha : hf.abbrev_ <;> cases hs : hf.strings <;>
    cases ht : hf.type <;> simp

theorem check_field_assertion_iff (hf : header_field_info) :
    check_field hf = .error fault.assertion ↔ rejected hf := by
  rw [check_field_eq, check_type_switch_eq]
  have key := asserts_pass_iff hf
  by_cases h1 : (hf.name.isSome && hf.abbrev_.isSome &&
      (hf.strings.isNone || strings_allowed hf.type)) = true
  · by_cases h2 : ((needs_base hf.type && hf.display == BASE_NONE) ||
         (hf.type == FT_FRAMENUM && (hf.bitmask != 0 || hf.strings.isSome))) = true
    · have hr : rejected hf := by
        by_contra hc
        have := (key.2 hc).2
        rw [h2] at this; exact absurd this (by simp)
      simp [h1, h2, hr]
    · have h2' : ((needs_base hf.type && hf.display == BASE_NONE) ||
         (hf.type == FT_FRAMENUM && (hf.bitmask != 0 || hf.strings.isSome))) = false := by
        simpa using h2
      have hr : ¬ rejected hf := key.1 ⟨h1, h2'⟩
      simp only [h1, h2', if_true]
      constructor
      · intro h; exact absurd h (compute_bitshift_not_assertion hf)
      · intro h; exact absurd h hr
  · have hr : rejected hf := by
      by_contra hc
      exact h1 (key.2 hc).1
    simp [h1, hr]

theorem compute_bitshift_ok (hf : header_field_info) (hs : hf.bitshift = 0)
    (hm : hf.bitmask < 2 ^ 32) :
    compute_bitshift hf =
      .ok (if hf.bitmask = 0 then 0 else count_trailing_zeros hf.bitmask) := by
  unfold compute_bitshift
  by_cases h0 : hf.bitmask = 0
  · simp [h0, hs]
  · obtain ⟨k, hk, hbit, hlow⟩ := exists_lowest_bit hf.bitmask h0 hm
    have := bitshift_loop_spec hf.bitmask 32 0 k (Nat.zero_le _) (by omega)
      (fun j _ h => hlow j h) hbit
    simp [h0, hs, this, count_trailing_zeros_eq hf.bitmask k hk hbit hlow]

theorem check_field_ok (hf : header_field_info) (hs : hf.bitshift = 0)
    (hm : hf.bitmask < 2 ^ 32) (hr : ¬ rejected hf) :
    check_field hf =
      .ok (if hf.bitmask = 0 then 0 else count_trailing_zeros hf.bitmask) := by
  rw [check_field_eq, check_type_switch_eq]
  obtain ⟨h1, h2⟩ := (asserts_pass_iff hf).2 hr
  simp only [h1, h2, if_true]
  exact compute_bitshift_ok hf hs hm

theorem hfinfo_update_length (l : List header_field_info) (p : Nat)
    (f : header_field_info → header_field_info) :
    (hfinfo_update l p f).length = l.length := by
  unfold hfinfo_update
  split <;> simp

theorem hfinfo_update_get (l : List header_field_info) (p : Nat)
    (f : header_field_info → header_field_info) (i : Nat) :
    (hfinfo_update l p f)[i]? = if i = p then (l[i]?).map f else l[i]? := by
  unfold hfinfo_update
  by_cases hip : i = p
  · subst hip
    cases h : l[i]? with
    | none => simp [h]
    | some x =>
      have hlt : i < l.length := by
        by_contra hc
        rw [List.getElem?_eq_none (by omega)] at h
        exact absurd h (by simp)
      simp [h, List.getElem?_set, hlt]
  · cases h : l[p]? with
    | none => simp [hip]
    | some x =>
      have : ¬ p = i := fun e => hip e.symm
      simp [hip, List.getElem?_set, this]

theorem g_tree_lookup_insert (t : List (String × Nat)) (k : String) (v : Nat) (a : String) :
    g_tree_lookup (g_tree_insert t k v) a = if a = k then some v else g_tree_lookup t a := by
  induction t with
  | nil =>
    by_cases h : a = k
    · simp [g_tree_insert, g_tree_lookup, h]
    · have : ¬ k = a := fun e => h e.symm
      simp [g_tree_insert, g_tree_lookup, h, this]
  | cons kv rest ih =>
    obtain ⟨k1, v1⟩ := kv
    unfold g_tree_insert
    by_cases h1 : k1 = k
    · subst h1
      by_cases h : a = k1
      · subst h; simp [g_tree_lookup]
      · have : ¬ k1 = a := fun e => h e.symm
        simp [g_tree_lookup, h, this]
    · simp only [h1, if_false]
      by_cases h : k1 = a
      · subst h
        simp [g_tree_lookup, h1]
      · simp [g_tree_lookup, h, ih]

theorem last_under_congr (l l' : List header_field_info) (a : String) :
    ∀ k, (∀ j, j < k → (l'[j]?).map core = (l[j]?).map core) →
      last_under l' a k = last_under l a k := by
  intro k
  induction k with
  | zero => intro _; rfl
  | succ k ih =>
    intro h
    have hk := h k (Nat.lt_succ_self k)
    have ih' := ih (fun j hj => h j (Nat.lt_succ_of_lt hj))
    unfold last_under
    cases h1 : l'[k]? with
    | none =>
      cases h2 : l[k]? with
      | none => simpa using ih'
      | some y => simp [h1, h2] at hk
    | some x =>
      cases h2 : l[k]? with
      | none => simp [h1, h2] at hk
      | some y =>
        have hc : core x = core y := by simpa [h1, h2] using hk
        have hu : under a x = under a y := by
          have e1 : (core x).name = (core y).name := by rw [hc]
          have e2 : (core x).abbrev_ = (core y).abbrev_ := by rw [hc]
          simp only [core] at e1 e2
          simp [under, filterable, e1, e2]
        simp [hu, ih']

theorem last_under_some (l : List header_field_info) (a : String) :
    ∀ k j, last_under l a k = some j →
      j < k ∧ ∃ x, l[j]? = some x ∧ under a x = true := by
  intro k
  induction k with
  | zero => intro j h; simp [last_under] at h
  | succ k ih =>
    intro j h
    unfold last_under at h
    cases h1 : l[k]? with
    | none =>
      rw [h1] at h
      obtain ⟨h2, h3⟩ := ih j h
      exact ⟨by omega, h3⟩
    | some x =>
      rw [h1] at h
      by_cases hu : under a x = true
      · simp [hu] at h
        subst h
        exact ⟨by omega, x, h1, hu⟩
      · simp [hu] at h
        obtain ⟨h2, h3⟩ := ih j h
        exact ⟨by omega, h3⟩

theorem enter_field_snd (r : registrar) (hf : header_field_info) (parent : Int) (bs : Nat) :
    (enter_field r hf parent bs).2 = (r.gpa_hfinfo.length : Int) := by
  simp [enter_field]

theorem enter_field_fst (r : registrar) (hf : header_field_info) (parent : Int) (bs : Nat) :
    (enter_field r hf parent bs).1 =
      if filterable hf = true then
        enter_name_tree (append_new r hf parent bs) r.gpa_hfinfo.length (hf.abbrev_.getD "")
      else append_new r hf parent bs := by
  have hid : (((r.gpa_hfinfo.length + 1 : Nat) : Int) - 1) = (r.gpa_hfinfo.length : Int) := by
    push_cast; ring
  unfold enter_field
  simp only [hid]
  by_cases hfil : hf.name.getD "" ≠ "" ∧ hf.abbrev_.getD "" ≠ ""
  · have hf' : filterable hf = true := by simpa [filterable] using hfil
    rw [if_pos hfil, if_pos hf']
    rfl
  · have hf' : ¬ filterable hf = true := by simpa [filterable] using hfil
    rw [if_neg hfil, if_neg hf']
    rfl

theorem enter_name_tree_protocols (r : registrar) (n : Nat) (a : String) :
    (enter_name_tree r n a).protocols = r.protocols := rfl

theorem enter_name_tree_lookup (r : registrar) (n : Nat) (a b : String) :
    g_tree_lookup (enter_name_tree r n a).gpa_name_tree b =
      if b = a then some n else g_tree_lookup r.gpa_name_tree b := by
  unfold enter_name_tree
  simp only
  exact g_tree_lookup_insert _ _ _ _

theorem enter_name_tree_list_none (r : registrar) (n : Nat) (a : String)
    (hl : g_tree_lookup r.gpa_name_tree a = none) :
    (enter_name_tree r n a).gpa_hfinfo = r.gpa_hfinfo := by
  simp [enter_name_tree, hl]

theorem enter_name_tree_list_some (r : registrar) (n : Nat) (a : String) (H : Nat)
    (xH : header_field_info)
    (hl : g_tree_lookup r.gpa_name_tree a = some H)
    (hxH : r.gpa_hfinfo[H]? = some xH) (hnx : xH.same_name_next = none) :
    (enter_name_tree r n a).gpa_hfinfo =
      hfinfo_update
        (hfinfo_update
          (hfinfo_update r.gpa_hfinfo n (fun x => { x with same_name_next := none }))
          H (fun x => { x with same_name_next := some n }))
        n (fun x => { x with same_name_prev := some H }) := by
  simp [enter_name_tree, hl, hxH, hnx]

theorem enter_name_tree_get (r : registrar) (n : Nat) (a : String)
    (hnext : ∀ h, g_tree_lookup r.gpa_name_tree a = some h →
      h ≠ n ∧ ∃ x, r.gpa_hfinfo[h]? = some x ∧ x.same_name_next = none)
    (hnew : ∀ x, r.gpa_hfinfo[n]? = some x → x.same_name_next = none ∧ x.same_name_prev = none)
    (i : Nat) :
    (enter_name_tree r n a).gpa_hfinfo[i]? =
      if i = n then
        (r.gpa_hfinfo[i]?).map
          (fun x => { x with same_name_prev := g_tree_lookup r.gpa_name_tree a })
      else if g_tree_lookup r.gpa_name_tree a = some i then
        (r.gpa_hfinfo[i]?).map (fun x => { x with same_name_next := some n })
      else r.gpa_hfinfo[i]? := by
  cases hl : g_tree_lookup r.gpa_name_tree a with
  | none =>
    rw [enter_name_tree_list_none r n a hl]
    by_cases hi : i = n
    · subst hi
      cases hx : r.gpa_hfinfo[i]? with
      | none => simp
      | some x =>
        obtain ⟨h1, h2⟩ := hnew x hx
        simp only [if_true, Option.map_some']
        congr 1
        cases x
        simp_all
    · simp [hi]
  | some H =>
    obtain ⟨hHn, xH, hxH, hnx⟩ := hnext H (hl ▸ rfl)
    rw [enter_name_tree_list_some r n a H xH hl hxH hnx]
    simp only [hfinfo_update_get]
    by_cases hi : i = n
    · subst hi
      have : ¬ i = H := fun e => hHn e.symm
      simp only [if_true, this, if_false]
      cases hx : r.gpa_hfinfo[i]? with
      | none => simp
      | some x =>
        obtain ⟨h1, h2⟩ := hnew x hx
        simp only [Option.map_some']
        rw [h1]
    · simp only [hi, if_false]
      by_cases hiH : i = H
      · subst hiH
        simp
      · have : ¬ H = i := fun e => hiH e.symm
        simp [hiH, this]

theorem hfinfo_update_map_core (l : List header_field_info) (p : Nat)
    (f : header_field_info → header_field_info) (hf : ∀ x, core (f x) = core x) :
    (hfinfo_update l p f).map core = l.map core := by
  apply List.ext_getElem?
  intro i
  rw [List.getElem?_map, List.getElem?_map, hfinfo_update_get]
  by_cases hi : i = p
  · simp only [hi, if_true]
    cases l[p]? with
    | none => rfl
    | some x => simp [hf]
  · simp [hi]

theorem hfinfo_update_next_core (l : List header_field_info) (p : Nat) (v : Option Nat) :
    (hfinfo_update l p (fun x => { x with same_name_next := v })).map core = l.map core :=
  hfinfo_update_map_core l p _ (fun _ => rfl)

theorem hfinfo_update_prev_core (l : List header_field_info) (p : Nat) (v : Option Nat) :
    (hfinfo_update l p (fun x => { x with same_name_prev := v })).map core = l.map core :=
  hfinfo_update_map_core l p _ (fun _ => rfl)

theorem enter_name_tree_map_core (r : registrar) (n : Nat) (a : String) :
    (enter_name_tree r n a).gpa_hfinfo.map core = r.gpa_hfinfo.map core := by
  unfold enter_name_tree
  simp only
  cases g_tree_lookup r.gpa_name_tree a with
  | none => rfl
  | some H =>
    simp only
    rw [hfinfo_update_prev_core, hfinfo_update_next_core]
    cases (r.gpa_hfinfo[H]?).bind (fun x => x.same_name_next) with
    | none =>
      simp only
      rw [hfinfo_update_next_core]
    | some nx =>
      simp only
      rw [hfinfo_update_prev_core, hfinfo_update_next_core]

theorem enter_field_map_core (r : registrar) (hf : header_field_info) (parent : Int)
    (bs : Nat) :
    (enter_field r hf parent bs).1.gpa_hfinfo.map core =
      r.gpa_hfinfo.map core ++ [core (new_hfinfo r hf parent bs)] := by
  rw [enter_field_fst]
  split
  · rw [enter_name_tree_map_core]; simp [append_new]
  · simp [append_new]

theorem enter_field_length (r : registrar) (hf : header_field_info) (parent : Int)
    (bs : Nat) :
    (enter_field r hf parent bs).1.gpa_hfinfo.length = r.gpa_hfinfo.length + 1 := by
  have := congrArg List.length (enter_field_map_core r hf parent bs)
  simpa using this

theorem enter_field_core_old (r : registrar) (hf : header_field_info) (parent : Int)
    (bs : Nat) (i : Nat) (hi : i < r.gpa_hfinfo.length) :
    ((enter_field r hf parent bs).1.gpa_hfinfo[i]?).map core = (r.gpa_hfinfo[i]?).map core := by
  have := congrArg (fun l => l[i]?) (enter_field_map_core r hf parent bs)
  simp only [List.getElem?_map] at this
  rw [this, List.getElem?_append_left (by simpa using hi), List.getElem?_map]

theorem enter_field_core_new (r : registrar) (hf : header_field_info) (parent : Int)
    (bs : Nat) :
    ((enter_field r hf parent bs).1.gpa_hfinfo[r.gpa_hfinfo.length]?).map core =
      some (core (new_hfinfo r hf parent bs)) := by
  have := congrArg (fun l => l[r.gpa_hfinfo.length]?) (enter_field_map_core r hf parent bs)
  simp only [List.getElem?_map] at this
  rw [this]
  simp [List.getElem?_append_right]

theorem enter_field_tree (r : registrar) (hf : header_field_info) (parent : Int)
    (bs : Nat) (b : String) :
    g_tree_lookup (enter_field r hf parent bs).1.gpa_name_tree b =
      if filterable hf = true ∧ b = hf.abbrev_.getD "" then some r.gpa_hfinfo.length
      else g_tree_lookup r.gpa_name_tree b := by
  rw [enter_field_fst]
  by_cases hfil : filterable hf = true
  · simp only [hfil, if_true, true_and]
    rw [enter_name_tree_lookup]
    rfl
  · simp only [hfil, if_false, false_and]
    rfl

theorem enter_field_protocols (r : registrar) (hf : header_field_info) (parent : Int)
    (bs : Nat) : (enter_field r hf parent bs).1.protocols = r.protocols := by
  rw [enter_field_fst]
  split <;> rfl

theorem enter_field_get (r : registrar) (hf : header_field_info) (parent : Int) (bs : Nat)
    (hnext : ∀ a h, g_tree_lookup r.gpa_name_tree a = some h →
      ∃ x, r.gpa_hfinfo[h]? = some x ∧ x.same_name_next = none) (i : Nat) :
    (enter_field r hf parent bs).1.gpa_hfinfo[i]? =
      if i = r.gpa_hfinfo.length then
        some { new_hfinfo r hf parent bs with
                same_name_prev := if filterable hf = true
                  then g_tree_lookup r.gpa_name_tree (hf.abbrev_.getD "") else none }
      else if filterable hf = true ∧
          g_tree_lookup r.gpa_name_tree (hf.abbrev_.getD "") = some i then
        (r.gpa_hfinfo[i]?).map (fun x => { x with same_name_next := some r.gpa_hfinfo.length })
      else r.gpa_hfinfo[i]? := by
  have hold : ∀ j, j ≠ r.gpa_hfinfo.length →
      (r.gpa_hfinfo ++ [new_hfinfo r hf parent bs])[j]? = r.gpa_hfinfo[j]? := by
    intro j hj
    by_cases hlt : j < r.gpa_hfinfo.length
    · rw [List.getElem?_append_left hlt]
    · rw [List.getElem?_eq_none (by simp; omega), List.getElem?_eq_none (by omega)]
  have hnew : (r.gpa_hfinfo ++ [new_hfinfo r hf parent bs])[r.gpa_hfinfo.length]? =
      some (new_hfinfo r hf parent bs) := by
    simp [List.getElem?_append_right]
  rw [enter_field_fst]
  by_cases hfil : filterable hf = true
  · simp only [hfil, if_true, true_and]
    rw [enter_name_tree_get]
    · simp only [append_new]
      by_cases hi : i = r.gpa_hfinfo.length
      · subst hi
        simp only [if_true, hnew, Option.map_some']
      · simp only [hi, if_false, hold i hi]
    · intro h hl
      obtain ⟨x, hx, hnx⟩ := hnext _ h hl
      have hlt : h < r.gpa_hfinfo.length := by
        by_contra hc
        rw [List.getElem?_eq_none (by omega)] at hx
        exact absurd hx (by simp)
      refine ⟨by omega, x, ?_, hnx⟩
      simp only [append_new]
      rw [hold h (by omega)]
      exact hx
    · intro x hx
      simp only [append_new, hnew, Option.some.injEq] at hx
      subst hx
      exact ⟨rfl, rfl⟩
  · rw [if_neg hfil]
    have hb : filterable hf = false := by simpa using hfil
    simp only [hb, Bool.false_eq_true, if_false, false_and, append_new]
    by_cases hi : i = r.gpa_hfinfo.length
    · subst hi
      simp only [if_true, hnew]
      rfl
    · simp only [hi, if_false, hold i hi]

theorem under_core (a : String) (x y : header_field_info) (h : core x = core y) :
    under a x = under a y := by
  have e1 : (core x).name = (core y).name := by rw [h]
  have e2 : (core x).abbrev_ = (core y).abbrev_ := by rw [h]
  simp only [core] at e1 e2
  simp [under, filterable, e1, e2]

theorem last_under_append_old (l : List header_field_info) (y : header_field_info)
    (a : String) (k : Nat) (hk : k ≤ l.length) :
    last_under (l ++ [y]) a k = last_under l a k := by
  apply last_under_congr
  intro j hj
  rw [List.getElem?_append_left (by omega)]

theorem last_under_append_new (l : List header_field_info) (y : header_field_info)
    (a : String) :
    last_under (l ++ [y]) a (l.length + 1) =
      if under a y = true then some l.length else last_under l a l.length := by
  rw [last_under]
  simp only [List.getElem?_append_right (le_refl _), Nat.sub_self, List.getElem?_cons_zero]
  rw [last_under_append_old l y a l.length (le_refl _)]

theorem last_under_enter_field (r : registrar) (hf : header_field_info) (parent : Int)
    (bs : Nat) (a : String) (k : Nat) :
    last_under (enter_field r hf parent bs).1.gpa_hfinfo a k =
      last_under (r.gpa_hfinfo ++ [new_hfinfo r hf parent bs]) a k := by
  apply last_under_congr
  intro j _
  have := congrArg (fun l => l[j]?) (enter_field_map_core r hf parent bs)
  simp only [List.getElem?_map] at this
  rw [this]
  have e : r.gpa_hfinfo.map core ++ [core (new_hfinfo r hf parent bs)] =
      (r.gpa_hfinfo ++ [new_hfinfo r hf parent bs]).map core := by simp
  rw [e, List.getElem?_map]

theorem under_new_hfinfo (r : registrar) (hf : header_field_info) (parent : Int)
    (bs : Nat) (a : String) :
    under a (new_hfinfo r hf parent bs) = (filterable hf && hf.abbrev_.getD "" == a) := rfl

theorem link_inv_enter_field (r : registrar) (hf : header_field_info) (parent : Int)
    (bs : Nat) (h : link_inv r) : link_inv (enter_field r hf parent bs).1 := by
  have hlen := enter_field_length r hf parent bs
  refine ⟨?_, ?_, ?_⟩
  · intro a
    rw [enter_field_tree, hlen, last_under_enter_field, last_under_append_new,
      under_new_hfinfo, ← h.tree a]
    by_cases hfil : filterable hf = true
    · by_cases ha : a = hf.abbrev_.getD ""
      · subst ha; simp [hfil]
      · have : ¬ hf.abbrev_.getD "" = a := fun e => ha e.symm
        simp [hfil, ha, this]
    · simp [hfil]
  · intro i x hx hfx
    rw [enter_field_get r hf parent bs h.next] at hx
    rw [last_under_enter_field]
    by_cases hi : i = r.gpa_hfinfo.length
    · subst hi
      simp only [if_true, Option.some.injEq] at hx
      subst hx
      have hfil : filterable hf = true := hfx
      simp only [hfil, if_true]
      rw [last_under_append_old _ _ _ _ (le_refl _)]
      exact h.tree _
    · simp only [hi, if_false] at hx
      have hlt : i < r.gpa_hfinfo.length := by
        by_contra hc
        have hnone : r.gpa_hfinfo[i]? = none := List.getElem?_eq_none (by omega)
        rw [hnone] at hx
        split at hx <;> simp at hx
      rw [last_under_append_old _ _ _ _ (by omega)]
      split at hx
      · cases hy : r.gpa_hfinfo[i]? with
        | none => rw [hy] at hx; simp at hx
        | some y =>
          rw [hy] at hx
          simp only [Option.map_some', Option.some.injEq] at hx
          subst hx
          exact h.prev i y hy hfx
      · exact h.prev i x hx hfx
  · intro a hh hl
    rw [enter_field_tree] at hl
    rw [enter_field_get r hf parent bs h.next]
    by_cases hc : filterable hf = true ∧ a = hf.abbrev_.getD ""
    · simp only [hc, and_self, if_true, Option.some.injEq] at hl
      subst hl
      simp [new_hfinfo]
    · simp only [hc, if_false] at hl
      obtain ⟨y, hy, hny⟩ := h.next a hh hl
      have hlt : hh < r.gpa_hfinfo.length := by
        by_contra hc2
        rw [List.getElem?_eq_none (by omega)] at hy
        exact absurd hy (by simp)
      have hne : hh ≠ r.gpa_hfinfo.length := by omega
      simp only [hne, if_false]
      have hno : ¬ (filterable hf = true ∧
          g_tree_lookup r.gpa_name_tree (hf.abbrev_.getD "") = some hh) := by
        rintro ⟨hfil, hl0⟩
        rw [h.tree] at hl hl0
        obtain ⟨_, y1, hy1, hu1⟩ := last_under_some _ _ _ _ hl
        obtain ⟨_, y2, hy2, hu2⟩ := last_under_some _ _ _ _ hl0
        rw [hy1] at hy2
        cases hy2
        simp only [under, Bool.and_eq_true, beq_iff_eq] at hu1 hu2
        exact hc ⟨hfil, by rw [← hu1.2, ← hu2.2]⟩
      simp only [hno, if_false]
      exact ⟨y, hy, hny⟩

theorem chain_prev_none (r : registrar) (fuel : Nat) : chain_prev r fuel none = [] := by
  cases fuel <;> rfl

theorem chain_prev_last_under (r : registrar) (a : String)
    (hprev : ∀ i x, r.gpa_hfinfo[i]? = some x → filterable x = true →
      x.same_name_prev = last_under r.gpa_hfinfo (x.abbrev_.getD "") i) :
    ∀ k fuel, k ≤ fuel →
      chain_prev r fuel (last_under r.gpa_hfinfo a k) =
        ((r.gpa_hfinfo.take k).filter (under a)).reverse := by
  intro k
  induction k with
  | zero => intro fuel _; simp [last_under, chain_prev_none]
  | succ k ih =>
    intro fuel hk
    rw [List.take_succ, last_under]
    cases hx : r.gpa_hfinfo[k]? with
    | none => simpa using ih fuel (by omega)
    | some x =>
      simp only [Option.toList_some, List.filter_append]
      by_cases hu : under a x = true
      · obtain ⟨f, rfl⟩ : ∃ f, fuel = f + 1 := ⟨fuel - 1, by omega⟩
        have hfx : filterable x = true := by
          simp only [under, Bool.and_eq_true] at hu; exact hu.1
        have hax : x.abbrev_.getD "" = a := by
          simp only [under, Bool.and_eq_true, beq_iff_eq] at hu; exact hu.2
        simp only [hu, if_true, chain_prev, hx]
        rw [hprev k x hx hfx, hax, ih f (by omega)]
        simp [List.filter, hu]
      · have hu' : under a x = false := by simpa using hu
        simp only [hu', Bool.false_eq_true, if_false]
        rw [ih fuel (by omega)]
        simp [List.filter, hu']

theorem field_init_eq (r : registrar) (hf : header_field_info) (parent : Int) :
    proto_register_field_init r hf parent =
      match check_field hf with
      | .ok bs => .ok (enter_field r hf parent bs)
      | .error e => .error e := by
  unfold proto_register_field_init
  cases check_field hf <;> rfl

theorem field_init_ok (r r1 : registrar) (hf : header_field_info) (parent id : Int)
    (h : proto_register_field_init r hf parent = .ok (r1, id)) :
    ∃ bs, check_field hf = .ok bs ∧ r1 = (enter_field r hf parent bs).1 ∧
      id = (r.gpa_hfinfo.length : Int) := by
  rw [field_init_eq] at h
  cases hc : check_field hf with
  | error e => rw [hc] at h; cases h
  | ok bs =>
    rw [hc] at h
    simp only [Except.ok.injEq] at h
    refine ⟨bs, rfl, ?_, ?_⟩
    · rw [h]
    · rw [← enter_field_snd r hf parent bs, h]

theorem check_field_protocol (chunk : header_field_info) (name filter_name : String) :
    check_field (protocol_hfinfo chunk name filter_name) = .ok 0 := by
  rw [check_field_eq, check_type_switch_eq]
  simp [protocol_hfinfo, needs_base, compute_bitshift]

theorem register_protocol_eq (r : registrar) (chunk : header_field_info)
    (name short_name filter_name : String) :
    proto_register_protocol r chunk name short_name filter_name =
      if no_collision r name short_name filter_name = true then
        .ok ({ (enter_field r (protocol_hfinfo chunk name filter_name) (-1) 0).1 with
                protocols := g_list_insert_sorted proto_compare_name
                  (new_protocol r name short_name filter_name) r.protocols },
             (r.gpa_hfinfo.length : Int))
      else .error fault.assertion := by
  have hsnd := enter_field_snd r (protocol_hfinfo chunk name filter_name) (-1) 0
  unfold proto_register_protocol no_collision g_assert
  cases h1 : (g_list_find_custom r.protocols (proto_match_name name)).isNone <;>
    cases h2 : (g_list_find_custom r.protocols (proto_match_short_name short_name)).isNone <;>
    cases h3 : (g_list_find_custom r.protocols (proto_match_filter_name filter_name)).isNone <;>
    simp only [bind, Except.bind, Bool.false_eq_true, if_false, if_true, Bool.and_self,
      Bool.and_false, Bool.and_true, Bool.false_and, pure, Except.pure]
  have hinit := field_init_eq r (protocol_hfinfo chunk name filter_name) (-1)
  rw [check_field_protocol] at hinit
  simp only [protocol_hfinfo, new_protocol] at hsnd hinit ⊢
  rw [hinit]
  simp only [hsnd]

theorem field_array_cons (parent : Int) (r : registrar) (mem : Nat → Int)
    (ptr : hf_register_info) (rest : List hf_register_info) :
    proto_register_field_array parent r mem (ptr :: rest) =
      if mem ptr.p_id = -1 ∨ mem ptr.p_id = 0 then
        match check_field ptr.hfinfo with
        | .ok bs =>
          proto_register_field_array parent
            (enter_field { r with protocols := append_field parent r.gpa_hfinfo.length r.protocols }
              ptr.hfinfo parent bs).1
            (Function.update mem ptr.p_id (r.gpa_hfinfo.length : Int)) rest
        | .error e => .error e
      else .error fault.assertion := by
  rw [proto_register_field_array]
  unfold g_assert
  by_cases h : mem ptr.p_id = -1 ∨ mem ptr.p_id = 0
  · have hb : (mem ptr.p_id == -1 || mem ptr.p_id == 0) = true := by simpa using h
    simp only [hb, if_true, h, bind, Except.bind]
    rw [field_init_eq]
    cases hc : check_field ptr.hfinfo with
    | error e => rfl
    | ok bs =>
      simp only
      rw [enter_field_snd]
  · have hb : (mem ptr.p_id == -1 || mem ptr.p_id == 0) = false := by simpa using h
    simp only [hb, h, if_false, bind, Except.bind, Bool.false_eq_true]

theorem g_strcasecmp_chars_eq_zero (s1 s2 : List Char) :
    g_strcasecmp_chars s1 s2 = 0 ↔ s1.map fold_case = s2.map fold_case := by
  induction s1 generalizing s2 with
  | nil =>
    cases s2 with
    | nil => simp [g_strcasecmp_chars]
    | cons c2 s2 => simp [g_strcasecmp_chars]
  | cons c1 s1 ih =>
    cases s2 with
    | nil => simp [g_strcasecmp_chars]
    | cons c2 s2 =>
      rw [g_strcasecmp_chars]
      by_cases h : fold_case c1 = fold_case c2
      · simp [h, ih]
      · have hne : ((fold_case c1).toNat : Int) - ((fold_case c2).toNat : Int) ≠ 0 := by
          intro h0
          apply h
          have h1 : (fold_case c1).toNat = (fold_case c2).toNat := by omega
          apply Char.ext
          apply UInt32.ext
          exact h1
        simp [h, hne]

theorem g_strcasecmp_eq_zero (s1 s2 : String) :
    g_strcasecmp s1 s2 = 0 ↔ casefold s1 = casefold s2 :=
  g_strcasecmp_chars_eq_zero _ _

theorem g_strcasecmp_self (s : String) : g_strcasecmp s s = 0 :=
  (g_strcasecmp_eq_zero s s).2 rfl

theorem find_custom_isNone {α : Type} (l : List α) (f : α → Int) :
    (g_list_find_custom l f).isNone = true ↔ ∀ x ∈ l, f x ≠ 0 := by
  unfold g_list_find_custom
  rw [Option.isNone_iff_eq_none, List.find?_eq_none]
  simp

theorem insert_sorted_perm {α : Type} (f : α → α → Int) (d : α) (l : List α) :
    (g_list_insert_sorted f d l).Perm (d :: l) := by
  induction l with
  | nil => simp [g_list_insert_sorted]
  | cons x rest ih =>
    unfold g_list_insert_sorted
    split
    · exact (List.Perm.cons x ih).trans (List.Perm.swap d x rest)
    · exact List.Perm.refl _

theorem mem_insert_sorted {α : Type} (f : α → α → Int) (d : α) (l : List α) (x : α) :
    x ∈ g_list_insert_sorted f d l ↔ x = d ∨ x ∈ l := by
  rw [(insert_sorted_perm f d l).mem_iff]
  simp

theorem find_custom_insert_sorted {α : Type} (f : α → α → Int) (d : α) (l : List α)
    (q : α → Int) (hd : q d = 0) (hl : ∀ x ∈ l, q x ≠ 0) :
    g_list_find_custom (g_list_insert_sorted f d l) q = some d := by
  unfold g_list_find_custom
  induction l with
  | nil => simp [g_list_insert_sorted, hd]
  | cons x rest ih =>
    unfold g_list_insert_sorted
    have hx : q x ≠ 0 := hl x (List.mem_cons_self _ _)
    split
    · have hb : (q x == 0) = false := by simpa using hx
      rw [List.find?_cons, hb]
      exact ih (fun y hy => hl y (List.mem_cons_of_mem _ hy))
    · simp [hd]

theorem append_field_static (parent : Int) (h : Nat) (ps : List protocol_t) :
    (append_field parent h ps).map static_part = ps.map static_part := by
  induction ps with
  | nil => rfl
  | cons p rest ih =>
    unfold append_field
    split
    · simp [static_part]
    · simp [ih]

theorem append_field_map (parent : Int) (h : Nat) (ps : List protocol_t)
    {β : Type} (g : String × String × String × Int × Bool × Bool → β) :
    (append_field parent h ps).map (fun p => g (static_part p)) =
      ps.map (fun p => g (static_part p)) := by
  have := congrArg (List.map g) (append_field_static parent h ps)
  simpa [List.map_map] using this

theorem field_array_preserves (P : registrar → Prop) (parent : Int)
    (hstep : ∀ r hf bs, P r → check_field hf = .ok bs →
      P (enter_field { r with protocols := append_field parent r.gpa_hfinfo.length r.protocols }
          hf parent bs).1) :
    ∀ (hfs : List hf_register_info) (r : registrar) (mem : Nat → Int) (r1 : registrar)
      (mem1 : Nat → Int), P r →
      proto_register_field_array parent r mem hfs = .ok (r1, mem1) → P r1 := by
  intro hfs
  induction hfs with
  | nil =>
    intro r mem r1 mem1 hP h
    simp only [proto_register_field_array, Except.ok.injEq, Prod.mk.injEq] at h
    rw [← h.1]; exact hP
  | cons ptr rest ih =>
    intro r mem r1 mem1 hP h
    rw [field_array_cons] at h
    split at h
    · cases hc : check_field ptr.hfinfo with
      | error e => rw [hc] at h; cases h
      | ok bs =>
        rw [hc] at h
        exact ih _ _ _ _ (hstep r ptr.hfinfo bs hP hc) h
    · cases h

theorem registered_preserves (Q : Int → Prop) (r0 : registrar) (P : registrar → Prop)
    (h0 : P r0)
    (hproto : ∀ r chunk name short_name filter_name, P r →
      no_collision r name short_name filter_name = true →
      P { (enter_field r (protocol_hfinfo chunk name filter_name) (-1) 0).1 with
          protocols := g_list_insert_sorted proto_compare_name
            (new_protocol r name short_name filter_name) r.protocols })
    (hfield : ∀ parent r hf bs, Q parent → P r → check_field hf = .ok bs →
      P (enter_field { r with protocols := append_field parent r.gpa_hfinfo.length r.protocols }
          hf parent bs).1) :
    ∀ r, Registered Q r0 r → P r := by
  intro r hr
  induction hr with
  | start => exact h0
  | protocol _ hcall ih =>
    rw [register_protocol_eq] at hcall
    split at hcall
    · simp only [Except.ok.injEq, Prod.mk.injEq] at hcall
      rw [← hcall.1]
      exact hproto _ _ _ _ _ ih (by assumption)
    · cases hcall
  | field_array _ hQ hcall ih =>
    exact field_array_preserves P _ (fun r hf bs hP hc => hfield _ r hf bs hQ hP hc)
      _ _ _ _ _ ih hcall

theorem enter_field_forall_core (φ : Nat → header_field_info → Prop) (r : registrar)
    (hf : header_field_info) (parent : Int) (bs : Nat)
    (h : ∀ i x, r.gpa_hfinfo[i]? = some x → φ i (core x))
    (hnew : φ r.gpa_hfinfo.length (core (new_hfinfo r hf parent bs))) :
    ∀ i x, (enter_field r hf parent bs).1.gpa_hfinfo[i]? = some x → φ i (core x) := by
  intro i x hx
  have hlen := enter_field_length r hf parent bs
  have hi : i < r.gpa_hfinfo.length + 1 := by
    by_contra hc
    rw [List.getElem?_eq_none (by omega)] at hx
    exact absurd hx (by simp)
  by_cases hin : i = r.gpa_hfinfo.length
  · subst hin
    have := enter_field_core_new r hf parent bs
    rw [hx] at this
    simp only [Option.map_some', Option.some.injEq] at this
    rw [this]; exact hnew
  · have := enter_field_core_old r hf parent bs i (by omega)
    rw [hx] at this
    cases hy : r.gpa_hfinfo[i]? with
    | none => rw [hy] at this; simp at this
    | some y =>
      rw [hy] at this
      simp only [Option.map_some', Option.some.injEq] at this
      rw [this]; exact h i y hy

theorem reachable_ids (Q : Int → Prop) (r0 r : registrar) (h0 : ids_inv r0)
    (h : Registered Q r0 r) : ids_inv r := by
  refine registered_preserves Q r0 ids_inv h0 ?_ ?_ r h
  · intro r chunk name short_name filter_name hP _
    exact enter_field_forall_core (fun i x => x.id = (i : Int)) r _ _ _ hP rfl
  · intro parent r hf bs _ hP _
    exact enter_field_forall_core (fun i x => x.id = (i : Int))
      { r with protocols := append_field parent r.gpa_hfinfo.length r.protocols } _ _ _ hP rfl

theorem link_inv_new : link_inv registrar_new :=
  ⟨fun _ => rfl, fun i x h => by simp [registrar_new] at h,
   fun a h hl => by simp [registrar_new, g_tree_lookup] at hl⟩

theorem link_inv_protocols (r : registrar) (ps : List protocol_t) (h : link_inv r) :
    link_inv { r with protocols := ps } :=
  ⟨h.tree, h.prev, h.next⟩

theorem reachable_link (Q : Int → Prop) (r0 r : registrar) (h0 : link_inv r0)
    (h : Registered Q r0 r) : link_inv r := by
  refine registered_preserves Q r0 link_inv h0 ?_ ?_ r h
  · intro r chunk name short_name filter_name hP _
    exact link_inv_protocols _ _ (link_inv_enter_field r _ _ _ hP)
  · intro parent r hf bs _ hP _
    exact link_inv_enter_field _ _ _ _ (link_inv_protocols r _ hP)

theorem proto_init_example :
    proto_init example_mem = .ok (init_state, Function.update example_mem hf_text_only 0) := by
  rfl

theorem init_state_reachable : Reachable init_state :=
  Registered.field_array Registered.start trivial proto_init_example

theorem foo_state_reachable : Reachable foo_state := by
  have h2 : ∃ r1, proto_register_protocol init_state (hf_entry "" "" FT_NONE 0 none 0 none)
      "Foo" "FOO" "foo" = .ok (r1, 1) ∧
      ∃ m, proto_register_field_array 1 r1 example_mem foo_fields = .ok (foo_state, m) := by
    exact ⟨_, rfl, _, rfl⟩
  obtain ⟨r1, h2, m, h3⟩ := h2
  exact Registered.field_array (Registered.protocol init_state_reachable h2) trivial h3

theorem get_nth_of_get (r : registrar) (i : Nat) (x : header_field_info)
    (h : r.gpa_hfinfo[i]? = some x) : proto_registrar_get_nth r (i : Int) = .ok x := by
  have hlt : i < r.gpa_hfinfo.length := by
    by_contra hc
    rw [List.getElem?_eq_none (by omega)] at h
    exact absurd h (by simp)
  unfold proto_registrar_get_nth
  have : (0 : Int) ≤ (i : Int) ∧ (i : Int) < (r.gpa_hfinfo.length : Int) := by omega
  simp [this, h]

theorem get_nth_out_of_range (r : registrar) (h : Int)
    (hh : ¬ (0 ≤ h ∧ h < (r.gpa_hfinfo.length : Int))) :
    proto_registrar_get_nth r h = .error fault.assertion := by
  unfold proto_registrar_get_nth
  simp [hh]

theorem get_nth_in_range (r : registrar) (h : Int)
    (hh : 0 ≤ h ∧ h < (r.gpa_hfinfo.length : Int)) :
    ∃ x, r.gpa_hfinfo[h.toNat]? = some x ∧ proto_registrar_get_nth r h = .ok x := by
  have hlt : h.toNat < r.gpa_hfinfo.length := by omega
  refine ⟨r.gpa_hfinfo[h.toNat], List.getElem?_eq_getElem hlt, ?_⟩
  have := get_nth_of_get r h.toNat _ (List.getElem?_eq_getElem hlt)
  rwa [Int.toNat_of_nonneg hh.1] at this

theorem ids_inv_new : ids_inv registrar_new := by
  intro i x h
  simp [registrar_new] at h

theorem field_init_get_new (r r1 : registrar) (hf : header_field_info) (parent id : Int)
    (h : proto_register_field_init r hf parent = .ok (r1, id)) :
    ∃ bs x, check_field hf = .ok bs ∧ id = (r.gpa_hfinfo.length : Int) ∧
      r1.gpa_hfinfo[r.gpa_hfinfo.length]? = some x ∧
      proto_registrar_get_nth r1 id = .ok x ∧ core x = core (new_hfinfo r hf parent bs) := by
  obtain ⟨bs, hc, hr1, hid⟩ := field_init_ok r r1 hf parent id h
  have hnew := enter_field_core_new r hf parent bs
  rw [← hr1] at hnew
  cases hx : r1.gpa_hfinfo[r.gpa_hfinfo.length]? with
  | none => rw [hx] at hnew; simp at hnew
  | some x =>
    rw [hx] at hnew
    simp only [Option.map_some', Option.some.injEq] at hnew
    refine ⟨bs, x, hc, hid, rfl, ?_, hnew⟩
    rw [hid]
    exact get_nth_of_get r1 _ x hx

theorem under_eq_registered_under (a : String) (ha : a ≠ "") (x : header_field_info) :
    under a x = registered_under a x := by
  unfold under registered_under filterable
  have ha' : ¬ "" = a := fun e => ha e.symm
  rw [Bool.eq_iff_iff]
  cases hn : x.name <;> cases hb : x.abbrev_ <;>
    simp only [Option.getD, Bool.and_eq_true, bne_iff_ne, beq_iff_eq, ne_eq,
      not_true_eq_false, false_and, and_false, Option.some.injEq, reduceCtorEq,
      not_false_eq_true, and_true, true_and, ha']
  rename_i n b
  constructor
  · rintro ⟨⟨h1, _⟩, h3⟩; exact ⟨h3, h1⟩
  · rintro ⟨h1, h2⟩; exact ⟨⟨h2, by rw [h1]; exact ha⟩, h1⟩

theorem chain_prev_reachable (r : registrar) :
    ∀ (fuel p : Nat) (x : header_field_info), x ∈ chain_prev r fuel (some p) →
      ∃ q, r.gpa_hfinfo[q]? = some x ∧ Relation.ReflTransGen (link_step r) p q := by
  intro fuel
  induction fuel with
  | zero => intro p x h; simp [chain_prev] at h
  | succ fuel ih =>
    intro p x h
    rw [chain_prev] at h
    cases hy : r.gpa_hfinfo[p]? with
    | none => rw [hy] at h; simp at h
    | some y =>
      rw [hy] at h
      simp only [List.mem_cons] at h
      rcases h with h | h
      · subst h
        exact ⟨p, hy, Relation.ReflTransGen.refl⟩
      · cases hp : y.same_name_prev with
        | none => rw [hp, chain_prev_none] at h; simp at h
        | some p1 =>
          rw [hp] at h
          obtain ⟨q, hq, hreach⟩ := ih p1 x h
          exact ⟨q, hq, Relation.ReflTransGen.head ⟨y, hy, Or.inr hp⟩ hreach⟩

theorem chain_prev_tree (r : registrar) (hl : link_inv r) (a : String) (fuel : Nat)
    (hfuel : r.gpa_hfinfo.length ≤ fuel) :
    chain_prev r fuel (g_tree_lookup r.gpa_name_tree a) =
      (r.gpa_hfinfo.filter (under a)).reverse := by
  rw [hl.tree a, chain_prev_last_under r a hl.prev _ _ hfuel, List.take_length]

theorem no_collision_iff (r : registrar) (name short_name filter_name : String) :
    no_collision r name short_name filter_name = true ↔
      ¬ collides r name short_name filter_name := by
  unfold no_collision collides
  simp only [Bool.and_eq_true, find_custom_isNone, proto_match_name, proto_match_short_name,
    proto_match_filter_name, ne_eq, g_strcasecmp_eq_zero]
  constructor
  · rintro ⟨⟨h1, h2⟩, h3⟩ ⟨p, hp, hc⟩
    rcases hc with hc | hc | hc
    · exact h1 p hp hc
    · exact h2 p hp hc
    · exact h3 p hp hc
  · intro h
    refine ⟨⟨?_, ?_⟩, ?_⟩
    · intro p hp hc; exact h ⟨p, hp, Or.inl hc⟩
    · intro p hp hc; exact h ⟨p, hp, Or.inr (Or.inl hc)⟩
    · intro p hp hc; exact h ⟨p, hp, Or.inr (Or.inr hc)⟩

theorem nodup_insert_sorted {β : Type} (g : protocol_t → β) (d : protocol_t)
    (l : List protocol_t) (hl : (l.map g).Nodup) (hd : ∀ p ∈ l, g p ≠ g d) :
    ((g_list_insert_sorted proto_compare_name d l).map g).Nodup := by
  have hperm := (insert_sorted_perm proto_compare_name d l).map g
  rw [hperm.nodup_iff, List.map_cons, List.nodup_cons]
  refine ⟨?_, hl⟩
  intro hmem
  obtain ⟨p, hp, hpe⟩ := List.mem_map.1 hmem
  exact hd p hp hpe

theorem reachable_names (Q : Int → Prop) (r0 r : registrar) (h0 : names_inv r0)
    (h : Registered Q r0 r) : names_inv r := by
  refine registered_preserves Q r0 names_inv h0 ?_ ?_ r h
  · intro r chunk name short_name filter_name hP hno
    have hnc := (no_collision_iff r name short_name filter_name).1 hno
    unfold names_inv
    simp only
    refine ⟨nodup_insert_sorted _ _ _ hP.1 ?_, nodup_insert_sorted _ _ _ hP.2.1 ?_,
      nodup_insert_sorted _ _ _ hP.2.2 ?_⟩
    · intro p hp hc; exact hnc ⟨p, hp, Or.inl hc⟩
    · intro p hp hc; exact hnc ⟨p, hp, Or.inr (Or.inl hc)⟩
    · intro p hp hc; exact hnc ⟨p, hp, Or.inr (Or.inr hc)⟩
  · intro parent r hf bs _ hP _
    unfold names_inv
    rw [enter_field_protocols]
    simp only
    rw [append_field_map parent _ r.protocols (fun t => casefold t.1),
      append_field_map parent _ r.protocols (fun t => casefold t.2.1),
      append_field_map parent _ r.protocols (fun t => casefold t.2.2.1)]
    exact hP

theorem names_inv_new : names_inv registrar_new := by
  simp [names_inv, registrar_new]

theorem register_protocol_ok (r r1 : registrar) (chunk : header_field_info)
    (name short_name filter_name : String) (h : Int)
    (hcall : proto_register_protocol r chunk name short_name filter_name = .ok (r1, h)) :
    no_collision r name short_name filter_name = true ∧
    h = (r.gpa_hfinfo.length : Int) ∧
    r1.gpa_hfinfo = (enter_field r (protocol_hfinfo chunk name filter_name) (-1) 0).1.gpa_hfinfo ∧
    r1.gpa_name_tree =
      (enter_field r (protocol_hfinfo chunk name filter_name) (-1) 0).1.gpa_name_tree ∧
    r1.protocols = g_list_insert_sorted proto_compare_name
      (new_protocol r name short_name filter_name) r.protocols := by
  rw [register_protocol_eq] at hcall
  split at hcall
  · rename_i hno
    simp only [Except.ok.injEq, Prod.mk.injEq] at hcall
    obtain ⟨h1, h2⟩ := hcall
    subst h1
    exact ⟨hno, h2.symm, rfl, rfl, rfl⟩
  · cases hcall

theorem enter_field_old_some (r : registrar) (hf : header_field_info) (parent : Int)
    (bs : Nat) (i : Nat) (x : header_field_info) (hx : r.gpa_hfinfo[i]? = some x) :
    ∃ y, (enter_field r hf parent bs).1.gpa_hfinfo[i]? = some y ∧ core y = core x := by
  have hlt : i < r.gpa_hfinfo.length := by
    by_contra hc
    rw [List.getElem?_eq_none (by omega)] at hx
    exact absurd hx (by simp)
  have := enter_field_core_old r hf parent bs i hlt
  rw [hx] at this
  cases hy : (enter_field r hf parent bs).1.gpa_hfinfo[i]? with
  | none => rw [hy] at this; simp at this
  | some y =>
    rw [hy] at this
    simp only [Option.map_some', Option.some.injEq] at this
    exact ⟨y, rfl, this⟩

theorem enter_field_new_some (r : registrar) (hf : header_field_info) (parent : Int)
    (bs : Nat) :
    ∃ y, (enter_field r hf parent bs).1.gpa_hfinfo[r.gpa_hfinfo.length]? = some y ∧
      core y = core (new_hfinfo r hf parent bs) := by
  have := enter_field_core_new r hf parent bs
  cases hy : (enter_field r hf parent bs).1.gpa_hfinfo[r.gpa_hfinfo.length]? with
  | none => rw [hy] at this; simp at this
  | some y =>
    rw [hy] at this
    simp only [Option.map_some', Option.some.injEq] at this
    exact ⟨y, rfl, this⟩

theorem append_field_proto_id (parent : Int) (h : Nat) (ps : List protocol_t) (k : Int) :
    (∃ p ∈ append_field parent h ps, p.proto_id = k) ↔ (∃ p ∈ ps, p.proto_id = k) := by
  have hm := append_field_map parent h ps (fun t => t.2.2.2.1)
  have e : ∀ l : List protocol_t, (∃ p ∈ l, p.proto_id = k) ↔
      k ∈ l.map (fun p => (static_part p).2.2.2.1) := by
    intro l
    simp [List.mem_map, static_part]
  rw [e, e, hm]

theorem check_field_ok_not_rejected (hf : header_field_info) (bs : Nat)
    (h : check_field hf = .ok bs) : ¬ rejected hf := by
  intro hr
  rw [(check_field_assertion_iff hf).2 hr] at h
  cases h

theorem reachable_proto_inv (Q : Int → Prop) (r0 r : registrar) (h0 : proto_inv r0)
    (h : Registered Q r0 r) : proto_inv r := by
  refine registered_preserves Q r0 proto_inv h0 ?_ ?_ r h
  · intro r chunk name short_name filter_name hP _ p hp
    simp only [mem_insert_sorted] at hp
    rcases hp with hp | hp
    · subst hp
      obtain ⟨y, hy, hc⟩ := enter_field_new_some r (protocol_hfinfo chunk name filter_name) (-1) 0
      refine ⟨r.gpa_hfinfo.length, y, rfl, hy, ?_, ?_, ?_⟩ <;> rw [hc] <;> rfl
    · obtain ⟨i, x, hi, hx, h1, h2, h3⟩ := hP p hp
      obtain ⟨y, hy, hc⟩ := enter_field_old_some r (protocol_hfinfo chunk name filter_name)
        (-1) 0 i x hx
      exact ⟨i, y, hi, hy, by rw [hc]; exact h1, by rw [hc]; exact h2, by rw [hc]; exact h3⟩
  · intro parent r hf bs _ hP _ p hp
    rw [enter_field_protocols] at hp
    obtain ⟨q, hq, hqp⟩ := (append_field_proto_id parent _ r.protocols p.proto_id).1 ⟨p, hp, rfl⟩
    obtain ⟨i, x, hi, hx, h1, h2, h3⟩ := hP q hq
    obtain ⟨y, hy, hc⟩ := enter_field_old_some
      { r with protocols := append_field parent r.gpa_hfinfo.length r.protocols }
      hf parent bs i x hx
    exact ⟨i, y, by rw [← hqp]; exact hi, hy, by rw [hc]; exact h1, by rw [hc]; exact h2,
      by rw [hc]; exact h3⟩

theorem reachable_framenum (Q : Int → Prop) (r0 r : registrar) (h0 : framenum_inv r0)
    (h : Registered Q r0 r) : framenum_inv r := by
  refine registered_preserves Q r0 framenum_inv h0 ?_ ?_ r h
  · intro r chunk name short_name filter_name hP _
    refine enter_field_forall_core (fun _ x => x.type = FT_FRAMENUM → x.bitmask = 0) r _ _ _ hP ?_
    intro ht
    simp [core, new_hfinfo, protocol_hfinfo] at ht
  · intro parent r hf bs _ hP hc
    refine enter_field_forall_core (fun _ x => x.type = FT_FRAMENUM → x.bitmask = 0)
      { r with protocols := append_field parent r.gpa_hfinfo.length r.protocols } _ _ _ hP ?_
    intro ht
    have hnr := check_field_ok_not_rejected hf bs hc
    simp only [core, new_hfinfo] at ht ⊢
    by_contra hb
    exact hnr (Or.inr (Or.inr (Or.inr (Or.inr ⟨ht, Or.inl hb⟩))))

theorem proto_init_ok (mem mem0 : Nat → Int) (r0 : registrar)
    (h : proto_init mem = .ok (r0, mem0)) : r0 = init_state := by
  unfold proto_init proto_init_hf at h
  rw [field_array_cons] at h
  split at h
  · have hc : check_field (hf_entry "" "" FT_NONE BASE_NONE none 0 none) = .ok 0 := rfl
    simp only [hc, proto_register_field_array, Except.ok.injEq, Prod.mk.injEq] at h
    rw [← h.1]
    rfl
  · cases h

theorem foo_state_registered (Q : Int → Prop) (hQ : Q 1) :
    Registered Q init_state foo_state := by
  have h2 : ∃ r1, proto_register_protocol init_state (hf_entry "" "" FT_NONE 0 none 0 none)
      "Foo" "FOO" "foo" = .ok (r1, 1) ∧
      ∃ m, proto_register_field_array 1 r1 example_mem foo_fields = .ok (foo_state, m) :=
    ⟨_, rfl, _, rfl⟩
  obtain ⟨r1, h2, m, h3⟩ := h2
  exact Registered.field_array (Registered.protocol Registered.start h2) hQ h3

theorem parent_inv_init : parent_inv init_state := by
  refine ⟨⟨_, rfl, rfl, rfl⟩, ?_, ?_⟩
  · intro p hp; simp [init_state] at hp
  · intro i x hx hi
    have : i < init_state.gpa_hfinfo.length := by
      by_contra hc
      rw [List.getElem?_eq_none (by omega)] at hx
      exact absurd hx (by simp)
    simp [init_state] at this
    omega

theorem reachable_parent_inv (r0 r : registrar) (h0 : parent_inv r0)
    (h : Registered (fun parent => parent ≠ -1) r0 r) : parent_inv r := by
  refine registered_preserves _ r0 parent_inv h0 ?_ ?_ r h
  · intro r chunk name short_name filter_name hP _
    obtain ⟨⟨x0, hx0, hp0, ht0⟩, hge, hpar⟩ := hP
    have hlen : 1 ≤ r.gpa_hfinfo.length := by
      by_contra hc
      rw [List.getElem?_eq_none (by omega)] at hx0
      exact absurd hx0 (by simp)
    refine ⟨?_, ?_, ?_⟩
    · obtain ⟨y, hy, hc⟩ := enter_field_old_some r (protocol_hfinfo chunk name filter_name)
        (-1) 0 0 x0 hx0
      exact ⟨y, hy, by rw [hc]; exact hp0, by rw [hc]; exact ht0⟩
    · intro p hp
      simp only [mem_insert_sorted] at hp
      rcases hp with hp | hp
      · subst hp
        simp only [new_protocol]
        omega
      · exact hge p hp
    · refine enter_field_forall_core
        (fun i x => 1 ≤ i → x.parent = -1 →
          ∃ p ∈ g_list_insert_sorted proto_compare_name
            (new_protocol r name short_name filter_name) r.protocols, p.proto_id = (i : Int))
        r _ _ _ ?_ ?_
      · intro i x hx hi hp
        obtain ⟨p, hpm, hpi⟩ := hpar i x hx hi hp
        exact ⟨p, (mem_insert_sorted _ _ _ _).2 (Or.inr hpm), hpi⟩
      · intro _ _
        exact ⟨_, (mem_insert_sorted _ _ _ _).2 (Or.inl rfl), rfl⟩
  · intro parent r hf bs hQ hP _
    obtain ⟨⟨x0, hx0, hp0, ht0⟩, hge, hpar⟩ := hP
    refine ⟨?_, ?_, ?_⟩
    · obtain ⟨y, hy, hc⟩ := enter_field_old_some
        { r with protocols := append_field parent r.gpa_hfinfo.length r.protocols }
        hf parent bs 0 x0 hx0
      exact ⟨y, hy, by rw [hc]; exact hp0, by rw [hc]; exact ht0⟩
    · intro p hp
      rw [enter_field_protocols] at hp
      obtain ⟨q, hq, hqp⟩ :=
        (append_field_proto_id parent _ r.protocols p.proto_id).1 ⟨p, hp, rfl⟩
      rw [← hqp]; exact hge q hq
    · rw [enter_field_protocols]
      refine enter_field_forall_core
        (fun i x => 1 ≤ i → x.parent = -1 →
          ∃ p ∈ append_field parent r.gpa_hfinfo.length r.protocols, p.proto_id = (i : Int))
        { r with protocols := append_field parent r.gpa_hfinfo.length r.protocols } _ _ _ ?_ ?_
      · intro i x hx hi hp
        exact (append_field_proto_id parent _ r.protocols _).2 (hpar i x hx hi hp)
      · intro _ hp
        exact absurd hp hQ

theorem proto_inv_new : proto_inv registrar_new := by
  intro p hp; simp [registrar_new] at hp

theorem proto_inv_init : proto_inv init_state := by
  intro p hp; simp [init_state] at hp

theorem framenum_inv_new : framenum_inv registrar_new := by
  intro i x hx; simp [registrar_new] at hx

theorem ids_inv_init : ids_inv init_state := by
  intro i x hx
  have : i < init_state.gpa_hfinfo.length := by
    by_contra hc
    rw [List.getElem?_eq_none (by omega)] at hx
    exact absurd hx (by simp)
  have hi : i = 0 := by simp [init_state] at this; omega
  subst hi
  simp only [init_state, List.getElem?_cons_zero, Option.some.injEq] at hx
  subst hx
  rfl

theorem is_protocol_eq (r : registrar) (h : Int) (x : header_field_info)
    (hget : proto_registrar_get_nth r h = .ok x) :
    proto_registrar_is_protocol r h = .ok (decide (x.parent = -1)) := by
  unfold proto_registrar_is_protocol
  rw [hget]
  simp only [bind, Except.bind, pure, Except.pure]
  by_cases hp : x.parent = -1 <;> simp [hp]

theorem string_mask_state_reachable : Reachable string_mask_state := by
  have hcall : proto_register_field_array 7 init_state example_mem
      [⟨1, hf_entry "Text" "foo.text" FT_STRING BASE_NONE none 1 none⟩] =
      .ok (string_mask_state, Function.update example_mem 1 1) := rfl
  exact Registered.field_array init_state_reachable trivial hcall

theorem field_array_success (parent : Int) :
    ∀ (hfs : List hf_register_info) (r : registrar) (mem : Nat → Int),
      (hfs.map (fun p => p.p_id)).Nodup →
      (∀ ptr ∈ hfs, slot_free mem ptr ∧ passes_validation ptr) →
      ∃ r1 mem1, proto_register_field_array parent r mem hfs = .ok (r1, mem1) ∧
        r1.gpa_hfinfo.length = r.gpa_hfinfo.length + hfs.length ∧
        (∀ (i : Nat) (x : header_field_info), r.gpa_hfinfo[i]? = some x →
          ∃ y, r1.gpa_hfinfo[i]? = some y ∧ core y = core x) ∧
        (∀ a, a ∉ hfs.map (fun p => p.p_id) → mem1 a = mem a) ∧
        ∀ (k : Nat) (ptr : hf_register_info), hfs[k]? = some ptr →
          mem1 ptr.p_id = ((r.gpa_hfinfo.length + k : Nat) : Int) ∧
          ∃ y, r1.gpa_hfinfo[r.gpa_hfinfo.length + k]? = some y ∧
            (core y).parent = parent ∧
            (core y).id = ((r.gpa_hfinfo.length + k : Nat) : Int) ∧
            (core y).name = ptr.hfinfo.name ∧ (core y).abbrev_ = ptr.hfinfo.abbrev_ ∧
            (core y).type = ptr.hfinfo.type ∧ (core y).bitmask = ptr.hfinfo.bitmask := by
  intro hfs
  induction hfs with
  | nil =>
    intro r mem _ _
    refine ⟨r, mem, rfl, by simp, fun i x hx => ⟨x, hx, rfl⟩, fun _ _ => rfl, ?_⟩
    intro k ptr hk
    simp at hk
  | cons ptr rest ih =>
    intro r mem hnd hall
    simp only [List.map_cons, List.nodup_cons] at hnd
    obtain ⟨hfree, bs, hbs⟩ := hall ptr (List.mem_cons_self _ _)
    have hallrest : ∀ q ∈ rest,
        slot_free (Function.update mem ptr.p_id (r.gpa_hfinfo.length : Int)) q ∧
          passes_validation q := by
      intro q hq
      obtain ⟨h1, h2⟩ := hall q (List.mem_cons_of_mem _ hq)
      refine ⟨?_, h2⟩
      have hne : q.p_id ≠ ptr.p_id := by
        intro e
        exact hnd.1 (List.mem_map.2 ⟨q, hq, e⟩)
      unfold slot_free
      rw [Function.update_noteq hne]
      exact h1
    obtain ⟨r1, mem1, hcall, hlen, hold, hmem, hnew⟩ :=
      ih (enter_field { r with protocols := append_field parent r.gpa_hfinfo.length r.protocols }
            ptr.hfinfo parent bs).1
        (Function.update mem ptr.p_id (r.gpa_hfinfo.length : Int)) hnd.2 hallrest
    have hl1 := enter_field_length
      { r with protocols := append_field parent r.gpa_hfinfo.length r.protocols }
      ptr.hfinfo parent bs
    simp only at hl1
    refine ⟨r1, mem1, ?_, ?_, ?_, ?_, ?_⟩
    · rw [field_array_cons, if_pos (show mem ptr.p_id = -1 ∨ mem ptr.p_id = 0 from hfree), hbs]
      exact hcall
    · rw [hlen, hl1, List.length_cons]; omega
    · intro i x hx
      obtain ⟨y, hy, hc⟩ := enter_field_old_some
        { r with protocols := append_field parent r.gpa_hfinfo.length r.protocols }
        ptr.hfinfo parent bs i x hx
      obtain ⟨z, hz, hc2⟩ := hold i y hy
      exact ⟨z, hz, hc2.trans hc⟩
    · intro a ha
      simp only [List.map_cons, List.mem_cons, not_or] at ha
      rw [hmem a ha.2, Function.update_noteq ha.1]
    · intro k q hk
      cases k with
      | zero =>
        simp only [List.getElem?_cons_zero, Option.some.injEq] at hk
        subst hk
        refine ⟨?_, ?_⟩
        · rw [hmem _ hnd.1, Function.update_same]; rfl
        · obtain ⟨y, hy, hc⟩ := enter_field_new_some
            { r with protocols := append_field parent r.gpa_hfinfo.length r.protocols }
            ptr.hfinfo parent bs
          obtain ⟨z, hz, hc2⟩ := hold _ y hy
          refine ⟨z, hz, ?_, ?_, ?_, ?_, ?_, ?_⟩ <;> rw [hc2, hc] <;> rfl
      | succ k =>
        simp only [List.getElem?_cons_succ] at hk
        obtain ⟨h1, y, hy, h2⟩ := hnew k q hk
        rw [hl1] at h1 hy h2
        have e : r.gpa_hfinfo.length + 1 + k = r.gpa_hfinfo.length + (k + 1) := by omega
        rw [e] at h1 hy h2
        exact ⟨h1, y, hy, h2⟩

theorem field_array_failure (parent : Int) :
    ∀ (pre : List hf_register_info) (r : registrar) (mem : Nat → Int)
      (bad : hf_register_info) (post : List hf_register_info),
      ((pre ++ [bad]).map (fun p => p.p_id)).Nodup →
      (∀ ptr ∈ pre, slot_free mem ptr ∧ passes_validation ptr) →
      ¬ slot_free mem bad →
      proto_register_field_array parent r mem (pre ++ bad :: post) =
        .error fault.assertion := by
  intro pre
  induction pre with
  | nil =>
    intro r mem bad post _ _ hbad
    rw [List.nil_append, field_array_cons,
      if_neg (show ¬ (mem bad.p_id = -1 ∨ mem bad.p_id = 0) from hbad)]
  | cons ptr rest ih =>
    intro r mem bad post hnd hall hbad
    simp only [List.cons_append, List.map_cons, List.nodup_cons] at hnd
    obtain ⟨hfree, bs, hbs⟩ := hall ptr (List.mem_cons_self _ _)
    rw [List.cons_append, field_array_cons,
      if_pos (show mem ptr.p_id = -1 ∨ mem ptr.p_id = 0 from hfree), hbs]
    simp only
    apply ih _ _ bad post hnd.2
    · intro q hq
      obtain ⟨h1, h2⟩ := hall q (List.mem_cons_of_mem _ hq)
      refine ⟨?_, h2⟩
      have hne : q.p_id ≠ ptr.p_id := by
        intro e
        exact hnd.1 (List.mem_map.2 ⟨q, List.mem_append_left _ hq, e⟩)
      unfold slot_free
      rw [Function.update_noteq hne]
      exact h1
    · have hne : bad.p_id ≠ ptr.p_id := by
        intro e
        exact hnd.1 (List.mem_map.2 ⟨bad, by simp, e⟩)
      unfold slot_free
      rw [Function.update_noteq hne]
      exact hbad

theorem last_under_none (l : List header_field_info) (a : String) :
    ∀ k, last_under l a k = none →
      ∀ (j : Nat) (x : header_field_info), j < k → l[j]? = some x → under a x = false := by
  intro k
  induction k with
  | zero => intro _ j x hj; omega
  | succ k ih =>
    intro h j x hj hx
    rw [last_under] at h
    cases hk : l[k]? with
    | none =>
      rw [hk] at h
      have hjk : j ≠ k := by
        rintro rfl
        rw [hk] at hx; cases hx
      exact ih h j x (by omega) hx
    | some y =>
      rw [hk] at h
      by_cases hu : under a y = true
      · simp [hu] at h
      · have hu' : under a y = false := by simpa using hu
        simp only [hu', Bool.false_eq_true, if_false] at h
        by_cases hjk : j = k
        · subst hjk
          rw [hk] at hx
          cases hx
          exact hu'
        · exact ih h j x (by omega) hx

theorem under_nonempty (a : String) (x : header_field_info) (h : under a x = true) :
    a ≠ "" := by
  simp only [under, filterable, Bool.and_eq_true, bne_iff_ne, ne_eq, beq_iff_eq] at h
  rw [← h.2]
  exact h.1.2

theorem get_nth_ok_range (r : registrar) (h : Int) (x : header_field_info)
    (hx : proto_registrar_get_nth r h = .ok x) :
    0 ≤ h ∧ h < (r.gpa_hfinfo.length : Int) := by
  by_contra hc
  rw [get_nth_out_of_range r h hc] at hx
  exact absurd hx (by simp)

theorem alloc_field_info_eq (r : registrar) (t : ptree) (hfindex : Int)
    (tvb : Option tvbuff) (start length : Int) (hf : header_field_info)
    (hget : proto_registrar_get_nth r hfindex = .ok hf)
    (htvb : tvb.isSome = true ∨ length = 0) :
    alloc_field_info r t hfindex tvb start length =
      (if length = -1 then
        match hf.type with
        | FT_PROTOCOL | FT_NONE | FT_BYTES | FT_STRING => tvb_ensure_length_remaining tvb start
        | FT_STRINGZ => pure length
        | _ => .error fault.assertion
      else pure length) >>= fun len =>
        pure (new_field_info t hf tvb start len, len) := by
  have hr := get_nth_ok_range r hfindex hf hget
  have h1 : (tvb.isSome || length == 0) = true := by
    rcases htvb with h | h
    · simp [h]
    · simp [h]
  have h2 : (decide (0 ≤ hfindex) && decide (hfindex < (r.gpa_hfinfo.length : Int))) = true := by
    simp [hr.1, hr.2]
  unfold alloc_field_info
  rw [h1, h2]
  simp only [g_assert, if_true, hget]
  simp only [bind, Except.bind, pure, Except.pure]
  by_cases hl : length = -1
  · simp only [hl, if_true]
    obtain ⟨n, a, ty, d, st, bm, bl, i, pa, bs, sn, sp⟩ := hf
    cases ty <;> rfl
  · simp only [hl, if_false]
    rfl

theorem alloc_field_info_resolve (r : registrar) (t : ptree) (hfindex : Int)
    (tvb : Option tvbuff) (start length : Int) (hf : header_field_info)
    (hget : proto_registrar_get_nth r hfindex = .ok hf)
    (htvb : tvb.isSome = true ∨ length = 0) :
    alloc_field_info r t hfindex tvb start length =
      resolve_length hf tvb start length >>= fun len =>
        pure (new_field_info t hf tvb start len, len) :=
  alloc_field_info_eq r t hfindex tvb start length hf hget htvb

theorem node_at_append_self : ∀ (P : List Nat) (n tnode c : proto_node),
    node_at n P = some tnode →
    node_at (g_node_append n P c) P = some (.mk tnode.finfo (tnode.children ++ [c])) := by
  intro P
  induction P with
  | nil =>
    intro n tnode c h
    cases n with
    | mk fi cs =>
      simp only [node_at, Option.some.injEq] at h
      subst h
      rfl
  | cons i P ih =>
    intro n tnode c h
    cases n with
    | mk fi cs =>
      simp only [node_at] at h
      cases hc : cs[i]? with
      | none => rw [hc] at h; exact absurd h (by simp)
      | some ch =>
        rw [hc] at h
        have hi : i < cs.length := by
          by_contra hlt
          rw [List.getElem?_eq_none (by omega)] at hc
          exact absurd hc (by simp)
        simp only [g_node_append, hc, node_at]
        rw [List.getElem?_set_self hi]
        exact ih ch tnode c h

theorem node_at_append_new (P : List Nat) (n tnode c : proto_node)
    (h : node_at n P = some tnode) :
    node_at (g_node_append n P c) (P ++ [tnode.children.length]) = some c := by
  have key : ∀ (Q : List Nat) (m x : proto_node) (k : Nat),
      node_at m Q = some x → x.children[k]? = some c → node_at m (Q ++ [k]) = some c := by
    intro Q
    induction Q with
    | nil =>
      intro m x k hm hk
      cases m with
      | mk fi cs =>
        simp only [node_at, Option.some.injEq] at hm
        subst hm
        simp only [List.nil_append, node_at]
        have hk2 : cs[k]? = some c := hk
        rw [hk2]
    | cons i Q ih =>
      intro m x k hm hk
      cases m with
      | mk fi cs =>
        simp only [node_at] at hm
        simp only [List.cons_append, node_at]
        cases hc : cs[i]? with
        | none => rw [hc] at hm; exact absurd hm (by simp)
        | some ch =>
          rw [hc] at hm
          exact ih ch x k hm hk
  refine key P _ _ _ (node_at_append_self P n tnode c h) ?_
  show (tnode.children ++ [c])[tnode.children.length]? = some c
  simp

theorem add_node_eq (num_tree_types : Int) (t : ptree) (P : List Nat) (fi : field_info)
    (tnode : proto_node) (hP : node_at t.root P = some tnode)
    (hok : accepts_children num_tree_types tnode = true) :
    proto_tree_add_node num_tree_types t P fi =
      .ok (P ++ [tnode.children.length],
        { t with root := g_node_append t.root P (.mk (some fi) []) }) := by
  unfold proto_tree_add_node
  rw [hP]
  have : (match tnode.finfo with
      | none => true
      | some tfi => decide (tfi.tree_type ≥ 0) && decide (tfi.tree_type < num_tree_types))
      = true := hok
  simp only [this, g_assert, if_true]
  rfl

theorem add_item_eq (r : registrar) (num_tree_types : Int) (t : ptree) (P : List Nat)
    (hfindex : Int) (tvb : Option tvbuff) (start length : Int) (little_endian : Bool)
    (hf : header_field_info) (tnode : proto_node)
    (hget : proto_registrar_get_nth r hfindex = .ok hf)
    (htvb : tvb.isSome = true ∨ length = 0)
    (hP : node_at t.root P = some tnode)
    (hok : accepts_children num_tree_types tnode = true) :
    proto_tree_add_item r num_tree_types t (some P) hfindex tvb start length little_endian =
      (resolve_length hf tvb start length >>= fun len =>
        add_item_value (new_field_info t hf tvb start len) tvb start len little_endian)
        >>= fun fi =>
          pure (some (P ++ [tnode.children.length]),
            { root := g_node_append t.root P (.mk (some fi) []),
              tree_data :=
                record_interesting t.tree_data hfindex (P ++ [tnode.children.length]) }) := by
  unfold proto_tree_add_item
  simp only []
  rw [alloc_field_info_resolve r t hfindex tvb start length hf hget htvb]
  cases hres : resolve_length hf tvb start length with
  | error e => rfl
  | ok len =>
    simp only [bind, Except.bind, pure, Except.pure]
    cases hval : add_item_value (new_field_info t hf tvb start len) tvb start len
        little_endian with
    | error e => rfl
    | ok fi =>
      simp only []
      rw [add_node_eq num_tree_types t P fi tnode hP hok]

theorem added_fi_add_item (r : registrar) (num_tree_types : Int) (t : ptree) (P : List Nat)
    (hfindex : Int) (tvb : Option tvbuff) (start length : Int) (little_endian : Bool)
    (hf : header_field_info) (tnode : proto_node)
    (hget : proto_registrar_get_nth r hfindex = .ok hf)
    (htvb : tvb.isSome = true ∨ length = 0)
    (hP : node_at t.root P = some tnode)
    (hok : accepts_children num_tree_types tnode = true)
    (len : Int) (fi : field_info)
    (hlen : resolve_length hf tvb start length = .ok len)
    (hval : add_item_value (new_field_info t hf tvb start len) tvb start len little_endian
      = .ok fi) :
    added_fi (proto_tree_add_item r num_tree_types t (some P) hfindex tvb start length
      little_endian) = some fi := by
  rw [add_item_eq r num_tree_types t P hfindex tvb start length little_endian hf tnode
    hget htvb hP hok, hlen]
  simp only [bind, Except.bind, hval, pure, Except.pure, added_fi]
  rw [node_at_append_new P t.root tnode _ hP]
  rfl

theorem dissect_state_reachable : Reachable dissect_state := by
  have h2 : ∃ r1, proto_register_protocol init_state (hf_entry "" "" FT_NONE 0 none 0 none)
      "Foo" "FOO" "foo" = .ok (r1, 1) ∧
      ∃ m, proto_register_field_array 1 r1 example_mem dissect_fields
        = .ok (dissect_state, m) := by
    exact ⟨_, rfl, _, rfl⟩
  obtain ⟨r1, h2, m, h3⟩ := h2
  exact Registered.field_array (Registered.protocol init_state_reachable h2) trivial h3

theorem tvb_get_ptr_ok (b : tvbuff) (offset length : Int) (h0 : 0 ≤ offset)
    (hl : 0 ≤ length) (h : offset + length ≤ b.octets.length) :
    tvb_get_ptr (some b) offset length = .ok (span b offset length) := by
  simp only [tvb_get_ptr]
  rw [if_pos ⟨h0, hl, h⟩]
  rfl

theorem span_length_le (b : tvbuff) (offset length : Int) :
    (span b offset length).length ≤ length.toNat := by
  simp only [span, List.length_map, List.length_take]
  omega

theorem pletoh_short (l : List Nat) (h : l.length ≤ 1) : pletoh l = pntoh l := by
  match l, h with
  | [], _ => rfl
  | [_], _ => rfl

theorem get_uint_value_ok (b : tvbuff) (offset length : Int) (little_endian : Bool)
    (hlen : length = 1 ∨ length = 2 ∨ length = 3 ∨ length = 4)
    (h0 : 0 ≤ offset) (h : offset + length ≤ b.octets.length) :
    get_uint_value (some b) offset length little_endian =
      .ok (octets_value little_endian (span b offset length)) := by
  have hp := tvb_get_ptr_ok b offset length h0 (by omega) h
  rcases hlen with h1 | h1 | h1 | h1 <;> subst h1 <;> cases little_endian <;>
    simp [get_uint_value, tvb_get_guint8, tvb_get_ntohs, tvb_get_letohs, tvb_get_ntoh24,
      tvb_get_letoh24, tvb_get_ntohl, tvb_get_letohl, hp, octets_value, Except.map]
  exact (pletoh_short _ (span_length_le b offset 1)).symm

theorem get_uint_value_assert (tvb : Option tvbuff) (offset length : Int)
    (little_endian : Bool)
    (hlen : ¬ (length = 1 ∨ length = 2 ∨ length = 3 ∨ length = 4)) :
    get_uint_value tvb offset length little_endian = .error fault.assertion := by
  simp only [not_or] at hlen
  obtain ⟨h1, h2, h3, h4⟩ := hlen
  simp only [get_uint_value, h1, h2, h3, h4, if_false]

theorem get_int_value_eq (tvb : Option tvbuff) (offset length : Int) (little_endian : Bool) :
    get_int_value tvb offset length little_endian =
      (get_uint_value tvb offset length little_endian).map (int_of_uint length) := by
  unfold get_int_value get_uint_value
  by_cases h1 : length = 1
  · subst h1; simp [int_of_uint]
    rfl
  by_cases h2 : length = 2
  · subst h2; simp [int_of_uint]
    rfl
  by_cases h3 : length = 3
  · subst h3; simp only [if_true]
    congr 1
  by_cases h4 : length = 4
  · subst h4; simp [int_of_uint]
    rfl
  simp only [h1, h2, h3, h4, if_false]
  rfl

theorem set_uint_ok (fi : field_info) (value : Nat)
    (hs : fi.hfinfo.bitmask = 0 ∨ fi.hfinfo.bitshift < 32) :
    proto_tree_set_uint fi value =
      .ok { fi with value := fvalue.integer (bitfield fi.hfinfo (value % 2 ^ 32)) } := by
  unfold proto_tree_set_uint bitfield fvalue_set_integer
  by_cases hm : fi.hfinfo.bitmask = 0
  · simp [hm]
  · have hlt : fi.hfinfo.bitshift < 32 := hs.resolve_left hm
    by_cases h0 : fi.hfinfo.bitshift > 0
    · simp [hm, h0, hlt]
    · have hz : fi.hfinfo.bitshift = 0 := by omega
      simp [hm, hz]

theorem set_int_eq (fi : field_info) (value : Int) :
    proto_tree_set_int fi value = proto_tree_set_uint fi (to_guint32 value) := by
  have hmod : to_guint32 value % 2 ^ 32 = to_guint32 value := by
    unfold to_guint32
    omega
  unfold proto_tree_set_int proto_tree_set_uint
  simp only [hmod]

theorem add_item_value_fault (r : registrar) (num_tree_types : Int) (t : ptree)
    (P : List Nat) (hfindex : Int) (tvb : Option tvbuff) (start length : Int)
    (little_endian : Bool) (hf : header_field_info) (e : fault)
    (hget : proto_registrar_get_nth r hfindex = .ok hf)
    (htvb : tvb.isSome = true ∨ length = 0)
    (hval : (resolve_length hf tvb start length >>= fun len =>
      add_item_value (new_field_info t hf tvb start len) tvb start len little_endian)
        = .error e) :
    proto_tree_add_item r num_tree_types t (some P) hfindex tvb start length little_endian
      = .error e := by
  unfold proto_tree_add_item
  simp only []
  rw [alloc_field_info_resolve r t hfindex tvb start length hf hget htvb]
  cases hres : resolve_length hf tvb start length with
  | error e1 =>
    rw [hres] at hval
    have : e1 = e := by
      simpa [bind, Except.bind] using hval
    subst this
    rfl
  | ok len =>
    rw [hres] at hval
    simp only [bind, Except.bind, pure, Except.pure] at hval ⊢
    rw [hval]

theorem hf_top_registered : proto_registrar_get_nth dissect_state 11 = .ok hf_top := by
  rfl

theorem to_gint_small (y : Nat) (h : y < 2 ^ 31) : to_gint 32 y = (y : Int) := by
  have h1 : y % 2 ^ 32 = y := Nat.mod_eq_of_lt (by omega)
  unfold to_gint
  rw [h1, if_pos (by simpa using h)]

theorem to_guint32_natCast (y : Nat) (h : y < 2 ^ 32) : to_guint32 (y : Int) = y := by
  unfold to_guint32
  omega

theorem arith_shift_small (y s : Nat) (h : y < 2 ^ 31) :
    arith_shift_right32 y s = y >>> s := by
  unfold arith_shift_right32
  rw [to_gint_small y h]
  have h2 : Int.shiftRight (y : Int) s = ((y >>> s : Nat) : Int) := rfl
  rw [h2]
  apply to_guint32_natCast
  have : y >>> s ≤ y := by
    rw [Nat.shiftRight_eq_div_pow]
    exact Nat.div_le_self _ _
  omega

theorem low_nibble (b : Nat) (hb : b < 256) : (b % 256 % 2 ^ 32) &&& 0x0F = b % 16 := by
  interval_cases b <;> rfl

theorem high_nibble (b : Nat) (hb : b < 256) :
    ((b % 256 % 2 ^ 32) &&& 0xF0) >>> 4 = b / 16 := by
  interval_cases b <;> rfl

theorem span_one (b : Nat) : span (buffer_of [b]) 0 1 = [b % 256] := rfl

theorem pntoh_one (x : Nat) : pntoh [x] = x := by
  simp [pntoh]

theorem pntoh_foldl_lt : ∀ (l : List Nat) (acc : Nat), (∀ x ∈ l, x < 256) →
    l.foldl (fun a b => a * 256 + b) acc < (acc + 1) * 256 ^ l.length := by
  intro l
  induction l with
  | nil => intro acc _; simp
  | cons x rest ih =>
    intro acc h
    have hx : x < 256 := h x (List.mem_cons_self _ _)
    have := ih (acc * 256 + x) (fun y hy => h y (List.mem_cons_of_mem _ hy))
    simp only [List.foldl_cons, List.length_cons]
    calc rest.foldl (fun a b => a * 256 + b) (acc * 256 + x)
        < (acc * 256 + x + 1) * 256 ^ rest.length := this
      _ ≤ ((acc + 1) * 256) * 256 ^ rest.length := by
          apply Nat.mul_le_mul_right
          omega
      _ = (acc + 1) * 256 ^ (rest.length + 1) := by
          rw [pow_succ]
          ring

theorem pntoh_lt (l : List Nat) (h : ∀ x ∈ l, x < 256) : pntoh l < 256 ^ l.length := by
  have := pntoh_foldl_lt l 0 h
  simpa [pntoh] using this

theorem span_lt (b : tvbuff) (offset length : Int) : ∀ x ∈ span b offset length, x < 256 := by
  intro x hx
  simp only [span, List.mem_map] at hx
  obtain ⟨y, _, rfl⟩ := hx
  exact Nat.mod_lt _ (by decide)

theorem octets_value_lt (little_endian : Bool) (b : tvbuff) (offset length : Int) :
    octets_value little_endian (span b offset length) < 256 ^ length.toNat := by
  have hle : (256 : Nat) ^ (span b offset length).length ≤ 256 ^ length.toNat :=
    Nat.pow_le_pow_right (by decide) (span_length_le b offset length)
  cases little_endian
  · exact lt_of_lt_of_le (pntoh_lt _ (span_lt b offset length)) hle
  · have h1 : pletoh (span b offset length) < 256 ^ (span b offset length).reverse.length :=
      pntoh_lt _ (fun x hx => span_lt b offset length x (List.mem_reverse.mp hx))
    rw [List.length_reverse] at h1
    exact lt_of_lt_of_le h1 hle

theorem add_item_value_uint (t : ptree) (hf : header_field_info) (b : tvbuff)
    (start length : Int) (little_endian : Bool)
    (hty : hf.type ∈ uint_types) (hm : hf.bitmask = 0)
    (hlen : length = 1 ∨ length = 2 ∨ length = 3 ∨ length = 4)
    (h0 : 0 ≤ start) (h1 : start + length ≤ b.octets.length) :
    add_item_value (new_field_info t hf (some b) start length) (some b) start length
      little_endian =
      .ok { new_field_info t hf (some b) start length with
            value := fvalue.integer (octets_value little_endian (span b start length)) } := by
  have hu := get_uint_value_ok b start length little_endian hlen h0 h1
  have hlt : octets_value little_endian (span b start length) < 2 ^ 32 := by
    have h2 := octets_value_lt little_endian b start length
    have h3 : (256 : Nat) ^ length.toNat ≤ 256 ^ 4 :=
      Nat.pow_le_pow_right (by decide) (by omega)
    have h4 : (256 : Nat) ^ 4 = 2 ^ 32 := by norm_num
    omega
  have hs : (new_field_info t hf (some b) start length).hfinfo.bitmask = 0 := hm
  have hv : proto_tree_set_uint (new_field_info t hf (some b) start length)
      (octets_value little_endian (span b start length)) =
      .ok { new_field_info t hf (some b) start length with
            value := fvalue.integer (octets_value little_endian (span b start length)) } := by
    rw [set_uint_ok _ _ (Or.inl hs), Nat.mod_eq_of_lt hlt]
    simp [bitfield, hs]
  obtain ⟨n, a, ty, d, st, bm, bl, i, pa, bs, sn, sp⟩ := hf
  simp only [uint_types, List.mem_cons, List.mem_singleton, List.mem_nil_iff,
    or_false] at hty
  rcases hty with h | h | h | h <;> subst h <;>
    simp only [add_item_value, new_field_info, hu, bind, Except.bind] <;>
    exact hv

theorem add_item_value_sint (t : ptree) (hf : header_field_info) (b : tvbuff)
    (start length : Int) (little_endian : Bool)
    (hty : hf.type ∈ sint_types) (hm : hf.bitmask = 0)
    (hlen : length = 1 ∨ length = 2 ∨ length = 3 ∨ length = 4)
    (h0 : 0 ≤ start) (h1 : start + length ≤ b.octets.length) :
    add_item_value (new_field_info t hf (some b) start length) (some b) start length
      little_endian =
      .ok { new_field_info t hf (some b) start length with
            value := fvalue.integer
              (to_guint32 (int_of_uint length
                (octets_value little_endian (span b start length)))) } := by
  have hu := get_uint_value_ok b start length little_endian hlen h0 h1
  have hs : (new_field_info t hf (some b) start length).hfinfo.bitmask = 0 := hm
  have hmod : ∀ x : Int, to_guint32 x % 2 ^ 32 = to_guint32 x := by
    intro x
    unfold to_guint32
    omega
  have hv : proto_tree_set_int (new_field_info t hf (some b) start length)
      (int_of_uint length (octets_value little_endian (span b start length))) =
      .ok { new_field_info t hf (some b) start length with
            value := fvalue.integer
              (to_guint32 (int_of_uint length
                (octets_value little_endian (span b start length)))) } := by
    rw [set_int_eq, set_uint_ok _ _ (Or.inl hs), hmod]
    simp [bitfield, hs]
  obtain ⟨n, a, ty, d, st, bm, bl, i, pa, bs, sn, sp⟩ := hf
  simp only [sint_types, List.mem_cons, List.mem_singleton, List.mem_nil_iff,
    or_false] at hty
  rcases hty with h | h | h | h <;> subst h <;>
    simp only [add_item_value, new_field_info, get_int_value_eq, hu, bind, Except.bind,
      Except.map] <;>
    exact hv

theorem bit23_iff (u : Nat) (h : u < 2 ^ 24) : u &&& 0x00800000 ≠ 0 ↔ 2 ^ 23 ≤ u := by
  have h1 : u &&& 8388608 = (u.testBit 23).toNat * 8388608 := Nat.and_two_pow u 23
  have h2 : u.testBit 23 = decide (u / 8388608 % 2 = 1) := Nat.testBit_to_div_mod
  rw [h1, h2]
  by_cases hc : 8388608 ≤ u
  · have : u / 8388608 % 2 = 1 := by omega
    simp [this, hc]
  · have : ¬ (u / 8388608 % 2 = 1) := by omega
    simp [this, hc]

theorem or_ff000000 (u : Nat) (h : u < 2 ^ 24) : u ||| 0xFF000000 = u + 0xFF000000 := by
  have h1 : 2 ^ 24 * 255 + u = 2 ^ 24 * 255 ||| u := Nat.mul_add_lt_is_or h 255
  have h2 : (2 : Nat) ^ 24 * 255 = 0xFF000000 := by decide
  rw [h2] at h1
  rw [Nat.lor_comm, ← h1, Nat.add_comm]

theorem int_of_uint_eq (length : Int) (u : Nat)
    (hlen : length = 1 ∨ length = 2 ∨ length = 3 ∨ length = 4)
    (hu : u < 256 ^ length.toNat) :
    int_of_uint length u = to_gint (8 * length.toNat) u := by
  rcases hlen with h | h | h | h <;> subst h
  · rfl
  · rfl
  · have hu2 : u < 2 ^ 24 := hu
    have hb := bit23_iff u hu2
    have ho := or_ff000000 u hu2
    have hm24 : u % 2 ^ 24 = u := Nat.mod_eq_of_lt hu2
    have hm32 : u % 2 ^ 32 = u := Nat.mod_eq_of_lt (by omega)
    have hm32b : (u + 0xFF000000) % 2 ^ 32 = u + 0xFF000000 := Nat.mod_eq_of_lt (by omega)
    show (if u &&& 0x00800000 ≠ 0 then to_gint 32 (u ||| 0xFF000000) else to_gint 32 u)
      = to_gint 24 u
    by_cases hc : 2 ^ 23 ≤ u
    · rw [if_pos (hb.mpr hc), ho]
      unfold to_gint
      rw [hm24, hm32b, if_neg (by omega), if_neg (by omega)]
      push_cast
      omega
    · rw [if_neg (fun hx => hc (hb.mp hx))]
      unfold to_gint
      rw [hm24, hm32, if_pos (by omega), if_pos (by omega)]
  · rfl

theorem testBit23_iff (u : Nat) (h : u < 2 ^ 24) : u.testBit 23 = true ↔ 2 ^ 23 ≤ u := by
  have h2 : u.testBit 23 = decide (u / 8388608 % 2 = 1) := Nat.testBit_to_div_mod
  rw [h2, decide_eq_true_iff]
  omega

theorem range_reverse8 (x : List Nat) (h : x.length = 8) :
    (List.range 8).map (fun i => x.getD (7 - i) 0) = x.reverse := by
  match x, h with
  | [a0, a1, a2, a3, a4, a5, a6, a7], _ => rfl

theorem span_length (b : tvbuff) (offset length : Int) (h0 : 0 ≤ offset) (hl : 0 ≤ length)
    (h : offset + length ≤ b.octets.length) :
    ((span b offset length).length : Int) = length := by
  simp only [span, List.length_map, List.length_take, List.length_drop]
  omega

theorem find_nul_lt : ∀ (l : List Nat) (k : Nat), find_nul l = some k → k < l.length := by
  intro l
  induction l with
  | nil => intro k h; simp [find_nul] at h
  | cons x rest ih =>
    intro k h
    simp only [find_nul] at h
    by_cases hx : x % 256 = 0
    · rw [if_pos hx] at h
      simp only [Option.some.injEq] at h
      subst h
      simp
    · rw [if_neg hx] at h
      cases hr : find_nul rest with
      | none => rw [hr] at h; simp at h
      | some j =>
        rw [hr] at h
        simp only [Option.map_some', Option.some.injEq] at h
        subst h
        have := ih j hr
        simp only [List.length_cons]
        omega

theorem find_nul_take : ∀ (l : List Nat) (k : Nat), find_nul l = some k →
    (l.take (k + 1)).map (fun x => x % 256) = (l.take k).map (fun x => x % 256) ++ [0] ∧
    ∀ x ∈ (l.take k).map (fun x => x % 256), x ≠ 0 := by
  intro l
  induction l with
  | nil => intro k h; simp [find_nul] at h
  | cons x rest ih =>
    intro k h
    simp only [find_nul] at h
    by_cases hx : x % 256 = 0
    · rw [if_pos hx] at h
      simp only [Option.some.injEq] at h
      subst h
      simp [hx]
    · rw [if_neg hx] at h
      cases hr : find_nul rest with
      | none => rw [hr] at h; simp at h
      | some j =>
        rw [hr] at h
        simp only [Option.map_some', Option.some.injEq] at h
        subst h
        obtain ⟨h1, h2⟩ := ih j hr
        constructor
        · simp only [List.take_succ_cons, List.map_cons, List.cons_append, h1]
        · intro y hy
          simp only [List.take_succ_cons, List.map_cons, List.mem_cons] at hy
          rcases hy with hy | hy
          · rw [hy]; exact hx
          · exact h2 y hy

theorem find_nul_spec : ∀ (l : List Nat) (k : Nat),
    find_nul l = some k ↔
      (∃ x, l[k]? = some x ∧ x % 256 = 0) ∧
        ∀ j, j < k → ∀ y, l[j]? = some y → y % 256 ≠ 0 := by
  intro l
  induction l with
  | nil =>
    intro k
    simp [find_nul]
  | cons x rest ih =>
    intro k
    simp only [find_nul]
    by_cases hx : x % 256 = 0
    · rw [if_pos hx]
      constructor
      · intro h
        simp only [Option.some.injEq] at h
        subst h
        exact ⟨⟨x, List.getElem?_cons_zero, hx⟩, fun j hj => absurd hj (by omega)⟩
      · rintro ⟨_, h2⟩
        cases k with
        | zero => rfl
        | succ k => exact absurd hx (h2 0 (by omega) x List.getElem?_cons_zero)
    · rw [if_neg hx]
      cases k with
      | zero =>
        constructor
        · intro h
          cases hr : find_nul rest with
          | none => rw [hr] at h; simp at h
          | some j => rw [hr] at h; simp at h
        · rintro ⟨⟨y, hy, hy0⟩, _⟩
          simp only [List.getElem?_cons_zero, Option.some.injEq] at hy
          subst hy
          exact absurd hy0 hx
      | succ k =>
        have hih := ih k
        constructor
        · intro h
          cases hr : find_nul rest with
          | none => rw [hr] at h; simp at h
          | some j =>
            rw [hr] at h
            simp only [Option.map_some', Option.some.injEq] at h
            have hj : j = k := by omega
            subst hj
            obtain ⟨h1, h2⟩ := hih.mp hr
            refine ⟨by simpa using h1, ?_⟩
            intro i hi y hy
            cases i with
            | zero =>
              simp only [List.getElem?_cons_zero, Option.some.injEq] at hy
              subst hy
              exact hx
            | succ i =>
              simp only [List.getElem?_cons_succ] at hy
              exact h2 i (by omega) y hy
        · rintro ⟨h1, h2⟩
          have : find_nul rest = some k := by
            apply hih.mpr
            refine ⟨by simpa using h1, ?_⟩
            intro i hi y hy
            exact h2 (i + 1) (by omega) y (by simpa using hy)
          rw [this]
          rfl

theorem find_nul_none : ∀ (l : List Nat),
    (∀ (j : Nat) (y : Nat), l[j]? = some y → y % 256 ≠ 0) → find_nul l = none := by
  intro l h
  cases hr : find_nul l with
  | none => rfl
  | some k =>
    obtain ⟨⟨x, hx, hx0⟩, _⟩ := (find_nul_spec l k).mp hr
    exact absurd hx0 (h k x hx)

theorem c_string_append_nul : ∀ (text : List Nat), (∀ x ∈ text, x ≠ 0) →
    c_string (text ++ [0]) = text := by
  intro text
  induction text with
  | nil => intro _; rfl
  | cons x rest ih =>
    intro h
    have hx : x ≠ 0 := h x (List.mem_cons_self _ _)
    have := ih (fun y hy => h y (List.mem_cons_of_mem _ hy))
    show List.takeWhile (fun b => decide (b ≠ 0)) (x :: (rest ++ [0])) = x :: rest
    rw [List.takeWhile_cons_of_pos (by simpa using hx)]
    exact congrArg (List.cons x) this

theorem add_item_value_string (t : ptree) (hf : header_field_info) (b : tvbuff)
    (start length : Int) (little_endian : Bool) (hty : hf.type = FT_STRING)
    (h0 : 0 ≤ start) (hl : 0 ≤ length) (h1 : start + length ≤ b.octets.length) :
    add_item_value (new_field_info t hf (some b) start length) (some b) start length
      little_endian =
      .ok { new_field_info t hf (some b) start length with
            value := fvalue.string (some (span b start length ++ [0])) } := by
  have hne : length ≠ -1 := by omega
  obtain ⟨n, a, ty, d, st, bm, bl, i, pa, bs, sn, sp⟩ := hf
  simp only at hty
  subst hty
  simp only [add_item_value, new_field_info, proto_tree_set_string_tvb, tvb_memcpy, hne,
    if_false, tvb_get_ptr_ok b start length h0 hl h1, bind, Except.bind, pure, Except.pure,
    proto_tree_set_string, if_true]

theorem add_item_value_stringz (t : ptree) (hf : header_field_info) (b : tvbuff)
    (start length : Int) (little_endian : Bool) (hty : hf.type = FT_STRINGZ)
    (h0 : 0 ≤ start) (hl : 0 < length) (h1 : start + length ≤ b.octets.length) :
    add_item_value (new_field_info t hf (some b) start length) (some b) start length
      little_endian =
      .ok { new_field_info t hf (some b) start length with
            value := fvalue.string (some (span b start length ++ [0])) } := by
  have hne : length ≠ -1 := by omega
  have hnz : length ≠ 0 := by omega
  obtain ⟨n, a, ty, d, st, bm, bl, i, pa, bs, sn, sp⟩ := hf
  simp only at hty
  subst hty
  simp only [add_item_value, new_field_info, tvb_get_string, hne, hnz, ne_eq,
    not_false_eq_true, if_false, if_true,
    tvb_get_ptr_ok b start length h0 (le_of_lt hl) h1, bind, Except.bind, pure,
    Except.pure, proto_tree_set_string, Except.map]

theorem add_item_value_stringz_zero (t : ptree) (hf : header_field_info)
    (tvb : Option tvbuff) (start : Int) (little_endian : Bool) (hty : hf.type = FT_STRINGZ) :
    add_item_value (new_field_info t hf tvb start 0) tvb start 0 little_endian =
      .ok (new_field_info t hf tvb start 0) := by
  obtain ⟨n, a, ty, d, st, bm, bl, i, pa, bs, sn, sp⟩ := hf
  simp only at hty
  subst hty
  rfl

theorem span_scan (b : tvbuff) (start : Int) (k : Nat) (h0 : 0 ≤ start)
    (hk : find_nul (b.octets.drop start.toNat) = some k) :
    span b start ((k + 1 : Nat) : Int) = span b start (k : Int) ++ [0] ∧
    (span b start (k : Int)).length = k ∧
    (∀ x ∈ span b start (k : Int), x ≠ 0) ∧
    start + ((k + 1 : Nat) : Int) ≤ b.octets.length := by
  obtain ⟨h1, h2⟩ := find_nul_take _ k hk
  have hlt := find_nul_lt _ k hk
  simp only [List.length_drop] at hlt
  refine ⟨?_, ?_, ?_, ?_⟩
  · simpa [span] using h1
  · simp only [span, List.length_map, List.length_take, List.length_drop, Int.toNat_ofNat]
    omega
  · simpa [span] using h2
  · push_cast
    omega

theorem add_item_value_stringz_scan (t : ptree) (hf : header_field_info) (b : tvbuff)
    (start : Int) (little_endian : Bool) (k : Nat) (hty : hf.type = FT_STRINGZ)
    (h0 : 0 ≤ start) (hsize : b.octets.length < 2 ^ 31)
    (hk : find_nul (b.octets.drop start.toNat) = some k) :
    add_item_value (new_field_info t hf (some b) start (-1)) (some b) start (-1)
      little_endian =
      .ok { new_field_info t hf (some b) start (-1) with
            length := (k : Int) + 1
            value := fvalue.string (some (span b start (k : Int) ++ [0])) } := by
  obtain ⟨hs1, _, _, hs4⟩ := span_scan b start k h0 hk
  have hle : start ≤ b.octets.length := by
    push_cast at hs4
    omega
  have hsz : tvb_strsize (some b) start = .ok (k + 1) := by
    simp only [tvb_strsize]
    rw [if_pos ⟨h0, hle⟩, hk]
  have hg : to_gint 32 (k + 1) = ((k + 1 : Nat) : Int) := by
    apply to_gint_small
    push_cast at hs4
    omega
  have hp := tvb_get_ptr_ok b start ((k + 1 : Nat) : Int) h0 (by omega) hs4
  obtain ⟨n, a, ty, d, st, bm, bl, i, pa, bs, sn, sp⟩ := hf
  simp only at hty
  subst hty
  simp only [add_item_value, new_field_info, hsz, hg, tvb_memcpy, hp, hs1, bind, Except.bind,
    pure, Except.pure, proto_tree_set_string, if_true]
  simp

theorem add_item_value_stringz_no_nul (t : ptree) (hf : header_field_info) (b : tvbuff)
    (start : Int) (little_endian : Bool) (hty : hf.type = FT_STRINGZ)
    (hk : ¬ (0 ≤ start ∧ start ≤ b.octets.length) ∨
      find_nul (b.octets.drop start.toNat) = none) :
    add_item_value (new_field_info t hf (some b) start (-1)) (some b) start (-1)
      little_endian = .error fault.bounds := by
  have hsz : tvb_strsize (some b) start = .error fault.bounds := by
    simp only [tvb_strsize]
    by_cases hr : 0 ≤ start ∧ start ≤ b.octets.length
    · rw [if_pos hr, hk.resolve_left (fun h => h hr)]
    · rw [if_neg hr]
  obtain ⟨n, a, ty, d, st, bm, bl, i, pa, bs, sn, sp⟩ := hf
  simp only at hty
  subst hty
  simp only [add_item_value, new_field_info, hsz, bind, Except.bind]
  simp

theorem add_item_value_uint_string (t : ptree) (hf : header_field_info) (b : tvbuff)
    (start length : Int) (little_endian : Bool) (hty : hf.type = FT_UINT_STRING)
    (hlen : length = 1 ∨ length = 2 ∨ length = 3 ∨ length = 4)
    (h0 : 0 ≤ start) (hsize : b.octets.length < 2 ^ 31)
    (h1 : start + length +
      (octets_value little_endian (span b start length) : Int) ≤ b.octets.length) :
    add_item_value (new_field_info t hf (some b) start length) (some b) start length
      little_endian =
      .ok { new_field_info t hf (some b) start length with
            length := (octets_value little_endian (span b start length) : Int) + length
            value := fvalue.string (some
              (span b (start + length)
                (octets_value little_endian (span b start length) : Int) ++ [0])) } := by
  have hu := get_uint_value_ok b start length little_endian hlen h0 (by omega)
  generalize octets_value little_endian (span b start length) = n at hu h1 ⊢
  have hg : to_gint 32 n = (n : Int) := to_gint_small n (by omega)
  have hne : (n : Int) ≠ -1 := by omega
  have hg2 : to_gint 32 (n + to_guint32 length) = (n : Int) + length := by
    have : to_guint32 length = length.toNat := by
      unfold to_guint32
      omega
    rw [this, to_gint_small _ (by omega)]
    push_cast
    omega
  have hp := tvb_get_ptr_ok b (start + length) (n : Int) (by omega) (by omega) h1
  obtain ⟨nm, a, ty, d, st, bm, bl, i, pa, bs, sn, sp⟩ := hf
  simp only at hty
  subst hty
  simp only [add_item_value, new_field_info, hu, hg, hg2, proto_tree_set_string_tvb,
    tvb_memcpy, hne, if_false, hp, bind, Except.bind, pure, Except.pure,
    proto_tree_set_string, if_true]

theorem resolve_length_given (hf : header_field_info) (tvb : Option tvbuff)
    (start length : Int) (h : length ≠ -1) :
    resolve_length hf tvb start length = .ok length := by
  simp [resolve_length, h, pure, Except.pure]

theorem resolve_length_stringz (hf : header_field_info) (tvb : Option tvbuff)
    (start : Int) (hty : hf.type = FT_STRINGZ) :
    resolve_length hf tvb start (-1) = .ok (-1) := by
  simp only [resolve_length, hty, if_true]
  rfl

theorem resolve_length_string (hf : header_field_info) (b : tvbuff)
    (start : Int) (hty : hf.type = FT_STRING) (h0 : 0 ≤ start)
    (h1 : start ≤ b.octets.length) :
    resolve_length hf (some b) start (-1) = .ok ((b.octets.length : Int) - start) := by
  simp only [resolve_length, hty, if_true, tvb_ensure_length_remaining]
  rw [if_pos ⟨h0, h1⟩]

theorem find_nul_at (b : tvbuff) (start : Int) (i x : Nat) (h0 : 0 ≤ start)
    (hi : start ≤ i) (hx : b.octets[i]? = some x) (hx0 : x % 256 = 0)
    (hfirst : ∀ (j : Nat) (y : Nat), start ≤ j → j < i → b.octets[j]? = some y →
      y % 256 ≠ 0) :
    find_nul (b.octets.drop start.toNat) = some (i - start.toNat) := by
  rw [find_nul_spec]
  have e : start.toNat + (i - start.toNat) = i := by omega
  constructor
  · refine ⟨x, ?_, hx0⟩
    rw [List.getElem?_drop, e]
    exact hx
  · intro j hj y hy
    rw [List.getElem?_drop] at hy
    exact hfirst (start.toNat + j) y (by omega) (by omega) hy

theorem find_nul_absent (b : tvbuff) (start : Int) (h0 : 0 ≤ start)
    (hnone : ∀ (j : Nat) (y : Nat), start ≤ j → b.octets[j]? = some y → y % 256 ≠ 0) :
    find_nul (b.octets.drop start.toNat) = none := by
  apply find_nul_none
  intro j y hy
  rw [List.getElem?_drop] at hy
  exact hnone (start.toNat + j) y (by omega) hy

theorem set_append_last {α : Type} : ∀ (cs : List α) (x y : α),
    (cs ++ [x]).set cs.length y = cs ++ [y] := by
  intro cs
  induction cs with
  | nil => intro x y; rfl
  | cons a rest ih =>
    intro x y
    simp only [List.cons_append, List.length_cons, List.set_cons_succ, ih]

theorem update_append_new : ∀ (P : List Nat) (n tnode : proto_node) (fi : field_info)
    (f : field_info → field_info), node_at n P = some tnode →
    update_finfo f (g_node_append n P (.mk (some fi) [])) (P ++ [tnode.children.length]) =
      g_node_append n P (.mk (some (f fi)) []) := by
  intro P
  induction P with
  | nil =>
    intro n tnode fi f h
    cases n with
    | mk a cs =>
      simp only [node_at, Option.some.injEq] at h
      subst h
      simp only [g_node_append, List.nil_append, proto_node.children, update_finfo]
      have : (cs ++ [proto_node.mk (some fi) []])[cs.length]? = some (.mk (some fi) []) := by
        simp
      rw [this]
      simp only [update_finfo, Option.map_some', set_append_last]
  | cons j tr ih =>
    intro n tnode fi f h
    cases n with
    | mk a cs =>
      simp only [node_at] at h
      cases hc : cs[j]? with
      | none => rw [hc] at h; exact absurd h (by simp)
      | some ch =>
        rw [hc] at h
        have hj : j < cs.length := by
          by_contra hlt
          rw [List.getElem?_eq_none (by omega)] at hc
          exact absurd hc (by simp)
        simp only [g_node_append, hc, List.cons_append, update_finfo]
        rw [List.getElem?_set_self hj]
        simp only [ih ch tnode fi f h, List.set_set]

theorem add_subtree_shape (num_tree_types : Int) (t t1 : ptree) (pi : List Nat) (idx : Int)
    (res : Option (List Nat))
    (h : proto_item_add_subtree num_tree_types t (some pi) idx = .ok (res, t1)) :
    t1.root = update_finfo (fun fi => { fi with tree_type := idx }) t.root pi := by
  unfold proto_item_add_subtree at h
  simp only [] at h
  cases hn : node_at t.root pi with
  | none => rw [hn] at h; cases h
  | some pnode =>
    rw [hn] at h
    simp only [g_assert, bind, Except.bind, pure, Except.pure] at h
    split at h
    · cases h
    · split at h
      · cases h
      · simp only [Except.ok.injEq, Prod.mk.injEq] at h
        rw [← h.2]

theorem finfo_at_nil (fi : Option field_info) (cs : List proto_node) :
    finfo_at (.mk fi cs) [] = fi := rfl

theorem finfo_at_cons (fi : Option field_info) (cs : List proto_node) (i : Nat)
    (q : List Nat) :
    finfo_at (.mk fi cs) (i :: q) = match cs[i]? with
      | some c => finfo_at c q
      | none => none := by
  simp only [finfo_at, node_at]
  cases cs[i]? <;> rfl

theorem finfo_at_leaf (fi : Option field_info) (i : Nat) (q : List Nat) :
    finfo_at (.mk fi []) (i :: q) = none := by
  rw [finfo_at_cons]
  rfl

theorem finfo_at_append : ∀ (P : List Nat) (n tnode : proto_node) (fi : field_info)
    (q : List Nat), node_at n P = some tnode →
    finfo_at (g_node_append n P (.mk (some fi) [])) q =
      if q = P ++ [tnode.children.length] then some fi else finfo_at n q := by
  intro P
  induction P with
  | nil =>
    intro n tnode fi q h
    cases n with
    | mk f cs =>
      simp only [node_at, Option.some.injEq] at h
      subst h
      simp only [g_node_append, List.nil_append, proto_node.children]
      cases q with
      | nil => simp [finfo_at_nil]
      | cons i q =>
        rw [finfo_at_cons, finfo_at_cons]
        by_cases hi : i < cs.length
        · rw [List.getElem?_append_left hi]
          have : ¬ (i :: q = [cs.length]) := by
            intro hh
            simp only [List.cons.injEq] at hh
            omega
          rw [if_neg this]
        · rw [List.getElem?_eq_none (show cs.length ≤ i by omega)]
          by_cases he : i = cs.length
          · subst he
            simp only [List.getElem?_concat_length]
            cases q with
            | nil => simp [finfo_at_nil]
            | cons j q => simp [finfo_at_leaf]
          · rw [List.getElem?_eq_none (by simp; omega)]
            have : ¬ (i :: q = [cs.length]) := by
              intro hh
              simp only [List.cons.injEq] at hh
              exact he hh.1
            rw [if_neg this]
  | cons j tr ih =>
    intro n tnode fi q h
    cases n with
    | mk f cs =>
      simp only [node_at] at h
      cases hc : cs[j]? with
      | none => rw [hc] at h; exact absurd h (by simp)
      | some ch =>
        rw [hc] at h
        have hj : j < cs.length := by
          by_contra hlt
          rw [List.getElem?_eq_none (by omega)] at hc
          exact absurd hc (by simp)
        simp only [g_node_append, hc, List.cons_append]
        cases q with
        | nil => simp [finfo_at_nil]
        | cons i q =>
          rw [finfo_at_cons, finfo_at_cons]
          by_cases hij : i = j
          · subst hij
            rw [List.getElem?_set_self hj, hc]
            simp only [ih ch tnode fi q h, List.cons.injEq, true_and]
          · rw [List.getElem?_set_ne (fun hh => hij hh.symm)]
            simp [hij]

theorem finfo_at_update : ∀ (p : List Nat) (f : field_info → field_info) (n : proto_node)
    (q : List Nat),
    finfo_at (update_finfo f n p) q =
      if q = p then (finfo_at n p).map f else finfo_at n q := by
  intro p
  induction p with
  | nil =>
    intro f n q
    cases n with
    | mk fi cs =>
      cases q with
      | nil => simp [update_finfo, finfo_at_nil]
      | cons i q => simp [update_finfo, finfo_at_cons]
  | cons j p ih =>
    intro f n q
    cases n with
    | mk fi cs =>
      simp only [update_finfo]
      cases hc : cs[j]? with
      | none =>
        simp only []
        by_cases hq : q = j :: p
        · subst hq
          simp [finfo_at_cons, hc]
        · rw [if_neg hq]
      | some ch =>
        have hj : j < cs.length := by
          by_contra hlt
          rw [List.getElem?_eq_none (by omega)] at hc
          exact absurd hc (by simp)
        simp only []
        cases q with
        | nil => simp [finfo_at_nil]
        | cons i q =>
          rw [finfo_at_cons, finfo_at_cons (i := i), finfo_at_cons (i := j)]
          by_cases hij : i = j
          · subst hij
            rw [List.getElem?_set_self hj, hc]
            simp only [ih f ch q, List.cons.injEq, true_and]
          · rw [List.getElem?_set_ne (fun hh => hij hh.symm)]
            simp [hij]

theorem finfo_at_fresh : ∀ (P : List Nat) (n tnode : proto_node),
    node_at n P = some tnode → finfo_at n (P ++ [tnode.children.length]) = none := by
  intro P
  induction P with
  | nil =>
    intro n tnode h
    cases n with
    | mk f cs =>
      simp only [node_at, Option.some.injEq] at h
      subst h
      simp only [List.nil_append, proto_node.children, finfo_at_cons]
      rw [List.getElem?_eq_none (le_refl _)]
  | cons j tr ih =>
    intro n tnode h
    cases n with
    | mk f cs =>
      simp only [node_at] at h
      cases hc : cs[j]? with
      | none => rw [hc] at h; exact absurd h (by simp)
      | some ch =>
        rw [hc] at h
        simp only [List.cons_append, finfo_at_cons, hc]
        exact ih ch tnode h

theorem alloc_shape (r : registrar) (t : ptree) (hfindex : Int) (tvb : Option tvbuff)
    (start length : Int) (fi0 : field_info) (len : Int)
    (h : alloc_field_info r t hfindex tvb start length = .ok (fi0, len)) :
    ∃ hf, proto_registrar_get_nth r hfindex = .ok hf ∧
      resolve_length hf tvb start length = .ok len ∧
      fi0 = new_field_info t hf tvb start len := by
  have h1 : tvb.isSome = true ∨ length = 0 := by
    by_contra hc
    simp only [not_or] at hc
    have : (tvb.isSome || length == 0) = false := by
      simp [hc.1, hc.2]
    unfold alloc_field_info at h
    rw [this] at h
    cases h
  cases hg : proto_registrar_get_nth r hfindex with
  | error e =>
    exfalso
    unfold alloc_field_info at h
    simp only [g_assert, bind, Except.bind, hg] at h
    split at h
    · cases h
    · split at h
      · cases h
      · cases h
  | ok hf =>
    rw [alloc_field_info_resolve r t hfindex tvb start length hf hg h1] at h
    cases hr : resolve_length hf tvb start length with
    | error e => rw [hr] at h; cases h
    | ok l =>
      rw [hr] at h
      simp only [bind, Except.bind, pure, Except.pure, Except.ok.injEq, Prod.mk.injEq] at h
      refine ⟨hf, rfl, ?_, ?_⟩
      · rw [← h.2]
        exact hr
      · rw [← h.1, h.2]

theorem set_uint_frame (fi fi2 : field_info) (v : Nat)
    (h : proto_tree_set_uint fi v = .ok fi2) : same_frame fi2 fi ∧ fi2.length = fi.length := by
  unfold proto_tree_set_uint fvalue_set_integer at h
  simp only [] at h
  split at h
  · split at h
    · split at h
      · cases h; exact ⟨⟨rfl, rfl, rfl, rfl, rfl, rfl⟩, rfl⟩
      · cases h
    · cases h; exact ⟨⟨rfl, rfl, rfl, rfl, rfl, rfl⟩, rfl⟩
  · cases h; exact ⟨⟨rfl, rfl, rfl, rfl, rfl, rfl⟩, rfl⟩

theorem bind_ok {α β : Type} (x : Except fault α) (f : α → Except fault β) (b : β)
    (h : (x >>= f) = .ok b) : ∃ a, x = .ok a ∧ f a = .ok b := by
  cases x with
  | error e => cases h
  | ok a => exact ⟨a, rfl, h⟩

theorem map_ok {α β : Type} (x : Except fault α) (f : α → β) (b : β)
    (h : x.map f = .ok b) : ∃ a, x = .ok a ∧ f a = b := by
  cases x with
  | error e => cases h
  | ok a =>
    simp only [Except.map, Except.ok.injEq] at h
    exact ⟨a, rfl, h⟩

theorem same_frame_refl (a : field_info) : same_frame a a :=
  ⟨rfl, rfl, rfl, rfl, rfl, rfl⟩

theorem set_string_tvb_frame (fi fi2 : field_info) (tvb : Option tvbuff) (start length : Int)
    (h : proto_tree_set_string_tvb fi tvb start length = .ok fi2) :
    same_frame fi2 fi ∧ fi2.length = fi.length := by
  unfold proto_tree_set_string_tvb at h
  simp only [] at h
  split at h <;>
  · obtain ⟨l, _, h⟩ := bind_ok _ _ _ h
    obtain ⟨s, _, h⟩ := bind_ok _ _ _ h
    cases h
    exact ⟨same_frame_refl _, rfl⟩

theorem set_bytes_tvb_frame (fi fi2 : field_info) (tvb : Option tvbuff) (start length : Int)
    (h : proto_tree_set_bytes_tvb fi tvb start length = .ok fi2) :
    same_frame fi2 fi ∧ fi2.length = fi.length := by
  unfold proto_tree_set_bytes_tvb at h
  obtain ⟨a, _, h⟩ := map_ok _ _ _ h
  rw [← h]
  exact ⟨same_frame_refl _, rfl⟩

theorem set_int_frame (fi fi2 : field_info) (v : Int)
    (h : proto_tree_set_int fi v = .ok fi2) : same_frame fi2 fi ∧ fi2.length = fi.length := by
  rw [set_int_eq] at h
  exact set_uint_frame fi fi2 _ h

theorem add_item_value_frame (fi fi2 : field_info) (tvb : Option tvbuff)
    (start length : Int) (little_endian : Bool)
    (h : add_item_value fi tvb start length little_endian = .ok fi2) :
    same_frame fi2 fi := by
  unfold add_item_value at h
  split at h
  · cases h; exact same_frame_refl _
  · cases h; exact same_frame_refl _
  · exact (set_bytes_tvb_frame _ _ _ _ _ h).1
  · obtain ⟨n, _, h⟩ := bind_ok _ _ _ h
    obtain ⟨f1, hf1, h⟩ := bind_ok _ _ _ h
    cases h
    exact (set_bytes_tvb_frame _ _ _ _ _ hf1).1
  · obtain ⟨n, _, h⟩ := bind_ok _ _ _ h
    exact (set_uint_frame _ _ _ h).1
  · obtain ⟨n, _, h⟩ := bind_ok _ _ _ h
    exact (set_uint_frame _ _ _ h).1
  · obtain ⟨n, _, h⟩ := bind_ok _ _ _ h
    exact (set_uint_frame _ _ _ h).1
  · obtain ⟨n, _, h⟩ := bind_ok _ _ _ h
    exact (set_uint_frame _ _ _ h).1
  · obtain ⟨n, _, h⟩ := bind_ok _ _ _ h
    exact (set_uint_frame _ _ _ h).1
  · obtain ⟨_, _, h⟩ := bind_ok _ _ _ h
    obtain ⟨a, _, h⟩ := map_ok _ _ _ h
    rw [← h]
    unfold proto_tree_set_uint64
    split <;> exact same_frame_refl _
  · obtain ⟨_, _, h⟩ := bind_ok _ _ _ h
    obtain ⟨a, _, h⟩ := map_ok _ _ _ h
    rw [← h]
    unfold proto_tree_set_uint64
    split <;> exact same_frame_refl _
  · obtain ⟨n, _, h⟩ := bind_ok _ _ _ h
    exact (set_int_frame _ _ _ h).1
  · obtain ⟨n, _, h⟩ := bind_ok _ _ _ h
    exact (set_int_frame _ _ _ h).1
  · obtain ⟨n, _, h⟩ := bind_ok _ _ _ h
    exact (set_int_frame _ _ _ h).1
  · obtain ⟨n, _, h⟩ := bind_ok _ _ _ h
    exact (set_int_frame _ _ _ h).1
  · obtain ⟨_, _, h⟩ := bind_ok _ _ _ h
    obtain ⟨v, _, h⟩ := bind_ok _ _ _ h
    cases h
    exact same_frame_refl _
  · obtain ⟨_, _, h⟩ := bind_ok _ _ _ h
    obtain ⟨v, _, h⟩ := bind_ok _ _ _ h
    cases h
    exact same_frame_refl _
  · obtain ⟨_, _, h⟩ := bind_ok _ _ _ h
    obtain ⟨a, _, h⟩ := map_ok _ _ _ h
    rw [← h]
    exact same_frame_refl _
  · obtain ⟨_, _, h⟩ := bind_ok _ _ _ h
    obtain ⟨a, _, h⟩ := map_ok _ _ _ h
    rw [← h]
    exact same_frame_refl _
  · exact (set_string_tvb_frame _ _ _ _ _ h).1
  · split at h
    · split at h
      · obtain ⟨l, _, h⟩ := bind_ok _ _ _ h
        obtain ⟨v, _, h⟩ := bind_ok _ _ _ h
        cases h
        exact same_frame_refl _
      · obtain ⟨v, _, h⟩ := bind_ok _ _ _ h
        cases h
        exact same_frame_refl _
    · cases h; exact same_frame_refl _
  · obtain ⟨n, _, h⟩ := bind_ok _ _ _ h
    obtain ⟨f1, hf1, h⟩ := bind_ok _ _ _ h
    cases h
    exact (set_string_tvb_frame _ _ _ _ _ hf1).1
  · cases h

theorem add_node_full (num_tree_types : Int) (t t1 : ptree) (P pi : List Nat)
    (fi : field_info) (h : proto_tree_add_node num_tree_types t P fi = .ok (pi, t1)) :
    ∃ tnode, node_at t.root P = some tnode ∧ accepts_children num_tree_types tnode = true ∧
      pi = P ++ [tnode.children.length] ∧
      t1 = { t with root := g_node_append t.root P (.mk (some fi) []) } := by
  unfold proto_tree_add_node at h
  cases hn : node_at t.root P with
  | none => rw [hn] at h; cases h
  | some tnode =>
    rw [hn] at h
    simp only [] at h
    obtain ⟨_, ha, h⟩ := bind_ok _ _ _ h
    have hacc : accepts_children num_tree_types tnode = true := by
      unfold g_assert at ha
      by_contra hc
      have hc2 : accepts_children num_tree_types tnode = false := by simpa using hc
      unfold accepts_children at hc2
      rw [hc2] at ha
      cases ha
    simp only [pure, Except.pure, Except.ok.injEq, Prod.mk.injEq] at h
    exact ⟨tnode, rfl, hacc, h.1.symm, h.2.symm⟩

theorem add_item_full (r : registrar) (num_tree_types : Int) (t t1 : ptree) (P : List Nat)
    (hfindex : Int) (tvb : Option tvbuff) (start length : Int) (little_endian : Bool)
    (res : Option (List Nat))
    (h : proto_tree_add_item r num_tree_types t (some P) hfindex tvb start length
      little_endian = .ok (res, t1)) :
    ∃ tnode hf len fi, node_at t.root P = some tnode ∧
      accepts_children num_tree_types tnode = true ∧
      proto_registrar_get_nth r hfindex = .ok hf ∧
      resolve_length hf tvb start length = .ok len ∧
      add_item_value (new_field_info t hf tvb start len) tvb start len little_endian
        = .ok fi ∧
      res = some (P ++ [tnode.children.length]) ∧
      t1 = { root := g_node_append t.root P (.mk (some fi) []),
             tree_data :=
               record_interesting t.tree_data hfindex (P ++ [tnode.children.length]) } := by
  unfold proto_tree_add_item at h
  simp only [] at h
  obtain ⟨p, ha, h⟩ := bind_ok _ _ _ h
  obtain ⟨fi0, len⟩ := p
  obtain ⟨hf, hg, hr, hfi0⟩ := alloc_shape r t hfindex tvb start length fi0 len ha
  simp only [] at h
  obtain ⟨fi, hv, h⟩ := bind_ok _ _ _ h
  obtain ⟨q, hn, h⟩ := bind_ok _ _ _ h
  obtain ⟨pi, tA⟩ := q
  obtain ⟨tnode, h1, h2, h3, h4⟩ := add_node_full num_tree_types t tA P pi fi hn
  simp only [pure, Except.pure, Except.ok.injEq, Prod.mk.injEq] at h
  refine ⟨tnode, hf, len, fi, h1, h2, hg, hr, ?_, ?_, ?_⟩
  · rw [← hfi0]; exact hv
  · rw [← h.1, h3]
  · rw [← h.2, h4, h3]

theorem add_pi_full (r : registrar) (num_tree_types : Int) (t t1 : ptree) (P : List Nat)
    (hfindex : Int) (tvb : Option tvbuff) (start length : Int)
    (res : Option (List Nat × Int))
    (h : proto_tree_add_pi r num_tree_types t (some P) hfindex tvb start length
      = .ok (res, t1)) :
    ∃ tnode hf len, node_at t.root P = some tnode ∧
      accepts_children num_tree_types tnode = true ∧
      proto_registrar_get_nth r hfindex = .ok hf ∧
      resolve_length hf tvb start length = .ok len ∧
      res = some (P ++ [tnode.children.length], len) ∧
      t1 = { root := g_node_append t.root P
               (.mk (some (new_field_info t hf tvb start len)) []),
             tree_data :=
               record_interesting t.tree_data hfindex (P ++ [tnode.children.length]) } := by
  unfold proto_tree_add_pi at h
  simp only [] at h
  obtain ⟨p, ha, h⟩ := bind_ok _ _ _ h
  obtain ⟨fi0, len⟩ := p
  obtain ⟨hf, hg, hr, hfi0⟩ := alloc_shape r t hfindex tvb start length fi0 len ha
  simp only [] at h
  obtain ⟨q, hn, h⟩ := bind_ok _ _ _ h
  obtain ⟨pi, tA⟩ := q
  obtain ⟨tnode, h1, h2, h3, h4⟩ := add_node_full num_tree_types t tA P pi fi0 hn
  simp only [pure, Except.pure, Except.ok.injEq, Prod.mk.injEq] at h
  refine ⟨tnode, hf, len, h1, h2, hg, hr, ?_, ?_⟩
  · rw [← h.1, h3]
  · rw [← h.2, h4, h3, hfi0]

theorem new_field_info_frame (t : ptree) (hf : header_field_info) (b : tvbuff)
    (start len : Int) (fi : field_info)
    (h : same_frame fi (new_field_info t hf (some b) start len)) :
    fi.hfinfo = hf ∧ fi.start = start + b.raw_offset ∧
    fi.tree_type = -1 ∧ fi.visible = t.tree_data.visible ∧ fi.representation = none ∧
    fi.ds_tvb = some b.ds_tvb := h

theorem add_subtree_full (num_tree_types : Int) (t t1 : ptree) (pi : List Nat) (idx : Int)
    (res : Option (List Nat))
    (h : proto_item_add_subtree num_tree_types t (some pi) idx = .ok (res, t1)) :
    ∃ pnode fi, node_at t.root pi = some pnode ∧ pnode.finfo = some fi ∧
      0 ≤ idx ∧ idx < num_tree_types ∧ res = some pi ∧
      t1 = { t with root := update_finfo (fun fi => { fi with tree_type := idx }) t.root pi }
    := by
  unfold proto_item_add_subtree at h
  simp only [] at h
  cases hn : node_at t.root pi with
  | none => rw [hn] at h; cases h
  | some pnode =>
    rw [hn] at h
    simp only [] at h
    obtain ⟨_, ha, h⟩ := bind_ok _ _ _ h
    have hidx : 0 ≤ idx ∧ idx < num_tree_types := by
      unfold g_assert at ha
      by_contra hc
      have : (decide (idx ≥ 0) && decide (idx < num_tree_types)) = false := by
        simp only [Bool.and_eq_false_iff, decide_eq_false_iff_not]
        by_contra hh
        simp only [not_or, not_not] at hh
        exact hc ⟨hh.1, hh.2⟩
      rw [this] at ha
      cases ha
    cases hf : pnode.finfo with
    | none => rw [hf] at h; cases h
    | some fi =>
      rw [hf] at h
      simp only [pure, Except.pure, Except.ok.injEq, Prod.mk.injEq] at h
      exact ⟨pnode, fi, rfl, hf, hidx.1, hidx.2, h.1.symm, h.2.symm⟩

theorem add_item_in_place_eq (r : registrar) (num_tree_types : Int) (t : ptree)
    (tree : Option (List Nat)) (hfindex : Int) (tvb : Option tvbuff) (start length : Int)
    (little_endian : Bool) :
    proto_tree_add_item r num_tree_types t tree hfindex tvb start length little_endian =
      outcome_of (proto_tree_add_item_in_place r num_tree_types t tree hfindex tvb start
        length little_endian) := by
  unfold proto_tree_add_item proto_tree_add_item_in_place
  cases tree with
  | none => rfl
  | some P =>
    simp only []
    cases ha : alloc_field_info r t hfindex tvb start length with
    | error e => rfl
    | ok p =>
      obtain ⟨fi0, len⟩ := p
      simp only [bind, Except.bind]
      cases hv : add_item_value fi0 tvb start len little_endian with
      | error e => rfl
      | ok fi =>
        simp only []
        cases hn : proto_tree_add_node num_tree_types t P fi with
        | error e => rfl
        | ok q => rfl

theorem add_item_in_place_fault (r : registrar) (num_tree_types : Int) (t : ptree)
    (tree : Option (List Nat)) (hfindex : Int) (tvb : Option tvbuff) (start length : Int)
    (little_endian : Bool) (e : fault)
    (h : (proto_tree_add_item_in_place r num_tree_types t tree hfindex tvb start length
      little_endian).1 = .error e) :
    (proto_tree_add_item_in_place r num_tree_types t tree hfindex tvb start length
      little_endian).2 = t := by
  unfold proto_tree_add_item_in_place at h ⊢
  cases tree with
  | none => rfl
  | some P =>
    simp only [] at h ⊢
    cases ha : alloc_field_info r t hfindex tvb start length with
    | error e => rfl
    | ok p =>
      obtain ⟨fi0, len⟩ := p
      rw [ha] at h
      simp only [] at h ⊢
      cases hv : add_item_value fi0 tvb start len little_endian with
      | error e => rfl
      | ok fi =>
        rw [hv] at h
        simp only [] at h ⊢
        cases hn : proto_tree_add_node num_tree_types t P fi with
        | error e => rfl
        | ok q =>
          rw [hn] at h
          cases h

theorem pitem_finfo_ok (t : ptree) (pi : List Nat) (fi : field_info)
    (h : finfo_at t.root pi = some fi) : pitem_finfo t pi = .ok fi := by
  unfold pitem_finfo
  unfold finfo_at at h
  rw [h]

theorem add_item_finfo (r : registrar) (num_tree_types : Int) (t t1 : ptree) (P : List Nat)
    (hfindex : Int) (tvb : Option tvbuff) (start length : Int) (little_endian : Bool)
    (pi : List Nat)
    (h : proto_tree_add_item r num_tree_types t (some P) hfindex tvb start length
      little_endian = .ok (some pi, t1)) :
    ∃ fi, finfo_at t1.root pi = some fi := by
  obtain ⟨tn, hf, len, fi, h1, _, _, _, _, hres, ht1⟩ :=
    add_item_full r num_tree_types t t1 P hfindex tvb start length little_endian _ h
  have hpi : pi = P ++ [tn.children.length] := by simpa using hres
  refine ⟨fi, ?_⟩
  rw [ht1, hpi]
  simp only [finfo_at, node_at_append_new P t.root tn _ h1]
  rfl

theorem add_item_none (r : registrar) (num_tree_types : Int) (t t1 : ptree) (P : List Nat)
    (hfindex : Int) (tvb : Option tvbuff) (start length : Int) (little_endian : Bool)
    (h : proto_tree_add_item r num_tree_types t (some P) hfindex tvb start length
      little_endian = .ok (none, t1)) : False := by
  obtain ⟨tn, hf, len, fi, _, _, _, _, _, hres, _⟩ :=
    add_item_full r num_tree_types t t1 P hfindex tvb start length little_endian _ h
  cases hres

theorem add_uint_full (r : registrar) (num_tree_types : Int) (t t2 : ptree) (P : List Nat)
    (hfindex : Int) (tvb : Option tvbuff) (start length : Int) (value : Nat)
    (res : Option (List Nat))
    (h : proto_tree_add_uint r num_tree_types t (some P) hfindex tvb start length value
      = .ok (res, t2)) :
    ∃ tnode hf len fi, node_at t.root P = some tnode ∧
      proto_registrar_get_nth r hfindex = .ok hf ∧
      resolve_length hf tvb start length = .ok len ∧
      proto_tree_set_uint (new_field_info t hf tvb start len) value = .ok fi ∧
      res = some (P ++ [tnode.children.length]) ∧
      t2 = { root := g_node_append t.root P (.mk (some fi) []),
             tree_data :=
               record_interesting t.tree_data hfindex (P ++ [tnode.children.length]) } := by
  unfold proto_tree_add_uint at h
  simp only [] at h
  obtain ⟨hf, hg, h⟩ := bind_ok _ _ _ h
  have key : ∀ q, (do
      let (res, t1) ←
        proto_tree_add_pi r num_tree_types t (some P) hfindex tvb start length
      match res with
      | some (pi, _) => do
        let t2 ← set_item_value t1 pi (fun new_fi => proto_tree_set_uint new_fi value)
        return (some pi, t2)
      | none => return (none, t1)) = Except.ok q → q = (res, t2) →
      ∃ tnode hf2 len fi, node_at t.root P = some tnode ∧
        proto_registrar_get_nth r hfindex = .ok hf2 ∧
        resolve_length hf2 tvb start length = .ok len ∧
        proto_tree_set_uint (new_field_info t hf2 tvb start len) value = .ok fi ∧
        res = some (P ++ [tnode.children.length]) ∧
        t2 = { root := g_node_append t.root P (.mk (some fi) []),
               tree_data :=
                 record_interesting t.tree_data hfindex (P ++ [tnode.children.length]) } := by
    intro q hq hqe
    subst hqe
    obtain ⟨p, hp, hq⟩ := bind_ok _ _ _ hq
    obtain ⟨r1, t1⟩ := p
    obtain ⟨tnode, hf2, len, h1, _, hg2, hr, hres, ht1⟩ :=
      add_pi_full r num_tree_types t t1 P hfindex tvb start length r1 hp
    subst hres
    simp only [] at hq
    obtain ⟨t3, hs, hq⟩ := bind_ok _ _ _ hq
    simp only [pure, Except.pure, Except.ok.injEq, Prod.mk.injEq] at hq
    unfold set_item_value at hs
    have hfin : finfo_at t1.root (P ++ [tnode.children.length]) =
        some (new_field_info t hf2 tvb start len) := by
      rw [ht1]
      simp only [finfo_at, node_at_append_new P t.root tnode _ h1]
      rfl
    rw [pitem_finfo_ok t1 _ _ hfin] at hs
    simp only [bind, Except.bind] at hs
    cases hset : proto_tree_set_uint (new_field_info t hf2 tvb start len) value with
    | error e => rw [hset] at hs; cases hs
    | ok fi =>
      rw [hset] at hs
      simp only [pure, Except.pure, Except.ok.injEq] at hs
      refine ⟨tnode, hf2, len, fi, h1, hg2, hr, hset, hq.1.symm, ?_⟩
      rw [← hq.2, ← hs, ht1]
      simp only [update_append_new P t.root tnode _ (fun _ => fi) h1]
  obtain ⟨n, a, ty, d, st, bm, bl, i, pa, bs, sn, sp⟩ := hf
  cases ty <;> simp only [] at h <;> first
    | cases h
    | exact key _ h rfl

theorem hide_item_finfo (t1 : ptree) (pi : List Nat) (fi : field_info)
    (h : finfo_at t1.root pi = some fi) :
    finfo_at (hide_item t1 pi).root pi = some { fi with visible := false } ∧
    (∀ q, q ≠ pi → finfo_at (hide_item t1 pi).root q = finfo_at t1.root q) ∧
    (hide_item t1 pi).tree_data = t1.tree_data := by
  refine ⟨?_, ?_, rfl⟩
  · show finfo_at (update_finfo _ t1.root pi) pi = _
    rw [finfo_at_update, if_pos rfl, h]
    rfl
  · intro q hq
    show finfo_at (update_finfo _ t1.root pi) q = _
    rw [finfo_at_update, if_neg hq]

theorem set_end_ok (t1 : ptree) (pi : List Nat) (b : tvbuff) (e : Int) (fi : field_info)
    (hfi : finfo_at t1.root pi = some fi) :
    ∃ t2, proto_item_set_end t1 (some pi) (some b) e = .ok t2 ∧
      finfo_at t2.root pi = some { fi with length := e + b.raw_offset - fi.start } ∧
      (∀ q, q ≠ pi → finfo_at t2.root q = finfo_at t1.root q) ∧
      t2.tree_data = t1.tree_data := by
  refine ⟨{ t1 with
            root := update_finfo
              (fun fi => { fi with length := e + tvb_raw_offset b - fi.start }) t1.root pi },
    ?_, ?_, ?_, rfl⟩
  · unfold proto_item_set_end
    simp only [bind, Except.bind, pitem_finfo_ok t1 pi fi hfi]
    rfl
  · show finfo_at (update_finfo _ t1.root pi) pi = _
    rw [finfo_at_update, if_pos rfl, hfi]
    rfl
  · intro q hq
    show finfo_at (update_finfo _ t1.root pi) q = _
    rw [finfo_at_update, if_neg hq]

theorem lookup_map (f : Int → List (List Nat) → List (List Nat)) :
    ∀ (l : List (Int × List (List Nat))) (h : Int),
    g_hash_table_lookup (l.map (fun e => (e.1, f e.1 e.2))) h =
      (g_hash_table_lookup l h).map (f h) := by
  intro l
  induction l with
  | nil => intro h; rfl
  | cons x rest ih =>
    intro h
    have ih2 := ih h
    unfold g_hash_table_lookup at ih2 ⊢
    simp only [List.map_cons, List.find?_cons]
    by_cases hx : x.1 = h
    · subst hx
      simp
    · have : (x.1 == h) = false := by simpa using hx
      rw [this]
      exact ih2

theorem lookup_record (td : tree_data_t) (k : Int) (pi : List Nat) (h : Int) :
    g_hash_table_lookup (record_interesting td k pi).interesting_hfids h =
      (g_hash_table_lookup td.interesting_hfids h).map
        (fun L => if h = k then L ++ [pi] else L) := by
  unfold record_interesting
  cases hk : g_hash_table_lookup td.interesting_hfids k with
  | none =>
    simp only []
    by_cases hh : h = k
    · subst hh
      rw [hk]
      rfl
    · simp [hh]
  | some L0 =>
    simp only []
    have hm : (td.interesting_hfids.map
        (fun e => if e.1 = k then (e.1, e.2 ++ [pi]) else e)) =
        td.interesting_hfids.map
          (fun e => (e.1, (fun key L => if key = k then L ++ [pi] else L) e.1 e.2)) := by
      apply List.map_congr_left
      intro e _
      by_cases he : e.1 = k
      · simp [he]
      · simp [he]
    rw [hm]
    exact lookup_map (fun key L => if key = k then L ++ [pi] else L) td.interesting_hfids h

theorem run_op_lookup (r : registrar) (num_tree_types : Int) (t t1 : ptree) (op : tree_op)
    (l1 : List (List Nat × field_info))
    (h : run_op r num_tree_types t op = .ok (t1, l1)) (hd : Int) :
    g_hash_table_lookup t1.tree_data.interesting_hfids hd =
      (g_hash_table_lookup t.tree_data.interesting_hfids hd).map
        (fun L => L ++ (((op_result r num_tree_types t op).toList.filter
          (fun e => e.1 = hd)).map (fun e => e.2))) := by
  cases op with
  | add_item tree hfindex tvb start length little_endian =>
    simp only [run_op, bind, Except.bind, pure, Except.pure] at h
    cases ha : proto_tree_add_item r num_tree_types t (some tree) hfindex tvb start length
        little_endian with
    | error e => rw [ha] at h; cases h
    | ok p =>
      rw [ha] at h
      simp only [Except.ok.injEq, Prod.mk.injEq] at h
      obtain ⟨tn, hf, len, fi, _, _, _, _, _, hres, ht1⟩ :=
        add_item_full r num_tree_types t p.2 tree hfindex tvb start length little_endian
          p.1 ha
      have hp : p = (some (tree ++ [tn.children.length]), p.2) := by
        rw [← hres]
      rw [← h.1, ht1]
      simp only [op_result, ha]
      rw [hp]
      simp only [Option.toList, lookup_record]
      cases g_hash_table_lookup t.tree_data.interesting_hfids hd with
      | none => rfl
      | some L =>
        by_cases hh : hd = hfindex
        · subst hh
          simp
        · have : ¬ hfindex = hd := fun e => hh e.symm
          simp [hh, this]
  | add_pi tree hfindex tvb start length finish =>
    simp only [run_op, bind, Except.bind, pure, Except.pure] at h
    cases ha : proto_tree_add_pi r num_tree_types t (some tree) hfindex tvb start length with
    | error e => rw [ha] at h; cases h
    | ok p =>
      rw [ha] at h
      obtain ⟨tn, hf, len, _, _, _, _, hres, ht1⟩ :=
        add_pi_full r num_tree_types t p.2 tree hfindex tvb start length p.1 ha
      have hp : p = (some (tree ++ [tn.children.length], len), p.2) := by
        rw [← hres]
      simp only [hres, Except.ok.injEq, Prod.mk.injEq] at h
      rw [← h.1]
      simp only [op_result, ha]
      rw [hp]
      simp only [Option.toList]
      rw [ht1]
      simp only [lookup_record]
      cases g_hash_table_lookup t.tree_data.interesting_hfids hd with
      | none => rfl
      | some L =>
        by_cases hh : hd = hfindex
        · subst hh
          simp
        · have : ¬ hfindex = hd := fun e => hh e.symm
          simp [hh, this]
  | add_subtree pi idx =>
    simp only [run_op, bind, Except.bind, pure, Except.pure] at h
    cases ha : proto_item_add_subtree num_tree_types t (some pi) idx with
    | error e => rw [ha] at h; cases h
    | ok p =>
      rw [ha] at h
      simp only [Except.ok.injEq, Prod.mk.injEq] at h
      obtain ⟨_, _, _, _, _, _, _, ht1⟩ :=
        add_subtree_full num_tree_types t p.2 pi idx p.1 ha
      rw [← h.1, ht1]
      simp only [op_result, Option.toList, List.filter_nil, List.map_nil, List.append_nil]
      cases g_hash_table_lookup t.tree_data.interesting_hfids hd <;> rfl

theorem run_ops_lookup (r : registrar) (num_tree_types : Int) :
    ∀ (ops : List tree_op) (t t1 : ptree) (log : List (List Nat × field_info)),
      run_ops r num_tree_types t ops = .ok (t1, log) → ∀ hd,
      g_hash_table_lookup t1.tree_data.interesting_hfids hd =
        (g_hash_table_lookup t.tree_data.interesting_hfids hd).map
          (fun L => L ++ adds_of r num_tree_types t ops hd) := by
  intro ops
  induction ops with
  | nil =>
    intro t t1 log h hd
    simp only [run_ops, Except.ok.injEq, Prod.mk.injEq] at h
    rw [← h.1]
    simp only [adds_of, add_trace, List.filter_nil, List.map_nil, List.append_nil]
    cases g_hash_table_lookup t.tree_data.interesting_hfids hd <;> rfl
  | cons op rest ih =>
    intro t t1 log h hd
    simp only [run_ops, bind, Except.bind, pure, Except.pure] at h
    cases h1 : run_op r num_tree_types t op with
    | error e => rw [h1] at h; cases h
    | ok p =>
      rw [h1] at h
      simp only [] at h
      cases h2 : run_ops r num_tree_types p.1 rest with
      | error e => rw [h2] at h; cases h
      | ok q =>
        rw [h2] at h
        simp only [Except.ok.injEq, Prod.mk.injEq] at h
        rw [← h.1, ih p.1 q.1 q.2 h2 hd, run_op_lookup r num_tree_types t p.1 op p.2 h1 hd]
        simp only [adds_of, add_trace, h1, List.filter_append, List.map_append]
        cases g_hash_table_lookup t.tree_data.interesting_hfids hd with
        | none => rfl
        | some L => simp

theorem get_nth_id (r : registrar) (hr : ids_inv r) (hfindex : Int)
    (hf : header_field_info) (h : proto_registrar_get_nth r hfindex = .ok hf) :
    hf.id = hfindex := by
  unfold proto_registrar_get_nth at h
  split at h
  · rename_i hb
    cases hx : r.gpa_hfinfo[hfindex.toNat]? with
    | none => rw [hx] at h; cases h
    | some x =>
      rw [hx] at h
      simp only [Except.ok.injEq] at h
      subst h
      have := hr _ _ hx
      simp only [core] at this
      rw [this]
      omega
  · cases h

theorem run_op_handles (r : registrar) (hr : ids_inv r) (num_tree_types : Int)
    (t t1 : ptree) (op : tree_op) (l1 : List (List Nat × field_info))
    (hk : keeps_hfinfo op)
    (h : run_op r num_tree_types t op = .ok (t1, l1)) :
    (∀ e ∈ (op_result r num_tree_types t op).toList, handle_at t.root e.2 = none) ∧
    ∀ q, handle_at t1.root q =
      match (op_result r num_tree_types t op).toList.find? (fun e => e.2 = q) with
      | some e => some e.1
      | none => handle_at t.root q := by
  cases op with
  | add_item tree hfindex tvb start length little_endian =>
    simp only [run_op, bind, Except.bind, pure, Except.pure] at h
    cases ha : proto_tree_add_item r num_tree_types t (some tree) hfindex tvb start length
        little_endian with
    | error e => rw [ha] at h; cases h
    | ok p =>
      rw [ha] at h
      simp only [Except.ok.injEq, Prod.mk.injEq] at h
      obtain ⟨tn, hf, len, fi, hn, _, hg, _, hv, hres, ht1⟩ :=
        add_item_full r num_tree_types t p.2 tree hfindex tvb start length little_endian
          p.1 ha
      have hp : p = (some (tree ++ [tn.children.length]), p.2) := by
        rw [← hres]
      have hid : fi.hfinfo.id = hfindex := by
        rw [(add_item_value_frame _ _ _ _ _ _ hv).1]
        exact get_nth_id r hr hfindex hf hg
      simp only [op_result, ha]
      rw [hp]
      simp only [Option.toList, List.mem_singleton, forall_eq, List.find?_cons,
        List.find?_nil]
      refine ⟨?_, ?_⟩
      · simp only [handle_at, finfo_at_fresh tree t.root tn hn, Option.map_none']
      · intro q
        rw [← h.1, ht1]
        simp only [handle_at, finfo_at_append tree t.root tn fi q hn]
        by_cases hq : q = tree ++ [tn.children.length]
        · subst hq
          simp [hid]
        · have : ¬ (tree ++ [tn.children.length] = q) := fun e => hq e.symm
          simp [hq, this]
  | add_pi tree hfindex tvb start length finish =>
    simp only [run_op, bind, Except.bind, pure, Except.pure] at h
    cases ha : proto_tree_add_pi r num_tree_types t (some tree) hfindex tvb start length with
    | error e => rw [ha] at h; cases h
    | ok p =>
      rw [ha] at h
      obtain ⟨tn, hf, len, hn, _, hg, _, hres, ht1⟩ :=
        add_pi_full r num_tree_types t p.2 tree hfindex tvb start length p.1 ha
      have hp : p = (some (tree ++ [tn.children.length], len), p.2) := by
        rw [← hres]
      simp only [hres, Except.ok.injEq, Prod.mk.injEq] at h
      have hid : (new_field_info t hf tvb start len).hfinfo.id = hfindex :=
        get_nth_id r hr hfindex hf hg
      simp only [op_result, ha]
      rw [hp]
      simp only [Option.toList, List.mem_singleton, forall_eq, List.find?_cons,
        List.find?_nil]
      refine ⟨?_, ?_⟩
      · simp only [handle_at, finfo_at_fresh tree t.root tn hn, Option.map_none']
      · intro q
        rw [← h.1]
        simp only [handle_at, finfo_at_update, ht1,
          finfo_at_append tree t.root tn _ _ hn]
        by_cases hq : q = tree ++ [tn.children.length]
        · subst hq
          simp only [if_true, Option.map_some', decide_True]
          rw [hk, hid]
        · have : ¬ (tree ++ [tn.children.length] = q) := fun e => hq e.symm
          simp [hq, this]
  | add_subtree pi idx =>
    simp only [run_op, bind, Except.bind, pure, Except.pure] at h
    cases ha : proto_item_add_subtree num_tree_types t (some pi) idx with
    | error e => rw [ha] at h; cases h
    | ok p =>
      rw [ha] at h
      simp only [Except.ok.injEq, Prod.mk.injEq] at h
      obtain ⟨_, _, _, _, _, _, _, ht1⟩ :=
        add_subtree_full num_tree_types t p.2 pi idx p.1 ha
      simp only [op_result, Option.toList, List.not_mem_nil, false_implies, implies_true,
        List.find?_nil, true_and]
      intro q
      rw [← h.1, ht1]
      simp only [handle_at, finfo_at_update]
      by_cases hq : q = pi
      · subst hq
        simp only [if_true]
        cases finfo_at t.root q <;> rfl
      · rw [if_neg hq]

/-- The adds of handle `h` are the nodes with that handle: each pointer once,
and a node has the handle iff it was such an add or had the handle before. -/
theorem run_ops_handles (r : registrar) (hr : ids_inv r) (num_tree_types : Int) (hd : Int) :
    ∀ (ops : List tree_op) (t t1 : ptree) (log : List (List Nat × field_info)),
      (∀ op ∈ ops, keeps_hfinfo op) →
      run_ops r num_tree_types t ops = .ok (t1, log) →
      (adds_of r num_tree_types t ops hd).Nodup ∧
      (∀ q ∈ adds_of r num_tree_types t ops hd, handle_at t.root q = none) ∧
      ∀ q, handle_at t1.root q = some hd ↔
        (q ∈ adds_of r num_tree_types t ops hd ∨ handle_at t.root q = some hd) := by
  intro ops
  induction ops with
  | nil =>
    intro t t1 log _ h
    simp only [run_ops, Except.ok.injEq, Prod.mk.injEq] at h
    rw [← h.1]
    simp [adds_of, add_trace]
  | cons op rest ih =>
    intro t t1 log hk h
    simp only [run_ops, bind, Except.bind, pure, Except.pure] at h
    cases h1 : run_op r num_tree_types t op with
    | error e => rw [h1] at h; cases h
    | ok p =>
      rw [h1] at h
      simp only [] at h
      cases h2 : run_ops r num_tree_types p.1 rest with
      | error e => rw [h2] at h; cases h
      | ok q =>
        rw [h2] at h
        simp only [Except.ok.injEq, Prod.mk.injEq] at h
        obtain ⟨hnd, hfresh, hiff⟩ :=
          ih p.1 q.1 q.2 (fun o ho => hk o (List.mem_cons_of_mem _ ho)) h2
        obtain ⟨hf1, hs1⟩ :=
          run_op_handles r hr num_tree_types t p.1 op p.2 (hk op (List.mem_cons_self _ _)) h1
        rw [← h.1]
        have hadds : adds_of r num_tree_types t (op :: rest) hd =
            ((op_result r num_tree_types t op).toList.filter (fun e => e.1 = hd)).map
              (fun e => e.2) ++ adds_of r num_tree_types p.1 rest hd := by
          simp only [adds_of, add_trace, h1, List.filter_append, List.map_append]
        rw [hadds]
        cases hres : op_result r num_tree_types t op with
        | none =>
          rw [hres] at hs1
          simp only [Option.toList, List.find?_nil] at hs1
          simp only [Option.toList, List.filter_nil, List.map_nil, List.nil_append]
          refine ⟨hnd, ?_, ?_⟩
          · intro x hx
            rw [← hs1 x]
            exact hfresh x hx
          · intro x
            rw [hiff x, hs1 x]
        | some e =>
          rw [hres] at hs1 hf1
          simp only [Option.toList, List.find?_cons, List.find?_nil, List.mem_singleton,
            forall_eq] at hs1 hf1
          have hpe : handle_at p.1.root e.2 = some e.1 := by
            rw [hs1 e.2]
            simp
          have hne : ∀ x, x ≠ e.2 → handle_at p.1.root x = handle_at t.root x := by
            intro x hx
            rw [hs1 x]
            have : ¬ (e.2 = x) := fun hh => hx hh.symm
            simp [this]
          have hnotin : e.2 ∉ adds_of r num_tree_types p.1 rest hd := by
            intro hin
            rw [hfresh e.2 hin] at hpe
            cases hpe
          by_cases he : e.1 = hd
          · simp only [Option.toList, List.filter_cons, he, decide_True, if_true,
              List.filter_nil, List.map_cons, List.map_nil, List.singleton_append,
              List.nodup_cons, List.mem_cons]
            refine ⟨⟨hnotin, hnd⟩, ?_, ?_⟩
            · intro x hx
              rcases hx with hx | hx
              · rw [hx]; exact hf1
              · have hxe : x ≠ e.2 := fun hh => hnotin (hh ▸ hx)
                rw [← hne x hxe]
                exact hfresh x hx
            · intro x
              rw [hiff x]
              by_cases hxe : x = e.2
              · subst hxe
                rw [hpe, hf1, he]
                simp
              · rw [hne x hxe]
                simp [hxe]
          · simp only [Option.toList, List.filter_cons, he, decide_False, List.filter_nil,
              List.map_nil, List.nil_append, Bool.false_eq_true, if_false]
            refine ⟨hnd, ?_, ?_⟩
            · intro x hx
              have hxe : x ≠ e.2 := fun hh => hnotin (hh ▸ hx)
              rw [← hne x hxe]
              exact hfresh x hx
            · intro x
              rw [hiff x]
              by_cases hxe : x = e.2
              · subst hxe
                rw [hpe, hf1]
                have : ¬ (e.1 = hd) := he
                constructor
                · rintro (hin | hh)
                  · exact absurd hin hnotin
                  · simp only [Option.some.injEq] at hh
                    exact absurd hh he
                · rintro (hin | hh)
                  · exact absurd hin hnotin
                  · cases hh
              · rw [hne x hxe]

mutual
theorem pre_order_mem (path : List Nat) :
    ∀ (n : proto_node) (q : List Nat) (x : Option field_info),
      (q, x) ∈ pre_order path n ↔
        ∃ s nd, q = path ++ s ∧ node_at n s = some nd ∧ nd.finfo = x
  | .mk fi cs, q, x => by
    rw [pre_order, List.mem_cons, pre_order_children_mem path 0 cs q x]
    constructor
    · rintro (h | ⟨j, c, s, nd, hc, hq, hn, hx⟩)
      · simp only [Prod.mk.injEq] at h
        exact ⟨[], .mk fi cs, by simp [h.1], rfl, h.2.symm⟩
      · refine ⟨j :: s, nd, by simpa using hq, ?_, hx⟩
        simp only [node_at, hc]
        exact hn
    · rintro ⟨s, nd, hq, hn, hx⟩
      cases s with
      | nil =>
        left
        simp only [node_at, Option.some.injEq] at hn
        subst hn
        simp only [proto_node.finfo] at hx
        simp [hq, hx]
      | cons j s =>
        right
        simp only [node_at] at hn
        cases hc : cs[j]? with
        | none => rw [hc] at hn; cases hn
        | some c =>
          rw [hc] at hn
          exact ⟨j, c, s, nd, hc, by simpa using hq, hn, hx⟩

theorem pre_order_children_mem (path : List Nat) (i : Nat) :
    ∀ (cs : List proto_node) (q : List Nat) (x : Option field_info),
      (q, x) ∈ pre_order_children path i cs ↔
        ∃ j c s nd, cs[j]? = some c ∧ q = path ++ (i + j) :: s ∧
          node_at c s = some nd ∧ nd.finfo = x
  | [], q, x => by
    simp [pre_order_children]
  | c :: cs, q, x => by
    rw [pre_order_children, List.mem_append, pre_order_mem (path ++ [i]) c q x,
      pre_order_children_mem path (i + 1) cs q x]
    constructor
    · rintro (⟨s, nd, hq, hn, hx⟩ | ⟨j, c2, s, nd, hc, hq, hn, hx⟩)
      · exact ⟨0, c, s, nd, by simp, by simpa using hq, hn, hx⟩
      · refine ⟨j + 1, c2, s, nd, by simpa using hc, ?_, hn, hx⟩
        rw [hq]
        congr 2
        omega
    · rintro ⟨j, c2, s, nd, hc, hq, hn, hx⟩
      cases j with
      | zero =>
        left
        simp only [List.getElem?_cons_zero, Option.some.injEq] at hc
        subst hc
        exact ⟨s, nd, by simpa using hq, hn, hx⟩
      | succ j =>
        right
        refine ⟨j, c2, s, nd, by simpa using hc, ?_, hn, hx⟩
        rw [hq]
        congr 2
        omega
end

mutual
theorem pre_order_nodup (path : List Nat) :
    ∀ (n : proto_node), ((pre_order path n).map Prod.fst).Nodup
  | .mk fi cs => by
    rw [pre_order, List.map_cons, List.nodup_cons]
    refine ⟨?_, pre_order_children_nodup path 0 cs⟩
    intro hin
    obtain ⟨⟨q, x⟩, hm, hq⟩ := List.mem_map.1 hin
    simp only at hq
    rw [hq] at hm
    obtain ⟨j, c, s, nd, _, hq2, _, _⟩ := (pre_order_children_mem path 0 cs path x).1 hm
    have := congrArg List.length hq2
    simp at this
theorem pre_order_children_nodup (path : List Nat) (i : Nat) :
    ∀ (cs : List proto_node), ((pre_order_children path i cs).map Prod.fst).Nodup
  | [] => by
    simp [pre_order_children]
  | c :: cs => by
    rw [pre_order_children, List.map_append, List.nodup_append]
    refine ⟨pre_order_nodup (path ++ [i]) c, pre_order_children_nodup path (i + 1) cs, ?_⟩
    intro q h1 h2
    obtain ⟨⟨q1, x1⟩, hm1, hq1⟩ := List.mem_map.1 h1
    obtain ⟨⟨q2, x2⟩, hm2, hq2⟩ := List.mem_map.1 h2
    simp only at hq1 hq2
    rw [hq1] at hm1
    rw [hq2] at hm2
    obtain ⟨s, nd, hq, _, _⟩ := (pre_order_mem (path ++ [i]) c q x1).1 hm1
    obtain ⟨j, c2, s2, nd2, _, hq3, _, _⟩ :=
      (pre_order_children_mem path (i + 1) cs q x2).1 hm2
    rw [hq] at hq3
    rename_i hq2
    clear hq2
    have hq2 := hq3
    simp only [List.append_assoc, List.singleton_append, List.append_cancel_left_eq,
      List.cons.injEq] at hq2
    omega
end

theorem mem_handle_paths (n : proto_node) (h : Int) (q : List Nat) :
    q ∈ handle_paths n h ↔ handle_at n q = some h := by
  simp only [handle_paths, handle_at, finfo_at, List.mem_map, List.mem_filter, beq_iff_eq,
    Prod.exists, exists_and_right, exists_eq_right]
  constructor
  · rintro ⟨x, hm, hx⟩
    obtain ⟨s, nd, hq, hn, hf⟩ := (pre_order_mem [] n q x).1 hm
    simp only [List.nil_append] at hq
    rw [hq, hn]
    show Option.map (fun fi => fi.hfinfo.id) nd.finfo = some h
    rw [hf]
    exact hx
  · intro hh
    cases hn : node_at n q with
    | none => rw [hn] at hh; cases hh
    | some nd =>
      rw [hn] at hh
      exact ⟨nd.finfo, (pre_order_mem [] n q nd.finfo).2 ⟨q, nd, rfl, hn, rfl⟩, hh⟩

theorem handle_paths_nodup (n : proto_node) (h : Int) : (handle_paths n h).Nodup := by
  unfold handle_paths
  exact List.Nodup.sublist (List.Sublist.map _ (List.filter_sublist _)) (pre_order_nodup [] n)

theorem handle_at_bare (q : List Nat) : handle_at (.mk none []) q = none := by
  cases q with
  | nil => rfl
  | cons i q => simp [handle_at, finfo_at_leaf]

theorem op_result_count (r : registrar) (num_tree_types : Int) (t t1 : ptree) (op : tree_op)
    (l1 : List (List Nat × field_info)) (hd : Int)
    (h : run_op r num_tree_types t op = .ok (t1, l1)) :
    (((op_result r num_tree_types t op).toList.filter (fun e => e.1 = hd)).map
      (fun e => e.2)).length = if is_add_of hd op then 1 else 0 := by
  cases op with
  | add_item tree hfindex tvb start length little_endian =>
    simp only [run_op, bind, Except.bind, pure, Except.pure] at h
    cases ha : proto_tree_add_item r num_tree_types t (some tree) hfindex tvb start length
        little_endian with
    | error e => rw [ha] at h; cases h
    | ok p =>
      obtain ⟨tn, hf, len, fi, _, _, _, _, _, hres, _⟩ :=
        add_item_full r num_tree_types t p.2 tree hfindex tvb start length little_endian
          p.1 ha
      have hp : p = (some (tree ++ [tn.children.length]), p.2) := by
        rw [← hres]
      simp only [op_result, ha, is_add_of]
      rw [hp]
      by_cases hh : hfindex = hd <;> simp [hh]
  | add_pi tree hfindex tvb start length finish =>
    simp only [run_op, bind, Except.bind, pure, Except.pure] at h
    cases ha : proto_tree_add_pi r num_tree_types t (some tree) hfindex tvb start length with
    | error e => rw [ha] at h; cases h
    | ok p =>
      obtain ⟨tn, hf, len, _, _, _, _, hres, _⟩ :=
        add_pi_full r num_tree_types t p.2 tree hfindex tvb start length p.1 ha
      have hp : p = (some (tree ++ [tn.children.length], len), p.2) := by
        rw [← hres]
      simp only [op_result, ha, is_add_of]
      rw [hp]
      by_cases hh : hfindex = hd <;> simp [hh]
  | add_subtree pi idx =>
    simp [op_result, is_add_of]

theorem adds_of_length (r : registrar) (num_tree_types : Int) (hd : Int) :
    ∀ (ops : List tree_op) (t t1 : ptree) (log : List (List Nat × field_info)),
      run_ops r num_tree_types t ops = .ok (t1, log) →
      (adds_of r num_tree_types t ops hd).length = (ops.filter (is_add_of hd)).length := by
  intro ops
  induction ops with
  | nil =>
    intro t t1 log _
    rfl
  | cons op rest ih =>
    intro t t1 log h
    simp only [run_ops, bind, Except.bind, pure, Except.pure] at h
    cases h1 : run_op r num_tree_types t op with
    | error e => rw [h1] at h; cases h
    | ok p =>
      rw [h1] at h
      simp only [] at h
      cases h2 : run_ops r num_tree_types p.1 rest with
      | error e => rw [h2] at h; cases h
      | ok q =>
        have hadds : adds_of r num_tree_types t (op :: rest) hd =
            ((op_result r num_tree_types t op).toList.filter (fun e => e.1 = hd)).map
              (fun e => e.2) ++ adds_of r num_tree_types p.1 rest hd := by
          simp only [adds_of, add_trace, h1, List.filter_append, List.map_append]
        rw [hadds, List.length_append, ih p.1 q.1 q.2 h2,
          op_result_count r num_tree_types t p.1 op p.2 hd h1, List.filter_cons]
        cases is_add_of hd op
        · simp
        · simp
          omega

theorem snprintf_length (size : Nat) (h : 0 < size) (text : String) :
    (snprintf size text).length < size := by
  show (text.data.take (size - 1)).length < size
  rw [List.length_take]
  omega

theorem snprintf_short (size : Nat) (text : String) (h : text.length < size) :
    snprintf size text = text := by
  apply String.ext
  show text.data.take (size - 1) = text.data
  apply List.take_of_length_le
  have : text.data.length = text.length := rfl
  omega

theorem snprintf_data (size : Nat) (text : String) :
    (snprintf size text).data = text.data.take (size - 1) := rfl

theorem snprintf_append (size : Nat) (pre text : String) (h : pre.length < size) :
    pre ++ snprintf (size - pre.length) text = snprintf size (pre ++ text) := by
  apply String.ext
  have hl : pre.data.length = pre.length := rfl
  rw [String.data_append, snprintf_data, snprintf_data, String.data_append,
    List.take_append_eq_append_take, List.take_of_length_le (show pre.data.length ≤ size - 1 by
      omega), hl]
  congr 2
  omega

theorem label_write_ok (size : Nat) (pre text s : String)
    (h : label_write size pre text = .ok s) :
    s = snprintf size (pre ++ text) ∧ s.length < size := by
  unfold label_write at h
  split at h
  · rename_i hp
    simp only [Except.ok.injEq] at h
    rw [← h, snprintf_append size pre text hp]
    exact ⟨rfl, snprintf_length size (by omega) _⟩
  · cases h

theorem label_write_large (size : Nat) (pre text : String)
    (h : (pre ++ text).length < size) :
    label_write size pre text = .ok (pre ++ text) := by
  have hl : (pre ++ text).length = pre.length + text.length := String.length_append pre text
  unfold label_write
  rw [if_pos (by omega), snprintf_short (size - pre.length) text (by omega)]

theorem one_write_error (e : fault) : one_write (fun _ => .error e) :=
  Or.inl ⟨e, fun _ => rfl⟩

theorem one_write_label (pre text : String) :
    one_write (fun size => label_write size pre text) :=
  Or.inr ⟨pre, text, fun _ => rfl⟩

theorem one_write_bind {α : Type} (x : Except fault α) (g : α → Nat → Except fault String)
    (h : ∀ a, one_write (g a)) : one_write (fun size => x >>= fun a => g a size) := by
  cases x with
  | error e => exact one_write_error e
  | ok a => exact h a

theorem one_write_result (f : Nat → Except fault String) (hf : one_write f) (size : Nat)
    (s : String) (h : f size = .ok s) :
    s.length < size ∧
    ∃ full, (∀ n, full.length < n → f n = .ok full) ∧ s = snprintf size full := by
  rcases hf with ⟨e, he⟩ | ⟨pre, text, hw⟩
  · rw [he] at h
    cases h
  · rw [hw] at h
    obtain ⟨h1, h2⟩ := label_write_ok size pre text s h
    refine ⟨h2, pre ++ text, ?_, h1⟩
    intro n hn
    rw [hw, label_write_large n pre text hn]

theorem one_write_ite (c : Prop) [Decidable c] (f g : Nat → Except fault String)
    (hf : one_write f) (hg : one_write g) :
    one_write (fun size => if c then f size else g size) := by
  by_cases h : c
  · simp only [if_pos h]
    exact hf
  · simp only [if_neg h]
    exact hg

theorem one_write_uint (fi : field_info) : one_write (fun size => fill_label_uint size fi) := by
  unfold fill_label_uint
  refine one_write_bind _ _ (fun format => ?_)
  refine one_write_bind _ _ (fun name => ?_)
  exact one_write_label _ _

theorem one_write_int (fi : field_info) : one_write (fun size => fill_label_int size fi) := by
  unfold fill_label_int
  refine one_write_bind _ _ (fun format => ?_)
  refine one_write_bind _ _ (fun name => ?_)
  exact one_write_label _ _

theorem one_write_enumerated_uint (fi : field_info) :
    one_write (fun size => fill_label_enumerated_uint size fi) := by
  unfold fill_label_enumerated_uint
  refine one_write_bind _ _ (fun format => ?_)
  refine one_write_bind _ _ (fun name => ?_)
  refine one_write_bind _ _ (fun table => ?_)
  exact one_write_label _ _

theorem one_write_enumerated_int (fi : field_info) :
    one_write (fun size => fill_label_enumerated_int size fi) := by
  unfold fill_label_enumerated_int
  refine one_write_bind _ _ (fun format => ?_)
  refine one_write_bind _ _ (fun name => ?_)
  refine one_write_bind _ _ (fun table => ?_)
  exact one_write_label _ _

theorem one_write_numeric_bitfield (fi : field_info) :
    one_write (fun size => fill_label_numeric_bitfield size fi) := by
  unfold fill_label_numeric_bitfield
  refine one_write_bind _ _ (fun bitwidth => ?_)
  refine one_write_bind _ _ (fun format => ?_)
  refine one_write_bind _ _ (fun unshifted => ?_)
  refine one_write_bind _ _ (fun name => ?_)
  exact one_write_label _ _

theorem one_write_enumerated_bitfield (fi : field_info) :
    one_write (fun size => fill_label_enumerated_bitfield size fi) := by
  unfold fill_label_enumerated_bitfield
  refine one_write_bind _ _ (fun bitwidth => ?_)
  refine one_write_bind _ _ (fun format => ?_)
  refine one_write_bind _ _ (fun unshifted => ?_)
  refine one_write_bind _ _ (fun name => ?_)
  refine one_write_bind _ _ (fun table => ?_)
  exact one_write_label _ _

theorem one_write_boolean (fi : field_info) :
    one_write (fun size => fill_label_boolean size fi) := by
  unfold fill_label_boolean
  simp only []
  refine one_write_ite _ _ _ ?_ ?_
  · refine one_write_bind _ _ (fun bitwidth => ?_)
    refine one_write_bind _ _ (fun unshifted => ?_)
    refine one_write_bind _ _ (fun p => ?_)
    refine one_write_bind _ _ (fun name => ?_)
    refine one_write_bind _ _ (fun tfstring => ?_)
    exact one_write_label _ _
  · refine one_write_bind _ _ (fun p => ?_)
    refine one_write_bind _ _ (fun name => ?_)
    refine one_write_bind _ _ (fun tfstring => ?_)
    exact one_write_label _ _

theorem one_write_uint64 (env : label_env) (fi : field_info) :
    one_write (fun size => fill_label_uint64 size env fi) := by
  unfold fill_label_uint64
  refine one_write_ite _ _ _ ?_ (one_write_ite _ _ _ ?_ (one_write_error _))
  · refine one_write_bind _ _ (fun name => ?_)
    refine one_write_bind _ _ (fun b => ?_)
    exact one_write_label _ _
  · refine one_write_bind _ _ (fun name => ?_)
    refine one_write_bind _ _ (fun b => ?_)
    exact one_write_label _ _

theorem one_write_int64 (env : label_env) (fi : field_info) :
    one_write (fun size => fill_label_int64 size env fi) := by
  unfold fill_label_int64
  refine one_write_ite _ _ _ ?_ (one_write_ite _ _ _ ?_ (one_write_error _))
  · refine one_write_bind _ _ (fun name => ?_)
    refine one_write_bind _ _ (fun b => ?_)
    exact one_write_label _ _
  · refine one_write_bind _ _ (fun name => ?_)
    refine one_write_bind _ _ (fun b => ?_)
    exact one_write_label _ _

theorem one_write_fill_label (env : label_env) (fi : field_info) :
    one_write (fun size => proto_item_fill_label size env fi) := by
  unfold proto_item_fill_label
  simp only []
  cases fi.hfinfo.type
  case FT_BOOLEAN => exact one_write_boolean fi
  case FT_UINT64 => exact one_write_uint64 env fi
  case FT_INT64 => exact one_write_int64 env fi
  case FT_BYTES =>
    simp only []
    cases env.fvalue_get fi.value with
    | none =>
      simp only []
      refine one_write_bind _ _ (fun name => ?_)
      exact one_write_label _ _
    | some b =>
      simp only []
      refine one_write_bind _ _ (fun name => ?_)
      exact one_write_label _ _
  case FT_UINT_BYTES =>
    simp only []
    cases env.fvalue_get fi.value with
    | none =>
      simp only []
      refine one_write_bind _ _ (fun name => ?_)
      exact one_write_label _ _
    | some b =>
      simp only []
      refine one_write_bind _ _ (fun name => ?_)
      exact one_write_label _ _
  case FT_INT8 | FT_INT16 | FT_INT24 | FT_INT32 =>
    simp only []
    refine one_write_bind _ _ (fun _ => ?_)
    exact one_write_ite _ _ _ (one_write_enumerated_int fi) (one_write_int fi)
  case FT_UINT8 | FT_UINT16 | FT_UINT24 | FT_UINT32 | FT_FRAMENUM =>
    simp only []
    exact one_write_ite _ _ _
      (one_write_ite _ _ _ (one_write_enumerated_bitfield fi) (one_write_numeric_bitfield fi))
      (one_write_ite _ _ _ (one_write_enumerated_uint fi) (one_write_uint fi))
  all_goals
    simp only []
    first
    | (refine one_write_bind _ _ (fun a => ?_)
       refine one_write_bind _ _ (fun b => ?_)
       exact one_write_label _ _)
    | (refine one_write_bind _ _ (fun a => ?_)
       exact one_write_label _ _)

theorem set_item_value_ok (t : ptree) (pi : List Nat) (fi fi2 : field_info)
    (set : field_info → Except fault field_info)
    (hfi : finfo_at t.root pi = some fi) (hset : set fi = .ok fi2) :
    ∃ t2, set_item_value t pi set = .ok t2 ∧ finfo_at t2.root pi = some fi2 ∧
      (∀ q, q ≠ pi → finfo_at t2.root q = finfo_at t.root q) ∧
      t2.tree_data = t.tree_data := by
  refine ⟨{ t with root := update_finfo (fun _ => fi2) t.root pi }, ?_, ?_, ?_, rfl⟩
  · unfold set_item_value
    simp only [bind, Except.bind, pitem_finfo_ok t pi fi hfi, hset]
    rfl
  · show finfo_at (update_finfo _ t.root pi) pi = _
    rw [finfo_at_update, if_pos rfl, hfi]
    rfl
  · intro q hq
    show finfo_at (update_finfo _ t.root pi) q = _
    rw [finfo_at_update, if_neg hq]

theorem set_representation_ok (size : Nat) (t : ptree) (pi : List Nat) (fi : field_info)
    (text : String) (hfi : finfo_at t.root pi = some fi) :
    ∃ t2, proto_tree_set_representation size t pi text = .ok t2 ∧
      finfo_at t2.root pi = some (set_representation size fi text) ∧
      (∀ q, q ≠ pi → finfo_at t2.root q = finfo_at t.root q) ∧
      t2.tree_data = t.tree_data := by
  refine ⟨{ t with root := update_finfo (fun fi => set_representation size fi text) t.root pi },
    ?_, ?_, ?_, rfl⟩
  · unfold proto_tree_set_representation
    simp only [bind, Except.bind, pitem_finfo_ok t pi fi hfi]
    rfl
  · show finfo_at (update_finfo _ t.root pi) pi = _
    rw [finfo_at_update, if_pos rfl, hfi]
    rfl
  · intro q hq
    show finfo_at (update_finfo _ t.root pi) q = _
    rw [finfo_at_update, if_neg hq]

theorem append_text_some (size : Nat) (env : label_env) (fi : field_info) (text cur : String)
    (hrep : fi.representation = some cur) (hcur : cur.length < size) :
    append_text size env fi text =
      .ok (if fi.visible then
            { fi with representation := some (snprintf size (cur ++ text)) }
           else fi) := by
  unfold append_text
  cases hv : fi.visible
  · rfl
  · simp only [hrep, if_true, bind, Except.bind, pure, Except.pure,
      gt_iff_lt, hcur, snprintf_append size cur text hcur]

theorem append_text_none (size : Nat) (env : label_env) (fi : field_info) (text s : String)
    (hrep : fi.representation = none) (hvis : fi.visible = true)
    (hs : proto_item_fill_label size env fi = .ok s) :
    append_text size env fi text =
      .ok { fi with representation := some (snprintf size (s ++ text)) } := by
  obtain ⟨hlen, _⟩ := one_write_result _ (one_write_fill_label env fi) size s hs
  unfold append_text
  simp only [hrep, hvis, if_true, bind, Except.bind, pure, Except.pure, hs,
    gt_iff_lt, hlen, snprintf_append size s text hlen]

theorem to_digits_length (upper : Bool) (base : Nat) (hb : 1 < base) :
    ∀ (fuel n k : Nat) (acc : List Char), 1 ≤ k → n < base ^ k →
      (to_digits upper base fuel n acc).length ≤ k + acc.length := by
  intro fuel
  induction fuel with
  | zero =>
    intro n k acc _ _
    simp only [to_digits]
    omega
  | succ fuel ih =>
    intro n k acc hk hn
    simp only [to_digits]
    split
    · simp only [List.length_cons]
      omega
    · rename_i hge
      have hk2 : 2 ≤ k := by
        by_contra hlt
        have : k = 1 := by omega
        rw [this, pow_one] at hn
        exact hge hn
      have hdiv : n / base < base ^ (k - 1) := by
        rw [Nat.div_lt_iff_lt_mul (by omega), ← pow_succ]
        rwa [show k - 1 + 1 = k by omega]
      have := ih (n / base) (k - 1) (digit_char upper (n % base) :: acc) (by omega) hdiv
      simp only [List.length_cons] at this
      omega

theorem fmt_u_length (n : Nat) : (fmt_u n).length ≤ 10 := by
  have h := to_digits_length false 10 (by decide) 11 (n % 2 ^ 32) 10 [] (by decide)
    (lt_of_lt_of_le (Nat.mod_lt _ (by decide)) (by decide))
  simpa [fmt_u] using h

theorem fmt_d_length (n : Nat) : (fmt_d n).length ≤ 11 := by
  have hb : to_gint 32 n < 2 ^ 31 ∧ -(2 ^ 31) ≤ to_gint 32 n := by
    unfold to_gint
    split <;> omega
  unfold fmt_d
  split
  · have h := to_digits_length false 10 (by decide) 11 (- to_gint 32 n).toNat 10 []
      (by decide) (by omega)
    simp only [List.length_cons, List.length_nil] at h ⊢
    omega
  · have h := to_digits_length false 10 (by decide) 11 (to_gint 32 n).toNat 10 []
      (by decide) (by omega)
    simp only [List.length_nil] at h
    omega

theorem fmt_x_length (upper : Bool) (w n : Nat) (hw : w ≤ 8) :
    (fmt_x upper w n).length ≤ 8 := by
  have h := to_digits_length upper 16 (by decide) 11 (n % 2 ^ 32) 8 [] (by decide)
    (lt_of_lt_of_le (Nat.mod_lt _ (by decide)) (by decide))
  simp only [List.length_nil] at h
  simp only [fmt_x, List.length_append, List.length_replicate]
  omega

theorem sprintf_eq_u (a : String) (v : Nat) :
    sprintf "%s == %u" [.str a, .num v] = a ++ " == " ++ String.mk (fmt_u v) := by
  apply String.ext
  simp [sprintf, expand, String.data_append]

theorem sprintf_eq_d (a : String) (v : Nat) :
    sprintf "%s == %d" [.str a, .num v] = a ++ " == " ++ String.mk (fmt_d v) := by
  apply String.ext
  simp [sprintf, expand, String.data_append]

theorem sprintf_eq_x2 (a : String) (v : Nat) :
    sprintf "%s == 0x%02x" [.str a, .num v] = a ++ " == 0x" ++ String.mk (fmt_x false 2 v) := by
  apply String.ext
  simp [sprintf, expand, String.data_append, width_of]

theorem sprintf_eq_x4 (a : String) (v : Nat) :
    sprintf "%s == 0x%04x" [.str a, .num v] = a ++ " == 0x" ++ String.mk (fmt_x false 4 v) := by
  apply String.ext
  simp [sprintf, expand, String.data_append, width_of]

theorem sprintf_eq_x6 (a : String) (v : Nat) :
    sprintf "%s == 0x%06x" [.str a, .num v] = a ++ " == 0x" ++ String.mk (fmt_x false 6 v) := by
  apply String.ext
  simp [sprintf, expand, String.data_append, width_of]

theorem sprintf_eq_x8 (a : String) (v : Nat) :
    sprintf "%s == 0x%08x" [.str a, .num v] = a ++ " == 0x" ++ String.mk (fmt_x false 8 v) := by
  apply String.ext
  simp [sprintf, expand, String.data_append, width_of]

theorem dfilter_fits (a sep : String) (digits : List Char)
    (h : sep.length + digits.length ≤ 15) :
    snprintf (a.length + 4 + 11 + 1) (a ++ sep ++ String.mk digits)
      = a ++ sep ++ String.mk digits := by
  apply snprintf_short
  rw [String.length_append, String.length_append]
  show a.length + sep.length + digits.length < _
  omega

/-- The filter string of an integer field whose `hfinfo_numeric_format` is
`format`. -/
theorem dfilter_integer (env : label_env) (renv : repr_env) (fi : field_info)
    (edt : Option epan_dissect_t) (a format : String)
    (ha : fi.hfinfo.abbrev_ = some a)
    (ht : fi.hfinfo.type ∈ uint_types ++ sint_types ++ [FT_FRAMENUM])
    (hf : hfinfo_numeric_format fi.hfinfo = .ok format) :
    proto_construct_dfilter_string env renv fi edt =
      .ok (some (snprintf (a.length + 4 + 11 + 1)
        (sprintf format [.str a, .num (fvalue_get_integer fi.value)]))) := by
  unfold proto_construct_dfilter_string
  simp only [ha, deref, bind, Except.bind, pure, Except.pure]
  simp only [uint_types, sint_types, List.cons_append, List.nil_append, List.mem_cons,
    List.mem_singleton, List.not_mem_nil, or_false] at ht
  rcases ht with h | h | h | h | h | h | h | h | h <;> simp only [h, hf]

theorem numeric_format_unsigned (hf : header_field_info)
    (h : hf.type = FT_FRAMENUM ∨
      (hf.type ∈ uint_types ∧ (hf.display = BASE_DEC ∨ hf.display = BASE_OCT))) :
    hfinfo_numeric_format hf = .ok "%s == %u" := by
  unfold hfinfo_numeric_format
  rcases h with h | ⟨ht, hd⟩
  · rw [if_pos h]
    rfl
  · simp only [uint_types, List.mem_cons, List.mem_singleton, List.not_mem_nil,
      or_false] at ht
    rcases ht with h | h | h | h <;> simp only [h, hd] <;> rfl

theorem numeric_format_signed (hf : header_field_info) (ht : hf.type ∈ sint_types)
    (hd : hf.display = BASE_DEC ∨ hf.display = BASE_OCT) :
    hfinfo_numeric_format hf = .ok "%s == %d" := by
  unfold hfinfo_numeric_format
  simp only [sint_types, List.mem_cons, List.mem_singleton, List.not_mem_nil,
    or_false] at ht
  rcases ht with h | h | h | h <;> simp only [h, hd] <;> rfl

/-- A signed field with the display base Hex has no format: the assertion of
`hfinfo_numeric_format` fails. -/
theorem numeric_format_signed_hex (hf : header_field_info) (ht : hf.type ∈ sint_types)
    (hd : hf.display = BASE_HEX) :
    hfinfo_numeric_format hf = .error fault.assertion := by
  unfold hfinfo_numeric_format
  simp only [sint_types, List.mem_cons, List.mem_singleton, List.not_mem_nil,
    or_false] at ht
  rcases ht with h | h | h | h <;> simp only [h, hd] <;> rfl

theorem dfilter_signed_hex (env : label_env) (renv : repr_env) (fi : field_info)
    (edt : Option epan_dissect_t) (a : String) (ha : fi.hfinfo.abbrev_ = some a)
    (ht : fi.hfinfo.type ∈ sint_types) (hd : fi.hfinfo.display = BASE_HEX) :
    proto_construct_dfilter_string env renv fi edt = .error fault.assertion := by
  have hf := numeric_format_signed_hex fi.hfinfo ht hd
  unfold proto_construct_dfilter_string
  simp only [ha, deref, bind, Except.bind, pure, Except.pure]
  simp only [sint_types, List.mem_cons, List.mem_singleton, List.not_mem_nil,
    or_false] at ht
  rcases ht with h | h | h | h <;> simp only [h, hf]

theorem numeric_format_hex (hf : header_field_info) (ht : hf.type ∈ uint_types)
    (hd : hf.display = BASE_HEX) (w : Int) (hw : fixed_width hf.type = some w) :
    ∃ format, hfinfo_numeric_format hf = .ok format ∧ (2 * w).toNat ≤ 8 ∧
      ∀ a v, sprintf format [.str a, .num v]
        = a ++ " == 0x" ++ String.mk (fmt_x false (2 * w).toNat v) := by
  unfold hfinfo_numeric_format
  simp only [uint_types, List.mem_cons, List.mem_singleton, List.not_mem_nil,
    or_false] at ht
  rcases ht with h | h | h | h
  · rw [h] at hw
    simp only [fixed_width, Option.some.injEq] at hw
    subst hw
    exact ⟨"%s == 0x%02x", by simp only [h, hd]; rfl, by decide, sprintf_eq_x2⟩
  · rw [h] at hw
    simp only [fixed_width, Option.some.injEq] at hw
    subst hw
    exact ⟨"%s == 0x%04x", by simp only [h, hd]; rfl, by decide, sprintf_eq_x4⟩
  · rw [h] at hw
    simp only [fixed_width, Option.some.injEq] at hw
    subst hw
    exact ⟨"%s == 0x%06x", by simp only [h, hd]; rfl, by decide, sprintf_eq_x6⟩
  · rw [h] at hw
    simp only [fixed_width, Option.some.injEq] at hw
    subst hw
    exact ⟨"%s == 0x%08x", by simp only [h, hd]; rfl, by decide, sprintf_eq_x8⟩

theorem guint8_ok (b : tvbuff) (S : Int) (h0 : 0 ≤ S) (h1 : S + 1 ≤ b.octets.length) :
    ∃ x, b.octets[S.toNat]? = some x ∧ tvb_get_guint8 (some b) S = .ok (x % 256) := by
  have hlt : S.toNat < b.octets.length := by omega
  refine ⟨b.octets[S.toNat], List.getElem?_eq_getElem hlt, ?_⟩
  unfold tvb_get_guint8
  rw [tvb_get_ptr_ok b S 1 h0 (by decide) h1]
  have e1 : (1 : Int).toNat = 1 := rfl
  simp only [span, Except.map, e1]
  rw [List.drop_eq_getElem_cons hlt]
  simp only [List.take_succ_cons, List.take_zero, List.map_cons, List.map_nil, pntoh,
    List.foldl_cons, List.foldl_nil, Nat.zero_mul, Nat.zero_add]

theorem guint8_fault (b : tvbuff) (S : Int) (h : S < 0 ∨ (b.octets.length : Int) < S + 1) :
    tvb_get_guint8 (some b) S = .error fault.bounds := by
  unfold tvb_get_guint8 tvb_get_ptr
  simp only []
  rw [if_neg (by omega)]
  rfl

theorem read_octets_ok (b : tvbuff) :
    ∀ (n : Nat) (S : Int), 0 ≤ S → S + n ≤ b.octets.length →
      read_octets (some b) S n = .ok (span b S n) := by
  intro n
  induction n with
  | zero =>
    intro S _ _
    simp [read_octets, span, pure, Except.pure]
  | succ n ih =>
    intro S h0 h1
    obtain ⟨x, hx, hg⟩ := guint8_ok b S h0 (by omega)
    have hlt : S.toNat < b.octets.length := by omega
    simp only [read_octets, bind, Except.bind, hg,
      ih (S + 1) (by omega) (by push_cast at h1 ⊢; omega), pure, Except.pure]
    congr 1
    simp only [span]
    have e1 : ((n + 1 : Nat) : Int).toNat = n + 1 := by omega
    have e2 : (S + 1).toNat = S.toNat + 1 := by omega
    have e3 : ((n : Nat) : Int).toNat = n := by omega
    rw [e1, e2, e3, List.drop_eq_getElem_cons hlt, List.take_succ_cons, List.map_cons]
    rw [List.getElem?_eq_getElem hlt] at hx
    simp only [Option.some.injEq] at hx
    rw [hx]

theorem read_octets_fault (b : tvbuff) :
    ∀ (n : Nat) (S : Int), 0 < n → (S < 0 ∨ (b.octets.length : Int) < S + n) →
      read_octets (some b) S n = .error fault.bounds := by
  intro n
  induction n with
  | zero => intro S h _; omega
  | succ n ih =>
    intro S _ h
    by_cases hin : 0 ≤ S ∧ S + 1 ≤ b.octets.length
    · obtain ⟨x, _, hg⟩ := guint8_ok b S hin.1 hin.2
      have hn : 0 < n := by
        by_contra hn0
        have : n = 0 := by omega
        subst this
        simp only [Nat.zero_add, Nat.cast_one] at h
        omega
      simp only [read_octets, bind, Except.bind, hg,
        ih (S + 1) hn (by push_cast at h ⊢; omega)]
    · simp only [read_octets, bind, Except.bind, guint8_fault b S (by omega)]

theorem fmt_x2_length (c : Nat) (h : c < 256) : (fmt_x false 2 c).length = 2 := by
  have hm : c % 2 ^ 32 = c := Nat.mod_eq_of_lt (by omega)
  have hl := to_digits_length false 16 (by decide) 11 c 2 [] (by decide) (by omega)
  simp only [List.length_nil] at hl
  simp only [fmt_x, hm, List.length_append, List.length_replicate]
  omega

theorem hex_octets_length : ∀ (l : List Nat), (∀ x ∈ l, x < 256) → l ≠ [] →
    (hex_octets l).length + 1 = 3 * l.length := by
  intro l
  induction l with
  | nil => intro _ h; exact absurd rfl h
  | cons c rest ih =>
    intro hlt _
    have hc := fmt_x2_length c (hlt c (List.mem_cons_self _ _))
    cases rest with
    | nil => simp [hex_octets, hc]
    | cons d rest2 =>
      have := ih (fun x hx => hlt x (List.mem_cons_of_mem _ hx)) (by simp)
      simp only [hex_octets, List.length_append, List.length_cons, hc] at this ⊢
      omega

theorem fmt_d_nonneg (x : Int) (h0 : 0 ≤ x) (h1 : x < 2 ^ 31) :
    fmt_d (to_guint32 x) = fmt_u x.toNat ∧ (fmt_u x.toNat).length ≤ 10 := by
  have e1 : to_guint32 x = x.toNat := by
    unfold to_guint32
    rw [Int.emod_eq_of_lt h0 (by omega)]
  have e2 : to_gint 32 x.toNat = x := by
    unfold to_gint
    have : x.toNat % 2 ^ 32 = x.toNat := Nat.mod_eq_of_lt (by omega)
    rw [this, if_pos (by omega)]
    omega
  have e3 : x.toNat % 2 ^ 32 = x.toNat := Nat.mod_eq_of_lt (by omega)
  refine ⟨?_, fmt_u_length _⟩
  rw [e1]
  unfold fmt_d fmt_u
  rw [e2, if_neg (by omega), e3]

theorem sprintf_frame (s l : Nat) :
    sprintf "frame[%d:%d] == " [.num s, .num l] =
      "frame[" ++ String.mk (fmt_d s) ++ ":" ++ String.mk (fmt_d l) ++ "] == " := by
  apply String.ext
  simp [sprintf, expand, String.data_append]

theorem dfilter_none_eq (env : label_env) (renv : repr_env) (fi : field_info)
    (edt : Option epan_dissect_t) (a : String) (ht : fi.hfinfo.type = FT_NONE)
    (ha : fi.hfinfo.abbrev_ = some a) :
    proto_construct_dfilter_string env renv fi edt = dfilter_raw_bytes fi edt := by
  unfold proto_construct_dfilter_string
  simp only [ha, deref, bind, Except.bind, ht]

/-- The raw-bytes fallback once the context has the frame `b`, the payload is
of that data source and has a positive length: with `L` the smaller of the
length and the frame length, nothing if `L` is not positive, and the print of
the octets read otherwise. -/
theorem raw_bytes_frame (fi : field_info) (b : tvbuff)
    (hds : fi.ds_tvb = some b.ds_tvb) (hpos : 0 < fi.length) (hlen : fi.length < 2 ^ 31) :
    dfilter_raw_bytes fi (some { tvb := some b }) =
      if min fi.length b.octets.length ≤ 0 then .ok none
      else
        (read_octets (some b) fi.start (min fi.length b.octets.length).toNat).bind
          (fun octets =>
            (write_all (32 + (min fi.length b.octets.length).toNat * 3)
              (sprintf "frame[%d:%d] == "
                [.num (to_guint32 fi.start),
                 .num (to_guint32 (min fi.length b.octets.length))]
                ++ String.mk (hex_octets octets))).bind (fun buf => .ok (some buf))) := by
  have e1 : to_guint32 fi.length = fi.length.toNat := by
    unfold to_guint32
    rw [Int.emod_eq_of_lt (by omega) (by omega)]
  have hL : (if to_guint32 fi.length > b.octets.length then (b.octets.length : Int)
      else fi.length) = min fi.length b.octets.length := by
    rw [e1]
    split <;> omega
  unfold dfilter_raw_bytes
  simp only [hds, Option.map_some', tvb_get_ds_tvb, ne_eq, not_true_eq_false, if_false,
    not_le.2 hpos, tvb_length, bind, Except.bind, pure, Except.pure, hL]

theorem digit_char_eq (d : Nat) (h : d < 16) : digit_char false d = Nat.digitChar d := by
  interval_cases d <;> rfl

theorem to_digits_core (base : Nat) (hb : 2 ≤ base) (hb16 : base ≤ 16) :
    ∀ (fuel n f : Nat) (acc : List Char), n < base ^ (fuel + 1) → n < f + 1 →
      to_digits false base (fuel + 1) n acc = Nat.toDigitsCore base (f + 1) n acc := by
  intro fuel
  induction fuel with
  | zero =>
    intro n f acc hn _
    rw [Nat.zero_add, pow_one] at hn
    simp only [to_digits, Nat.toDigitsCore, if_pos hn, Nat.div_eq_of_lt hn,
      Nat.mod_eq_of_lt hn, if_true]
    rw [digit_char_eq n (by omega)]
  | succ fuel ih =>
    intro n f acc hn hf
    by_cases hlt : n < base
    · simp only [to_digits, Nat.toDigitsCore, if_pos hlt, Nat.div_eq_of_lt hlt,
        Nat.mod_eq_of_lt hlt, if_true]
      rw [digit_char_eq n (by omega)]
    · have hdiv : n / base < base ^ (fuel + 1) := by
        rw [Nat.div_lt_iff_lt_mul (by omega), ← pow_succ]
        exact hn
      have hne : n / base ≠ 0 := by
        intro h0
        rw [Nat.div_eq_zero_iff (by omega)] at h0
        exact hlt h0
      have hlt2 : n / base < n := Nat.div_lt_self (by omega) (by omega)
      obtain ⟨f2, rfl⟩ : ∃ f2, f = f2 + 1 := ⟨f - 1, by omega⟩
      have hmod : n % base < 16 := lt_of_lt_of_le (Nat.mod_lt _ (by omega)) hb16
      rw [to_digits, if_neg hlt, Nat.toDigitsCore]
      simp only [if_neg hne]
      rw [ih (n / base) f2 _ hdiv (by omega), digit_char_eq _ hmod]

theorem fmt_u_repr (n : Nat) : String.mk (fmt_u n) = Nat.repr (n % 2 ^ 32) := by
  have h := to_digits_core 10 (by decide) (by decide) 10 (n % 2 ^ 32) (n % 2 ^ 32) []
    (lt_of_lt_of_le (Nat.mod_lt _ (by decide)) (by decide)) (by omega)
  unfold fmt_u Nat.repr Nat.toDigits List.asString
  rw [h]

theorem to_digits_toDigits (base : Nat) (hb : 2 ≤ base) (hb16 : base ≤ 16) (m : Nat)
    (hm : m < base ^ 11) : to_digits false base 11 m [] = Nat.toDigits base m :=
  to_digits_core base hb hb16 10 m m [] hm (by omega)

theorem fmt_d_repr (n : Nat) : String.mk (fmt_d n) = toString (to_gint 32 n) := by
  have hb : to_gint 32 n < 2 ^ 31 ∧ -(2 ^ 31) ≤ to_gint 32 n := by
    unfold to_gint
    split <;> omega
  unfold fmt_d
  cases hx : to_gint 32 n with
  | ofNat m =>
    rw [hx] at hb
    have hm : m < 10 ^ 11 := by
      have : (m : Int) < 2 ^ 31 := hb.1
      omega
    have hnn : ¬ (Int.ofNat m < 0) := by
      have : (0 : Int) ≤ Int.ofNat m := Int.ofNat_nonneg m
      omega
    rw [if_neg hnn]
    show String.mk (to_digits false 10 11 m []) = Nat.repr m
    rw [to_digits_toDigits 10 (by decide) (by decide) m hm]
    rfl
  | negSucc m =>
    rw [hx] at hb
    have hm : m + 1 < 10 ^ 11 := by
      have : -(2 ^ 31 : Int) ≤ Int.negSucc m := hb.2
      rw [Int.negSucc_eq] at this
      omega
    rw [if_pos (Int.negSucc_lt_zero m)]
    show String.mk ('-' :: to_digits false 10 11 (m + 1) []) = "-" ++ Nat.repr (m + 1)
    rw [to_digits_toDigits 10 (by decide) (by decide) (m + 1) hm]
    rfl

theorem fmt_x_digits (w n : Nat) :
    fmt_x false w n =
      List.replicate (w - (Nat.toDigits 16 (n % 2 ^ 32)).length) '0' ++
        Nat.toDigits 16 (n % 2 ^ 32) := by
  unfold fmt_x
  rw [to_digits_toDigits 16 (by decide) (by decide) (n % 2 ^ 32)
    (lt_of_lt_of_le (Nat.mod_lt _ (by decide)) (by decide))]

theorem char_toNat_inj (a b : Char) (h : a.toNat = b.toNat) : a = b := by
  apply Char.ext
  apply UInt32.ext
  exact h

theorem strcasecmp_chars_antisymm : ∀ (s1 s2 : List Char),
    0 < g_strcasecmp_chars s1 s2 → g_strcasecmp_chars s2 s1 < 0 := by
  intro s1
  induction s1 with
  | nil =>
    intro s2 h
    cases s2 <;> simp [g_strcasecmp_chars] at h
  | cons c1 t1 ih =>
    intro s2 h
    cases s2 with
    | nil => simp [g_strcasecmp_chars]
    | cons c2 t2 =>
      simp only [g_strcasecmp_chars] at h ⊢
      by_cases hc : fold_case c1 = fold_case c2
      · rw [if_pos hc] at h
        rw [if_pos hc.symm]
        exact ih t2 h
      · rw [if_neg hc] at h
        rw [if_neg (fun e => hc e.symm)]
        omega

theorem strcasecmp_chars_trans : ∀ (s1 s2 s3 : List Char),
    g_strcasecmp_chars s1 s2 ≤ 0 → g_strcasecmp_chars s2 s3 ≤ 0 →
    g_strcasecmp_chars s1 s3 ≤ 0 := by
  intro s1
  induction s1 with
  | nil =>
    intro s2 s3 _ _
    cases s3 <;> simp [g_strcasecmp_chars]
  | cons c1 t1 ih =>
    intro s2 s3 h12 h23
    cases s2 with
    | nil => simp [g_strcasecmp_chars] at h12
    | cons c2 t2 =>
      cases s3 with
      | nil => simp [g_strcasecmp_chars] at h23
      | cons c3 t3 =>
        simp only [g_strcasecmp_chars] at h12 h23 ⊢
        by_cases e12 : fold_case c1 = fold_case c2
        · rw [if_pos e12] at h12
          by_cases e23 : fold_case c2 = fold_case c3
          · rw [if_pos e23] at h23
            rw [if_pos (e12.trans e23)]
            exact ih t2 t3 h12 h23
          · rw [if_neg e23] at h23
            rw [if_neg (fun e => e23 (e12.symm.trans e)), e12]
            exact h23
        · rw [if_neg e12] at h12
          by_cases e23 : fold_case c2 = fold_case c3
          · rw [if_pos e23] at h23
            rw [if_neg (fun e => e12 (e.trans e23.symm)), ← e23]
            exact h12
          · rw [if_neg e23] at h23
            have n12 : (fold_case c1).toNat ≠ (fold_case c2).toNat :=
              fun e => e12 (char_toNat_inj _ _ e)
            have n23 : (fold_case c2).toNat ≠ (fold_case c3).toNat :=
              fun e => e23 (char_toNat_inj _ _ e)
            have n13 : fold_case c1 ≠ fold_case c3 := by
              intro e
              rw [e] at h12 n12
              omega
            rw [if_neg n13]
            omega

theorem protocol_loop_step {α : Type} (body : Int → Except fault α) (i : Int)
    (cookie : List protocol_t) :
    protocol_loop body i cookie =
      if i = -1 then .ok []
      else
        (body i).bind (fun x =>
          (protocol_loop body (proto_get_next_protocol cookie).1
            (proto_get_next_protocol cookie).2).bind (fun xs => .ok (x :: xs))) := by
  unfold protocol_loop proto_get_next_protocol
  by_cases hi : i = -1
  · rw [if_pos hi]
    cases cookie.tail <;> simp [protocol_loop_from, hi, pure, Except.pure]
  · rw [if_neg hi]
    cases hb : body i with
    | error e =>
      cases cookie.tail <;> simp [protocol_loop_from, hi, hb, bind, Except.bind]
    | ok x =>
      cases ht : cookie.tail with
      | nil =>
        simp [protocol_loop_from, hi, hb, bind, Except.bind, pure, Except.pure, ht]
      | cons next rest =>
        simp only [protocol_loop_from, hi, if_false, hb, bind, Except.bind, List.tail_cons,
          pure, Except.pure]

theorem protocol_loop_all {α : Type} (body : Int → Except fault α) (g : protocol_t → α) :
    ∀ (rest : List protocol_t) (p : protocol_t),
      (∀ q ∈ p :: rest, q.proto_id ≠ -1 ∧ body q.proto_id = .ok (g q)) →
      protocol_loop body p.proto_id (p :: rest) = .ok ((p :: rest).map g) := by
  intro rest
  induction rest with
  | nil =>
    intro p h
    obtain ⟨h1, h2⟩ := h p (List.mem_cons_self _ _)
    simp [protocol_loop, protocol_loop_from, h1, h2, bind, Except.bind, pure, Except.pure]
  | cons q rest ih =>
    intro p h
    obtain ⟨h1, h2⟩ := h p (List.mem_cons_self _ _)
    have := ih q (fun x hx => h x (List.mem_cons_of_mem _ hx))
    simp only [protocol_loop, List.tail_cons] at this ⊢
    simp only [protocol_loop_from, h1, if_false, h2, bind, Except.bind, this, pure,
      Except.pure, List.map_cons]

theorem find_protocol_mem : ∀ (ps : List protocol_t), (ps.map (fun p => p.proto_id)).Nodup →
    ∀ p ∈ ps, g_list_find_custom ps (compare_proto_id p.proto_id) = some p := by
  intro ps
  induction ps with
  | nil => intro _ p hp; cases hp
  | cons x rest ih =>
    intro hnd p hp
    simp only [List.map_cons, List.nodup_cons] at hnd
    unfold g_list_find_custom
    rw [List.find?_cons]
    by_cases hx : x.proto_id = p.proto_id
    · have hxp : p = x := by
        rcases List.mem_cons.1 hp with e | hin
        · exact e
        · exact absurd (List.mem_map.2 ⟨p, hin, hx.symm⟩) hnd.1
      simp [compare_proto_id, hx, hxp]
    · have hin : p ∈ rest := by
        rcases List.mem_cons.1 hp with e | hin
        · exact absurd (by rw [e]) hx
        · exact hin
      have := ih hnd.2 p hin
      unfold g_list_find_custom at this
      have hc : (compare_proto_id p.proto_id x == 0) = false := by
        simp [compare_proto_id, hx]
      rw [hc]
      exact this

theorem insert_sorted_pairwise (d : protocol_t) :
    ∀ (l : List protocol_t),
      (l.map (fun p => p.short_name)).Pairwise (fun a b => g_strcasecmp a b ≤ 0) →
      ((g_list_insert_sorted proto_compare_name d l).map (fun p => p.short_name)).Pairwise
        (fun a b => g_strcasecmp a b ≤ 0) := by
  intro l
  induction l with
  | nil =>
    intro _
    simp [g_list_insert_sorted]
  | cons x rest ih =>
    intro hl
    simp only [List.map_cons, List.pairwise_cons] at hl
    unfold g_list_insert_sorted
    split
    · rename_i hgt
      simp only [List.map_cons, List.pairwise_cons]
      refine ⟨?_, ih hl.2⟩
      intro y hy
      obtain ⟨q, hq, rfl⟩ := List.mem_map.1 hy
      rcases (mem_insert_sorted _ _ _ _).1 hq with e | hin
      · rw [e]
        exact le_of_lt (strcasecmp_chars_antisymm _ _ hgt)
      · exact hl.1 _ (List.mem_map.2 ⟨q, hin, rfl⟩)
    · rename_i hle
      have hdx : g_strcasecmp d.short_name x.short_name ≤ 0 := not_lt.1 hle
      simp only [List.map_cons, List.pairwise_cons, List.mem_cons, forall_eq_or_imp]
      refine ⟨⟨hdx, ?_⟩, hl.1, hl.2⟩
      intro y hy
      exact strcasecmp_chars_trans _ _ _ hdx (hl.1 y hy)

theorem reachable_list (Q : Int → Prop) (r0 r : registrar) (h0 : list_inv r0)
    (h : Registered Q r0 r) : list_inv r := by
  refine registered_preserves Q r0 list_inv h0 ?_ ?_ r h
  · intro r chunk name short_name filter_name hP _
    obtain ⟨h1, h2, h3⟩ := hP
    have hlen := enter_field_length r (protocol_hfinfo chunk name filter_name) (-1) 0
    refine ⟨insert_sorted_pairwise _ _ h1, ?_, ?_⟩
    · refine nodup_insert_sorted (fun p => (static_part p).2.2.2.1) _ _ h2 ?_
      intro p hp hh
      have := (h3 _ (List.mem_map.2 ⟨p, hp, rfl⟩)).2
      simp only [static_part, new_protocol] at hh this
      omega
    · intro k hk
      obtain ⟨p, hp, rfl⟩ := List.mem_map.1 hk
      show 0 ≤ p.proto_id ∧ p.proto_id < ((enter_field r _ (-1) 0).1.gpa_hfinfo.length : Int)
      rw [hlen]
      rcases (mem_insert_sorted _ _ _ _).1 hp with e | hin
      · rw [e]
        simp only [new_protocol]
        omega
      · have := h3 _ (List.mem_map.2 ⟨p, hin, rfl⟩)
        simp only [static_part] at this
        push_cast
        omega
  · intro parent r hf bs _ hP _
    obtain ⟨h1, h2, h3⟩ := hP
    have hlen := enter_field_length
      { r with protocols := append_field parent r.gpa_hfinfo.length r.protocols } hf parent bs
    unfold list_inv
    rw [enter_field_protocols, hlen]
    simp only []
    rw [append_field_map parent _ r.protocols (fun s => s.2.1),
      append_field_map parent _ r.protocols (fun s => s.2.2.2.1)]
    refine ⟨h1, h2, ?_⟩
    intro k hk
    have := h3 k hk
    push_cast
    omega

theorem list_inv_new : list_inv registrar_new := by
  refine ⟨?_, ?_, ?_⟩ <;> simp [registrar_new]

theorem two_protocols_reachable : Reachable two_protocols := by
  have h : ∃ r1, proto_register_protocol init_state (hf_entry "" "" FT_NONE 0 none 0 none)
      "Zeta" "ZETA" "zeta" = .ok (r1, 1) ∧
      proto_register_protocol r1 (hf_entry "" "" FT_NONE 0 none 0 none)
        "Alpha" "alpha" "alpha" = .ok (two_protocols, 2) := ⟨_, rfl, rfl⟩
  obtain ⟨r1, h1, h2⟩ := h
  exact Registered.protocol (Registered.protocol init_state_reachable h1) h2

theorem find_update (k id : Int) (f : protocol_t → protocol_t)
    (hf : ∀ p, (f p).proto_id = p.proto_id) :
    ∀ (ps : List protocol_t),
      g_list_find_custom (protocol_update k f ps) (compare_proto_id id) =
        if id = k then (g_list_find_custom ps (compare_proto_id id)).map f
        else g_list_find_custom ps (compare_proto_id id) := by
  intro ps
  unfold g_list_find_custom
  induction ps with
  | nil => simp [protocol_update]
  | cons p rest ih =>
    unfold protocol_update
    by_cases hp : p.proto_id = k
    · rw [if_pos hp]
      by_cases hid : id = k
      · simp [List.find?_cons, compare_proto_id, hf, hp, hid]
      · have h1 : ¬ (p.proto_id = id) := fun e => hid (e.symm.trans hp)
        simp [List.find?_cons, compare_proto_id, hf, hid, h1]
    · rw [if_neg hp, List.find?_cons, List.find?_cons, ih]
      by_cases hid : id = k
      · have h1 : ¬ (p.proto_id = id) := fun e => hp (e.trans hid)
        simp [compare_proto_id, hid, hp]
      · by_cases h1 : p.proto_id = id
        · simp [compare_proto_id, hid, h1]
        · simp [compare_proto_id, hid, h1]

theorem update_ids (k : Int) (f : protocol_t → protocol_t)
    (hf : ∀ p, (f p).proto_id = p.proto_id) :
    ∀ (ps : List protocol_t),
      (protocol_update k f ps).map (fun p => p.proto_id) = ps.map (fun p => p.proto_id) := by
  intro ps
  induction ps with
  | nil => rfl
  | cons p rest ih =>
    unfold protocol_update
    split
    · simp [hf]
    · simp [ih]

theorem find_insert_other {α : Type} (f : α → α → Int) (d : α) (q : α → Int)
    (hd : q d ≠ 0) : ∀ (l : List α),
    g_list_find_custom (g_list_insert_sorted f d l) q = g_list_find_custom l q := by
  intro l
  have hb : (q d == 0) = false := by simpa using hd
  unfold g_list_find_custom
  induction l with
  | nil => simp [g_list_insert_sorted, hb]
  | cons x rest ih =>
    unfold g_list_insert_sorted
    split
    · rw [List.find?_cons, List.find?_cons, ih]
    · rw [List.find?_cons, hb]

theorem find_append_field (parent : Int) (h : Nat) (id : Int) :
    ∀ (ps : List protocol_t),
      (g_list_find_custom (append_field parent h ps) (compare_proto_id id)).map static_part =
        (g_list_find_custom ps (compare_proto_id id)).map static_part := by
  intro ps
  unfold g_list_find_custom
  induction ps with
  | nil => rfl
  | cons p rest ih =>
    unfold append_field
    by_cases hp : p.proto_id = parent
    · rw [if_pos hp, List.find?_cons, List.find?_cons]
      by_cases hid : p.proto_id = id
      · simp [compare_proto_id, hid, static_part]
      · simp [compare_proto_id, hid]
    · rw [if_neg hp, List.find?_cons, List.find?_cons]
      cases compare_proto_id id p == 0
      · exact ih
      · rfl

theorem find_protocol_some (r : registrar) (id : Int) (p : protocol_t)
    (h : find_protocol_by_id r id = some p) : p ∈ r.protocols ∧ p.proto_id = id := by
  unfold find_protocol_by_id g_list_find_custom at h
  refine ⟨List.mem_of_find?_eq_some h, ?_⟩
  have := List.find?_some h
  simp only [compare_proto_id, beq_iff_eq] at this
  by_contra hne
  rw [if_neg hne] at this
  exact absurd this (by decide)

theorem set_decoding_eq (r : registrar) (id : Int) (e : Bool) (p : protocol_t)
    (h : find_protocol_by_id r id = some p) :
    proto_set_decoding r id e =
      if e = false ∧ p.can_disable = false then .error fault.assertion
      else .ok { r with
                 protocols := protocol_update id (fun q => { q with is_enabled := e })
                   r.protocols } := by
  unfold proto_set_decoding
  simp only [h, deref, bind, Except.bind, g_assert, pure, Except.pure]
  cases e <;> cases p.can_disable <;> rfl

theorem set_cant_disable_eq (r : registrar) (id : Int) (p : protocol_t)
    (h : find_protocol_by_id r id = some p) :
    proto_set_cant_disable r id =
      .ok { r with
            protocols := protocol_update id (fun q => { q with can_disable := false })
              r.protocols } := by
  unfold proto_set_cant_disable
  simp only [h, deref, bind, Except.bind, pure, Except.pure]

theorem mem_update_bound (k : Int) (f : protocol_t → protocol_t)
    (hf : ∀ p, (f p).proto_id = p.proto_id) (ps : List protocol_t) (n : Int)
    (h : ∀ q ∈ ps, q.proto_id < n) : ∀ q ∈ protocol_update k f ps, q.proto_id < n := by
  intro q hq
  have h1 : q.proto_id ∈ (protocol_update k f ps).map (fun p => p.proto_id) :=
    List.mem_map.2 ⟨q, hq, rfl⟩
  rw [update_ids k f hf] at h1
  obtain ⟨q2, hq2, e⟩ := List.mem_map.1 h1
  rw [← e]
  exact h q2 hq2

theorem later_locked (id : Int) (r1 r2 : registrar) (h1 : locked id r1) (h : Later r1 r2) :
    locked id r2 := by
  induction h with
  | start => exact h1
  | protocol _ hcall ih =>
    obtain ⟨⟨p, hp, he, hc⟩, hb⟩ := ih
    obtain ⟨_, _, hg, _, hps⟩ := register_protocol_ok _ _ _ _ _ _ _ hcall
    obtain ⟨hmem, hid⟩ := find_protocol_some _ id p hp
    have hlt := hb p hmem
    have hlen := congrArg List.length hg
    rw [enter_field_length] at hlen
    refine ⟨⟨p, ?_, he, hc⟩, ?_⟩
    · unfold find_protocol_by_id at hp ⊢
      rw [hps, find_insert_other _ _ _ ?_]
      · exact hp
      · simp only [compare_proto_id, new_protocol]
        rw [if_neg (by omega)]
        decide
    · intro q hq
      rw [hps] at hq
      rw [hlen]
      rcases (mem_insert_sorted _ _ _ _).1 hq with e | hin
      · rw [e]
        simp only [new_protocol]
        push_cast
        omega
      · have := hb q hin
        push_cast
        omega
  | @field_array r0 r0' parent mem mem1 hfs _ hcall ih =>
    refine field_array_preserves (locked id) parent ?_ _ _ _ _ _ ih hcall
    intro r hf bs hP _
    obtain ⟨⟨p, hp, he, hc⟩, hb⟩ := hP
    have hlen := enter_field_length
      { r with protocols := append_field parent r.gpa_hfinfo.length r.protocols } hf parent bs
    have hfind := find_append_field parent r.gpa_hfinfo.length id r.protocols
    unfold find_protocol_by_id at hp
    rw [hp] at hfind
    refine ⟨?_, ?_⟩
    · unfold find_protocol_by_id
      rw [enter_field_protocols]
      simp only []
      cases hq : g_list_find_custom (append_field parent r.gpa_hfinfo.length r.protocols)
          (compare_proto_id id) with
      | none => rw [hq] at hfind; cases hfind
      | some q =>
        rw [hq] at hfind
        simp only [Option.map_some', Option.some.injEq, static_part, Prod.mk.injEq] at hfind
        exact ⟨q, rfl, by rw [hfind.2.2.2.2.1]; exact he, by rw [hfind.2.2.2.2.2]; exact hc⟩
    · intro q hq
      rw [enter_field_protocols] at hq
      rw [hlen]
      obtain ⟨q2, hq2, e⟩ :=
        (append_field_proto_id parent _ r.protocols q.proto_id).1 ⟨q, hq, rfl⟩
      have := hb q2 hq2
      simp only [] at this ⊢
      push_cast
      omega
  | @set_decoding r r' k e _ hcall ih =>
    obtain ⟨⟨p, hp, he, hc⟩, hb⟩ := ih
    cases hk : find_protocol_by_id r k with
    | none =>
      unfold proto_set_decoding at hcall
      simp only [hk, deref, bind, Except.bind] at hcall
      cases hcall
    | some pk =>
      rw [set_decoding_eq r k e pk hk] at hcall
      split at hcall
      · cases hcall
      · rename_i hok
        simp only [Except.ok.injEq] at hcall
        rw [← hcall]
        refine ⟨?_, mem_update_bound k (fun q => { q with is_enabled := e }) (fun _ => rfl)
          _ _ hb⟩
        unfold find_protocol_by_id at hp hk ⊢
        simp only []
        rw [find_update k id (fun q => { q with is_enabled := e }) (fun _ => rfl)]
        by_cases hid : id = k
        · subst hid
          rw [hp] at hk
          simp only [Option.some.injEq] at hk
          subst hk
          rw [if_pos rfl, hp]
          have het : e = true := by
            cases e
            · exact absurd ⟨rfl, hc⟩ hok
            · rfl
          exact ⟨_, rfl, het, hc⟩
        · rw [if_neg hid]
          exact ⟨p, hp, he, hc⟩
  | @set_cant_disable r r' k _ hcall ih =>
    obtain ⟨⟨p, hp, he, hc⟩, hb⟩ := ih
    cases hk : find_protocol_by_id r k with
    | none =>
      unfold proto_set_cant_disable at hcall
      simp only [hk, deref, bind, Except.bind] at hcall
      cases hcall
    | some pk =>
      rw [set_cant_disable_eq r k pk hk] at hcall
      simp only [Except.ok.injEq] at hcall
      rw [← hcall]
      refine ⟨?_, mem_update_bound k (fun q => { q with can_disable := false })
        (fun _ => rfl) _ _ hb⟩
      unfold find_protocol_by_id at hp ⊢
      simp only []
      rw [find_update k id (fun q => { q with can_disable := false }) (fun _ => rfl)]
      by_cases hid : id = k
      · rw [if_pos hid, hp]
        exact ⟨_, rfl, he, rfl⟩
      · rw [if_neg hid]
        exact ⟨p, hp, he, hc⟩

theorem rejected_core_new (r : registrar) (hf : header_field_info) (parent : Int)
    (bs : Nat) : rejected (core (new_hfinfo r hf parent bs)) ↔ rejected hf := by
  unfold rejected core new_hfinfo
  rfl

theorem accepted_inv_new : accepted_inv registrar_new := by
  intro i x h
  simp [registrar_new] at h

theorem reachable_accepted (Q : Int → Prop) (r0 r : registrar) (h0 : accepted_inv r0)
    (h : Registered Q r0 r) : accepted_inv r := by
  refine registered_preserves Q r0 accepted_inv h0 ?_ ?_ r h
  · intro r chunk name short_name filter_name hP _
    refine enter_field_forall_core (fun _ x => ¬ rejected x) r _ _ _ hP ?_
    show ¬ rejected (core (new_hfinfo _ _ _ _))
    rw [rejected_core_new]
    simp [rejected, protocol_hfinfo, int_types]
  · intro parent r hf bs _ hP hc
    refine enter_field_forall_core (fun _ x => ¬ rejected x)
      { r with protocols := append_field parent r.gpa_hfinfo.length r.protocols } _ _ _ hP ?_
    show ¬ rejected (core (new_hfinfo _ _ _ _))
    rw [rejected_core_new]
    exact check_field_ok_not_rejected hf bs hc

theorem shadowed_state_reachable : Reachable shadowed_state := by
  have h2 : ∃ r1, proto_register_protocol init_state (hf_entry "" "" FT_NONE 0 none 0 none)
      "Foo" "FOO" "foo" = .ok (r1, 1) ∧
      ∃ m, proto_register_field_array 1 r1 example_mem
        [⟨1, hf_entry "Present" "foo" FT_BOOLEAN 0 none 0 (some "")⟩]
        = .ok (shadowed_state, m) := by
    exact ⟨_, rfl, _, rfl⟩
  obtain ⟨r1, h2, m, h3⟩ := h2
  exact Registered.field_array (Registered.protocol init_state_reachable h2) trivial h3

theorem described_state_reachable : Reachable described_state := by
  have h2 : ∃ r1, proto_register_protocol init_state (hf_entry "" "" FT_NONE 0 none 0 none)
      "Foo" "FOO" "foo" = .ok (r1, 1) ∧
      ∃ m, proto_register_field_array 1 r1 example_mem
        [⟨1, hf_entry "Flags" "foo.flags" FT_UINT8 BASE_HEX none 0x0F (some "Low bits")⟩,
         ⟨2, hf_entry "Flags" "foo.flags" FT_UINT8 BASE_HEX none 0xF0 (some "High bits")⟩]
        = .ok (described_state, m) := by
    exact ⟨_, rfl, _, rfl⟩
  obtain ⟨r1, h2, m, h3⟩ := h2
  exact Registered.field_array (Registered.protocol init_state_reachable h2) trivial h3

theorem dump_fields_entry_eq (ftype_name : ftenum → String) (r : registrar) (i : Nat)
    (x : header_field_info) (n a : String) (hx : r.gpa_hfinfo[i]? = some x)
    (hn : x.name = some n) (ha : x.abbrev_ = some a) :
    dump_fields_entry ftype_name r i =
      if n = "" ∨ a = "" then .ok none
      else if x.parent = -1 then .ok (some (sprintf "P\t%s\t%s\n" [.str n, .str a]))
      else if x.same_name_prev.isSome then .ok none
      else
        match proto_registrar_get_nth r x.parent with
        | .error e => .error e
        | .ok p =>
          match p.abbrev_, x.blurb with
          | some pa, some b => .ok (some (sprintf "F\t%s\t%s\t%s\t%s\t%s\n"
              [.str n, .str a, .str (ftype_name x.type), .str pa, .str b]))
          | _, _ => .error fault.null_pointer := by
  unfold dump_fields_entry
  rw [get_nth_of_get r i x hx, is_protocol_eq r i x (get_nth_of_get r i x hx)]
  simp only [bind, Except.bind, pure, Except.pure, hn, ha, deref]
  by_cases h1 : n = ""
  · simp [h1]
  · by_cases h2 : a = ""
    · simp [h1, h2]
    · by_cases h3 : x.parent = -1
      · simp [h1, h2, h3]
      · by_cases h4 : x.same_name_prev.isSome = true
        · simp [h1, h2, h3, h4]
        · simp only [h1, h2, h3, h4, or_self, if_false, decide_False]
          cases proto_registrar_get_nth r x.parent with
          | error e => rfl
          | ok p =>
            cases hpa : p.abbrev_ <;> cases hb : x.blurb <;> simp [hpa, hb, deref]

theorem dump_fields_loop_mem (ftype_name : ftenum → String) (r : registrar) :
    ∀ (l : List Nat) (out : List (Nat × String)),
      dump_fields_loop ftype_name r l = .ok out →
      (∀ i ∈ l, ∃ e, dump_fields_entry ftype_name r i = .ok e) ∧
      (out.map Prod.fst).Sublist l ∧
      (∀ i line, (i, line) ∈ out ↔
        i ∈ l ∧ dump_fields_entry ftype_name r i = .ok (some line)) := by
  intro l
  induction l with
  | nil =>
    intro out h
    simp only [dump_fields_loop, pure, Except.pure] at h
    cases h
    simp
  | cons i rest ih =>
    intro out h
    unfold dump_fields_loop at h
    simp only [bind, Except.bind, pure, Except.pure] at h
    cases he : dump_fields_entry ftype_name r i with
    | error e => rw [he] at h; cases h
    | ok e =>
      rw [he] at h
      cases hl : dump_fields_loop ftype_name r rest with
      | error e2 => rw [hl] at h; cases h
      | ok out1 =>
        rw [hl] at h
        obtain ⟨ih1, ih2, ih3⟩ := ih out1 hl
        cases e with
        | none =>
          simp only [] at h
          cases h
          refine ⟨?_, ?_, ?_⟩
          · intro j hj
            rcases List.mem_cons.1 hj with rfl | hj
            · exact ⟨_, he⟩
            · exact ih1 j hj
          · exact List.Sublist.cons _ ih2
          · intro j line
            rw [ih3 j line]
            constructor
            · rintro ⟨h1, h2⟩
              exact ⟨List.mem_cons_of_mem _ h1, h2⟩
            · rintro ⟨h1, h2⟩
              rcases List.mem_cons.1 h1 with rfl | h1
              · rw [he] at h2; cases h2
              · exact ⟨h1, h2⟩
        | some s =>
          simp only [] at h
          cases h
          refine ⟨?_, ?_, ?_⟩
          · intro j hj
            rcases List.mem_cons.1 hj with rfl | hj
            · exact ⟨_, he⟩
            · exact ih1 j hj
          · simpa using ih2
          · intro j line
            rw [List.mem_cons, ih3 j line]
            constructor
            · rintro (h1 | ⟨h1, h2⟩)
              · cases h1
                exact ⟨List.mem_cons_self _ _, he⟩
              · exact ⟨List.mem_cons_of_mem _ h1, h2⟩
            · rintro ⟨h1, h2⟩
              rcases List.mem_cons.1 h1 with rfl | h1
              · rw [he] at h2
                cases h2
                exact Or.inl rfl
              · exact Or.inr ⟨h1, h2⟩

theorem dump_fields_loop_total (ftype_name : ftenum → String) (r : registrar) :
    ∀ (l : List Nat), (∀ i ∈ l, ∃ e, dump_fields_entry ftype_name r i = .ok e) →
      ∃ out, dump_fields_loop ftype_name r l = .ok out := by
  intro l
  induction l with
  | nil => intro _; exact ⟨[], rfl⟩
  | cons i rest ih =>
    intro h
    obtain ⟨e, he⟩ := h i (List.mem_cons_self _ _)
    obtain ⟨out, ho⟩ := ih (fun j hj => h j (List.mem_cons_of_mem _ hj))
    unfold dump_fields_loop
    simp only [bind, Except.bind, pure, Except.pure, he, ho]
    cases e with
    | none => exact ⟨_, rfl⟩
    | some s => exact ⟨_, rfl⟩

theorem accepted_named (r : registrar) (h : accepted_inv r) (i : Nat)
    (x : header_field_info) (hx : r.gpa_hfinfo[i]? = some x) :
    ∃ n a, x.name = some n ∧ x.abbrev_ = some a := by
  have h1 := h i x hx
  unfold rejected core at h1
  simp only [not_or] at h1
  obtain ⟨h2, h3, _⟩ := h1
  cases hn : x.name with
  | none => exact absurd hn h2
  | some n =>
    cases ha : x.abbrev_ with
    | none => exact absurd ha h3
    | some a => exact ⟨n, a, rfl, rfl⟩

theorem sprintf_p_line (n a : String) :
    sprintf "P\t%s\t%s\n" [.str n, .str a] = "P\t" ++ n ++ "\t" ++ a ++ "\n" := by
  apply String.ext
  simp [sprintf, expand, String.data_append]

theorem sprintf_f_line (n a t p b : String) :
    sprintf "F\t%s\t%s\t%s\t%s\t%s\n" [.str n, .str a, .str t, .str p, .str b] =
      "F\t" ++ n ++ "\t" ++ a ++ "\t" ++ t ++ "\t" ++ p ++ "\t" ++ b ++ "\n" := by
  apply String.ext
  simp [sprintf, expand, String.data_append]

theorem prev_none_iff (r : registrar) (h : link_inv r) (i : Nat) (x : header_field_info)
    (hx : r.gpa_hfinfo[i]? = some x) (hf : filterable x = true) :
    x.same_name_prev = none ↔
      ∀ (j : Nat) (y : header_field_info), j < i → r.gpa_hfinfo[j]? = some y →
        under (x.abbrev_.getD "") y = false := by
  rw [h.prev i x hx hf]
  constructor
  · intro h1 j y hj hy
    exact last_under_none _ _ i h1 j y hj hy
  · intro h1
    cases h2 : last_under r.gpa_hfinfo (x.abbrev_.getD "") i with
    | none => rfl
    | some j =>
      obtain ⟨hj, y, hy, hu⟩ := last_under_some _ _ i j h2
      rw [h1 j y hj hy] at hu
      cases hu

/-- What one turn of the dump loop prints for a descriptor of a reachable
registrar. -/
theorem dump_fields_entry_cases (ftype_name : ftenum → String) (r : registrar)
    (ha : accepted_inv r) (i : Nat) (x : header_field_info)
    (hx : r.gpa_hfinfo[i]? = some x) :
    (filterable x = false → dump_fields_entry ftype_name r i = .ok none) ∧
    (filterable x = true → x.parent = -1 → dump_fields_entry ftype_name r i =
      .ok (some ("P\t" ++ x.name.getD "" ++ "\t" ++ x.abbrev_.getD "" ++ "\n"))) ∧
    (filterable x = true → x.parent ≠ -1 → x.same_name_prev ≠ none →
      dump_fields_entry ftype_name r i = .ok none) ∧
    (filterable x = true → x.parent ≠ -1 → x.same_name_prev = none →
      ∀ e, dump_fields_entry ftype_name r i = .ok e →
        ∃ p, proto_registrar_get_nth r x.parent = .ok p ∧
          e = some ("F\t" ++ x.name.getD "" ++ "\t" ++ x.abbrev_.getD "" ++ "\t" ++
            ftype_name x.type ++ "\t" ++ p.abbrev_.getD "" ++ "\t" ++ x.blurb.getD "" ++
            "\n")) ∧
    (filterable x = true → x.parent ≠ -1 → x.same_name_prev = none →
      (0 ≤ x.parent ∧ x.parent < (r.gpa_hfinfo.length : Int)) → x.blurb ≠ none →
      ∃ e, dump_fields_entry ftype_name r i = .ok e) := by
  obtain ⟨n, a, hn, hab⟩ := accepted_named r ha i x hx
  have he := dump_fields_entry_eq ftype_name r i x n a hx hn hab
  have hfil : filterable x = (n != "" && a != "") := by
    simp [filterable, hn, hab]
  refine ⟨?_, ?_, ?_, ?_, ?_⟩
  · intro h1
    rw [hfil] at h1
    have : n = "" ∨ a = "" := by
      by_cases h2 : n = ""
      · exact Or.inl h2
      · by_cases h3 : a = ""
        · exact Or.inr h3
        · simp [h2, h3] at h1
    rw [he, if_pos this]
  · intro h1 h2
    rw [hfil] at h1
    have : ¬ (n = "" ∨ a = "") := by
      intro h3
      rcases h3 with h3 | h3 <;> simp [h3] at h1
    rw [he, if_neg this, if_pos h2, sprintf_p_line, hn, hab]
    rfl
  · intro h1 h2 h3
    rw [hfil] at h1
    have : ¬ (n = "" ∨ a = "") := by
      intro h3
      rcases h3 with h3 | h3 <;> simp [h3] at h1
    have h4 : x.same_name_prev.isSome = true := by
      cases h5 : x.same_name_prev with
      | none => exact absurd h5 h3
      | some _ => rfl
    rw [he, if_neg this, if_neg h2, if_pos h4]
  · intro h1 h2 h3 e h4
    rw [hfil] at h1
    have : ¬ (n = "" ∨ a = "") := by
      intro h3
      rcases h3 with h3 | h3 <;> simp [h3] at h1
    have h5 : ¬ (x.same_name_prev.isSome = true) := by simp [h3]
    rw [he, if_neg this, if_neg h2, if_neg h5] at h4
    cases hp : proto_registrar_get_nth r x.parent with
    | error e1 => rw [hp] at h4; cases h4
    | ok p =>
      rw [hp] at h4
      simp only [] at h4
      refine ⟨p, rfl, ?_⟩
      cases hpa : p.abbrev_ with
      | none => simp only [hpa] at h4; cases h4
      | some pa =>
        cases hb : x.blurb with
        | none => simp only [hpa, hb] at h4; cases h4
        | some b =>
          simp only [hpa, hb] at h4
          cases h4
          rw [sprintf_f_line, hn, hab]
          rfl
  · intro h1 h2 h3 h4 h6
    rw [hfil] at h1
    have : ¬ (n = "" ∨ a = "") := by
      intro h3
      rcases h3 with h3 | h3 <;> simp [h3] at h1
    have h5 : ¬ (x.same_name_prev.isSome = true) := by simp [h3]
    rw [he, if_neg this, if_neg h2, if_neg h5]
    obtain ⟨p, hp1, hp2⟩ := get_nth_in_range r x.parent h4
    rw [hp2]
    obtain ⟨pn, pa, _, hpa⟩ := accepted_named r ha _ p hp1
    cases hb : x.blurb with
    | none => exact absurd hb h6
    | some b =>
      simp only [hpa]
      exact ⟨_, rfl⟩

theorem fmt_o_digits (n : Nat) : fmt_o n = Nat.toDigits 8 (n % 2 ^ 32) := by
  unfold fmt_o
  exact to_digits_toDigits 8 (by decide) (by decide) (n % 2 ^ 32)
    (lt_of_lt_of_le (Nat.mod_lt _ (by decide)) (by decide))

theorem sprintf_label_u (a : String) (v : Nat) :
    sprintf "%s: %u" [.str a, .num v] = a ++ ": " ++ String.mk (fmt_u v) := by
  apply String.ext
  simp [sprintf, expand, String.data_append]

theorem sprintf_label_o (a : String) (v : Nat) :
    sprintf "%s: %o" [.str a, .num v] = a ++ ": " ++ String.mk (fmt_o v) := by
  apply String.ext
  simp [sprintf, expand, String.data_append]

theorem sprintf_label_x2 (a : String) (v : Nat) :
    sprintf "%s: 0x%02x" [.str a, .num v] = a ++ ": 0x" ++ String.mk (fmt_x false 2 v) := by
  apply String.ext
  simp [sprintf, expand, String.data_append, width_of]

theorem sprintf_label_x4 (a : String) (v : Nat) :
    sprintf "%s: 0x%04x" [.str a, .num v] = a ++ ": 0x" ++ String.mk (fmt_x false 4 v) := by
  apply String.ext
  simp [sprintf, expand, String.data_append, width_of]

theorem sprintf_label_x6 (a : String) (v : Nat) :
    sprintf "%s: 0x%06x" [.str a, .num v] = a ++ ": 0x" ++ String.mk (fmt_x false 6 v) := by
  apply String.ext
  simp [sprintf, expand, String.data_append, width_of]

theorem sprintf_label_x8 (a : String) (v : Nat) :
    sprintf "%s: 0x%08x" [.str a, .num v] = a ++ ": 0x" ++ String.mk (fmt_x false 8 v) := by
  apply String.ext
  simp [sprintf, expand, String.data_append, width_of]

theorem label_write_empty (size : Nat) (hs : 0 < size) (text : String) :
    label_write size "" text = .ok (snprintf size text) := by
  unfold label_write
  have : ("" : String).length = 0 := rfl
  rw [if_pos (by omega), this]
  simp

/-- The label of an unsigned field without bitmask and value map is the one
`fill_label_uint` writes. -/
theorem fill_label_plain_uint (size : Nat) (env : label_env) (fi : field_info)
    (ht : fi.hfinfo.type ∈ uint_types ++ [FT_FRAMENUM]) (hm : fi.hfinfo.bitmask = 0)
    (hstr : fi.hfinfo.strings = none) :
    proto_item_fill_label size env fi = fill_label_uint size fi := by
  unfold proto_item_fill_label
  simp only [uint_types, List.cons_append, List.nil_append, List.mem_cons,
    List.mem_singleton, List.not_mem_nil, or_false] at ht
  rcases ht with h | h | h | h | h <;>
    simp [h, hm, hstr]

theorem fill_label_uint_format (size : Nat) (hs : 0 < size) (fi : field_info)
    (n format : String) (hn : fi.hfinfo.name = some n)
    (hf : hfinfo_uint_format fi.hfinfo = .ok format) :
    fill_label_uint size fi =
      .ok (snprintf size (sprintf format [.str n, .num (fvalue_get_integer fi.value)])) := by
  unfold fill_label_uint
  simp only [bind, Except.bind, hf, hn, deref]
  exact label_write_empty size hs _

/-- The masked bits of a word have no bit below the lowest bit of the mask, so
the shift right by the number of trailing zero bits of the mask loses nothing:
shifting back gives the masked bits, and the shifted number is at most the
shifted mask. -/
theorem mask_shift_round_trip (v m : Nat) (h0 : m ≠ 0) (h32 : m < 2 ^ 32) :
    count_trailing_zeros m < 32 ∧
    ((((v &&& m) >>> count_trailing_zeros m) <<< count_trailing_zeros m) % 2 ^ 32
      = v &&& m) ∧
    (v &&& m) >>> count_trailing_zeros m ≤ m >>> count_trailing_zeros m := by
  obtain ⟨k, hk, hbit, hlow⟩ := exists_lowest_bit m h0 h32
  rw [count_trailing_zeros_eq m k hk hbit hlow]
  have hle : v &&& m ≤ m := Nat.and_le_right
  have hback : ((v &&& m) >>> k) <<< k = v &&& m := by
    apply Nat.eq_of_testBit_eq
    intro j
    rw [Nat.testBit_shiftLeft, Nat.testBit_shiftRight]
    by_cases hj : k ≤ j
    · have : k + (j - k) = j := by omega
      simp [hj, this]
    · have hjk : j < k := by omega
      simp [hj, Nat.testBit_and, hlow j hjk]
  refine ⟨hk, ?_, ?_⟩
  · rw [hback]
    exact Nat.mod_eq_of_lt (by omega)
  · rw [Nat.shiftRight_eq_div_pow, Nat.shiftRight_eq_div_pow]
    exact Nat.div_le_div_right hle

theorem masked_ne_zero_iff (v m : Nat) (h0 : m ≠ 0) (h32 : m < 2 ^ 32) :
    (v &&& m) >>> count_trailing_zeros m ≠ 0 ↔ v &&& m ≠ 0 := by
  obtain ⟨_, h1, _⟩ := mask_shift_round_trip v m h0 h32
  constructor
  · intro h2 h3
    rw [h3] at h2
    simp at h2
  · intro h2 h3
    rw [h3] at h1
    simp at h1
    exact h2 h1.symm

/-- With the bitshift `proto_register_field_init` computes, the value
`proto_tree_set_uint` stores in a bitfield is the masked bits shifted right,
and the un-shift of the label routines gives the masked bits back. -/
theorem set_uint_unshift (fi : field_info) (v : Nat) (h0 : fi.hfinfo.bitmask ≠ 0)
    (h32 : fi.hfinfo.bitmask < 2 ^ 32)
    (hbs : fi.hfinfo.bitshift = count_trailing_zeros fi.hfinfo.bitmask) :
    proto_tree_set_uint fi v =
      .ok { fi with
            value := fvalue.integer
              (((v % 2 ^ 32) &&& fi.hfinfo.bitmask) >>>
                count_trailing_zeros fi.hfinfo.bitmask) } ∧
    unshift fi.hfinfo
        (((v % 2 ^ 32) &&& fi.hfinfo.bitmask) >>> count_trailing_zeros fi.hfinfo.bitmask)
      = .ok ((v % 2 ^ 32) &&& fi.hfinfo.bitmask) := by
  obtain ⟨hk, hrt, _⟩ := mask_shift_round_trip (v % 2 ^ 32) fi.hfinfo.bitmask h0 h32
  constructor
  · rw [set_uint_ok fi v (Or.inr (by rw [hbs]; exact hk))]
    simp only [bitfield, h0, ne_eq, not_false_eq_true, if_true, hbs]
  · unfold unshift
    rw [hbs]
    by_cases hz : count_trailing_zeros fi.hfinfo.bitmask > 0
    · rw [if_pos hz, if_pos hk]
      simp only [pure, Except.pure]
      rw [hrt]
    · rw [if_neg hz]
      have : count_trailing_zeros fi.hfinfo.bitmask = 0 := by omega
      simp only [pure, Except.pure, this, Nat.shiftRight_zero]

theorem numeric_bitfield_diagram (size : Nat) (fi : field_info) (x u : Nat)
    (hu : unshift fi.hfinfo x = .ok u) :
    fill_label_numeric_bitfield size { fi with value := fvalue.integer x } =
      (hfinfo_bitwidth fi.hfinfo).bind (fun bitwidth =>
        (hfinfo_uint_format fi.hfinfo).bind (fun format =>
          (deref fi.hfinfo.name).bind (fun name =>
            label_write size (decode_bitfield_value u fi.hfinfo.bitmask bitwidth.toNat)
              (sprintf format [.str name, .num x])))) := by
  unfold fill_label_numeric_bitfield
  simp only [bind, Except.bind, fvalue_get_integer, hu]

theorem enumerated_bitfield_diagram (size : Nat) (fi : field_info) (x u : Nat)
    (hu : unshift fi.hfinfo x = .ok u) :
    fill_label_enumerated_bitfield size { fi with value := fvalue.integer x } =
      (hfinfo_bitwidth fi.hfinfo).bind (fun bitwidth =>
        (hfinfo_uint_vals_format fi.hfinfo).bind (fun format =>
          (deref fi.hfinfo.name).bind (fun name =>
            (cVALS fi.hfinfo.strings).bind (fun table =>
              label_write size (decode_bitfield_value u fi.hfinfo.bitmask bitwidth.toNat)
                (sprintf format [.str name, .str (val_to_str x table), .num x]))))) := by
  unfold fill_label_enumerated_bitfield
  simp only [bind, Except.bind, fvalue_get_integer, hu]

theorem boolean_diagram (size : Nat) (fi : field_info) (x u : Nat)
    (h0 : fi.hfinfo.bitmask ≠ 0) (hu : unshift fi.hfinfo x = .ok u) :
    fill_label_boolean size { fi with value := fvalue.integer x } =
      (hfinfo_bitwidth fi.hfinfo).bind (fun bitwidth =>
        (deref fi.hfinfo.name).bind (fun name =>
          (tfs_of fi.hfinfo.strings).bind (fun tfstring =>
            label_write size (decode_bitfield_value u fi.hfinfo.bitmask bitwidth.toNat)
              (sprintf "%s: %s"
                [.str name, .str (if x ≠ 0 then tfstring.1 else tfstring.2)])))) := by
  unfold fill_label_boolean
  simp only [bind, Except.bind, fvalue_get_integer, hu, h0, ne_eq, not_false_eq_true,
    if_true, pure, Except.pure]

theorem boolean_plain (size : Nat) (fi : field_info) (x : Nat)
    (h0 : fi.hfinfo.bitmask = 0) :
    fill_label_boolean size { fi with value := fvalue.integer x } =
      (deref fi.hfinfo.name).bind (fun name =>
        (tfs_of fi.hfinfo.strings).bind (fun tfstring =>
          label_write size ""
            (sprintf "%s: %s"
              [.str name, .str (if x ≠ 0 then tfstring.1 else tfstring.2)]))) := by
  unfold fill_label_boolean
  simp only [bind, Except.bind, fvalue_get_integer, h0, ne_eq, not_true_eq_false,
    if_false, pure, Except.pure]

theorem sprintf_label_s (a b : String) :
    sprintf "%s: %s" [.str a, .str b] = a ++ ": " ++ b := by
  apply String.ext
  simp [sprintf, expand, String.data_append]

theorem signed_mask_state_reachable : Reachable signed_mask_state := by
  have h2 : ∃ r1, proto_register_protocol init_state (hf_entry "" "" FT_NONE 0 none 0 none)
      "Foo" "FOO" "foo" = .ok (r1, 1) ∧
      ∃ m, proto_register_field_array 1 r1 example_mem
        [⟨1, hf_entry "Level" "foo.level" FT_INT8 BASE_DEC none 0x0F none⟩]
        = .ok (signed_mask_state, m) := by
    exact ⟨_, rfl, _, rfl⟩
  obtain ⟨r1, h2, m, h3⟩ := h2
  exact Registered.field_array (Registered.protocol init_state_reachable h2) trivial h3

theorem bind_no_assert {α β : Type} (x : Except fault α) (f : α → Except fault β)
    (hx : x ≠ .error fault.assertion) (hf : ∀ a, f a ≠ .error fault.assertion) :
    (x >>= f) ≠ .error fault.assertion := by
  cases x with
  | error e =>
    intro h
    apply hx
    simpa [bind, Except.bind] using h
  | ok a => exact hf a

theorem deref_no_assert {α : Type} (p : Option α) : deref p ≠ .error fault.assertion := by
  cases p <;> simp [deref]

theorem label_write_no_assert (size : Nat) (pre text : String) :
    label_write size pre text ≠ .error fault.assertion := by
  unfold label_write
  split <;> simp

theorem unshift_no_assert (hf : header_field_info) (v : Nat) :
    unshift hf v ≠ .error fault.assertion := by
  unfold unshift
  split
  · split <;> simp [pure, Except.pure]
  · simp [pure, Except.pure]

theorem cVALS_no_assert (s : Option hf_strings) : cVALS s ≠ .error fault.assertion := by
  unfold cVALS
  split <;> simp [pure, Except.pure]

theorem tfs_of_no_assert (s : Option hf_strings) : tfs_of s ≠ .error fault.assertion := by
  unfold tfs_of
  split <;> simp [pure, Except.pure]

/-- A `bind` whose first part is a format or a width: the assertion is reached
in that part or not at all, when what follows has none. -/
theorem bind_assert_iff {α β : Type} (x : Except fault α) (f : α → Except fault β)
    (hf : ∀ a, f a ≠ .error fault.assertion) :
    (x >>= f) = .error fault.assertion ↔ x = .error fault.assertion := by
  cases x with
  | error e => simp [bind, Except.bind]
  | ok a =>
    simp only [bind, Except.bind]
    constructor
    · intro h; exact absurd h (hf a)
    · intro h; cases h

theorem fill_label_uint_assert (size : Nat) (fi : field_info) :
    fill_label_uint size fi = .error fault.assertion ↔
      hfinfo_uint_format fi.hfinfo = .error fault.assertion := by
  unfold fill_label_uint
  exact bind_assert_iff _ _ (fun _ =>
    bind_no_assert _ _ (deref_no_assert _) (fun _ => label_write_no_assert _ _ _))

theorem fill_label_int_assert (size : Nat) (fi : field_info) :
    fill_label_int size fi = .error fault.assertion ↔
      hfinfo_int_format fi.hfinfo = .error fault.assertion := by
  unfold fill_label_int
  exact bind_assert_iff _ _ (fun _ =>
    bind_no_assert _ _ (deref_no_assert _) (fun _ => label_write_no_assert _ _ _))

theorem fill_label_enumerated_uint_assert (size : Nat) (fi : field_info) :
    fill_label_enumerated_uint size fi = .error fault.assertion ↔
      hfinfo_uint_vals_format fi.hfinfo = .error fault.assertion := by
  unfold fill_label_enumerated_uint
  exact bind_assert_iff _ _ (fun _ =>
    bind_no_assert _ _ (deref_no_assert _) (fun _ =>
      bind_no_assert _ _ (cVALS_no_assert _) (fun _ => label_write_no_assert _ _ _)))

theorem fill_label_enumerated_int_assert (size : Nat) (fi : field_info) :
    fill_label_enumerated_int size fi = .error fault.assertion ↔
      hfinfo_int_vals_format fi.hfinfo = .error fault.assertion := by
  unfold fill_label_enumerated_int
  exact bind_assert_iff _ _ (fun _ =>
    bind_no_assert _ _ (deref_no_assert _) (fun _ =>
      bind_no_assert _ _ (cVALS_no_assert _) (fun _ => label_write_no_assert _ _ _)))

theorem fill_label_numeric_bitfield_assert (size : Nat) (fi : field_info) (w : Int)
    (hw : hfinfo_bitwidth fi.hfinfo = .ok w) :
    fill_label_numeric_bitfield size fi = .error fault.assertion ↔
      hfinfo_uint_format fi.hfinfo = .error fault.assertion := by
  unfold fill_label_numeric_bitfield
  dsimp only
  rw [hw]
  show ((hfinfo_uint_format fi.hfinfo) >>= _) = _ ↔ _
  exact bind_assert_iff _ _ (fun _ =>
    bind_no_assert _ _ (unshift_no_assert _ _) (fun _ =>
      bind_no_assert _ _ (deref_no_assert _) (fun _ => label_write_no_assert _ _ _)))

theorem fill_label_enumerated_bitfield_assert (size : Nat) (fi : field_info) (w : Int)
    (hw : hfinfo_bitwidth fi.hfinfo = .ok w) :
    fill_label_enumerated_bitfield size fi = .error fault.assertion ↔
      hfinfo_uint_vals_format fi.hfinfo = .error fault.assertion := by
  unfold fill_label_enumerated_bitfield
  dsimp only
  rw [hw]
  show ((hfinfo_uint_vals_format fi.hfinfo) >>= _) = _ ↔ _
  exact bind_assert_iff _ _ (fun _ =>
    bind_no_assert _ _ (unshift_no_assert _ _) (fun _ =>
      bind_no_assert _ _ (deref_no_assert _) (fun _ =>
        bind_no_assert _ _ (cVALS_no_assert _) (fun _ => label_write_no_assert _ _ _))))

theorem fill_label_boolean_no_assert (size : Nat) (fi : field_info)
    (ht : fi.hfinfo.type = FT_BOOLEAN) :
    fill_label_boolean size fi ≠ .error fault.assertion := by
  unfold fill_label_boolean
  dsimp only
  have hw : hfinfo_bitwidth fi.hfinfo ≠ .error fault.assertion := by
    unfold hfinfo_bitwidth
    rw [ht]
    split <;> simp [pure, Except.pure]
  split
  · exact bind_no_assert _ _ hw (fun _ =>
      bind_no_assert _ _ (unshift_no_assert _ _) (fun _ =>
        bind_no_assert _ _ (by simp [pure, Except.pure]) (fun _ =>
          bind_no_assert _ _ (deref_no_assert _) (fun _ =>
            bind_no_assert _ _ (tfs_of_no_assert _) (fun _ =>
              label_write_no_assert _ _ _)))))
  · exact bind_no_assert _ _ (by simp [pure, Except.pure]) (fun _ =>
      bind_no_assert _ _ (deref_no_assert _) (fun _ =>
        bind_no_assert _ _ (tfs_of_no_assert _) (fun _ =>
          label_write_no_assert _ _ _)))

theorem fill_label_uint64_assert (size : Nat) (env : label_env) (fi : field_info) :
    fill_label_uint64 size env fi = .error fault.assertion ↔
      ¬ (fi.hfinfo.display = BASE_DEC ∨ fi.hfinfo.display = BASE_HEX) := by
  unfold fill_label_uint64
  by_cases h1 : fi.hfinfo.display = BASE_DEC
  · simp only [h1, if_true, true_or, not_true_eq_false, iff_false]
    exact bind_no_assert _ _ (deref_no_assert _) (fun _ =>
      bind_no_assert _ _ (deref_no_assert _) (fun _ => label_write_no_assert _ _ _))
  · by_cases h2 : fi.hfinfo.display = BASE_HEX
    · simp only [h1, h2, if_true, if_false, or_true, not_true_eq_false, iff_false]
      exact bind_no_assert _ _ (deref_no_assert _) (fun _ =>
        bind_no_assert _ _ (deref_no_assert _) (fun _ => label_write_no_assert _ _ _))
    · simp [h1, h2]

theorem fill_label_int64_assert (size : Nat) (env : label_env) (fi : field_info) :
    fill_label_int64 size env fi = .error fault.assertion ↔
      ¬ (fi.hfinfo.display = BASE_DEC ∨ fi.hfinfo.display = BASE_HEX) := by
  unfold fill_label_int64
  by_cases h1 : fi.hfinfo.display = BASE_DEC
  · simp only [h1, if_true, true_or, not_true_eq_false, iff_false]
    exact bind_no_assert _ _ (deref_no_assert _) (fun _ =>
      bind_no_assert _ _ (deref_no_assert _) (fun _ => label_write_no_assert _ _ _))
  · by_cases h2 : fi.hfinfo.display = BASE_HEX
    · simp only [h1, h2, if_true, if_false, or_true, not_true_eq_false, iff_false]
      exact bind_no_assert _ _ (deref_no_assert _) (fun _ =>
        bind_no_assert _ _ (deref_no_assert _) (fun _ => label_write_no_assert _ _ _))
    · simp [h1, h2]

theorem uint_format_assert (hf : header_field_info) (ht : hf.type ∈ uint_types) :
    (hfinfo_uint_format hf = .error fault.assertion ↔
      ¬ (hf.display = BASE_DEC ∨ hf.display = BASE_OCT ∨ hf.display = BASE_HEX)) ∧
    (hfinfo_uint_vals_format hf = .error fault.assertion ↔
      ¬ (hf.display = BASE_DEC ∨ hf.display = BASE_OCT ∨ hf.display = BASE_HEX)) := by
  unfold hfinfo_uint_format hfinfo_uint_vals_format
  simp only [uint_types, List.mem_cons, List.mem_singleton, List.not_mem_nil,
    or_false] at ht
  by_cases h1 : hf.display = BASE_DEC
  · simp only [if_pos h1]
    rcases ht with h | h | h | h <;> simp [h, h1, pure, Except.pure]
  · by_cases h2 : hf.display = BASE_OCT
    · simp only [if_neg h1, if_pos h2]
      rcases ht with h | h | h | h <;> simp [h, h2, pure, Except.pure]
    · by_cases h3 : hf.display = BASE_HEX
      · simp only [if_neg h1, if_neg h2, if_pos h3]
        rcases ht with h | h | h | h <;> simp [h, h3, pure, Except.pure]
      · simp only [if_neg h1, if_neg h2, if_neg h3]
        rcases ht with h | h | h | h <;> simp [h, h1, h2, h3]

theorem int_format_assert (hf : header_field_info) (ht : hf.type ∈ sint_types) :
    (hfinfo_int_format hf = .error fault.assertion ↔
      ¬ (hf.display = BASE_DEC ∨ hf.display = BASE_OCT ∨ hf.display = BASE_HEX)) ∧
    (hfinfo_int_vals_format hf = .error fault.assertion ↔
      ¬ (hf.display = BASE_DEC ∨ hf.display = BASE_OCT ∨ hf.display = BASE_HEX)) := by
  unfold hfinfo_int_format hfinfo_int_vals_format
  simp only [sint_types, List.mem_cons, List.mem_singleton, List.not_mem_nil,
    or_false] at ht
  by_cases h1 : hf.display = BASE_DEC
  · simp only [if_pos h1]
    rcases ht with h | h | h | h <;> simp [h, h1, pure, Except.pure]
  · by_cases h2 : hf.display = BASE_OCT
    · simp only [if_neg h1, if_pos h2]
      rcases ht with h | h | h | h <;> simp [h, h2, pure, Except.pure]
    · by_cases h3 : hf.display = BASE_HEX
      · simp only [if_neg h1, if_neg h2, if_pos h3]
        rcases ht with h | h | h | h <;> simp [h, h3, pure, Except.pure]
      · simp only [if_neg h1, if_neg h2, if_neg h3]
        rcases ht with h | h | h | h <;> simp [h, h1, h2, h3]

theorem uint_bitwidth_ok (hf : header_field_info) (ht : hf.type ∈ uint_types) :
    ∃ w, hfinfo_bitwidth hf = .ok w := by
  unfold hfinfo_bitwidth
  simp only [uint_types, List.mem_cons, List.mem_singleton, List.not_mem_nil,
    or_false] at ht
  split
  · exact ⟨_, rfl⟩
  · rcases ht with h | h | h | h <;> rw [h] <;> exact ⟨_, rfl⟩

/-- The label of an unsigned field reaches an assertion exactly for a display
base other than Dec, Oct and Hex. -/
theorem fill_label_unsigned_assert (size : Nat) (env : label_env) (fi : field_info)
    (ht : fi.hfinfo.type ∈ uint_types) :
    proto_item_fill_label size env fi = .error fault.assertion ↔
      ¬ (fi.hfinfo.display = BASE_DEC ∨ fi.hfinfo.display = BASE_OCT ∨
        fi.hfinfo.display = BASE_HEX) := by
  obtain ⟨w, hw⟩ := uint_bitwidth_ok fi.hfinfo ht
  obtain ⟨f1, f2⟩ := uint_format_assert fi.hfinfo ht
  have e : proto_item_fill_label size env fi =
      if fi.hfinfo.bitmask ≠ 0 then
        if fi.hfinfo.strings.isSome then fill_label_enumerated_bitfield size fi
        else fill_label_numeric_bitfield size fi
      else
        if fi.hfinfo.strings.isSome then fill_label_enumerated_uint size fi
        else fill_label_uint size fi := by
    unfold proto_item_fill_label
    simp only [uint_types, List.mem_cons, List.mem_singleton, List.not_mem_nil,
      or_false] at ht
    rcases ht with h | h | h | h <;> simp only [h]
  rw [e]
  split
  · split
    · rw [fill_label_enumerated_bitfield_assert size fi w hw, f2]
    · rw [fill_label_numeric_bitfield_assert size fi w hw, f1]
  · split
    · rw [fill_label_enumerated_uint_assert, f2]
    · rw [fill_label_uint_assert, f1]

/-- The label of a signed field reaches an assertion exactly for a bitmask
and for a display base other than Dec, Oct and Hex. -/
theorem fill_label_signed_assert (size : Nat) (env : label_env) (fi : field_info)
    (ht : fi.hfinfo.type ∈ sint_types) :
    proto_item_fill_label size env fi = .error fault.assertion ↔
      fi.hfinfo.bitmask ≠ 0 ∨
      ¬ (fi.hfinfo.display = BASE_DEC ∨ fi.hfinfo.display = BASE_OCT ∨
        fi.hfinfo.display = BASE_HEX) := by
  obtain ⟨f1, f2⟩ := int_format_assert fi.hfinfo ht
  have e : proto_item_fill_label size env fi =
      (g_assert (fi.hfinfo.bitmask == 0)).bind (fun _ =>
        if fi.hfinfo.strings.isSome then fill_label_enumerated_int size fi
        else fill_label_int size fi) := by
    unfold proto_item_fill_label
    simp only [sint_types, List.mem_cons, List.mem_singleton, List.not_mem_nil,
      or_false] at ht
    rcases ht with h | h | h | h <;> simp only [h] <;> rfl
  rw [e]
  by_cases hm : fi.hfinfo.bitmask = 0
  · simp only [g_assert, hm, beq_self_eq_true, if_true, Except.bind, ne_eq,
      not_true_eq_false, false_or]
    split
    · rw [fill_label_enumerated_int_assert, f2]
    · rw [fill_label_int_assert, f1]
  · have : (fi.hfinfo.bitmask == 0) = false := by simpa using hm
    simp [g_assert, this, Except.bind, hm]

/-- The label of a frame number without bitmask and value map reaches no
assertion. -/
theorem fill_label_framenum_no_assert (size : Nat) (env : label_env) (fi : field_info)
    (ht : fi.hfinfo.type = FT_FRAMENUM) (hm : fi.hfinfo.bitmask = 0)
    (hstr : fi.hfinfo.strings = none) :
    proto_item_fill_label size env fi ≠ .error fault.assertion := by
  rw [fill_label_plain_uint size env fi (by rw [ht]; decide) hm hstr, ne_eq,
    fill_label_uint_assert]
  unfold hfinfo_uint_format
  rw [if_pos ht]
  simp [pure, Except.pure]

/-- The label of a 64-bit field reaches an assertion exactly for a display
base other than Dec and Hex. -/
theorem fill_label_64_assert (size : Nat) (env : label_env) (fi : field_info)
    (ht : fi.hfinfo.type = FT_UINT64 ∨ fi.hfinfo.type = FT_INT64) :
    proto_item_fill_label size env fi = .error fault.assertion ↔
      ¬ (fi.hfinfo.display = BASE_DEC ∨ fi.hfinfo.display = BASE_HEX) := by
  rcases ht with h | h
  · have e : proto_item_fill_label size env fi = fill_label_uint64 size env fi := by
      unfold proto_item_fill_label
      simp only [h]
    rw [e, fill_label_uint64_assert]
  · have e : proto_item_fill_label size env fi = fill_label_int64 size env fi := by
      unfold proto_item_fill_label
      simp only [h]
    rw [e, fill_label_int64_assert]

/-- The label of a field of another type reaches no assertion. -/
theorem fill_label_other_no_assert (size : Nat) (env : label_env) (fi : field_info)
    (ht : fi.hfinfo.type ∉ uint_types ++ sint_types ++ [FT_FRAMENUM, FT_UINT64, FT_INT64]) :
    proto_item_fill_label size env fi ≠ .error fault.assertion := by
  cases h : fi.hfinfo.type
  case FT_BOOLEAN =>
    have e : proto_item_fill_label size env fi = fill_label_boolean size fi := by
      unfold proto_item_fill_label
      simp only [h]
    rw [e]
    exact fill_label_boolean_no_assert size fi h
  case FT_BYTES =>
    unfold proto_item_fill_label
    simp only [h]
    split <;>
      exact bind_no_assert _ _ (deref_no_assert _) (fun _ => label_write_no_assert _ _ _)
  case FT_UINT_BYTES =>
    unfold proto_item_fill_label
    simp only [h]
    split <;>
      exact bind_no_assert _ _ (deref_no_assert _) (fun _ => label_write_no_assert _ _ _)
  all_goals first
    | (exfalso; apply ht; rw [h]; decide)
    | (unfold proto_item_fill_label
       simp only [h]
       first
        | exact bind_no_assert _ _ (deref_no_assert _) (fun _ => label_write_no_assert _ _ _)
        | exact bind_no_assert _ _ (deref_no_assert _) (fun _ =>
            bind_no_assert _ _ (deref_no_assert _) (fun _ => label_write_no_assert _ _ _)))

theorem accepted_framenum (r : registrar) (h : accepted_inv r) (i : Nat)
    (x : header_field_info) (hx : r.gpa_hfinfo[i]? = some x) (ht : x.type = FT_FRAMENUM) :
    x.bitmask = 0 ∧ x.strings = none := by
  have h1 := h i x hx
  unfold rejected core at h1
  simp only [not_or, not_and] at h1
  obtain ⟨_, _, _, _, h5⟩ := h1
  have h6 := h5 ht
  constructor
  · by_contra hc
    exact h6.1 hc
  · by_contra hc
    exact h6.2 hc

/-- The raw-bytes fallback gives a string exactly when the test of
`proto_can_match_selected` for a field without value passes, whenever it
returns. -/
theorem raw_bytes_can_match (fi : field_info) (edt : Option epan_dissect_t)
    (ht : fi.hfinfo.type = FT_NONE) (res : Option String)
    (h : dfilter_raw_bytes fi edt = .ok res) :
    proto_can_match_selected fi edt = .ok res.isSome := by
  unfold proto_can_match_selected
  simp only [ht]
  unfold dfilter_raw_bytes at h
  cases edt with
  | none =>
    simp only [pure, Except.pure, Except.ok.injEq] at h
    rw [← h]
    rfl
  | some e =>
    simp only [] at h ⊢
    split
    · rename_i h1
      rw [if_pos h1] at h
      simp only [pure, Except.pure, Except.ok.injEq] at h
      rw [← h]
      rfl
    · rename_i h1
      rw [if_neg h1] at h
      split
      · rename_i h2
        rw [if_pos h2] at h
        simp only [pure, Except.pure, Except.ok.injEq] at h
        rw [← h]
        rfl
      · rename_i h2
        rw [if_neg h2] at h
        cases hl : tvb_length e.tvb with
        | error err =>
          rw [hl] at h
          simp only [bind, Except.bind] at h
          cases h
        | ok n =>
          rw [hl] at h
          simp only [bind, Except.bind] at h ⊢
          generalize (if to_guint32 fi.length > n then (n : Int) else fi.length) = len
            at h ⊢
          by_cases h3 : len ≤ 0
          · rw [if_pos h3] at h ⊢
            simp only [pure, Except.pure, Except.ok.injEq] at h
            rw [← h]
            rfl
          · rw [if_neg h3] at h ⊢
            cases hr : read_octets e.tvb fi.start len.toNat with
            | error err =>
              rw [hr] at h
              cases h
            | ok octets =>
              rw [hr] at h
              simp only [] at h
              cases hw : write_all (32 + len.toNat * 3)
                  (sprintf "frame[%d:%d] == "
                    [.num (to_guint32 fi.start), .num (to_guint32 len)]
                    ++ String.mk (hex_octets octets)) with
              | error err =>
                rw [hw] at h
                cases h
              | ok buf =>
                rw [hw] at h
                simp only [pure, Except.pure, Except.ok.injEq] at h
                rw [← h]
                rfl

theorem repr_visible_root : repr_visible proto_tree_create_root := by
  intro q fi h
  cases q with
  | nil => cases h
  | cons i q => rw [proto_tree_create_root, finfo_at_leaf] at h; cases h

theorem repr_visible_append (t : ptree) (P : List Nat) (tnode : proto_node)
    (fi : field_info) (td : tree_data_t) (h : repr_visible t)
    (hP : node_at t.root P = some tnode) (hfi : fi.representation = none) :
    repr_visible { root := g_node_append t.root P (.mk (some fi) []), tree_data := td } := by
  intro q x hx hr
  simp only [finfo_at_append P t.root tnode fi q hP] at hx
  split at hx
  · cases hx
    exact absurd hfi hr
  · exact h q x hx hr

theorem repr_visible_update (t : ptree) (p : List Nat) (f : field_info → field_info)
    (td : tree_data_t) (h : repr_visible t)
    (hf : ∀ fi, finfo_at t.root p = some fi →
      (fi.representation ≠ none → fi.visible = true) →
      (f fi).representation ≠ none → (f fi).visible = true) :
    repr_visible { root := update_finfo f t.root p, tree_data := td } := by
  intro q x hx hr
  simp only [finfo_at_update p f t.root q] at hx
  split at hx
  · cases hfi : finfo_at t.root p with
    | none => rw [hfi] at hx; cases hx
    | some fi =>
      rw [hfi] at hx
      simp only [Option.map_some', Option.some.injEq] at hx
      subst hx
      exact hf fi hfi (h p fi hfi) hr
  · exact h q x hx hr

theorem set_item_value_shape (t t2 : ptree) (pi : List Nat)
    (set : field_info → Except fault field_info)
    (h : set_item_value t pi set = .ok t2) :
    ∃ fi fi2, finfo_at t.root pi = some fi ∧ set fi = .ok fi2 ∧
      t2 = { t with root := update_finfo (fun _ => fi2) t.root pi } := by
  unfold set_item_value pitem_finfo at h
  cases hfi : (node_at t.root pi).bind proto_node.finfo with
  | none => rw [hfi] at h; simp only [bind, Except.bind] at h; cases h
  | some fi =>
    rw [hfi] at h
    simp only [bind, Except.bind] at h
    cases hs : set fi with
    | error e => rw [hs] at h; cases h
    | ok fi2 =>
      rw [hs] at h
      simp only [pure, Except.pure, Except.ok.injEq] at h
      exact ⟨fi, fi2, hfi, hs, h.symm⟩

theorem append_text_frame (size : Nat) (env : label_env) (fi fi2 : field_info)
    (text : String) (h : append_text size env fi text = .ok fi2) :
    fi2.visible = fi.visible ∧ (fi.visible = false → fi2 = fi) := by
  unfold append_text at h
  by_cases hv : fi.visible = true
  · rw [if_pos hv] at h
    refine ⟨?_, fun hc => by rw [hv] at hc; cases hc⟩
    have key : ∀ (x : Except fault String),
        (x >>= fun representation =>
          if size > representation.length then
            (pure { fi with
                    representation :=
                      some (representation ++ snprintf (size - representation.length) text) }
              : Except fault field_info)
          else pure { fi with representation := some representation }) = .ok fi2 →
        fi2.visible = fi.visible := by
      intro x hx
      cases x with
      | error e => cases hx
      | ok v =>
        simp only [bind, Except.bind] at hx
        split at hx <;>
          · simp only [pure, Except.pure, Except.ok.injEq] at hx
            rw [← hx]
    dsimp only at h
    cases hrep : fi.representation with
    | none =>
      rw [hrep] at h
      exact key (proto_item_fill_label size env fi) h
    | some cur =>
      rw [hrep] at h
      exact key (pure cur) h
  · rw [if_neg hv] at h
    simp only [pure, Except.pure, Except.ok.injEq] at h
    subst h
    exact ⟨rfl, fun _ => rfl⟩

theorem set_representation_shape (size : Nat) (t t1 : ptree) (pi : List Nat)
    (text : String) (h : proto_tree_set_representation size t pi text = .ok t1) :
    ∃ fi, finfo_at t.root pi = some fi ∧
      t1 = { t with root := update_finfo (fun fi => set_representation size fi text)
                      t.root pi } := by
  unfold proto_tree_set_representation pitem_finfo at h
  cases hfi : (node_at t.root pi).bind proto_node.finfo with
  | none => rw [hfi] at h; simp only [bind, Except.bind] at h; cases h
  | some fi =>
    rw [hfi] at h
    simp only [bind, Except.bind, pure, Except.pure, Except.ok.injEq] at h
    exact ⟨fi, hfi, h.symm⟩

theorem repr_visible_set_representation (size : Nat) (t t1 : ptree) (pi : List Nat)
    (text : String) (ht : repr_visible t)
    (h : proto_tree_set_representation size t pi text = .ok t1) : repr_visible t1 := by
  obtain ⟨fi, _, h1⟩ := set_representation_shape size t t1 pi text h
  rw [h1]
  refine repr_visible_update t pi _ t.tree_data ht ?_
  intro x _ hx
  unfold set_representation
  split
  · rename_i hv
    intro _
    exact hv
  · exact hx

theorem repr_visible_hide (t : ptree) (pi : List Nat) (ht : repr_visible t)
    (hfresh : ∀ fi, finfo_at t.root pi = some fi → fi.representation = none) :
    repr_visible (hide_item t pi) := by
  unfold hide_item
  refine repr_visible_update t pi _ t.tree_data ht ?_
  intro x hx _ hr
  exact absurd (hfresh x hx) hr

/-- The tree after `proto_tree_add_pi`: the invariant holds, and the new
payload has no representation. -/
theorem repr_visible_add_pi (r : registrar) (num_tree_types : Int) (t t1 : ptree)
    (tree : Option (List Nat)) (hfindex : Int) (tvb : Option tvbuff) (start length : Int)
    (res : Option (List Nat × Int)) (ht : repr_visible t)
    (h : proto_tree_add_pi r num_tree_types t tree hfindex tvb start length
      = .ok (res, t1)) :
    repr_visible t1 ∧
    ∀ pi len, res = some (pi, len) →
      ∃ fi, finfo_at t1.root pi = some fi ∧ fi.representation = none := by
  cases tree with
  | none =>
    simp only [proto_tree_add_pi, Except.ok.injEq, Prod.mk.injEq] at h
    rw [← h.2]
    refine ⟨ht, ?_⟩
    intro pi len hres
    rw [← h.1] at hres
    cases hres
  | some P =>
    obtain ⟨tnode, hf, len, hP, _, _, _, hres, ht1⟩ :=
      add_pi_full r num_tree_types t t1 P hfindex tvb start length res h
    rw [ht1]
    refine ⟨repr_visible_append t P tnode _ _ ht hP rfl, ?_⟩
    intro pi len1 hpi
    rw [hres] at hpi
    simp only [Option.some.injEq, Prod.mk.injEq] at hpi
    refine ⟨new_field_info t hf tvb start len, ?_, rfl⟩
    rw [← hpi.1]
    simp only [finfo_at_append P t.root tnode _ _ hP, if_true]

theorem repr_visible_add_item (r : registrar) (num_tree_types : Int) (t t1 : ptree)
    (tree : Option (List Nat)) (hfindex : Int) (tvb : Option tvbuff) (start length : Int)
    (little_endian : Bool) (res : Option (List Nat)) (ht : repr_visible t)
    (h : proto_tree_add_item r num_tree_types t tree hfindex tvb start length
      little_endian = .ok (res, t1)) :
    repr_visible t1 ∧
    ∀ pi, res = some pi →
      ∃ fi, finfo_at t1.root pi = some fi ∧ fi.representation = none := by
  cases tree with
  | none =>
    simp only [proto_tree_add_item, Except.ok.injEq, Prod.mk.injEq] at h
    rw [← h.2]
    refine ⟨ht, ?_⟩
    intro pi hres
    rw [← h.1] at hres
    cases hres
  | some P =>
    obtain ⟨tnode, hf, len, fi, hP, _, _, _, hval, hres, ht1⟩ :=
      add_item_full r num_tree_types t t1 P hfindex tvb start length little_endian res h
    have hrep : fi.representation = none :=
      (add_item_value_frame _ fi tvb start len little_endian hval).2.2.2.2.1
    rw [ht1]
    refine ⟨repr_visible_append t P tnode _ _ ht hP hrep, ?_⟩
    intro pi hpi
    rw [hres] at hpi
    simp only [Option.some.injEq] at hpi
    refine ⟨fi, ?_, hrep⟩
    rw [← hpi]
    simp only [finfo_at_append P t.root tnode _ _ hP, if_true]

theorem repr_visible_add_uint (r : registrar) (num_tree_types : Int) (t t1 : ptree)
    (tree : Option (List Nat)) (hfindex : Int) (tvb : Option tvbuff) (start length : Int)
    (value : Nat) (res : Option (List Nat)) (ht : repr_visible t)
    (h : proto_tree_add_uint r num_tree_types t tree hfindex tvb start length value
      = .ok (res, t1)) :
    repr_visible t1 ∧
    ∀ pi, res = some pi →
      ∃ fi, finfo_at t1.root pi = some fi ∧ fi.representation = none := by
  cases tree with
  | none =>
    simp only [proto_tree_add_uint, Except.ok.injEq, Prod.mk.injEq] at h
    rw [← h.2]
    refine ⟨ht, ?_⟩
    intro pi hres
    rw [← h.1] at hres
    cases hres
  | some P =>
    obtain ⟨tnode, hf, len, fi, hP, _, _, hval, hres, ht1⟩ :=
      add_uint_full r num_tree_types t t1 P hfindex tvb start length value res h
    have hrep : fi.representation = none :=
      (set_uint_frame _ fi value hval).1.2.2.2.2.1
    rw [ht1]
    refine ⟨repr_visible_append t P tnode _ _ ht hP hrep, ?_⟩
    intro pi hpi
    rw [hres] at hpi
    simp only [Option.some.injEq] at hpi
    refine ⟨fi, ?_, hrep⟩
    rw [← hpi]
    simp only [finfo_at_append P t.root tnode _ _ hP, if_true]

theorem repr_visible_hidden_result (t1 t2 : ptree) (pi : Option (List Nat))
    (res : Option (List Nat)) (ht : repr_visible t1)
    (hfresh : ∀ p, pi = some p →
      ∃ fi, finfo_at t1.root p = some fi ∧ fi.representation = none)
    (h : (match pi with
      | none => (pure (none, t1) : Except fault (Option (List Nat) × ptree))
      | some p => do
        let _ ← pitem_finfo t1 p
        pure (some p,
          { t1 with root := update_finfo (fun fi => { fi with visible := false })
                      t1.root p })) = .ok (res, t2)) :
    repr_visible t2 := by
  cases pi with
  | none =>
    simp only [pure, Except.pure, Except.ok.injEq, Prod.mk.injEq] at h
    rw [← h.2]
    exact ht
  | some p =>
    obtain ⟨fi, hfi, hrep⟩ := hfresh p rfl
    simp only [bind, Except.bind, pitem_finfo_ok t1 p fi hfi, pure, Except.pure,
      Except.ok.injEq, Prod.mk.injEq] at h
    rw [← h.2]
    refine repr_visible_hide t1 p ht ?_
    intro x hx
    rw [hfi] at hx
    cases hx
    exact hrep

/-- Every tree a dissection builds keeps the representations with the
visible payloads. -/
theorem dissected_repr_visible (r : registrar) (num_tree_types : Int) (size : Nat)
    (env : label_env) (t : ptree) (h : Dissected r num_tree_types size env t) :
    repr_visible t := by
  induction h with
  | root => exact repr_visible_root
  | add_item _ hadd ih => exact (repr_visible_add_item _ _ _ _ _ _ _ _ _ _ _ ih hadd).1
  | @add_item_hidden t t1 tree pi hfindex tvb start length little_endian _ hadd ih =>
    unfold proto_tree_add_item_hidden at hadd
    cases hplain : proto_tree_add_item r num_tree_types t tree hfindex tvb start length
        little_endian with
    | error e => rw [hplain] at hadd; cases hadd
    | ok p =>
      obtain ⟨res, t0⟩ := p
      rw [hplain] at hadd
      obtain ⟨h1, h2⟩ := repr_visible_add_item _ _ _ _ _ _ _ _ _ _ _ ih hplain
      exact repr_visible_hidden_result t0 t1 res pi h1 h2 hadd
  | add_uint _ hadd ih => exact (repr_visible_add_uint _ _ _ _ _ _ _ _ _ _ _ ih hadd).1
  | @add_uint_hidden t t1 tree pi hfindex tvb start length value _ hadd ih =>
    unfold proto_tree_add_uint_hidden at hadd
    cases hplain : proto_tree_add_uint r num_tree_types t tree hfindex tvb start length
        value with
    | error e => rw [hplain] at hadd; cases hadd
    | ok p =>
      obtain ⟨res, t0⟩ := p
      rw [hplain] at hadd
      obtain ⟨h1, h2⟩ := repr_visible_add_uint _ _ _ _ _ _ _ _ _ _ _ ih hplain
      exact repr_visible_hidden_result t0 t1 res pi h1 h2 hadd
  | add_pi _ hadd ih => exact (repr_visible_add_pi _ _ _ _ _ _ _ _ _ _ ih hadd).1
  | @add_value t t1 tree pi len hfindex tvb start length v _ hadd ih =>
    obtain ⟨h1, _⟩ := repr_visible_add_pi _ _ _ _ _ _ _ _ _ _ ih hadd
    exact repr_visible_update t1 pi _ t1.tree_data h1 (fun _ _ hx => hx)
  | @add_value_hidden t t1 tree pi len hfindex tvb start length v _ hadd ih =>
    obtain ⟨h1, h2⟩ := repr_visible_add_pi _ _ _ _ _ _ _ _ _ _ ih hadd
    obtain ⟨fi, hfi, hrep⟩ := h2 pi len rfl
    refine repr_visible_hide _ pi
      (repr_visible_update t1 pi _ t1.tree_data h1 (fun _ _ hx => hx)) ?_
    intro x hx
    simp only [finfo_at_update, if_true, hfi, Option.map_some', Option.some.injEq] at hx
    rw [← hx]
    exact hrep
  | format _ hset ih => exact repr_visible_set_representation _ _ _ _ _ ih hset
  | @set_text t t1 pi text _ hset ih =>
    cases pi with
    | none =>
      simp only [proto_item_set_text, Except.ok.injEq] at hset
      rw [← hset]
      exact ih
    | some p => exact repr_visible_set_representation _ _ _ _ _ ih hset
  | @append_text t t1 pi text _ happ ih =>
    cases pi with
    | none =>
      simp only [proto_item_append_text, Except.ok.injEq] at happ
      rw [← happ]
      exact ih
    | some p =>
      obtain ⟨fi, fi2, hfi, hset, ht1⟩ := set_item_value_shape t t1 p _ happ
      obtain ⟨f1, f2⟩ := append_text_frame size env fi fi2 text hset
      rw [ht1]
      refine repr_visible_update t p _ t.tree_data ih ?_
      intro x hx hinv hr
      rw [hfi] at hx
      cases hx
      cases hv : fi.visible with
      | true => rw [f1, hv]
      | false =>
        rw [f2 hv] at hr
        rw [hinv hr] at hv
        cases hv
  | @set_len t t1 pi length _ hset ih =>
    cases pi with
    | none =>
      simp only [proto_item_set_len, Except.ok.injEq] at hset
      rw [← hset]
      exact ih
    | some p =>
      simp only [proto_item_set_len, bind, Except.bind] at hset
      cases hp : pitem_finfo t p with
      | error e => rw [hp] at hset; cases hset
      | ok fi =>
        rw [hp] at hset
        simp only [pure, Except.pure, Except.ok.injEq] at hset
        rw [← hset]
        exact repr_visible_update t p _ t.tree_data ih (fun _ _ hx => hx)
  | @set_end t t1 pi tvb end_offset _ hset ih =>
    cases pi with
    | none =>
      simp only [proto_item_set_end, Except.ok.injEq] at hset
      rw [← hset]
      exact ih
    | some p =>
      simp only [proto_item_set_end, bind, Except.bind] at hset
      cases hp : pitem_finfo t p with
      | error e => rw [hp] at hset; cases hset
      | ok fi =>
        rw [hp] at hset
        cases tvb with
        | none => cases hset
        | some b =>
          simp only [pure, Except.pure, Except.ok.injEq] at hset
          rw [← hset]
          exact repr_visible_update t p _ t.tree_data ih (fun _ _ hx => hx)
  | @add_subtree t t1 pi res idx _ hsub ih =>
    cases pi with
    | none =>
      simp only [proto_item_add_subtree, Except.ok.injEq, Prod.mk.injEq] at hsub
      rw [← hsub.2]
      exact ih
    | some p =>
      have hroot := add_subtree_shape num_tree_types t t1 p idx res hsub
      intro q x hx hr
      rw [hroot] at hx
      exact repr_visible_update t p (fun fi => { fi with tree_type := idx }) t.tree_data ih
        (fun _ _ hx => hx) q x hx hr
  | set_visible visible _ ih => exact ih

/-- The formats `hfinfo_numeric_format` can return. -/
theorem numeric_format_cases (hf : header_field_info) (format : String)
    (h : hfinfo_numeric_format hf = .ok format) :
    format = "%s == %u" ∨ format = "%s == %d" ∨ format = "%s == 0x%02x" ∨
    format = "%s == 0x%04x" ∨ format = "%s == 0x%06x" ∨ format = "%s == 0x%08x" := by
  unfold hfinfo_numeric_format at h
  split at h
  · simp only [pure, Except.pure, Except.ok.injEq] at h
    exact Or.inl h.symm
  · split at h
    · split at h <;> cases h <;> simp
    · split at h
      · split at h <;> cases h <;> simp
      · cases h

/-- The value a numeric format renders behind the abbreviation has at most
eleven characters. -/
theorem numeric_value_length (hf : header_field_info) (format : String)
    (h : hfinfo_numeric_format hf = .ok format) (a : String) (v : Nat) :
    ∃ value : List Char, sprintf format [.str a, .num v] = a ++ " == " ++ String.mk value ∧
      value.length ≤ 11 := by
  rcases numeric_format_cases hf format h with e | e | e | e | e | e <;> subst e
  · exact ⟨fmt_u v, sprintf_eq_u a v, by have := fmt_u_length v; omega⟩
  · exact ⟨fmt_d v, sprintf_eq_d a v, fmt_d_length v⟩
  · refine ⟨'0' :: 'x' :: fmt_x false 2 v, ?_, ?_⟩
    · rw [sprintf_eq_x2]
      apply String.ext
      simp [String.data_append]
    · have := fmt_x_length false 2 v (by decide)
      simp only [List.length_cons]
      omega
  · refine ⟨'0' :: 'x' :: fmt_x false 4 v, ?_, ?_⟩
    · rw [sprintf_eq_x4]
      apply String.ext
      simp [String.data_append]
    · have := fmt_x_length false 4 v (by decide)
      simp only [List.length_cons]
      omega
  · refine ⟨'0' :: 'x' :: fmt_x false 6 v, ?_, ?_⟩
    · rw [sprintf_eq_x6]
      apply String.ext
      simp [String.data_append]
    · have := fmt_x_length false 6 v (by decide)
      simp only [List.length_cons]
      omega
  · refine ⟨'0' :: 'x' :: fmt_x false 8 v, ?_, ?_⟩
    · rw [sprintf_eq_x8]
      apply String.ext
      simp [String.data_append]
    · have := fmt_x_length false 8 v (by decide)
      simp only [List.length_cons]
      omega

/-- The text of the raw-bytes fallback for a start `S` and `L` octets, both
below 2^31 and `L` positive, has at most `31 + 3 * L` characters. -/
theorem raw_text_length (S : Int) (h0 : 0 ≤ S) (h1 : S < 2 ^ 31) (octets : List Nat)
    (hlt : ∀ x ∈ octets, x < 256) (hne : octets ≠ []) (hL : (octets.length : Int) < 2 ^ 31) :
    (sprintf "frame[%d:%d] == "
        [.num (to_guint32 S), .num (to_guint32 (octets.length : Int))]
      ++ String.mk (hex_octets octets)).length ≤ 31 + 3 * octets.length := by
  obtain ⟨d1, l1⟩ := fmt_d_nonneg S h0 h1
  obtain ⟨d2, l2⟩ := fmt_d_nonneg (octets.length : Int) (by omega) hL
  have hhex := hex_octets_length octets hlt hne
  rw [sprintf_frame, d1, d2]
  simp only [String.length_append]
  show "frame[".length + (fmt_u S.toNat).length + ":".length
    + (fmt_u ((octets.length : Int)).toNat).length + "] == ".length
    + (hex_octets octets).length ≤ _
  have c1 : "frame[".length = 6 := rfl
  have c2 : ":".length = 1 := rfl
  have c3 : "] == ".length = 5 := rfl
  rw [c1, c2, c3]
  omega

theorem diagram_chars_length (c : Nat → Char) : ∀ n : Nat,
    ((List.range n).flatMap (fun i =>
      (if i ≠ 0 ∧ i % 4 = 0 then [' '] else []) ++ [c i])).length = n + (n - 1) / 4 := by
  intro n
  induction n with
  | zero => rfl
  | succ n ih =>
    rw [List.range_succ, List.flatMap_append, List.length_append, ih]
    by_cases h : n ≠ 0 ∧ n % 4 = 0
    · simp only [List.flatMap_cons, List.flatMap_nil, List.append_nil, if_pos h,
        List.length_append, List.length_cons, List.length_nil]
      omega
    · simp only [List.flatMap_cons, List.flatMap_nil, List.append_nil, if_neg h,
        List.length_append, List.length_cons, List.length_nil]
      omega

/-- The bit diagram of `width` positions has `width` characters, a blank after
every fourth position but the last, and the three characters of ` = `. -/
theorem diagram_length (val mask width : Nat) :
    (decode_bitfield_value val mask width).length = width + (width - 1) / 4 + 3 := by
  unfold decode_bitfield_value other_decode_bitfield_value
  show (_ ++ [' ', '=', ' ']).length = _
  rw [List.length_append, diagram_chars_length]
  rfl

theorem wide_flag_state_reachable : Reachable wide_flag_state := by
  have h2 : ∃ r1, proto_register_protocol init_state (hf_entry "" "" FT_NONE 0 none 0 none)
      "Foo" "FOO" "foo" = .ok (r1, 1) ∧
      ∃ m, proto_register_field_array 1 r1 example_mem
        [⟨1, hf_entry "Wide" "foo.wide" FT_BOOLEAN 300 none 1 none⟩]
        = .ok (wide_flag_state, m) := by
    exact ⟨_, rfl, _, rfl⟩
  obtain ⟨r1, h2, m, h3⟩ := h2
  exact Registered.field_array (Registered.protocol init_state_reachable h2) trivial h3

theorem label_write_overrun (size : Nat) (pre text : String) (h : size ≤ pre.length) :
    label_write size pre text = .error fault.undefined := by
  unfold label_write
  rw [if_neg (by omega)]

theorem label_write_fits (size : Nat) (pre text : String) (h : pre.length < size) :
    label_write size pre text = .ok (snprintf size (pre ++ text)) := by
  unfold label_write
  rw [if_pos h, snprintf_append size pre text h]

/-- The label of a Boolean bitfield: the bit diagram of the un-shifted value,
of the width the display gives, and behind it the name and the true or the
false string, written into what the diagram leaves of the buffer. -/
theorem fill_label_boolean_masked (size : Nat) (fi : field_info) (n t f : String)
    (ht : fi.hfinfo.type = FT_BOOLEAN) (h0 : fi.hfinfo.bitmask ≠ 0)
    (hs : fi.hfinfo.bitshift < 32) (hn : fi.hfinfo.name = some n)
    (htf : tfs_of fi.hfinfo.strings = .ok (t, f)) :
    ∃ u, unshift fi.hfinfo (fvalue_get_integer fi.value) = .ok u ∧
      fill_label_boolean size fi =
        label_write size
          (decode_bitfield_value u fi.hfinfo.bitmask fi.hfinfo.display.toNat)
          (n ++ ": " ++ (if fvalue_get_integer fi.value ≠ 0 then t else f)) := by
  have hu : ∃ u, unshift fi.hfinfo (fvalue_get_integer fi.value) = .ok u := by
    unfold unshift
    simp only [if_pos hs]
    split <;> exact ⟨_, rfl⟩
  obtain ⟨u, hu⟩ := hu
  refine ⟨u, hu, ?_⟩
  have hbw : hfinfo_bitwidth fi.hfinfo = .ok fi.hfinfo.display := by
    unfold hfinfo_bitwidth
    rw [if_neg h0, ht]
    rfl
  unfold fill_label_boolean
  simp only [bind, Except.bind, hu, h0, ne_eq, not_false_eq_true, if_true, pure,
    Except.pure, hbw, hn, htf, deref, sprintf_label_s]

theorem fill_label_boolean_unmasked (size : Nat) (fi : field_info) (n t f : String)
    (h0 : fi.hfinfo.bitmask = 0) (hn : fi.hfinfo.name = some n)
    (htf : tfs_of fi.hfinfo.strings = .ok (t, f)) :
    fill_label_boolean size fi =
      label_write size "" (n ++ ": " ++ (if fvalue_get_integer fi.value ≠ 0 then t else f)) := by
  unfold fill_label_boolean
  simp only [bind, Except.bind, h0, ne_eq, not_true_eq_false, if_false, pure,
    Except.pure, hn, htf, deref, sprintf_label_s]

theorem fill_label_is_boolean (size : Nat) (env : label_env) (fi : field_info)
    (ht : fi.hfinfo.type = FT_BOOLEAN) :
    proto_item_fill_label size env fi = fill_label_boolean size fi := by
  unfold proto_item_fill_label
  simp only [ht]

theorem uint_bitwidth_le (hf : header_field_info) (ht : hf.type ∈ uint_types) :
    ∃ w : Int, hfinfo_bitwidth hf = .ok w ∧ w.toNat ≤ 32 := by
  unfold hfinfo_bitwidth
  simp only [uint_types, List.mem_cons, List.mem_singleton, List.not_mem_nil,
    or_false] at ht
  split
  · exact ⟨0, rfl, by decide⟩
  · rcases ht with h | h | h | h <;> rw [h]
    · exact ⟨8, rfl, by decide⟩
    · exact ⟨16, rfl, by decide⟩
    · exact ⟨24, rfl, by decide⟩
    · exact ⟨32, rfl, by decide⟩

theorem uint_format_ok (hf : header_field_info) (ht : hf.type ∈ uint_types)
    (hd : hf.display = BASE_DEC ∨ hf.display = BASE_OCT ∨ hf.display = BASE_HEX) :
    ∃ format, hfinfo_uint_format hf = .ok format := by
  cases h : hfinfo_uint_format hf with
  | ok format => exact ⟨format, rfl⟩
  | error e =>
    exfalso
    have he : e = fault.assertion := by
      unfold hfinfo_uint_format at h
      split at h
      · cases h
      · split at h
        · cases h
        · split at h
          · cases h
          · split at h
            · split at h <;> cases h
              rfl
            · cases h; rfl
    rw [he] at h
    exact (uint_format_assert hf ht).1.1 h hd

/-- The label of an unsigned bitfield without value map: the diagram has at
most 42 characters, so a buffer of more than 42 octets is never overrun. -/
theorem fill_label_numeric_bitfield_fits (size : Nat) (fi : field_info) (n : String)
    (ht : fi.hfinfo.type ∈ uint_types) (hs : fi.hfinfo.bitshift < 32)
    (hn : fi.hfinfo.name = some n)
    (hd : fi.hfinfo.display = BASE_DEC ∨ fi.hfinfo.display = BASE_OCT ∨
      fi.hfinfo.display = BASE_HEX)
    (hsize : 42 < size) :
    ∃ s, fill_label_numeric_bitfield size fi = .ok s := by
  obtain ⟨w, hbw, hw⟩ := uint_bitwidth_le fi.hfinfo ht
  obtain ⟨format, hf⟩ := uint_format_ok fi.hfinfo ht hd
  have hu : ∃ u, unshift fi.hfinfo (fvalue_get_integer fi.value) = .ok u := by
    unfold unshift
    simp only [if_pos hs]
    split <;> exact ⟨_, rfl⟩
  obtain ⟨u, hu⟩ := hu
  have e : fill_label_numeric_bitfield size fi =
      label_write size (decode_bitfield_value u fi.hfinfo.bitmask w.toNat)
        (sprintf format [.str n, .num (fvalue_get_integer fi.value)]) := by
    unfold fill_label_numeric_bitfield
    simp only [bind, Except.bind, hbw, hf, hu, hn, deref]
  rw [e, label_write_fits _ _ _ (by rw [diagram_length]; omega)]
  exact ⟨_, rfl⟩

/-! ## The properties -/

/-- C1 (handle stability). In every registrar state reached by registrations,
`proto_registrar_get_nth` returns for each handle `0 ≤ h < proto_registrar_n()`
a descriptor whose `id` is `h`, and fails its assertion for every other handle. -/
theorem C1_handle_stability (r : registrar) (hr : Reachable r) (hfindex : Int) :
    (0 ≤ hfindex ∧ hfindex < proto_registrar_n r →
      ∃ x, proto_registrar_get_nth r hfindex = .ok x ∧ x.id = hfindex) ∧
    (¬ (0 ≤ hfindex ∧ hfindex < proto_registrar_n r) →
      proto_registrar_get_nth r hfindex = .error fault.assertion) := by
  constructor
  · intro hh
    obtain ⟨x, hx, hget⟩ := get_nth_in_range r hfindex hh
    refine ⟨x, hget, ?_⟩
    have := reachable_ids _ _ r ids_inv_new hr _ x hx
    simp only [core] at this
    rw [this, Int.toNat_of_nonneg hh.1]
  · intro hh
    exact get_nth_out_of_range r hfindex hh

/-- Witness of C1 on the registrar with protocol `Foo` and two fields. -/
theorem C1_handle_stability_witness :
    Reachable foo_state ∧
      ∃ x, proto_registrar_get_nth foo_state 3 = .ok x ∧ x.id = 3 :=
  ⟨foo_state_reachable, (C1_handle_stability foo_state foo_state_reachable 3).1 (by decide)⟩

/-- C2 as stated fails as soon as two fields share an abbreviation: the
descriptor `proto_registrar_get_byname` returns for `foo.flags` is the one
registered last, and its `same_name_prev` is set. -/
theorem C2_chain_head_counterexample :
    ¬ (∀ r : registrar, Reachable r → ∀ a : String, a ≠ "" →
        ∀ x, proto_registrar_get_byname r a = some x →
          x.same_name_prev = none ∧
          ∀ fuel, r.gpa_hfinfo.length ≤ fuel →
            chain_next r fuel x.same_name_next =
              ((r.gpa_hfinfo.filter (registered_under a)).reverse).tail) := by
  intro hclaim
  have h := (hclaim foo_state foo_state_reachable "foo.flags" (by decide) _ rfl).1
  exact absurd h (by decide)

/-- C2 (chain head), amended in the direction of the links. In every registrar
state reached by registrations, for every non-empty abbreviation `a` under
which a descriptor with a non-empty name was registered,
`proto_registrar_get_byname(a)` returns the descriptor registered last under
`a`; its `same_name_next` is none, and the walk along `same_name_prev` from it
meets exactly the other descriptors registered under `a`, in reverse order of
registration. -/
theorem C2_chain_head (r : registrar) (hr : Reachable r) (a : String) (ha : a ≠ "")
    (hne : r.gpa_hfinfo.filter (registered_under a) ≠ [])
    (fuel : Nat) (hfuel : r.gpa_hfinfo.length ≤ fuel) :
    ∃ x, proto_registrar_get_byname r a = some x ∧
      (r.gpa_hfinfo.filter (registered_under a)).getLast? = some x ∧
      x.same_name_next = none ∧
      chain_prev r fuel x.same_name_prev =
        ((r.gpa_hfinfo.filter (registered_under a)).reverse).tail := by
  have hl : link_inv r := reachable_link _ _ r link_inv_new hr
  have hfun : under a = registered_under a := funext (under_eq_registered_under a ha)
  have hchain := chain_prev_tree r hl a (fuel + 1) (by omega)
  rw [hfun] at hchain
  cases hp : g_tree_lookup r.gpa_name_tree a with
  | none =>
    rw [hp, chain_prev_none] at hchain
    have : r.gpa_hfinfo.filter (registered_under a) = [] := by
      have := congrArg List.reverse hchain
      simpa using this.symm
    exact absurd this hne
  | some p =>
    obtain ⟨x, hx, hnx⟩ := hl.next a p hp
    rw [hp, chain_prev, hx] at hchain
    simp only at hchain
    refine ⟨x, ?_, ?_, hnx, ?_⟩
    · unfold proto_registrar_get_byname
      rw [hp]
      exact hx
    · rw [List.getLast?_eq_head?_reverse, ← hchain]
      rfl
    · rw [← hchain]
      rfl

/-- Witness of C2 on the registrar with two fields under `foo.flags`. -/
theorem C2_chain_head_witness :
    ∃ x, proto_registrar_get_byname foo_state "foo.flags" = some x ∧
      (foo_state.gpa_hfinfo.filter (registered_under "foo.flags")).getLast? = some x ∧
      x.same_name_next = none ∧
      chain_prev foo_state 4 x.same_name_prev =
        ((foo_state.gpa_hfinfo.filter (registered_under "foo.flags")).reverse).tail :=
  C2_chain_head foo_state foo_state_reachable "foo.flags" (by decide) (by decide) 4
    (by decide)

/-- C3 as stated fails for the empty abbreviation: a field with a name and the
empty abbreviation is registered, yet it is not entered in the name tree, so
nothing is reachable from the (absent) result of the lookup. -/
theorem C3_alias_reachability_counterexample :
    ¬ (∀ r : registrar, Reachable r → ∀ (a : String) (i : Nat) (x : header_field_info),
        r.gpa_hfinfo[i]? = some x → registered_under a x = true → chain_reachable r a i) := by
  intro h
  have hcall : proto_register_field_array 7 init_state example_mem
      [⟨1, hf_entry "Foo" "" FT_NONE BASE_NONE none 0 none⟩] =
      .ok (unnamed_state, Function.update example_mem 1 1) := rfl
  have hreach : Reachable unnamed_state :=
    Registered.field_array init_state_reachable trivial hcall
  obtain ⟨p, hp, _⟩ := h unnamed_state hreach "" 1 _ rfl (by decide)
  simp [unnamed_state, g_tree_lookup] at hp

/-- C3 (alias reachability), amended to non-empty abbreviations. In every
registrar state reached by registrations and for every non-empty abbreviation
`a`, the chain that starts at the descriptor `proto_registrar_get_byname(a)`
returns and follows `same_name_prev` holds every descriptor with a non-empty
name registered under `a`, each of them reachable through chain links, and
holds no descriptor other than those. -/
theorem C3_alias_reachability (r : registrar) (hr : Reachable r) (a : String)
    (ha : a ≠ "") (fuel : Nat) (hfuel : r.gpa_hfinfo.length ≤ fuel) :
    (chain_prev r fuel (g_tree_lookup r.gpa_name_tree a)).head? =
      proto_registrar_get_byname r a ∧
    (∀ (i : Nat) (x : header_field_info), r.gpa_hfinfo[i]? = some x →
      registered_under a x = true →
      x ∈ chain_prev r fuel (g_tree_lookup r.gpa_name_tree a) ∧ chain_reachable r a i) ∧
    (∀ y ∈ chain_prev r fuel (g_tree_lookup r.gpa_name_tree a),
      y ∈ r.gpa_hfinfo ∧ registered_under a y = true ∧ y.abbrev_ = some a) := by
  have hl : link_inv r := reachable_link _ _ r link_inv_new hr
  have hids : ids_inv r := reachable_ids _ _ r ids_inv_new hr
  have hfun : under a = registered_under a := funext (under_eq_registered_under a ha)
  have hchain := chain_prev_tree r hl a fuel hfuel
  rw [hfun] at hchain
  refine ⟨?_, ?_, ?_⟩
  · unfold proto_registrar_get_byname
    cases hp : g_tree_lookup r.gpa_name_tree a with
    | none => simp [chain_prev_none]
    | some p =>
      obtain ⟨xp, hxp, _⟩ := hl.next a p hp
      have hlt : p < r.gpa_hfinfo.length := by
        by_contra hc
        rw [List.getElem?_eq_none (by omega)] at hxp
        exact absurd hxp (by simp)
      obtain ⟨f, rfl⟩ : ∃ f, fuel = f + 1 := ⟨fuel - 1, by omega⟩
      simp [chain_prev, hxp]
  · intro i x hx hreg
    have hmem : x ∈ chain_prev r fuel (g_tree_lookup r.gpa_name_tree a) := by
      rw [hchain, List.mem_reverse, List.mem_filter]
      exact ⟨List.getElem?_mem hx, hreg⟩
    refine ⟨hmem, ?_⟩
    cases hp : g_tree_lookup r.gpa_name_tree a with
    | none => rw [hp, chain_prev_none] at hmem; simp at hmem
    | some p =>
      rw [hp] at hmem
      obtain ⟨q, hq, hrel⟩ := chain_prev_reachable r fuel p x hmem
      have h1 := hids q x hq
      have h2 := hids i x hx
      have hqi : q = i := by
        have : (q : Int) = (i : Int) := by rw [← h1, ← h2]
        exact_mod_cast this
      subst hqi
      exact ⟨p, hp, hrel⟩
  · intro y hy
    rw [hchain, List.mem_reverse, List.mem_filter] at hy
    have := hy.2
    simp only [registered_under, Bool.and_eq_true, beq_iff_eq] at this
    exact ⟨hy.1, hy.2, this.1.1⟩

/-- Witness of C3 on the registrar with two fields under `foo.flags`: the one
registered first is on the chain. -/
theorem C3_alias_reachability_witness :
    ∃ x, foo_state.gpa_hfinfo[2]? = some x ∧
      x ∈ chain_prev foo_state 4 (g_tree_lookup foo_state.gpa_name_tree "foo.flags") ∧
      chain_reachable foo_state "foo.flags" 2 :=
  ⟨_, rfl, (C3_alias_reachability foo_state foo_state_reachable "foo.flags" (by decide) 4
    (by decide)).2.1 2 _ rfl (by decide)⟩

/-- C4 (bitshift derivation). For a descriptor with a non-zero 32-bit bitmask
and `bitshift` initially 0, the loop of `proto_register_field_init` ends and
yields the number of trailing zero bits of the bitmask: it is at most 31, that
bit of the bitmask is set and all lower bits are clear; and this is the
`bitshift` of the descriptor the registrar stores. -/
theorem C4_bitshift_derivation (hf : header_field_info) (h0 : hf.bitmask ≠ 0)
    (h32 : hf.bitmask < 2 ^ 32) (hs : hf.bitshift = 0) :
    compute_bitshift hf = .ok (count_trailing_zeros hf.bitmask) ∧
    count_trailing_zeros hf.bitmask ≤ 31 ∧
    hf.bitmask.testBit (count_trailing_zeros hf.bitmask) = true ∧
    (∀ j, j < count_trailing_zeros hf.bitmask → hf.bitmask.testBit j = false) ∧
    ∀ (r r1 : registrar) (parent id : Int),
      proto_register_field_init r hf parent = .ok (r1, id) →
      ∃ x, proto_registrar_get_nth r1 id = .ok x ∧
        x.bitshift = count_trailing_zeros hf.bitmask := by
  obtain ⟨k, hk, hbit, hlow⟩ := exists_lowest_bit hf.bitmask h0 h32
  have hctz := count_trailing_zeros_eq hf.bitmask k hk hbit hlow
  have hcomp := compute_bitshift_ok hf hs h32
  simp only [h0, if_false] at hcomp
  refine ⟨hcomp, by omega, by rw [hctz]; exact hbit, by rw [hctz]; exact hlow, ?_⟩
  intro r r1 parent id hinit
  obtain ⟨bs, x, hc, _, _, hget, hcore⟩ := field_init_get_new r r1 hf parent id hinit
  refine ⟨x, hget, ?_⟩
  have hbs : bs = count_trailing_zeros hf.bitmask := by
    rw [check_field_eq] at hc
    split at hc
    · cases hsw : check_type_switch hf with
      | error e => rw [hsw] at hc; cases hc
      | ok u =>
        rw [hsw] at hc
        simp only at hc
        rw [hcomp] at hc
        cases hc; rfl
    · cases hc
  have : (core x).bitshift = (core (new_hfinfo r hf parent bs)).bitshift := by rw [hcore]
  simp only [core, new_hfinfo] at this
  rw [this, hbs]

/-- Witness of C4 on the bitmask `0xF0` of the specification's first scenario. -/
theorem C4_bitshift_derivation_witness :
    compute_bitshift (hf_entry "Ver" "foo.ver" FT_UINT8 BASE_HEX none 0xF0 none) =
      .ok (count_trailing_zeros 0xF0) ∧ count_trailing_zeros 0xF0 = 4 :=
  ⟨(C4_bitshift_derivation (hf_entry "Ver" "foo.ver" FT_UINT8 BASE_HEX none 0xF0 none)
      (by decide) (by decide) rfl).1, by decide⟩

/-- C5 (protocol name collisions). `proto_register_protocol` stops on an
assertion if and only if a protocol already in the list has the same long
name, or the same short name, or the same filter name, compared without
regard to case, and returns otherwise; hence in every registrar state reached
by registrations the long names, the short names and the filter names of the
protocols are each pairwise distinct (also when case is disregarded). -/
theorem C5_protocol_names :
    (∀ (r : registrar) (chunk : header_field_info) (name short_name filter_name : String),
      (proto_register_protocol r chunk name short_name filter_name = .error fault.assertion ↔
        collides r name short_name filter_name) ∧
      (¬ collides r name short_name filter_name →
        ∃ r1 id, proto_register_protocol r chunk name short_name filter_name = .ok (r1, id))) ∧
    (∀ r : registrar, Reachable r →
      (r.protocols.map (fun p => casefold p.name)).Nodup ∧
      (r.protocols.map (fun p => casefold p.short_name)).Nodup ∧
      (r.protocols.map (fun p => casefold p.filter_name)).Nodup ∧
      (r.protocols.map (fun p => p.name)).Nodup ∧
      (r.protocols.map (fun p => p.short_name)).Nodup ∧
      (r.protocols.map (fun p => p.filter_name)).Nodup) := by
  constructor
  · intro r chunk name short_name filter_name
    rw [register_protocol_eq]
    by_cases hno : no_collision r name short_name filter_name = true
    · have hnc := (no_collision_iff r name short_name filter_name).1 hno
      rw [if_pos hno]
      refine ⟨⟨?_, ?_⟩, ?_⟩
      · intro h; cases h
      · intro h; exact absurd h hnc
      · intro _; exact ⟨_, _, rfl⟩
    · have hc : collides r name short_name filter_name := by
        by_contra hc
        exact hno ((no_collision_iff r name short_name filter_name).2 hc)
      rw [if_neg hno]
      refine ⟨⟨?_, ?_⟩, ?_⟩
      · intro _; exact hc
      · intro _; rfl
      · intro h; exact absurd hc h
  · intro r hr
    obtain ⟨h1, h2, h3⟩ := reachable_names _ _ r names_inv_new hr
    have e1 : (r.protocols.map (fun p => casefold p.name)) =
        (r.protocols.map (fun p => p.name)).map casefold := by simp [List.map_map]
    have e2 : (r.protocols.map (fun p => casefold p.short_name)) =
        (r.protocols.map (fun p => p.short_name)).map casefold := by simp [List.map_map]
    have e3 : (r.protocols.map (fun p => casefold p.filter_name)) =
        (r.protocols.map (fun p => p.filter_name)).map casefold := by simp [List.map_map]
    refine ⟨h1, h2, h3, ?_, ?_, ?_⟩
    · exact List.Nodup.of_map casefold (e1 ▸ h1)
    · exact List.Nodup.of_map casefold (e2 ▸ h2)
    · exact List.Nodup.of_map casefold (e3 ▸ h3)

/-- Witness of C5: registering `Foo` anew on a registrar that knows it fails, and
the names of that registrar are distinct. -/
theorem C5_protocol_names_witness :
    proto_register_protocol foo_state (hf_entry "" "" FT_NONE 0 none 0 none)
        "Other" "foo" "other" = .error fault.assertion ∧
      (foo_state.protocols.map (fun p => casefold p.short_name)).Nodup :=
  ⟨((C5_protocol_names.1 foo_state (hf_entry "" "" FT_NONE 0 none 0 none)
      "Other" "foo" "other").1).2
      ⟨_, List.mem_cons_self _ _, Or.inr (Or.inl (by decide))⟩,
   (C5_protocol_names.2 foo_state foo_state_reachable).2.1⟩

/-- C6 (result of a protocol registration). When `proto_register_protocol`
returns handle `h`: `h` is the registrar count before the call; the
descriptor at `h` has type Protocol, the long name as name, the filter name as
abbreviation, bitmask 0, parent -1 and id `h`; the list holds a protocol
record with the three names and `proto_id = h`;
`proto_get_id_by_filter_name(filter)` returns `h`; and when name and filter
name are not empty `proto_registrar_get_byname(filter)` returns that
descriptor. -/
theorem C6_register_protocol_result (r r1 : registrar) (chunk : header_field_info)
    (name short_name filter_name : String) (h : Int)
    (hcall : proto_register_protocol r chunk name short_name filter_name = .ok (r1, h)) :
    h = proto_registrar_n r ∧
    (∃ x, proto_registrar_get_nth r1 h = .ok x ∧ x.type = FT_PROTOCOL ∧
      x.name = some name ∧ x.abbrev_ = some filter_name ∧ x.bitmask = 0 ∧
      x.parent = -1 ∧ x.id = h ∧
      (name ≠ "" → filter_name ≠ "" →
        proto_registrar_get_byname r1 filter_name = some x)) ∧
    (∃ p ∈ r1.protocols, p.name = name ∧ p.short_name = short_name ∧
      p.filter_name = filter_name ∧ p.proto_id = h) ∧
    proto_get_id_by_filter_name r1 filter_name = h := by
  obtain ⟨hno, hh, hl, ht, hp⟩ := register_protocol_ok r r1 chunk name short_name filter_name h hcall
  have hnew := enter_field_core_new r (protocol_hfinfo chunk name filter_name) (-1) 0
  rw [← hl] at hnew
  cases hx : r1.gpa_hfinfo[r.gpa_hfinfo.length]? with
  | none => rw [hx] at hnew; simp at hnew
  | some x =>
    rw [hx] at hnew
    simp only [Option.map_some', Option.some.injEq] at hnew
    have f1 : (core x).type = FT_PROTOCOL := by rw [hnew]; rfl
    have f2 : (core x).name = some name := by rw [hnew]; rfl
    have f3 : (core x).abbrev_ = some filter_name := by rw [hnew]; rfl
    have f4 : (core x).bitmask = 0 := by rw [hnew]; rfl
    have f5 : (core x).parent = -1 := by rw [hnew]; rfl
    have f6 : (core x).id = (r.gpa_hfinfo.length : Int) := by rw [hnew]; rfl
    simp only [core] at f1 f2 f3 f4 f5 f6
    subst hh
    refine ⟨rfl, ⟨x, get_nth_of_get r1 _ x hx, f1, f2, f3, f4, f5, f6, ?_⟩, ?_, ?_⟩
    · intro hn hf
      unfold proto_registrar_get_byname
      rw [ht, enter_field_tree]
      have hfil : filterable (protocol_hfinfo chunk name filter_name) = true := by
        simp [filterable, protocol_hfinfo, hn, hf]
      have hab : filter_name = (protocol_hfinfo chunk name filter_name).abbrev_.getD "" := rfl
      rw [if_pos ⟨hfil, hab⟩]
      exact hx
    · refine ⟨new_protocol r name short_name filter_name, ?_, rfl, rfl, rfl, rfl⟩
      rw [hp, mem_insert_sorted]
      exact Or.inl rfl
    · unfold proto_get_id_by_filter_name
      rw [hp, find_custom_insert_sorted]
      · rfl
      · simp [compare_filter_name, new_protocol]
      · intro p hpm
        have hnc := (no_collision_iff r name short_name filter_name).1 hno
        simp only [compare_filter_name]
        split
        · rename_i heq
          exact absurd ⟨p, hpm, Or.inr (Or.inr (by rw [heq]))⟩ hnc
        · decide

/-- Witness of C6 on the registration of `Foo` after `proto_init`. -/
theorem C6_register_protocol_result_witness :
    ∃ r1, proto_register_protocol init_state (hf_entry "" "" FT_NONE 0 none 0 none)
        "Foo" "FOO" "foo" = .ok (r1, 1) ∧
      proto_get_id_by_filter_name r1 "foo" = 1 :=
  ⟨_, rfl, (C6_register_protocol_result init_state _ (hf_entry "" "" FT_NONE 0 none 0 none)
      "Foo" "FOO" "foo" 1 rfl).2.2.2⟩

/-- C7 as stated fails on the text-only pseudo-field: right after `proto_init`
handle 0 has parent -1, so `proto_registrar_is_protocol(0)` is true, while its
type is None and no protocol record exists. -/
theorem C7_parent_of_protocols_counterexample :
    ¬ (∀ (mem mem0 : Nat → Int) (r0 r : registrar), proto_init mem = .ok (r0, mem0) →
        Registered (fun parent => parent ≠ -1) r0 r →
        ∀ (h : Int) (x : header_field_info), proto_registrar_get_nth r h = .ok x →
          (x.parent = -1 ↔ (x.type = FT_PROTOCOL ∧ ∃ p ∈ r.protocols, p.proto_id = h))) := by
  intro hclaim
  have h0 := hclaim example_mem _ init_state init_state proto_init_example Registered.start 0
    { hf_entry "" "" FT_NONE BASE_NONE none 0 none with parent := -1 } rfl
  have := (h0.1 rfl).1
  exact absurd this (by decide)

/-- C7 (parent of protocols), amended for the text-only pseudo-field. After
`proto_init`, along registrations whose field arrays name a parent other than
-1: `proto_registrar_is_protocol(h)` returns whether the parent of `h` is -1;
for every handle other than 0 the parent is -1 if and only if `h` is the
`proto_id` of a protocol record, and then the type is Protocol; handle 0, the
text-only pseudo-field, has parent -1 too, with type None and no protocol
record. -/
theorem C7_parent_of_protocols (mem mem0 : Nat → Int) (r0 r : registrar)
    (hinit : proto_init mem = .ok (r0, mem0))
    (hr : Registered (fun parent => parent ≠ -1) r0 r)
    (h : Int) (hh : 0 ≤ h ∧ h < proto_registrar_n r) :
    ∃ x, proto_registrar_get_nth r h = .ok x ∧
      proto_registrar_is_protocol r h = .ok (decide (x.parent = -1)) ∧
      (h = 0 → x.parent = -1 ∧ x.type = FT_NONE ∧ ∀ p ∈ r.protocols, p.proto_id ≠ 0) ∧
      (h ≠ 0 → (x.parent = -1 ↔ ∃ p ∈ r.protocols, p.proto_id = h) ∧
        (x.parent = -1 → x.type = FT_PROTOCOL)) := by
  have hr0 := proto_init_ok mem mem0 r0 hinit
  subst hr0
  obtain ⟨⟨x0, hx0, hp0, ht0⟩, hge, hpar⟩ := reachable_parent_inv _ r parent_inv_init hr
  have hpi := reachable_proto_inv _ _ r proto_inv_init hr
  have hids := reachable_ids _ _ r ids_inv_init hr
  obtain ⟨x, hx, hget⟩ := get_nth_in_range r h hh
  refine ⟨x, hget, is_protocol_eq r h x hget, ?_, ?_⟩
  · intro h0
    subst h0
    simp only [Int.toNat_zero, hx0, Option.some.injEq] at hx
    subst hx
    refine ⟨hp0, ht0, ?_⟩
    intro p hp hz
    have := hge p hp
    omega
  · intro hne
    have hi : 1 ≤ h.toNat := by omega
    have hcast : ((h.toNat : Nat) : Int) = h := Int.toNat_of_nonneg hh.1
    have hiff : x.parent = -1 ↔ ∃ p ∈ r.protocols, p.proto_id = h := by
      constructor
      · intro hp
        obtain ⟨p, hpm, hpid⟩ := hpar h.toNat x hx hi hp
        exact ⟨p, hpm, by rw [hpid, hcast]⟩
      · rintro ⟨p, hpm, hpid⟩
        obtain ⟨i, y, hi2, hy, _, _, h3⟩ := hpi p hpm
        have : i = h.toNat := by
          have : (i : Int) = h := by rw [← hi2, hpid]
          omega
        subst this
        rw [hx] at hy
        cases hy
        exact h3
    refine ⟨hiff, ?_⟩
    intro hp
    obtain ⟨p, hpm, hpid⟩ := hiff.1 hp
    obtain ⟨i, y, hi2, hy, h1, _, _⟩ := hpi p hpm
    have : i = h.toNat := by
      have : (i : Int) = h := by rw [← hi2, hpid]
      omega
    subst this
    rw [hx] at hy
    cases hy
    exact h1

/-- Witness of C7 on the handle of protocol `Foo`. -/
theorem C7_parent_of_protocols_witness :
    ∃ x, proto_registrar_get_nth foo_state 1 = .ok x ∧
      (x.parent = -1 ↔ ∃ p ∈ foo_state.protocols, p.proto_id = 1) := by
  obtain ⟨x, h1, _, _, h4⟩ := C7_parent_of_protocols example_mem _ init_state foo_state
    proto_init_example (foo_state_registered _ (by decide)) 1 (by decide)
  exact ⟨x, h1, (h4 (by decide)).1⟩

/-- C8 as stated fails when two records name the same out-slot: the slot
holds -1 and both records pass validation, yet the second record finds the
handle of the first in the slot and the call stops on the assertion. -/
theorem C8_register_field_array_counterexample :
    ¬ (∀ (parent : Int) (r : registrar) (mem : Nat → Int) (hfs : List hf_register_info),
        (∀ ptr ∈ hfs, slot_free mem ptr ∧ passes_validation ptr) →
        ∃ r1 mem1, proto_register_field_array parent r mem hfs = .ok (r1, mem1) ∧
          proto_registrar_n r1 = proto_registrar_n r + hfs.length) := by
  intro hclaim
  have hall : ∀ ptr ∈ shared_slot_fields, slot_free example_mem ptr ∧ passes_validation ptr := by
    intro ptr hptr
    simp only [shared_slot_fields, List.mem_cons, List.mem_singleton, List.not_mem_nil,
      or_false] at hptr
    rcases hptr with h | h <;> subst h
    · exact ⟨Or.inl rfl, 0, rfl⟩
    · exact ⟨Or.inl rfl, 4, rfl⟩
  obtain ⟨r1, mem1, hcall, _⟩ := hclaim 1 init_state example_mem shared_slot_fields hall
  have herr : proto_register_field_array 1 init_state example_mem shared_slot_fields =
      .error fault.assertion := rfl
  rw [herr] at hcall
  cases hcall

/-- C8 (field array registration), amended to records with pairwise distinct
out-slots. On a registrar holding `c` descriptors: the call stops on the
assertion at the first record whose out-slot holds a value other than -1 or
0; and if every out-slot holds -1 or 0 and every record passes validation
then the call returns, the registrar holds `c + n` descriptors, the out-slot
of record `i` holds the handle `c + i`, and the descriptor with that handle
is the one of record `i` with the parent recorded in it. -/
theorem C8_register_field_array (parent : Int) (r : registrar) (mem : Nat → Int) :
    (∀ (pre : List hf_register_info) (bad : hf_register_info) (post : List hf_register_info),
      ((pre ++ [bad]).map (fun p => p.p_id)).Nodup →
      (∀ ptr ∈ pre, slot_free mem ptr ∧ passes_validation ptr) →
      ¬ slot_free mem bad →
      proto_register_field_array parent r mem (pre ++ bad :: post) =
        .error fault.assertion) ∧
    (∀ hfs : List hf_register_info, (hfs.map (fun p => p.p_id)).Nodup →
      (∀ ptr ∈ hfs, slot_free mem ptr ∧ passes_validation ptr) →
      ∃ r1 mem1, proto_register_field_array parent r mem hfs = .ok (r1, mem1) ∧
        proto_registrar_n r1 = proto_registrar_n r + hfs.length ∧
        ∀ (i : Nat) (ptr : hf_register_info), hfs[i]? = some ptr →
          mem1 ptr.p_id = proto_registrar_n r + i ∧
          ∃ x, proto_registrar_get_nth r1 (proto_registrar_n r + i) = .ok x ∧
            x.parent = parent ∧ x.id = proto_registrar_n r + i ∧
            x.name = ptr.hfinfo.name ∧ x.abbrev_ = ptr.hfinfo.abbrev_ ∧
            x.type = ptr.hfinfo.type ∧ x.bitmask = ptr.hfinfo.bitmask) := by
  constructor
  · intro pre bad post hnd hall hbad
    exact field_array_failure parent pre r mem bad post hnd hall hbad
  · intro hfs hnd hall
    obtain ⟨r1, mem1, hcall, hlen, _, _, hnew⟩ := field_array_success parent hfs r mem hnd hall
    refine ⟨r1, mem1, hcall, ?_, ?_⟩
    · unfold proto_registrar_n
      rw [hlen]; push_cast; rfl
    · intro i ptr hi
      obtain ⟨h1, y, hy, h2⟩ := hnew i ptr hi
      have hcast : proto_registrar_n r + (i : Int) = ((r.gpa_hfinfo.length + i : Nat) : Int) := by
        unfold proto_registrar_n; push_cast; rfl
      rw [hcast]
      exact ⟨h1, y, get_nth_of_get r1 _ y hy, h2⟩

/-- Witness of C8 on the two fields of protocol `Foo`, whose out-slots are 1
and 2. -/
theorem C8_register_field_array_witness :
    ∃ r1 mem1, proto_register_field_array 1 init_state example_mem foo_fields =
        .ok (r1, mem1) ∧
      proto_registrar_n r1 = proto_registrar_n init_state + foo_fields.length :=
  have h := (C8_register_field_array 1 init_state example_mem).2 foo_fields (by decide)
    (by
      intro ptr hptr
      simp only [foo_fields, List.mem_cons, List.mem_singleton, List.not_mem_nil,
        or_false] at hptr
      rcases hptr with h | h <;> subst h
      · exact ⟨Or.inl rfl, 0, rfl⟩
      · exact ⟨Or.inl rfl, 4, rfl⟩)
  let ⟨r1, mem1, h1, h2, _⟩ := h
  ⟨r1, mem1, h1, h2⟩

/-- C9 (field validation). `proto_register_field_init` stops on an assertion
if and only if the name or the abbreviation is absent, or the descriptor
carries a mapping while its type is none of the eight integer types of at
most 32 bits, Bool or FrameNum, or its type is one of those integer types and
its display base is None, or its type is FrameNum and it has a bitmask or a
mapping; every other descriptor (a 32-bit bitmask, `bitshift` prefilled with
0) is accepted. -/
theorem C9_field_validation (r : registrar) (hf : header_field_info) (parent : Int) :
    (proto_register_field_init r hf parent = .error fault.assertion ↔ rejected hf) ∧
    (hf.bitshift = 0 → hf.bitmask < 2 ^ 32 → ¬ rejected hf →
      ∃ r1 id, proto_register_field_init r hf parent = .ok (r1, id)) := by
  constructor
  · rw [← check_field_assertion_iff, field_init_eq]
    cases hc : check_field hf with
    | error e => simp
    | ok bs => simp
  · intro hs hm hr
    rw [field_init_eq, check_field_ok hf hs hm hr]
    exact ⟨_, _, rfl⟩

/-- Witness of C9: a Uint8 field with a display base is accepted. -/
theorem C9_field_validation_witness :
    ∃ r1 id, proto_register_field_init init_state
      (hf_entry "Ver" "foo.ver" FT_UINT8 BASE_HEX none 0xF0 none) 1 = .ok (r1, id) :=
  (C9_field_validation init_state
    (hf_entry "Ver" "foo.ver" FT_UINT8 BASE_HEX none 0xF0 none) 1).2 rfl (by decide) (by decide)

/-- C10 as stated fails: registration accepts a String field with bitmask 1 and
stores it with that bitmask. -/
theorem C10_bitmask_types_counterexample :
    ¬ (∀ r : registrar, Reachable r → ∀ x ∈ r.gpa_hfinfo, x.bitmask ≠ 0 →
        x.type ∈ int_types ++ [FT_UINT64, FT_INT64, FT_FRAMENUM, FT_BOOLEAN]) := by
  intro hclaim
  have := hclaim string_mask_state string_mask_state_reachable
    { hf_entry "Text" "foo.text" FT_STRING BASE_NONE none 1 none with parent := 7, id := 1 }
    (by decide) (by decide)
  exact absurd this (by decide)

/-- C10 (bitmask and type), amended to what registration checks. In every
registrar state reached by registrations a descriptor of type FrameNum has
bitmask 0, and the descriptor of a protocol record has type Protocol and
bitmask 0; a descriptor of any other type is stored with the type and the
bitmask it was declared with, whatever they are. -/
theorem C10_bitmask_types :
    (∀ r : registrar, Reachable r →
      ∀ (i : Nat) (x : header_field_info), r.gpa_hfinfo[i]? = some x →
        (x.type = FT_FRAMENUM → x.bitmask = 0) ∧
        ((∃ p ∈ r.protocols, p.proto_id = (i : Int)) →
          x.type = FT_PROTOCOL ∧ x.bitmask = 0)) ∧
    (∀ (r r1 : registrar) (hf : header_field_info) (parent id : Int),
      proto_register_field_init r hf parent = .ok (r1, id) →
      ∃ x, proto_registrar_get_nth r1 id = .ok x ∧ x.type = hf.type ∧
        x.bitmask = hf.bitmask) := by
  constructor
  · intro r hr i x hx
    have hfn := reachable_framenum _ _ r framenum_inv_new hr i x hx
    have hpi := reachable_proto_inv _ _ r proto_inv_new hr
    refine ⟨hfn, ?_⟩
    rintro ⟨p, hpm, hpid⟩
    obtain ⟨j, y, hj, hy, h1, h2, _⟩ := hpi p hpm
    have : j = i := by
      have : (j : Int) = (i : Int) := by rw [← hj, hpid]
      exact_mod_cast this
    subst this
    rw [hx] at hy
    cases hy
    exact ⟨h1, h2⟩
  · intro r r1 hf parent id hinit
    obtain ⟨bs, x, _, _, _, hget, hcore⟩ := field_init_get_new r r1 hf parent id hinit
    have h1 : (core x).type = (core (new_hfinfo r hf parent bs)).type := by rw [hcore]
    have h2 : (core x).bitmask = (core (new_hfinfo r hf parent bs)).bitmask := by rw [hcore]
    exact ⟨x, hget, h1, h2⟩

/-- Witness of C10 on the registrar with protocol `Foo`: descriptor 1 is that
of the protocol record. -/
theorem C10_bitmask_types_witness :
    ∃ x, foo_state.gpa_hfinfo[1]? = some x ∧ x.type = FT_PROTOCOL ∧ x.bitmask = 0 :=
  ⟨_, rfl, ((C10_bitmask_types.1 foo_state foo_state_reachable 1 _ rfl).2
    ⟨_, List.mem_cons_self _ _, rfl⟩)⟩

/-- C11 (abbreviation index membership). In every registrar state reached by
registrations, `proto_registrar_get_byname(a)` returns a descriptor if and
only if `a` is not empty and some registered descriptor has abbreviation `a`
and a non-empty name; the descriptor returned is a registered one with
abbreviation `a` and a non-empty name, so a descriptor with an empty name or an
empty abbreviation, as the text-only pseudo-field, is never returned. -/
theorem C11_index_membership (r : registrar) (hr : Reachable r) (a : String) :
    ((∃ x, proto_registrar_get_byname r a = some x) ↔
      (a ≠ "" ∧ ∃ y ∈ r.gpa_hfinfo, registered_under a y = true)) ∧
    (∀ x, proto_registrar_get_byname r a = some x →
      x ∈ r.gpa_hfinfo ∧ x.abbrev_ = some a ∧ a ≠ "" ∧
      x.name ≠ none ∧ x.name ≠ some "" ∧ x.abbrev_ ≠ some "") := by
  have hl : link_inv r := reachable_link _ _ r link_inv_new hr
  have key : ∀ x, proto_registrar_get_byname r a = some x →
      x ∈ r.gpa_hfinfo ∧ under a x = true := by
    intro x hx
    unfold proto_registrar_get_byname at hx
    cases hp : g_tree_lookup r.gpa_name_tree a with
    | none => rw [hp] at hx; simp at hx
    | some p =>
      rw [hp] at hx
      change r.gpa_hfinfo[p]? = some x at hx
      rw [hl.tree a] at hp
      obtain ⟨_, y, hy, hu⟩ := last_under_some _ _ _ _ hp
      rw [hx] at hy
      cases hy
      exact ⟨List.getElem?_mem hx, hu⟩
  constructor
  · constructor
    · rintro ⟨x, hx⟩
      obtain ⟨hm, hu⟩ := key x hx
      have ha := under_nonempty a x hu
      exact ⟨ha, x, hm, by rw [← under_eq_registered_under a ha]; exact hu⟩
    · rintro ⟨ha, y, hy, hreg⟩
      have hu : under a y = true := by rw [under_eq_registered_under a ha]; exact hreg
      obtain ⟨j, hj⟩ := List.getElem?_of_mem hy
      have hjlt : j < r.gpa_hfinfo.length := by
        by_contra hc
        rw [List.getElem?_eq_none (by omega)] at hj
        cases hj
      unfold proto_registrar_get_byname
      cases hp : g_tree_lookup r.gpa_name_tree a with
      | none =>
        rw [hl.tree a] at hp
        have := last_under_none _ _ _ hp j y hjlt hj
        rw [hu] at this
        cases this
      | some p =>
        obtain ⟨x, hx, _⟩ := hl.next a p hp
        exact ⟨x, by simpa using hx⟩
  · intro x hx
    obtain ⟨hm, hu⟩ := key x hx
    have ha := under_nonempty a x hu
    have hreg : registered_under a x = true := by
      rw [← under_eq_registered_under a ha]; exact hu
    simp only [registered_under, Bool.and_eq_true, beq_iff_eq, bne_iff_ne, ne_eq] at hreg
    refine ⟨hm, hreg.1.1, ha, hreg.1.2, hreg.2, ?_⟩
    rw [hreg.1.1]
    intro h
    exact ha (Option.some.inj h)

/-- Witness of C11 on the registrar with two fields under `foo.flags`. -/
theorem C11_index_membership_witness :
    (∃ x, proto_registrar_get_byname foo_state "foo.flags" = some x) ∧
      ¬ (∃ x, proto_registrar_get_byname foo_state "" = some x) :=
  ⟨⟨_, rfl⟩, fun h =>
    ((C11_index_membership foo_state foo_state_reachable "").1.1 h).1 rfl⟩

/-- C12 (length resolution in `alloc_field_info`). For a valid handle whose
descriptor is `hf` and a buffer `b`: a length other than -1 is the length of
the payload, unchanged; a length of -1 becomes the number of octets that
remain in the buffer from `start` when the type is None, Protocol, Bytes or
String (the bounded-read fault if `start` is outside the buffer), stays -1
when the type is StringZ, and is an assertion failure for every other
type. -/
theorem C12_length_resolution (r : registrar) (t : ptree) (hfindex : Int) (b : tvbuff)
    (start length : Int) (hf : header_field_info)
    (hget : proto_registrar_get_nth r hfindex = .ok hf) :
    (length ≠ -1 →
      (alloc_field_info r t hfindex (some b) start length).map
        (fun p => (p.1.length, p.2)) = .ok (length, length)) ∧
    (hf.type ∈ remaining_types → 0 ≤ start → start ≤ b.octets.length →
      (alloc_field_info r t hfindex (some b) start (-1)).map
        (fun p => (p.1.length, p.2)) =
          .ok ((b.octets.length : Int) - start, (b.octets.length : Int) - start)) ∧
    (hf.type ∈ remaining_types → ¬ (0 ≤ start ∧ start ≤ b.octets.length) →
      alloc_field_info r t hfindex (some b) start (-1) = .error fault.bounds) ∧
    (hf.type = FT_STRINGZ →
      (alloc_field_info r t hfindex (some b) start (-1)).map
        (fun p => (p.1.length, p.2)) = .ok (-1, -1)) ∧
    (hf.type ∉ remaining_types → hf.type ≠ FT_STRINGZ →
      alloc_field_info r t hfindex (some b) start (-1) = .error fault.assertion) := by
  refine ⟨?_, ?_, ?_, ?_, ?_⟩
  · intro hl
    rw [alloc_field_info_eq r t hfindex (some b) start length hf hget (Or.inl rfl)]
    simp [hl]
    rfl
  · intro hty h0 h1
    rw [alloc_field_info_eq r t hfindex (some b) start (-1) hf hget (Or.inl rfl)]
    have hrem : tvb_ensure_length_remaining (some b) start =
        .ok ((b.octets.length : Int) - start) := by
      simp [tvb_ensure_length_remaining, h0, h1]
    simp only [remaining_types, List.mem_cons, List.mem_singleton, List.mem_nil_iff,
      or_false] at hty
    rcases hty with h | h | h | h <;> rw [h] <;> simp only [if_true, hrem] <;> rfl
  · intro hty hout
    rw [alloc_field_info_eq r t hfindex (some b) start (-1) hf hget (Or.inl rfl)]
    have hrem : tvb_ensure_length_remaining (some b) start = .error fault.bounds := by
      simp only [tvb_ensure_length_remaining]
      rw [if_neg hout]
    simp only [remaining_types, List.mem_cons, List.mem_singleton, List.mem_nil_iff,
      or_false] at hty
    rcases hty with h | h | h | h <;> rw [h] <;> simp only [if_true, hrem] <;> rfl
  · intro hty
    rw [alloc_field_info_eq r t hfindex (some b) start (-1) hf hget (Or.inl rfl)]
    rw [hty]
    rfl
  · intro hty hz
    rw [alloc_field_info_eq r t hfindex (some b) start (-1) hf hget (Or.inl rfl)]
    simp only [remaining_types, List.mem_cons, List.mem_singleton, List.mem_nil_iff,
      or_false, not_or] at hty
    obtain ⟨h1, h2, h3, h4⟩ := hty
    cases hT : hf.type <;> simp_all

/-- C12 at the example registrar: the text-only field (type None) added over a
one-octet buffer with length -1 gets length 1. -/
theorem C12_length_resolution_witness :
    (alloc_field_info init_state proto_tree_create_root 0 (some (one_byte 7)) 0 (-1)).map
      (fun p => (p.1.length, p.2)) = .ok (1, 1) :=
  (C12_length_resolution init_state proto_tree_create_root 0 (one_byte 7) 0 (-1) _
    rfl).2.1 (by decide) (by decide) (by decide)

/-- C13 as stated fails: a Uint8 field added with length 4 over a buffer of
four octets is not rejected. -/
theorem C13_fixed_width_check_counterexample :
    ¬ (∀ (r : registrar) (num_tree_types : Int) (t : ptree) (P : List Nat) (hfindex : Int)
        (b : tvbuff) (start length : Int) (little_endian : Bool) (hf : header_field_info),
        proto_registrar_get_nth r hfindex = .ok hf →
        (∃ w, fixed_width hf.type = some w ∧ length ≠ w) →
        proto_tree_add_item r num_tree_types t (some P) hfindex (some b) start length
          little_endian = .error fault.assertion) := by
  intro hclaim
  have h := hclaim dissect_state 0 proto_tree_create_root [] 4 (buffer_of [1, 2, 3, 4]) 0 4
    false _ rfl ⟨1, rfl, by decide⟩
  have h2 : ∃ x, proto_tree_add_item dissect_state 0 proto_tree_create_root (some []) 4
      (some (buffer_of [1, 2, 3, 4])) 0 4 false = .ok x := ⟨_, rfl⟩
  obtain ⟨x, hx⟩ := h2
  rw [hx] at h
  cases h

/-- C13 (length check of fixed-width types), amended to what the code checks.
Under a tree and for a valid handle with descriptor `hf`: for the types
Uint64, Int64, IPv4, IpxNet, IPv6 and Ether the add fails with an assertion
whenever the length differs from the width of the type; for the types
Uint8/16/24/32 and Int8/16/24/32 it fails with an assertion whenever the length
is not 1, 2, 3 or 4, and for each of these four lengths, whatever the width of
the type, it succeeds when the buffer holds that many octets at `start` and
the node added to accepts children: the new payload has the length that was
passed. -/
theorem C13_fixed_width_check (r : registrar) (num_tree_types : Int) (t : ptree)
    (P : List Nat) (hfindex : Int) (b : tvbuff) (start length : Int) (little_endian : Bool)
    (hf : header_field_info) (hget : proto_registrar_get_nth r hfindex = .ok hf) :
    (hf.type ∈ width_checked_types → fixed_width hf.type ≠ some length →
      proto_tree_add_item r num_tree_types t (some P) hfindex (some b) start length
        little_endian = .error fault.assertion) ∧
    (hf.type ∈ int_types → ¬ (length = 1 ∨ length = 2 ∨ length = 3 ∨ length = 4) →
      proto_tree_add_item r num_tree_types t (some P) hfindex (some b) start length
        little_endian = .error fault.assertion) ∧
    (hf.type ∈ int_types → (length = 1 ∨ length = 2 ∨ length = 3 ∨ length = 4) →
      0 ≤ start → start + length ≤ b.octets.length →
      (hf.bitmask = 0 ∨ hf.bitshift < 32) →
      ∀ tnode, node_at t.root P = some tnode → accepts_children num_tree_types tnode = true →
      ∃ fi, added_fi (proto_tree_add_item r num_tree_types t (some P) hfindex (some b) start
          length little_endian) = some fi ∧ fi.length = length) := by
  refine ⟨?_, ?_, ?_⟩
  · intro hty hw
    apply add_item_value_fault r num_tree_types t P hfindex (some b) start length
      little_endian hf _ hget (Or.inl rfl)
    obtain ⟨n, a, ty, d, st, bm, bl, i, pa, bs, sn, sp⟩ := hf
    simp only [width_checked_types, List.mem_cons, List.mem_singleton, List.mem_nil_iff,
      or_false] at hty
    by_cases hl : length = -1
    · rcases hty with h | h | h | h | h | h <;> subst h <;> subst hl <;> rfl
    · rcases hty with h | h | h | h | h | h <;> subst h <;>
        simp [fixed_width] at hw <;>
        simp [resolve_length, hl, bind, Except.bind, pure, Except.pure, add_item_value,
          new_field_info, g_assert, Ne.symm hw]
  · intro hty hlen
    apply add_item_value_fault r num_tree_types t P hfindex (some b) start length
      little_endian hf _ hget (Or.inl rfl)
    obtain ⟨n, a, ty, d, st, bm, bl, i, pa, bs, sn, sp⟩ := hf
    simp only [int_types, List.mem_cons, List.mem_singleton, List.mem_nil_iff,
      or_false] at hty
    by_cases hl : length = -1
    · rcases hty with h | h | h | h | h | h | h | h <;> subst h <;> subst hl <;> rfl
    · rcases hty with h | h | h | h | h | h | h | h <;> subst h <;>
        simp [resolve_length, hl, bind, Except.bind, pure, Except.pure, add_item_value,
          new_field_info, get_int_value_eq, get_uint_value_assert _ _ _ _ hlen, Except.map]
  · intro hty hlen h0 h1 hs tnode hP hok
    have hl : length ≠ -1 := by omega
    have hres : resolve_length hf (some b) start length = .ok length := by
      simp [resolve_length, hl, pure, Except.pure]
    have hu := get_uint_value_ok b start length little_endian hlen h0 h1
    obtain ⟨fi, hfi, hlen2⟩ : ∃ fi, add_item_value (new_field_info t hf (some b) start length)
        (some b) start length little_endian = .ok fi ∧ fi.length = length := by
      obtain ⟨n, a, ty, d, st, bm, bl, i, pa, bs, sn, sp⟩ := hf
      simp only [int_types, List.mem_cons, List.mem_singleton, List.mem_nil_iff,
        or_false] at hty
      rcases hty with h | h | h | h | h | h | h | h <;> subst h <;>
        simp only [add_item_value, new_field_info, get_int_value_eq, hu, bind, Except.bind,
          Except.map, set_int_eq] <;>
        rw [set_uint_ok _ _ hs] <;>
        exact ⟨_, rfl, rfl⟩
    exact ⟨fi, added_fi_add_item r num_tree_types t P hfindex (some b) start length
      little_endian hf tnode hget (Or.inl rfl) hP hok length fi hres hfi, hlen2⟩

/-- C13 at the example registrar: the Uint64 field added with length 4 is
rejected. -/
theorem C13_fixed_width_check_witness :
    proto_tree_add_item dissect_state 0 proto_tree_create_root (some []) 7
      (some (buffer_of [1, 2, 3, 4, 5, 6, 7, 8])) 0 4 false = .error fault.assertion :=
  (C13_fixed_width_check dissect_state 0 proto_tree_create_root [] 7
    (buffer_of [1, 2, 3, 4, 5, 6, 7, 8]) 0 4 false _ rfl).1 (by decide) (by decide)

/-- C14 as stated fails: for the registered field `foo.top` (bitmask
0x80000000, bitshift 31) and the raw value 0x80000000, `proto_tree_set_uint`
stores 1, while the arithmetic right shift of the masked value is
0xFFFFFFFF. -/
theorem C14_bitfield_projection_counterexample :
    ¬ (∀ (fi : field_info) (v : Nat), v < 2 ^ 32 → fi.hfinfo.bitmask ≠ 0 →
        proto_tree_set_uint fi v =
          .ok { fi with
                value := fvalue.integer
                  (arith_shift_right32 (v &&& fi.hfinfo.bitmask) fi.hfinfo.bitshift) }) := by
  intro hclaim
  have h := hclaim (new_field_info proto_tree_create_root hf_top none 0 0) 0x80000000
    (by decide) (by decide)
  have h1 : proto_tree_set_uint (new_field_info proto_tree_create_root hf_top none 0 0)
      0x80000000 = .ok { new_field_info proto_tree_create_root hf_top none 0 0 with
        value := fvalue.integer 1 } := by
    rfl
  rw [h1] at h
  have h2 : arith_shift_right32 (0x80000000 &&& hf_top.bitmask) hf_top.bitshift
      = 0xFFFFFFFF := by
    rfl
  have h3 : (fvalue.integer 1) = fvalue.integer
      (arith_shift_right32 (0x80000000 &&& hf_top.bitmask) hf_top.bitshift) :=
    congrArg field_info.value (Except.ok.inj h)
  rw [h2] at h3
  exact absurd h3 (by decide)

/-- C14 (bitfield projection), amended: the shift is the zero-filling one of an
unsigned 32-bit number. For a payload whose descriptor has bitmask `m` and
bitshift `s` below 32, and every raw 32-bit value `v`: with `m` not 0,
`proto_tree_set_uint` stores `(v AND m)` shifted right by `s` with zeros
coming in, that is `(v AND m) / 2^s`; with `m = 0` it stores `v`.
`proto_tree_set_int` does the same with the 32-bit pattern of its signed
argument. The stored number is the arithmetic shift of the masked value
whenever bit 31 of the masked value is clear. -/
theorem C14_bitfield_projection (fi : field_info) (v : Nat) (x : Int) (hv : v < 2 ^ 32) :
    (fi.hfinfo.bitmask ≠ 0 → fi.hfinfo.bitshift < 32 →
      proto_tree_set_uint fi v =
        .ok { fi with
              value := fvalue.integer ((v &&& fi.hfinfo.bitmask) >>> fi.hfinfo.bitshift) } ∧
      proto_tree_set_int fi x =
        .ok { fi with
              value := fvalue.integer
                ((to_guint32 x &&& fi.hfinfo.bitmask) >>> fi.hfinfo.bitshift) }) ∧
    (fi.hfinfo.bitmask = 0 →
      proto_tree_set_uint fi v = .ok { fi with value := fvalue.integer v } ∧
      proto_tree_set_int fi x = .ok { fi with value := fvalue.integer (to_guint32 x) }) ∧
    (v &&& fi.hfinfo.bitmask) >>> fi.hfinfo.bitshift
      = (v &&& fi.hfinfo.bitmask) / 2 ^ fi.hfinfo.bitshift ∧
    (v &&& fi.hfinfo.bitmask < 2 ^ 31 →
      arith_shift_right32 (v &&& fi.hfinfo.bitmask) fi.hfinfo.bitshift
        = (v &&& fi.hfinfo.bitmask) >>> fi.hfinfo.bitshift) := by
  have hmod : v % 2 ^ 32 = v := Nat.mod_eq_of_lt hv
  have hx : to_guint32 x % 2 ^ 32 = to_guint32 x := by
    unfold to_guint32
    omega
  refine ⟨?_, ?_, ?_, ?_⟩
  · intro hm hs
    rw [set_int_eq, set_uint_ok fi v (Or.inr hs), set_uint_ok fi _ (Or.inr hs), hmod, hx]
    simp [bitfield, hm]
  · intro hm
    rw [set_int_eq, set_uint_ok fi v (Or.inl hm), set_uint_ok fi _ (Or.inl hm), hmod, hx]
    simp [bitfield, hm]
  · exact Nat.shiftRight_eq_div_pow _ _
  · intro h
    exact arith_shift_small _ _ h

/-- C14 at the registered field `foo.top`: the raw value 0xC0000000 is stored
as 1. -/
theorem C14_bitfield_projection_witness :
    proto_tree_set_uint (new_field_info proto_tree_create_root hf_top none 0 0) 0xC0000000 =
      .ok { new_field_info proto_tree_create_root hf_top none 0 0 with
            value := fvalue.integer 1 } :=
  ((C14_bitfield_projection (new_field_info proto_tree_create_root hf_top none 0 0)
    0xC0000000 0 (by decide)).1 (by decide) (by decide)).1

/-- C15 (nibble split). In the registrar obtained by registering protocol Foo
and the fields of `dissect_fields`, among them `foo.flags` (Uint8, bitmask
0x0F, handle 2) and `foo.ver` (Uint8, bitmask 0xF0, handle 3, for which
registration derived bitshift 4): for every octet `b`, adding both fields
under the root over the one-octet buffer `[b]` yields a tree whose root has
exactly two children, the first with stored value `b mod 16` and the second
with stored value `b div 16`. -/
theorem C15_nibble_split (b : Nat) (hb : b < 256) :
    proto_registrar_get_nth dissect_state 2 = .ok hf_flags ∧
    proto_registrar_get_nth dissect_state 3 = .ok hf_ver ∧
    (proto_tree_add_item dissect_state 0 proto_tree_create_root (some []) 2
        (some (buffer_of [b])) 0 1 false >>= fun p =>
      proto_tree_add_item dissect_state 0 p.2 (some []) 3
        (some (buffer_of [b])) 0 1 false) =
      .ok (some [1],
        { root := .mk none
            [.mk (some (integer_fi hf_flags 1 (b % 16))) [],
             .mk (some (integer_fi hf_ver 1 (b / 16))) []],
          tree_data := { interesting_hfids := [], visible := false } }) := by
  refine ⟨rfl, rfl, ?_⟩
  have hu : get_uint_value (some (buffer_of [b])) 0 1 false = .ok (b % 256) := by
    rw [get_uint_value_ok (buffer_of [b]) 0 1 false (Or.inl rfl) (by decide)
      (by simp [buffer_of])]
    simp [octets_value, span_one, pntoh_one]
  have e1 : proto_tree_add_item dissect_state 0 proto_tree_create_root (some []) 2
      (some (buffer_of [b])) 0 1 false =
      .ok (some [0],
        { root := .mk none [.mk (some (integer_fi hf_flags 1 (b % 16))) []],
          tree_data := { interesting_hfids := [], visible := false } }) := by
    rw [add_item_eq dissect_state 0 proto_tree_create_root [] 2 (some (buffer_of [b])) 0 1
      false hf_flags (.mk none []) rfl (Or.inl rfl) rfl rfl]
    have hv : add_item_value (new_field_info proto_tree_create_root hf_flags
        (some (buffer_of [b])) 0 1) (some (buffer_of [b])) 0 1 false =
        .ok (integer_fi hf_flags 1 (b % 16)) := by
      show (get_uint_value (some (buffer_of [b])) 0 1 false >>= fun v =>
        proto_tree_set_uint (new_field_info proto_tree_create_root hf_flags
          (some (buffer_of [b])) 0 1) v) = _
      rw [hu]
      simp only [bind, Except.bind]
      rw [set_uint_ok _ _ (Or.inr (show (0 : Nat) < 32 by decide))]
      have : bitfield (new_field_info proto_tree_create_root hf_flags
          (some (buffer_of [b])) 0 1).hfinfo (b % 256 % 2 ^ 32) = b % 16 := by
        show ((b % 256 % 2 ^ 32) &&& 0x0F) >>> 0 = b % 16
        rw [Nat.shiftRight_zero]
        exact low_nibble b hb
      rw [this]
      rfl
    show (add_item_value (new_field_info proto_tree_create_root hf_flags
        (some (buffer_of [b])) 0 1) (some (buffer_of [b])) 0 1 false >>= _) = _
    rw [hv]
    rfl
  rw [e1]
  simp only [bind, Except.bind]
  rw [add_item_eq dissect_state 0
    { root := .mk none [.mk (some (integer_fi hf_flags 1 (b % 16))) []],
      tree_data := { interesting_hfids := [], visible := false } }
    [] 3 (some (buffer_of [b])) 0 1
    false hf_ver (.mk none [.mk (some (integer_fi hf_flags 1 (b % 16))) []])
    rfl (Or.inl rfl) rfl rfl]
  have hv : ∀ t : ptree, t.tree_data.visible = false →
      add_item_value (new_field_info t hf_ver
      (some (buffer_of [b])) 0 1) (some (buffer_of [b])) 0 1 false =
      .ok (integer_fi hf_ver 1 (b / 16)) := by
    intro t ht
    show (get_uint_value (some (buffer_of [b])) 0 1 false >>= fun v =>
      proto_tree_set_uint (new_field_info t hf_ver
        (some (buffer_of [b])) 0 1) v) = _
    rw [hu]
    simp only [bind, Except.bind]
    rw [set_uint_ok _ _ (Or.inr (show (4 : Nat) < 32 by decide))]
    have : bitfield (new_field_info t hf_ver
        (some (buffer_of [b])) 0 1).hfinfo (b % 256 % 2 ^ 32) = b / 16 := by
      show ((b % 256 % 2 ^ 32) &&& 0xF0) >>> 4 = b / 16
      exact high_nibble b hb
    rw [this]
    simp only [new_field_info, ht, integer_fi]
    rfl
  show (add_item_value (new_field_info _ hf_ver
      (some (buffer_of [b])) 0 1) (some (buffer_of [b])) 0 1 false >>= _) = _
  rw [hv _ rfl]
  rfl

/-- C15 for the octet 0x5A: the stored values are 0x0A and 0x05. -/
theorem C15_nibble_split_witness :
    (proto_tree_add_item dissect_state 0 proto_tree_create_root (some []) 2
        (some (buffer_of [0x5A])) 0 1 false >>= fun p =>
      proto_tree_add_item dissect_state 0 p.2 (some []) 3
        (some (buffer_of [0x5A])) 0 1 false) =
      .ok (some [1],
        { root := .mk none
            [.mk (some (integer_fi hf_flags 1 0x0A)) [],
             .mk (some (integer_fi hf_ver 1 0x05)) []],
          tree_data := { interesting_hfids := [], visible := false } }) :=
  (C15_nibble_split 0x5A (by decide)).2.2

/-- C16 (integer round trip and sign extension). For a field without bitmask,
a length `N` of 1, 2, 3 or 4 and a buffer that holds `N` octets at `start`:
after `proto_tree_add_item` the integer of the new payload's value is, for an
unsigned type, the unsigned number `u` the octets denote in the byte order
asked for, and for a signed type the 32-bit pattern of the two's-complement
reading of the `N` octets. For three octets this pattern is `u OR 0xFF000000`,
the pattern of `u - 2^24`, when bit 23 of `u` is set, and `u` when it is
clear. -/
theorem C16_integer_round_trip (r : registrar) (num_tree_types : Int) (t : ptree)
    (P : List Nat) (hfindex : Int) (b : tvbuff) (start length : Int) (little_endian : Bool)
    (hf : header_field_info) (tnode : proto_node)
    (hget : proto_registrar_get_nth r hfindex = .ok hf)
    (hP : node_at t.root P = some tnode)
    (hok : accepts_children num_tree_types tnode = true)
    (hm : hf.bitmask = 0)
    (hlen : length = 1 ∨ length = 2 ∨ length = 3 ∨ length = 4)
    (h0 : 0 ≤ start) (h1 : start + length ≤ b.octets.length) :
    (hf.type ∈ uint_types →
      (added_fi (proto_tree_add_item r num_tree_types t (some P) hfindex (some b) start
        length little_endian)).map (fun fi => fvalue_get_integer fi.value) =
        some (octets_value little_endian (span b start length))) ∧
    (hf.type ∈ sint_types →
      (added_fi (proto_tree_add_item r num_tree_types t (some P) hfindex (some b) start
        length little_endian)).map (fun fi => fvalue_get_integer fi.value) =
        some (to_guint32 (to_gint (8 * length.toNat)
          (octets_value little_endian (span b start length))))) ∧
    octets_value little_endian (span b start length) < 2 ^ (8 * length.toNat) ∧
    (length = 3 → ∀ u, u = octets_value little_endian (span b start length) →
      (u.testBit 23 = true →
        to_guint32 (to_gint 24 u) = u ||| 0xFF000000 ∧ to_gint 24 u = (u : Int) - 2 ^ 24) ∧
      (u.testBit 23 = false →
        to_guint32 (to_gint 24 u) = u ∧ to_gint 24 u = (u : Int))) := by
  have hl : length ≠ -1 := by omega
  have hres : resolve_length hf (some b) start length = .ok length := by
    simp [resolve_length, hl, pure, Except.pure]
  have hlt := octets_value_lt little_endian b start length
  refine ⟨?_, ?_, ?_, ?_⟩
  · intro hty
    rw [added_fi_add_item r num_tree_types t P hfindex (some b) start length little_endian
      hf tnode hget (Or.inl rfl) hP hok length _ hres
      (add_item_value_uint t hf b start length little_endian hty hm hlen h0 h1)]
    rfl
  · intro hty
    rw [added_fi_add_item r num_tree_types t P hfindex (some b) start length little_endian
      hf tnode hget (Or.inl rfl) hP hok length _ hres
      (add_item_value_sint t hf b start length little_endian hty hm hlen h0 h1)]
    rw [int_of_uint_eq length _ hlen hlt]
    rfl
  · have : (256 : Nat) ^ length.toNat = 2 ^ (8 * length.toNat) := by
      rw [pow_mul]
      norm_num
    omega
  · intro h3 u hu
    subst h3
    have hu2 : u < 2 ^ 24 := by
      rw [hu]
      exact hlt
    have hm24 : u % 2 ^ 24 = u := Nat.mod_eq_of_lt hu2
    constructor
    · intro hbit
      have hge := (testBit23_iff u hu2).mp hbit
      have hg : to_gint 24 u = (u : Int) - 2 ^ 24 := by
        unfold to_gint
        rw [hm24, if_neg (by omega)]
      refine ⟨?_, hg⟩
      rw [hg, or_ff000000 u hu2]
      unfold to_guint32
      omega
    · intro hbit
      have hlt23 : u < 2 ^ 23 := by
        by_contra hc
        have := (testBit23_iff u hu2).mpr (by omega)
        rw [this] at hbit
        exact absurd hbit (by simp)
      have hg : to_gint 24 u = (u : Int) := by
        unfold to_gint
        rw [hm24, if_pos (by omega)]
      refine ⟨?_, hg⟩
      rw [hg]
      unfold to_guint32
      omega

/-- C16 at the example registrar: the Int24 field `foo.delta` over the octets
FF FF FE reads as the pattern 0xFFFFFFFE (the number -2). -/
theorem C16_integer_round_trip_witness :
    (added_fi (proto_tree_add_item dissect_state 0 proto_tree_create_root (some []) 6
      (some (buffer_of [0xFF, 0xFF, 0xFE])) 0 3 false)).map
        (fun fi => fvalue_get_integer fi.value) = some 0xFFFFFFFE :=
  (C16_integer_round_trip dissect_state 0 proto_tree_create_root [] 6
    (buffer_of [0xFF, 0xFF, 0xFE]) 0 3 false _ (.mk none []) rfl rfl rfl rfl
    (by decide) (by decide) (by decide)).2.1 (by decide)

/-- C17 (byte order of 64-bit values). For every payload and every 8-octet
input `x`, `proto_tree_set_uint64` stores `x` unchanged when `little_endian`
is false and the reversed sequence when it is true, so that octet `i` of the
stored value is octet `7 - i` of `x`; storing `x` little-endian is storing the
reverse of `x` big-endian; and the bitmask of the descriptor plays no part:
the stored octets are the same for every payload. -/
theorem C17_uint64_byte_order (fi : field_info) (x : List Nat) (hx : x.length = 8) :
    proto_tree_set_uint64 fi x false = { fi with value := fvalue.bytes x } ∧
    proto_tree_set_uint64 fi x true = { fi with value := fvalue.bytes x.reverse } ∧
    (∀ i, i < 8 → x.reverse[i]? = x[7 - i]?) ∧
    proto_tree_set_uint64 fi x true = proto_tree_set_uint64 fi x.reverse false ∧
    (∀ (fi2 : field_info) (le : Bool),
      (proto_tree_set_uint64 fi2 x le).value = (proto_tree_set_uint64 fi x le).value) := by
  have htake : x.take 8 = x := by
    rw [← hx]
    exact List.take_length x
  have hrtake : x.reverse.take 8 = x.reverse := by
    have : x.reverse.length = 8 := by rw [List.length_reverse, hx]
    rw [← this]
    exact List.take_length x.reverse
  have e1 : ∀ f : field_info,
      proto_tree_set_uint64 f x false = { f with value := fvalue.bytes x } := by
    intro f
    simp [proto_tree_set_uint64, htake]
  have e2 : ∀ f : field_info,
      proto_tree_set_uint64 f x true = { f with value := fvalue.bytes x.reverse } := by
    intro f
    simp only [proto_tree_set_uint64, if_true, range_reverse8 x hx]
  refine ⟨e1 fi, e2 fi, ?_, ?_, ?_⟩
  · intro i hi
    rw [List.getElem?_reverse (by omega), hx]
  · rw [e2 fi]
    simp [proto_tree_set_uint64, hrtake]
  · intro fi2 le
    cases le
    · rw [e1 fi2, e1 fi]
    · rw [e2 fi2, e2 fi]

/-- C17 for the input 01 02 03 04 05 06 07 08: added little-endian through
`proto_tree_add_item` for the registered field `foo.u64`, the stored octets
are 08 07 06 05 04 03 02 01. -/
theorem C17_uint64_byte_order_witness :
    proto_registrar_get_nth dissect_state 7 = .ok hf_u64 ∧
    (added_fi (proto_tree_add_item dissect_state 0 proto_tree_create_root (some []) 7
      (some (buffer_of [1, 2, 3, 4, 5, 6, 7, 8])) 0 8 true)).map (fun fi => fi.value) =
        some (fvalue.bytes [8, 7, 6, 5, 4, 3, 2, 1]) ∧
    proto_tree_set_uint64 (new_field_info proto_tree_create_root hf_u64 none 0 8)
      [1, 2, 3, 4, 5, 6, 7, 8] true =
      { new_field_info proto_tree_create_root hf_u64 none 0 8 with
        value := fvalue.bytes [8, 7, 6, 5, 4, 3, 2, 1] } :=
  ⟨rfl, rfl, (C17_uint64_byte_order (new_field_info proto_tree_create_root hf_u64 none 0 8)
    [1, 2, 3, 4, 5, 6, 7, 8] rfl).2.1⟩

/-- C18 as stated fails: for the StringZ field `foo.text` added with length -1
over the octets of "hi", a NUL and "rest", the payload has length 3 and its
buffer is `h`, `i`, NUL: there is no octet at index 3. -/
theorem C18_string_termination_counterexample :
    ¬ (∀ (r : registrar) (num_tree_types : Int) (t : ptree) (P : List Nat) (hfindex : Int)
        (b : tvbuff) (start length : Int) (little_endian : Bool) (hf : header_field_info)
        (fi : field_info),
        proto_registrar_get_nth r hfindex = .ok hf → hf.type ∈ string_types →
        added_fi (proto_tree_add_item r num_tree_types t (some P) hfindex (some b) start
          length little_endian) = some fi →
        ∃ buf, fi.value = fvalue.string (some buf) ∧ buf[fi.length.toNat]? = some 0) := by
  intro hclaim
  obtain ⟨buf, hv, hz⟩ := hclaim dissect_state 0 proto_tree_create_root [] 8 hi_rest 0 (-1)
    false hf_text
    { new_field_info proto_tree_create_root hf_text (some hi_rest) 0 3 with
      value := fvalue.string (some [0x68, 0x69, 0]) }
    rfl (by decide) (by rfl)
  have hb : buf = [0x68, 0x69, 0] := by
    have h1 : fvalue.string (some [0x68, 0x69, 0]) = fvalue.string (some buf) := hv
    injection h1 with h2
    injection h2 with h3
    exact h3.symm
  subst hb
  have hz2 : ([0x68, 0x69, 0] : List Nat)[3]? = some 0 := hz
  exact absurd hz2 (by decide)

/-- C18 (string termination), amended. Under a tree, for a valid handle and a
buffer of fewer than 2^31 octets, the text buffer of the new payload is the
octets of the text followed by one NUL, with the NUL at this index: for a
String field and for a StringZ field with a positive length, at the length
of the payload (which for a String with length -1 is what remains in the
buffer); for a StringZ field with length -1, at the length of the payload
minus one, since that length counts the NUL found in the buffer; for a
UintString field, at the number `n` read from the length prefix, while the
length of the payload is `n` plus the length of the prefix. A StringZ field
added with length 0 gets no text buffer at all. -/
theorem C18_string_termination (r : registrar) (num_tree_types : Int) (t : ptree)
    (P : List Nat) (hfindex : Int) (b : tvbuff) (start length : Int) (little_endian : Bool)
    (hf : header_field_info) (tnode : proto_node)
    (hget : proto_registrar_get_nth r hfindex = .ok hf)
    (hP : node_at t.root P = some tnode)
    (hok : accepts_children num_tree_types tnode = true)
    (h0 : 0 ≤ start) (hsize : b.octets.length < 2 ^ 31) :
    (hf.type = FT_STRING → 0 ≤ length → start + length ≤ b.octets.length →
      ∃ fi, added_fi (proto_tree_add_item r num_tree_types t (some P) hfindex (some b) start
          length little_endian) = some fi ∧
        fi.length = length ∧ terminated_at fi.value fi.length (span b start length)) ∧
    (hf.type = FT_STRING → start ≤ b.octets.length →
      ∃ fi, added_fi (proto_tree_add_item r num_tree_types t (some P) hfindex (some b) start
          (-1) little_endian) = some fi ∧
        fi.length = (b.octets.length : Int) - start ∧
        terminated_at fi.value fi.length (span b start fi.length)) ∧
    (hf.type = FT_STRINGZ → 0 < length → start + length ≤ b.octets.length →
      ∃ fi, added_fi (proto_tree_add_item r num_tree_types t (some P) hfindex (some b) start
          length little_endian) = some fi ∧
        fi.length = length ∧ terminated_at fi.value fi.length (span b start length)) ∧
    (hf.type = FT_STRINGZ →
      ∃ fi, added_fi (proto_tree_add_item r num_tree_types t (some P) hfindex (some b) start
          0 little_endian) = some fi ∧
        fi.length = 0 ∧ fi.value = fvalue.string none) ∧
    (hf.type = FT_STRINGZ → ∀ k, find_nul (b.octets.drop start.toNat) = some k →
      ∃ fi, added_fi (proto_tree_add_item r num_tree_types t (some P) hfindex (some b) start
          (-1) little_endian) = some fi ∧
        fi.length = (k : Int) + 1 ∧
        terminated_at fi.value (fi.length - 1) (span b start (k : Int))) ∧
    (hf.type = FT_UINT_STRING → (length = 1 ∨ length = 2 ∨ length = 3 ∨ length = 4) →
      ∀ n, n = octets_value little_endian (span b start length) →
      start + length + (n : Int) ≤ b.octets.length →
      ∃ fi, added_fi (proto_tree_add_item r num_tree_types t (some P) hfindex (some b) start
          length little_endian) = some fi ∧
        fi.length = (n : Int) + length ∧
        terminated_at fi.value (fi.length - length) (span b (start + length) (n : Int))) := by
  refine ⟨?_, ?_, ?_, ?_, ?_, ?_⟩
  · intro hty hl h1
    refine ⟨_, added_fi_add_item r num_tree_types t P hfindex (some b) start length
      little_endian hf tnode hget (Or.inl rfl) hP hok length _
      (resolve_length_given hf _ start length (by omega))
      (add_item_value_string t hf b start length little_endian hty h0 hl h1), rfl, rfl, ?_⟩
    exact span_length b start length h0 hl h1
  · intro hty h1
    refine ⟨_, added_fi_add_item r num_tree_types t P hfindex (some b) start (-1)
      little_endian hf tnode hget (Or.inl rfl) hP hok _ _
      (resolve_length_string hf b start hty h0 h1)
      (add_item_value_string t hf b start _ little_endian hty h0 (by omega) (by omega)),
      rfl, rfl, ?_⟩
    show ((span b start ((b.octets.length : Int) - start)).length : Int)
      = (b.octets.length : Int) - start
    exact span_length b start _ h0 (by omega) (by omega)
  · intro hty hl h1
    refine ⟨_, added_fi_add_item r num_tree_types t P hfindex (some b) start length
      little_endian hf tnode hget (Or.inl rfl) hP hok length _
      (resolve_length_given hf _ start length (by omega))
      (add_item_value_stringz t hf b start length little_endian hty h0 hl h1), rfl, rfl, ?_⟩
    exact span_length b start length h0 (le_of_lt hl) h1
  · intro hty
    refine ⟨_, added_fi_add_item r num_tree_types t P hfindex (some b) start 0
      little_endian hf tnode hget (Or.inl rfl) hP hok 0 _
      (resolve_length_given hf _ start 0 (by decide))
      (add_item_value_stringz_zero t hf (some b) start little_endian hty), rfl, ?_⟩
    show fvalue_new hf.type = fvalue.string none
    rw [hty]
    rfl
  · intro hty k hk
    obtain ⟨_, hs2, _, _⟩ := span_scan b start k h0 hk
    refine ⟨_, added_fi_add_item r num_tree_types t P hfindex (some b) start (-1)
      little_endian hf tnode hget (Or.inl rfl) hP hok (-1) _
      (resolve_length_stringz hf _ start hty)
      (add_item_value_stringz_scan t hf b start little_endian k hty h0 hsize hk),
      rfl, rfl, ?_⟩
    show ((span b start (k : Int)).length : Int) = (k : Int) + 1 - 1
    rw [hs2]
    omega
  · intro hty hlen n hn h1
    subst hn
    refine ⟨_, added_fi_add_item r num_tree_types t P hfindex (some b) start length
      little_endian hf tnode hget (Or.inl rfl) hP hok length _
      (resolve_length_given hf _ start length (by omega))
      (add_item_value_uint_string t hf b start length little_endian hty hlen h0 hsize h1),
      rfl, rfl, ?_⟩
    have := span_length b (start + length)
      (octets_value little_endian (span b start length) : Int) (by omega) (by omega) h1
    show ((span b (start + length) _).length : Int) = _ + length - length
    rw [this]
    omega

/-- C18 at the example registrar: the UintString field `foo.label` added over
the octets 02, `h`, `i` with a prefix of one octet has length 3, and its
buffer has the NUL at index 2. -/
theorem C18_string_termination_witness :
    ∃ fi, added_fi (proto_tree_add_item dissect_state 0 proto_tree_create_root (some []) 10
        (some (buffer_of [2, 0x68, 0x69])) 0 1 false) = some fi ∧
      fi.length = 3 ∧ terminated_at fi.value (fi.length - 1) [0x68, 0x69] :=
  (C18_string_termination dissect_state 0 proto_tree_create_root [] 10
    (buffer_of [2, 0x68, 0x69]) 0 1 false _ (.mk none []) rfl rfl rfl (by decide)
    (by decide)).2.2.2.2.2 rfl (Or.inl rfl) 2 rfl (by decide)

/-- C19 (StringZ scan). Under a tree, for a valid handle of a StringZ field
and a buffer of fewer than 2^31 octets: if octet `i` is the first NUL at or
after `start`, `proto_tree_add_item` with length -1 creates a payload whose
length is `i - start + 1` and whose text, the content of its buffer up to the
terminator, is exactly the octets from `start` up to but excluding `i`; if
there is no NUL at or after `start`, the add ends with the bounded-read
fault. -/
theorem C19_stringz_scan (r : registrar) (num_tree_types : Int) (t : ptree)
    (P : List Nat) (hfindex : Int) (b : tvbuff) (start : Int) (little_endian : Bool)
    (hf : header_field_info) (tnode : proto_node)
    (hget : proto_registrar_get_nth r hfindex = .ok hf)
    (hP : node_at t.root P = some tnode)
    (hok : accepts_children num_tree_types tnode = true)
    (hty : hf.type = FT_STRINGZ)
    (h0 : 0 ≤ start) (hsize : b.octets.length < 2 ^ 31) :
    (∀ (i : Nat) (x : Nat), start ≤ i → b.octets[i]? = some x → x % 256 = 0 →
      (∀ (j : Nat) (y : Nat), start ≤ j → j < i → b.octets[j]? = some y → y % 256 ≠ 0) →
      ∃ fi buf, added_fi (proto_tree_add_item r num_tree_types t (some P) hfindex (some b)
          start (-1) little_endian) = some fi ∧
        fi.length = (i : Int) - start + 1 ∧
        fi.value = fvalue.string (some buf) ∧
        c_string buf = span b start ((i : Int) - start)) ∧
    ((∀ (j : Nat) (y : Nat), start ≤ j → b.octets[j]? = some y → y % 256 ≠ 0) →
      proto_tree_add_item r num_tree_types t (some P) hfindex (some b) start (-1)
        little_endian = .error fault.bounds) := by
  constructor
  · intro i x hi hx hx0 hfirst
    have hk := find_nul_at b start i x h0 hi hx hx0 hfirst
    obtain ⟨_, _, hs3, _⟩ := span_scan b start _ h0 hk
    have hcast : ((i - start.toNat : Nat) : Int) = (i : Int) - start := by omega
    refine ⟨_, _, added_fi_add_item r num_tree_types t P hfindex (some b) start (-1)
      little_endian hf tnode hget (Or.inl rfl) hP hok (-1) _
      (resolve_length_stringz hf _ start hty)
      (add_item_value_stringz_scan t hf b start little_endian _ hty h0 hsize hk),
      ?_, rfl, ?_⟩
    · show ((i - start.toNat : Nat) : Int) + 1 = (i : Int) - start + 1
      rw [hcast]
    · rw [c_string_append_nul _ hs3, hcast]
  · intro hnone
    apply add_item_value_fault r num_tree_types t P hfindex (some b) start (-1)
      little_endian hf _ hget (Or.inl rfl)
    rw [resolve_length_stringz hf _ start hty]
    exact add_item_value_stringz_no_nul t hf b start little_endian hty
      (Or.inr (find_nul_absent b start h0 hnone))

/-- C19 for the buffer of "hi", a NUL and "rest" at offset 0: the length is 3
and the text is "hi". -/
theorem C19_stringz_scan_witness :
    ∃ fi buf, added_fi (proto_tree_add_item dissect_state 0 proto_tree_create_root (some [])
        8 (some hi_rest) 0 (-1) false) = some fi ∧
      fi.length = 3 ∧ fi.value = fvalue.string (some buf) ∧ c_string buf = [0x68, 0x69] :=
  (C19_stringz_scan dissect_state 0 proto_tree_create_root [] 8 hi_rest 0 false hf_text
    (.mk none []) rfl rfl rfl rfl (by decide) (by decide)).1 2 0 (by decide) rfl rfl
    (fun j y _ hj hy => by
      have hj2 : j = 0 ∨ j = 1 := by omega
      rcases hj2 with h | h <;> subst h <;> simp [hi_rest, buffer_of] at hy <;> subst hy <;>
        decide)

/-- C21, as stated, fails: the list of a primed handle need not be in
pre-order. After `crossed_ops` on a root primed for `foo.count` (handle 4) the
list is `[[1], [0, 0]]`, the order of the two add calls, while the nodes with
that handle are `[0, 0]` and then `[1]` in pre-order. -/
theorem C21_interesting_exactness_counterexample :
    ¬ (∀ (r : registrar) (num_tree_types : Int) (ops : List tree_op) (t1 : ptree)
        (log : List (List Nat × field_info)) (h : Int),
        Reachable r → (∀ op ∈ ops, keeps_hfinfo op) →
        run_ops r num_tree_types (proto_tree_prime_hfid proto_tree_create_root h) ops
          = .ok (t1, log) →
        proto_get_finfo_ptr_array t1 h = some (handle_paths t1.root h)) := by
  intro hclaim
  have h := hclaim dissect_state 1 crossed_ops _ _ 4 dissect_state_reachable
    (by
      intro op hop
      simp only [crossed_ops, List.mem_cons, List.mem_singleton, List.not_mem_nil,
        or_false] at hop
      rcases hop with e | e | e | e <;> (rw [e]; trivial))
    rfl
  have h2 : ∃ t1 log,
      run_ops dissect_state 1 (proto_tree_prime_hfid proto_tree_create_root 4) crossed_ops
        = .ok (t1, log) ∧
      proto_get_finfo_ptr_array t1 4 = some [[1], [0, 0]] ∧
      handle_paths t1.root 4 = [[0, 0], [1]] := ⟨_, _, rfl, rfl, rfl⟩
  obtain ⟨t1, log, hrun, hlist, hpre⟩ := h2
  have hrun2 : run_ops dissect_state 1 (proto_tree_prime_hfid proto_tree_create_root 4)
      crossed_ops = .ok (_, _) := rfl
  rw [hrun2] at hrun
  simp only [Except.ok.injEq, Prod.mk.injEq] at hrun
  rw [← hrun.1] at hlist hpre
  rw [hlist, hpre] at h
  simp at h

/-- C21 (amended): for a tree with a bare root in which handle `h` is primed
with an empty list, after any sequence of successful adds (and subtree
openings) over a reachable registrar the list `proto_get_finfo_ptr_array`
returns for `h` is the list of the pointers the adds of `h` returned, in the
order of the add calls; it has no pointer twice, a node is in it iff its
payload has the handle `h`, and so it is a permutation of the nodes with that
handle in pre-order. -/
theorem C21_interesting_exactness (r : registrar) (hr : Reachable r) (num_tree_types : Int)
    (t0 t1 : ptree) (ops : List tree_op) (log : List (List Nat × field_info)) (h : Int)
    (hroot : t0.root = .mk none [])
    (hprimed : proto_get_finfo_ptr_array t0 h = some [])
    (hk : ∀ op ∈ ops, keeps_hfinfo op)
    (hrun : run_ops r num_tree_types t0 ops = .ok (t1, log)) :
    proto_get_finfo_ptr_array t1 h = some (adds_of r num_tree_types t0 ops h) ∧
    (adds_of r num_tree_types t0 ops h).Nodup ∧
    (∀ q, q ∈ adds_of r num_tree_types t0 ops h ↔
      ∃ fi, finfo_at t1.root q = some fi ∧ fi.hfinfo.id = h) ∧
    (adds_of r num_tree_types t0 ops h).Perm (handle_paths t1.root h) := by
  have hids : ids_inv r := reachable_ids _ _ _ ids_inv_new hr
  obtain ⟨hnd, _, hiff⟩ := run_ops_handles r hids num_tree_types h ops t0 t1 log hk hrun
  have hmem : ∀ q, q ∈ adds_of r num_tree_types t0 ops h ↔ handle_at t1.root q = some h := by
    intro q
    rw [hiff q, hroot, handle_at_bare]
    simp
  refine ⟨?_, hnd, ?_, ?_⟩
  · unfold proto_get_finfo_ptr_array at hprimed ⊢
    rw [run_ops_lookup r num_tree_types ops t0 t1 log hrun h, hprimed]
    rfl
  · intro q
    rw [hmem q]
    simp only [handle_at]
    cases finfo_at t1.root q with
    | none => simp
    | some fi => simp
  · rw [List.perm_ext_iff_of_nodup hnd (handle_paths_nodup t1.root h)]
    intro q
    rw [hmem q, mem_handle_paths]

/-- C21 (amended) at `crossed_ops`: the list for `foo.count` is `[[1], [0, 0]]`,
the two adds in call order, and a permutation of the pre-order listing
`[[0, 0], [1]]`. -/
theorem C21_interesting_exactness_witness :
    ∃ t1 log,
      run_ops dissect_state 1 (proto_tree_prime_hfid proto_tree_create_root 4) crossed_ops
        = .ok (t1, log) ∧
      proto_get_finfo_ptr_array t1 4 = some [[1], [0, 0]] ∧
      ([[1], [0, 0]] : List (List Nat)).Perm (handle_paths t1.root 4) :=
  ⟨_, _, rfl, rfl,
    (C21_interesting_exactness dissect_state dissect_state_reachable 1
      (proto_tree_prime_hfid proto_tree_create_root 4) _ crossed_ops _ 4 rfl rfl
      (by
        intro op hop
        simp only [crossed_ops, List.mem_cons, List.mem_singleton, List.not_mem_nil,
          or_false] at hop
        rcases hop with e | e | e | e <;> (rw [e]; trivial))
      (by rfl)).2.2.2⟩

/-- C22: after a successful sequence of adds, the list of a primed handle `h`
is what it was before followed by the pointers the adds of `h` returned, in
the order of the add calls, one for each add of `h`; for a handle that is not
primed `proto_get_finfo_ptr_array` returns nothing and
`proto_check_for_protocol_or_field` returns false, whatever the tree
contains. -/
theorem C22_priming_and_call_order (r : registrar) (num_tree_types : Int) (t0 t1 : ptree)
    (ops : List tree_op) (log : List (List Nat × field_info)) (h : Int)
    (hrun : run_ops r num_tree_types t0 ops = .ok (t1, log)) :
    (∀ L, proto_get_finfo_ptr_array t0 h = some L →
      proto_get_finfo_ptr_array t1 h = some (L ++ adds_of r num_tree_types t0 ops h)) ∧
    (adds_of r num_tree_types t0 ops h).length = (ops.filter (is_add_of h)).length ∧
    (proto_get_finfo_ptr_array t0 h = none →
      proto_get_finfo_ptr_array t1 h = none ∧
      proto_check_for_protocol_or_field t1 h = false) := by
  have hl := run_ops_lookup r num_tree_types ops t0 t1 log hrun h
  refine ⟨?_, adds_of_length r num_tree_types h ops t0 t1 log hrun, ?_⟩
  · intro L hL
    unfold proto_get_finfo_ptr_array at hL ⊢
    rw [hl, hL]
    rfl
  · intro hn
    have h1 : proto_get_finfo_ptr_array t1 h = none := by
      unfold proto_get_finfo_ptr_array at hn ⊢
      rw [hl, hn]
      rfl
    refine ⟨h1, ?_⟩
    unfold proto_check_for_protocol_or_field
    rw [h1]

/-- C22 at three adds of `foo.count` over the octets 1, 2, 3 on a root primed
for it: the list has the three new nodes in call order, their values are 1, 2
and 3, and the handle of `foo.serial`, not primed, has no list. -/
theorem C22_priming_and_call_order_witness :
    ∃ t1 log,
      run_ops dissect_state 0 (proto_tree_prime_hfid proto_tree_create_root 4) three_adds
        = .ok (t1, log) ∧
      proto_get_finfo_ptr_array t1 4 = some [[0], [1], [2]] ∧
      ([[0], [1], [2]].map (fun q => (finfo_at t1.root q).map (fun fi => fi.value)))
        = [some (fvalue.integer 1), some (fvalue.integer 2), some (fvalue.integer 3)] ∧
      proto_get_finfo_ptr_array t1 5 = none ∧
      proto_check_for_protocol_or_field t1 5 = false :=
  ⟨_, _, rfl, rfl, rfl,
    (C22_priming_and_call_order dissect_state 0
      (proto_tree_prime_hfid proto_tree_create_root 4) _ three_adds _ 5 (by rfl)).2.2 rfl⟩

/-- C24 (fault atomicity). For every tree, field and buffer: the call of
`proto_tree_add_item` ends with a fault exactly when its in-place execution
does, with the same fault, and then the tree is left as it was before the
call, whatever the fault (in particular the bounded-read fault of a buffer
read): the children of every node and every list of the index of interesting
fields are unchanged. A read of a value of 1 to 4 octets that reaches beyond
the end of the buffer is such a fault. -/
theorem C24_fault_atomicity (r : registrar) (num_tree_types : Int) (t : ptree)
    (tree : Option (List Nat)) (hfindex : Int) (tvb : Option tvbuff) (start length : Int)
    (little_endian : Bool) (e : fault) :
    (proto_tree_add_item r num_tree_types t tree hfindex tvb start length little_endian
        = .error e ↔
      (proto_tree_add_item_in_place r num_tree_types t tree hfindex tvb start length
        little_endian).1 = .error e) ∧
    ((proto_tree_add_item_in_place r num_tree_types t tree hfindex tvb start length
        little_endian).1 = .error e →
      (proto_tree_add_item_in_place r num_tree_types t tree hfindex tvb start length
        little_endian).2 = t ∧
      (∀ P, kids (proto_tree_add_item_in_place r num_tree_types t tree hfindex tvb start
        length little_endian).2.root P = kids t.root P) ∧
      (∀ h, proto_get_finfo_ptr_array (proto_tree_add_item_in_place r num_tree_types t tree
        hfindex tvb start length little_endian).2 h = proto_get_finfo_ptr_array t h)) ∧
    (∀ (P : List Nat) (b : tvbuff) (hf : header_field_info),
      tree = some P → tvb = some b → proto_registrar_get_nth r hfindex = .ok hf →
      hf.type ∈ int_types → (length = 1 ∨ length = 2 ∨ length = 3 ∨ length = 4) →
      0 ≤ start → (b.octets.length : Int) < start + length →
      (proto_tree_add_item_in_place r num_tree_types t tree hfindex tvb start length
        little_endian).1 = .error fault.bounds) := by
  have heq := add_item_in_place_eq r num_tree_types t tree hfindex tvb start length
    little_endian
  refine ⟨?_, ?_, ?_⟩
  · rw [heq]
    generalize proto_tree_add_item_in_place r num_tree_types t tree hfindex tvb start length
      little_endian = x
    obtain ⟨o, t2⟩ := x
    cases o with
    | error e2 => simp [outcome_of]
    | ok a => simp [outcome_of]
  · intro h
    have := add_item_in_place_fault r num_tree_types t tree hfindex tvb start length
      little_endian e h
    rw [this]
    exact ⟨rfl, fun _ => rfl, fun _ => rfl⟩
  · intro P b hf htree htvb hget hty hlen h0 hshort
    subst htree
    subst htvb
    have hbounds : proto_tree_add_item r num_tree_types t (some P) hfindex (some b) start
        length little_endian = .error fault.bounds := by
      apply add_item_value_fault r num_tree_types t P hfindex (some b) start length
        little_endian hf _ hget (Or.inl rfl)
      rw [resolve_length_given hf _ start length (by omega)]
      have hp : ∀ n : Int, (n = 1 ∨ n = 2 ∨ n = 3 ∨ n = 4) → n = length →
          tvb_get_ptr (some b) start n = .error fault.bounds := by
        intro n _ hn
        subst hn
        simp only [tvb_get_ptr]
        rw [if_neg (by omega)]
      have hu : get_uint_value (some b) start length little_endian = .error fault.bounds := by
        rcases hlen with h1 | h1 | h1 | h1 <;> subst h1 <;> cases little_endian <;>
          simp [get_uint_value, tvb_get_guint8, tvb_get_ntohs, tvb_get_letohs,
            tvb_get_ntoh24, tvb_get_letoh24, tvb_get_ntohl, tvb_get_letohl,
            hp _ (by decide) rfl, Except.map]
      obtain ⟨n, a, ty, d, st, bm, bl, i, pa, bs, sn, sp⟩ := hf
      simp only [int_types, List.mem_cons, List.mem_singleton, List.mem_nil_iff,
        or_false] at hty
      rcases hty with h | h | h | h | h | h | h | h <;> subst h <;>
        simp [bind, Except.bind, pure, Except.pure, add_item_value, new_field_info,
          get_int_value_eq, hu, Except.map]
    rw [heq] at hbounds
    generalize proto_tree_add_item_in_place r num_tree_types t (some P) hfindex (some b)
      start length little_endian = x at hbounds ⊢
    obtain ⟨o, t2⟩ := x
    cases o with
    | error e2 =>
      simp only [outcome_of, Except.error.injEq] at hbounds
      rw [hbounds]
    | ok a => simp [outcome_of] at hbounds

/-- C24 at the example registrar: the Uint32 field `foo.serial` added with
length 4 over a buffer of two octets ends with the bounded-read fault and
leaves the tree as it was. -/
theorem C24_fault_atomicity_witness :
    proto_tree_add_item_in_place dissect_state 0 proto_tree_create_root (some []) 5
      (some (buffer_of [1, 2])) 0 4 false = (.error fault.bounds, proto_tree_create_root) ∧
    (proto_tree_add_item_in_place dissect_state 0 proto_tree_create_root (some []) 5
      (some (buffer_of [1, 2])) 0 4 false).2 = proto_tree_create_root :=
  ⟨rfl, ((C24_fault_atomicity dissect_state 0 proto_tree_create_root (some []) 5
    (some (buffer_of [1, 2])) 0 4 false fault.bounds).2.1 rfl).1⟩

/-- C25 (hidden variants). For every tree and all arguments,
`proto_tree_add_item_hidden` and `proto_tree_add_uint_hidden` fail with the
fault of the plain add when that fails, return no item and the tree of the
plain add when that returns none, and otherwise return the item of the plain
add in the tree of the plain add with one change: the payload of the new
item has `visible = false`. The payload of every other node, the value,
start, length and subtree type of the new one, and the index of interesting
fields are those of the plain add. -/
theorem C25_hidden_variants (r : registrar) (num_tree_types : Int) (t : ptree)
    (tree : Option (List Nat)) (hfindex : Int) (tvb : Option tvbuff) (start length : Int)
    (little_endian : Bool) (value : Nat) :
    ((∀ e, proto_tree_add_item r num_tree_types t tree hfindex tvb start length
          little_endian = .error e →
        proto_tree_add_item_hidden r num_tree_types t tree hfindex tvb start length
          little_endian = .error e) ∧
      (∀ t1, proto_tree_add_item r num_tree_types t tree hfindex tvb start length
          little_endian = .ok (none, t1) →
        proto_tree_add_item_hidden r num_tree_types t tree hfindex tvb start length
          little_endian = .ok (none, t1)) ∧
      (∀ pi t1, proto_tree_add_item r num_tree_types t tree hfindex tvb start length
          little_endian = .ok (some pi, t1) →
        proto_tree_add_item_hidden r num_tree_types t tree hfindex tvb start length
          little_endian = .ok (some pi, hide_item t1 pi) ∧
        ∃ fi, finfo_at t1.root pi = some fi ∧
          finfo_at (hide_item t1 pi).root pi = some { fi with visible := false } ∧
          (∀ q, q ≠ pi → finfo_at (hide_item t1 pi).root q = finfo_at t1.root q) ∧
          (hide_item t1 pi).tree_data = t1.tree_data)) ∧
    ((∀ e, proto_tree_add_uint r num_tree_types t tree hfindex tvb start length value
          = .error e →
        proto_tree_add_uint_hidden r num_tree_types t tree hfindex tvb start length value
          = .error e) ∧
      (∀ t1, proto_tree_add_uint r num_tree_types t tree hfindex tvb start length value
          = .ok (none, t1) →
        proto_tree_add_uint_hidden r num_tree_types t tree hfindex tvb start length value
          = .ok (none, t1)) ∧
      (∀ pi t1, proto_tree_add_uint r num_tree_types t tree hfindex tvb start length value
          = .ok (some pi, t1) →
        proto_tree_add_uint_hidden r num_tree_types t tree hfindex tvb start length value
          = .ok (some pi, hide_item t1 pi) ∧
        ∃ fi, finfo_at t1.root pi = some fi ∧
          finfo_at (hide_item t1 pi).root pi = some { fi with visible := false } ∧
          (∀ q, q ≠ pi → finfo_at (hide_item t1 pi).root q = finfo_at t1.root q) ∧
          (hide_item t1 pi).tree_data = t1.tree_data)) := by
  refine ⟨⟨?_, ?_, ?_⟩, ⟨?_, ?_, ?_⟩⟩
  · intro e h
    unfold proto_tree_add_item_hidden
    rw [h]
    rfl
  · intro t1 h
    unfold proto_tree_add_item_hidden
    rw [h]
    rfl
  · intro pi t1 h
    have hfi : ∃ fi, finfo_at t1.root pi = some fi := by
      cases tree with
      | none =>
        simp only [proto_tree_add_item, Except.ok.injEq, Prod.mk.injEq] at h
        exact absurd h.1 (by simp)
      | some P =>
        exact add_item_finfo r num_tree_types t t1 P hfindex tvb start length little_endian
          pi h
    obtain ⟨fi, hfi⟩ := hfi
    refine ⟨?_, fi, hfi, hide_item_finfo t1 pi fi hfi⟩
    unfold proto_tree_add_item_hidden
    rw [h]
    simp only [bind, Except.bind, pitem_finfo_ok t1 pi fi hfi]
    rfl
  · intro e h
    unfold proto_tree_add_uint_hidden
    rw [h]
    rfl
  · intro t1 h
    unfold proto_tree_add_uint_hidden
    rw [h]
    rfl
  · intro pi t1 h
    have hfi : ∃ fi, finfo_at t1.root pi = some fi := by
      cases tree with
      | none =>
        simp only [proto_tree_add_uint, Except.ok.injEq, Prod.mk.injEq] at h
        exact absurd h.1 (by simp)
      | some P =>
        obtain ⟨tn, hf, len, fi, h1, _, _, _, hres, ht1⟩ :=
          add_uint_full r num_tree_types t t1 P hfindex tvb start length value _ h
        have hpi : pi = P ++ [tn.children.length] := by simpa using hres
        refine ⟨fi, ?_⟩
        rw [ht1, hpi]
        simp only [finfo_at, node_at_append_new P t.root tn _ h1]
        rfl
    obtain ⟨fi, hfi⟩ := hfi
    refine ⟨?_, fi, hfi, hide_item_finfo t1 pi fi hfi⟩
    unfold proto_tree_add_uint_hidden
    rw [h]
    simp only [bind, Except.bind, pitem_finfo_ok t1 pi fi hfi]
    rfl

/-- C25 at the example registrar: the hidden add of `foo.count` with value 7
under the bare root yields the one node of the plain add, not visible. -/
theorem C25_hidden_variants_witness :
    ∃ t1, proto_tree_add_uint dissect_state 0 (proto_tree_set_visible proto_tree_create_root
        true) (some []) 4 (some (buffer_of [7])) 0 1 7 = .ok (some [0], t1) ∧
      (finfo_at t1.root [0]).map (fun fi => (fi.value, fi.visible))
        = some (fvalue.integer 7, true) ∧
      proto_tree_add_uint_hidden dissect_state 0
        (proto_tree_set_visible proto_tree_create_root true) (some []) 4
        (some (buffer_of [7])) 0 1 7 = .ok (some [0], hide_item t1 [0]) ∧
      (finfo_at (hide_item t1 [0]).root [0]).map (fun fi => (fi.value, fi.visible))
        = some (fvalue.integer 7, false) := by
  refine ⟨_, rfl, rfl, ?_, rfl⟩
  exact (((C25_hidden_variants dissect_state 0
    (proto_tree_set_visible proto_tree_create_root true) (some []) 4
    (some (buffer_of [7])) 0 1 false 7).2.2.2) [0] _ (by rfl)).1

/-- C26 (length by end offset). The payload of an item that
`proto_tree_add_item` or `proto_tree_add_pi` created with caller start `s`
over a buffer whose raw offset is `r` has `start = s + r`, subtree type -1,
the visibility of the tree and no representation. A following
`proto_item_set_end` with that buffer and the end offset `e` succeeds and
sets the length of that payload to `e + r - start`, which is `e - s`
whatever `r` is; no other field of the payload, no other payload and no
list of the index of interesting fields changes. -/
theorem C26_length_by_end (r : registrar) (num_tree_types : Int) (t t1 : ptree)
    (P : List Nat) (hfindex : Int) (b : tvbuff) (start length : Int) (pi : List Nat) :
    (∀ (little_endian : Bool),
      proto_tree_add_item r num_tree_types t (some P) hfindex (some b) start length
        little_endian = .ok (some pi, t1) →
      ∃ fi, finfo_at t1.root pi = some fi ∧
        fi.start = start + b.raw_offset ∧ fi.tree_type = -1 ∧
        fi.visible = t.tree_data.visible ∧ fi.representation = none ∧
        ∀ e, ∃ t2, proto_item_set_end t1 (some pi) (some b) e = .ok t2 ∧
          finfo_at t2.root pi = some { fi with length := e - start } ∧
          e + b.raw_offset - fi.start = e - start ∧
          (∀ q, q ≠ pi → finfo_at t2.root q = finfo_at t1.root q) ∧
          t2.tree_data = t1.tree_data) ∧
    (∀ (len : Int),
      proto_tree_add_pi r num_tree_types t (some P) hfindex (some b) start length
        = .ok (some (pi, len), t1) →
      ∃ fi, finfo_at t1.root pi = some fi ∧
        fi.start = start + b.raw_offset ∧ fi.tree_type = -1 ∧
        fi.visible = t.tree_data.visible ∧ fi.representation = none ∧
        ∀ e, ∃ t2, proto_item_set_end t1 (some pi) (some b) e = .ok t2 ∧
          finfo_at t2.root pi = some { fi with length := e - start } ∧
          e + b.raw_offset - fi.start = e - start ∧
          (∀ q, q ≠ pi → finfo_at t2.root q = finfo_at t1.root q) ∧
          t2.tree_data = t1.tree_data) := by
  have fin : ∀ fi : field_info, finfo_at t1.root pi = some fi →
      fi.start = start + b.raw_offset →
      ∀ e, ∃ t2, proto_item_set_end t1 (some pi) (some b) e = .ok t2 ∧
          finfo_at t2.root pi = some { fi with length := e - start } ∧
          e + b.raw_offset - fi.start = e - start ∧
          (∀ q, q ≠ pi → finfo_at t2.root q = finfo_at t1.root q) ∧
          t2.tree_data = t1.tree_data := by
    intro fi hfi hs e
    obtain ⟨t2, h1, h2, h3, h4⟩ := set_end_ok t1 pi b e fi hfi
    have he : e + b.raw_offset - fi.start = e - start := by
      rw [hs]
      omega
    rw [he] at h2
    exact ⟨t2, h1, h2, he, h3, h4⟩
  constructor
  · intro little_endian h
    obtain ⟨tn, hf, len, fi, h1, _, _, _, hv, hres, ht1⟩ :=
      add_item_full r num_tree_types t t1 P hfindex (some b) start length little_endian _ h
    have hpi : pi = P ++ [tn.children.length] := by simpa using hres
    obtain ⟨_, hs, htt, hvis, hrep, _⟩ :=
      new_field_info_frame t hf b start len fi (add_item_value_frame _ _ _ _ _ _ hv)
    have hfi : finfo_at t1.root pi = some fi := by
      rw [ht1, hpi]
      simp only [finfo_at, node_at_append_new P t.root tn _ h1]
      rfl
    exact ⟨fi, hfi, hs, htt, hvis, hrep, fin fi hfi hs⟩
  · intro len h
    obtain ⟨tn, hf, len2, h1, _, _, _, hres, ht1⟩ :=
      add_pi_full r num_tree_types t t1 P hfindex (some b) start length _ h
    have hpi : pi = P ++ [tn.children.length] := by
      simp only [Option.some.injEq, Prod.mk.injEq] at hres
      exact hres.1
    have hfi : finfo_at t1.root pi = some (new_field_info t hf (some b) start len2) := by
      rw [ht1, hpi]
      simp only [finfo_at, node_at_append_new P t.root tn _ h1]
      rfl
    exact ⟨_, hfi, rfl, rfl, rfl, rfl, fin _ hfi rfl⟩

/-- C26 for a buffer at raw offset 10: the item added at start 1 has start 11,
and `proto_item_set_end` with end offset 4 gives it length 3. -/
theorem C26_length_by_end_witness :
    ∃ t1 fi t2, proto_tree_add_item dissect_state 0 proto_tree_create_root (some []) 4
        (some { octets := [1, 2, 3, 4], raw_offset := 10, ds_tvb := 1 }) 1 1 false
        = .ok (some [0], t1) ∧
      finfo_at t1.root [0] = some fi ∧ fi.start = 11 ∧
      proto_item_set_end t1 (some [0])
        (some { octets := [1, 2, 3, 4], raw_offset := 10, ds_tvb := 1 }) 4 = .ok t2 ∧
      finfo_at t2.root [0] = some { fi with length := 3 } := by
  obtain ⟨fi, h1, h2, _, _, _, h3⟩ :=
    (C26_length_by_end dissect_state 0 proto_tree_create_root _ [] 4
      { octets := [1, 2, 3, 4], raw_offset := 10, ds_tvb := 1 } 1 1 [0]).1 false (by rfl)
  obtain ⟨t2, h4, h5, _⟩ := h3 4
  exact ⟨_, fi, t2, rfl, h1, h2, h4, h5⟩

/-- C28, as stated, fails for `proto_item_fill_label`: the Boolean field
`foo.wide`, which registration accepts with the bitmask 1 and the display 300,
has a bit diagram of 377 characters, which `fill_label_boolean` has
`decode_bitfield_value` write into the buffer of 240 octets before the bounded
print of the name; no string shorter than the buffer is written, the buffer
is overrun. -/
theorem C28_label_truncation_counterexample :
    ¬ (∀ (r : registrar) (i size : Nat) (env : label_env) (fi : field_info),
        Reachable r → r.gpa_hfinfo[i]? = some fi.hfinfo → 0 < size →
        fi.hfinfo.type = FT_BOOLEAN → fi.hfinfo.strings = none →
        ∃ s, proto_item_fill_label size env fi = .ok s ∧ s.length < size) := by
  intro h
  obtain ⟨s, hs, _⟩ := h wide_flag_state 2 240 plain_env
    (integer_fi { hf_entry "Wide" "foo.wide" FT_BOOLEAN 300 none 1 none with
                  parent := 1, id := 2 } 1 1)
    wide_flag_state_reachable (by rfl) (by decide) rfl rfl
  rw [fill_label_is_boolean _ _ _ rfl] at hs
  obtain ⟨u, _, he⟩ := fill_label_boolean_masked 240
    (integer_fi { hf_entry "Wide" "foo.wide" FT_BOOLEAN 300 none 1 none with
                  parent := 1, id := 2 } 1 1) "Wide" "True" "False" rfl (by decide)
    (by decide) rfl rfl
  rw [he, label_write_overrun _ _ _ (by rw [diagram_length]; decide)] at hs
  cases hs

/-- C28, as far as it holds: with a label buffer of `size` octets, `size`
positive, and the item `pi` with payload `fi`: (1)
`proto_tree_set_representation` leaves in a visible payload the bounded print
of the text, and leaves a payload that is not visible as it is; (2)
`proto_item_append_text` on a representation `cur` shorter than `size` leaves
the bounded print of `cur` followed by the text; (3) a string
`proto_item_fill_label` returns with is shorter than `size` and is the bounded
print of the text `full` that every buffer longer than `full` receives whole;
(4) `proto_item_append_text` on a payload without representation leaves the
bounded print of the default label followed by the text; (5) the bounded print
of `u` is shorter than `size`, is `u` if `u` is shorter than `size`, and is the
first `size - 1` characters of `u` in every case; (6) for a Boolean bitfield of
display `w` the diagram has `w + (w - 1) / 4 + 3` characters: the label is
written when that is less than `size`, and the buffer is overrun otherwise;
(7) the diagram of an unsigned bitfield has at most 42 characters, and its
label is written into every buffer of more than 42 octets. -/
theorem C28_label_truncation (size : Nat) (hsize : 0 < size) (env : label_env) (t : ptree)
    (pi : List Nat) (fi : field_info) (text : String)
    (hfi : finfo_at t.root pi = some fi) :
    (∃ t2, proto_tree_set_representation size t pi text = .ok t2 ∧
      (finfo_at t2.root pi).map (fun x => x.representation) =
        some (if fi.visible then some (snprintf size text) else fi.representation)) ∧
    (∀ cur, fi.representation = some cur → cur.length < size →
      ∃ t2, proto_item_append_text size env t (some pi) text = .ok t2 ∧
        (finfo_at t2.root pi).map (fun x => x.representation) =
          some (some (if fi.visible then snprintf size (cur ++ text) else cur))) ∧
    (∀ s, proto_item_fill_label size env fi = .ok s →
      s.length < size ∧
      ∃ full, (∀ n, full.length < n → proto_item_fill_label n env fi = .ok full) ∧
        s = snprintf size full) ∧
    (∀ s, fi.representation = none → fi.visible = true →
      proto_item_fill_label size env fi = .ok s →
      ∃ t2, proto_item_append_text size env t (some pi) text = .ok t2 ∧
        (finfo_at t2.root pi).map (fun x => x.representation) =
          some (some (snprintf size (s ++ text)))) ∧
    (∀ u : String, (snprintf size u).length < size ∧
      (u.length < size → snprintf size u = u) ∧
      (snprintf size u).data = u.data.take (size - 1)) ∧
    (∀ n t f : String, fi.hfinfo.type = FT_BOOLEAN → fi.hfinfo.bitmask ≠ 0 →
      fi.hfinfo.bitshift < 32 → fi.hfinfo.name = some n →
      tfs_of fi.hfinfo.strings = .ok (t, f) →
      (size ≤ fi.hfinfo.display.toNat + (fi.hfinfo.display.toNat - 1) / 4 + 3 →
        proto_item_fill_label size env fi = .error fault.undefined) ∧
      (fi.hfinfo.display.toNat + (fi.hfinfo.display.toNat - 1) / 4 + 3 < size →
        ∃ s, proto_item_fill_label size env fi = .ok s)) ∧
    (∀ n : String, fi.hfinfo.type ∈ uint_types → fi.hfinfo.bitmask ≠ 0 →
      fi.hfinfo.strings = none → fi.hfinfo.bitshift < 32 → fi.hfinfo.name = some n →
      (fi.hfinfo.display = BASE_DEC ∨ fi.hfinfo.display = BASE_OCT ∨
        fi.hfinfo.display = BASE_HEX) →
      42 < size →
      (∀ u w, w ≤ 32 → (decode_bitfield_value u fi.hfinfo.bitmask w).length ≤ 42) ∧
      ∃ s, proto_item_fill_label size env fi = .ok s) := by
  refine ⟨?_, ?_, ?_, ?_, ?_, ?_, ?_⟩
  · obtain ⟨t2, h1, h2, _, _⟩ := set_representation_ok size t pi fi text hfi
    refine ⟨t2, h1, ?_⟩
    rw [h2]
    unfold set_representation
    cases fi.visible <;> rfl
  · intro cur hrep hcur
    obtain ⟨t2, h1, h2, _, _⟩ :=
      set_item_value_ok t pi fi _ (fun x => append_text size env x text) hfi
        (append_text_some size env fi text cur hrep hcur)
    refine ⟨t2, h1, ?_⟩
    rw [h2]
    cases hv : fi.visible
    · simp [hrep]
    · simp
  · intro s hs
    exact one_write_result _ (one_write_fill_label env fi) size s hs
  · intro s hrep hvis hs
    obtain ⟨t2, h1, h2, _, _⟩ :=
      set_item_value_ok t pi fi _ (fun x => append_text size env x text) hfi
        (append_text_none size env fi text s hrep hvis hs)
    refine ⟨t2, h1, ?_⟩
    rw [h2]
    rfl
  · intro u
    exact ⟨snprintf_length size hsize u, snprintf_short size u, rfl⟩
  · intro n t f ht h0 hs hn htf
    obtain ⟨u, _, he⟩ := fill_label_boolean_masked size fi n t f ht h0 hs hn htf
    rw [fill_label_is_boolean size env fi ht, he]
    constructor
    · intro hle
      exact label_write_overrun _ _ _ (by rw [diagram_length]; exact hle)
    · intro hlt
      rw [label_write_fits _ _ _ (by rw [diagram_length]; exact hlt)]
      exact ⟨_, rfl⟩
  · intro n ht h0 hstr hs hn hd h42
    refine ⟨fun u w hw => by rw [diagram_length]; omega, ?_⟩
    have e : proto_item_fill_label size env fi = fill_label_numeric_bitfield size fi := by
      unfold proto_item_fill_label
      simp only [uint_types, List.mem_cons, List.mem_singleton, List.not_mem_nil,
        or_false] at ht
      rcases ht with h | h | h | h <;> simp [h, h0, hstr]
    rw [e]
    exact fill_label_numeric_bitfield_fits size fi n ht hs hn hd h42

/-- C28 at `ver_tree`: in a buffer of 240 octets the default label of the item
is `0101 .... = Version: 0x05`, whole; `proto_item_append_text` with `, ok`
leaves that label followed by `, ok`; in a buffer of 20 octets the label is
cut to its first 19 characters. -/
theorem C28_label_truncation_witness :
    proto_item_fill_label 240 plain_env { integer_fi hf_ver 1 5 with visible := true }
      = .ok "0101 .... = Version: 0x05" ∧
    proto_item_fill_label 20 plain_env { integer_fi hf_ver 1 5 with visible := true }
      = .ok "0101 .... = Version" ∧
    (∃ t2, proto_item_append_text 240 plain_env ver_tree (some [0]) ", ok" = .ok t2 ∧
      (finfo_at t2.root [0]).map (fun x => x.representation) =
        some (some (snprintf 240 ("0101 .... = Version: 0x05" ++ ", ok")))) ∧
    snprintf 240 ("0101 .... = Version: 0x05" ++ ", ok") = "0101 .... = Version: 0x05, ok" :=
  ⟨by rfl, by rfl,
    (C28_label_truncation 240 (by decide) plain_env ver_tree [0]
      { integer_fi hf_ver 1 5 with visible := true } ", ok" (by rfl)).2.2.2.1
      "0101 .... = Version: 0x05" (by rfl) (by rfl) (by rfl),
    by rfl⟩

/-- C29, as stated, fails for the display base Hex. The frame-number field
`foo.ref`, which registration accepts with the base Hex, holding 300 gives
`foo.ref == 300`, decimal, and no string that begins `foo.ref == 0x`; and for
the signed field `foo.temp`, accepted with the base Hex, no string is
returned: the assertion of `hfinfo_numeric_format` fails. -/
theorem C29_dfilter_integers_counterexample :
    ¬ (∀ (env : label_env) (renv : repr_env) (fi : field_info) (edt : Option epan_dissect_t)
        (a : String), fi.hfinfo.abbrev_ = some a →
        (∃ b, check_field fi.hfinfo = .ok b) →
        fi.hfinfo.type = FT_FRAMENUM → fi.hfinfo.display = BASE_HEX →
        ∃ w, proto_construct_dfilter_string env renv fi edt
          = .ok (some (a ++ " == 0x" ++
              String.mk (fmt_x false w (fvalue_get_integer fi.value))))) ∧
    ¬ (∀ (env : label_env) (renv : repr_env) (fi : field_info) (edt : Option epan_dissect_t)
        (a : String), fi.hfinfo.abbrev_ = some a →
        (∃ b, check_field fi.hfinfo = .ok b) →
        fi.hfinfo.type ∈ sint_types → fi.hfinfo.display = BASE_HEX →
        ∃ s, proto_construct_dfilter_string env renv fi edt = .ok (some s)) := by
  constructor
  · intro hclaim
    obtain ⟨w, h⟩ := hclaim plain_env plain_repr (integer_fi hf_ref 4 300) none "foo.ref" rfl
      ⟨_, rfl⟩ rfl rfl
    have h1 : proto_construct_dfilter_string plain_env plain_repr (integer_fi hf_ref 4 300)
        none = .ok (some "foo.ref == 300") := by rfl
    rw [h1] at h
    simp only [Except.ok.injEq, Option.some.injEq] at h
    have h2 := congrArg (fun s => s.data.take 13) h
    simp [String.data_append] at h2
  · intro hclaim
    obtain ⟨s, h⟩ := hclaim plain_env plain_repr (integer_fi hf_temp 1 5) none "foo.temp" rfl
      ⟨_, rfl⟩ (by decide) rfl
    have h1 : proto_construct_dfilter_string plain_env plain_repr (integer_fi hf_temp 1 5)
        none = .error fault.assertion := by rfl
    rw [h1] at h
    cases h

/-- C29 (amended): for a payload whose descriptor has the abbreviation `a` and
whose value cell holds the integer `v`, `proto_construct_dfilter_string`
returns `a == ` followed by `v` in unsigned decimal for a frame number
whatever its display base and for Uint8/16/24/32 with the base Dec or Oct; by
`v` read as a signed 32-bit number in decimal for Int8/16/24/32 with the base
Dec or Oct; and by `0x` and `v` in lowercase hexadecimal with zeros in front up
to twice the octets of the type for Uint8/16/24/32 with the base Hex. The
string is never cut. The three renderings are the digits of the library: of
`v` modulo 2^32 in base 10, of the signed reading of `v` in base 10, and of `v`
modulo 2^32 in base 16 behind the zeros. -/
theorem C29_dfilter_integers (env : label_env) (renv : repr_env) (fi : field_info)
    (edt : Option epan_dissect_t) (a : String) (ha : fi.hfinfo.abbrev_ = some a) :
    ((fi.hfinfo.type = FT_FRAMENUM ∨
        (fi.hfinfo.type ∈ uint_types ∧
          (fi.hfinfo.display = BASE_DEC ∨ fi.hfinfo.display = BASE_OCT))) →
      proto_construct_dfilter_string env renv fi edt
        = .ok (some (a ++ " == " ++ String.mk (fmt_u (fvalue_get_integer fi.value))))) ∧
    (fi.hfinfo.type ∈ sint_types →
      (fi.hfinfo.display = BASE_DEC ∨ fi.hfinfo.display = BASE_OCT) →
      proto_construct_dfilter_string env renv fi edt
        = .ok (some (a ++ " == " ++ String.mk (fmt_d (fvalue_get_integer fi.value))))) ∧
    (∀ w, fi.hfinfo.type ∈ uint_types → fi.hfinfo.display = BASE_HEX →
      fixed_width fi.hfinfo.type = some w →
      proto_construct_dfilter_string env renv fi edt
        = .ok (some (a ++ " == 0x" ++
            String.mk (fmt_x false (2 * w).toNat (fvalue_get_integer fi.value))))) ∧
    (∀ n, String.mk (fmt_u n) = toString (n % 2 ^ 32)) ∧
    (∀ n, String.mk (fmt_d n) = toString (to_gint 32 n)) ∧
    (∀ w n, fmt_x false w n =
      List.replicate (w - (Nat.toDigits 16 (n % 2 ^ 32)).length) '0' ++
        Nat.toDigits 16 (n % 2 ^ 32)) := by
  refine ⟨?_, ?_, ?_, fmt_u_repr, fmt_d_repr, fmt_x_digits⟩
  · intro h
    have hf := numeric_format_unsigned fi.hfinfo h
    have ht : fi.hfinfo.type ∈ uint_types ++ sint_types ++ [FT_FRAMENUM] := by
      rcases h with h | ⟨h, _⟩
      · rw [h]; decide
      · exact List.mem_append_left _ (List.mem_append_left _ h)
    rw [dfilter_integer env renv fi edt a _ ha ht hf, sprintf_eq_u,
      dfilter_fits a " == " _ (by
        have := fmt_u_length (fvalue_get_integer fi.value)
        show 4 + _ ≤ 15
        omega)]
  · intro h hd
    have hf := numeric_format_signed fi.hfinfo h hd
    have ht : fi.hfinfo.type ∈ uint_types ++ sint_types ++ [FT_FRAMENUM] :=
      List.mem_append_left _ (List.mem_append_right _ h)
    rw [dfilter_integer env renv fi edt a _ ha ht hf, sprintf_eq_d,
      dfilter_fits a " == " _ (by
        have := fmt_d_length (fvalue_get_integer fi.value)
        show 4 + _ ≤ 15
        omega)]
  · intro w h hd hw
    obtain ⟨format, hf, hw8, hs⟩ := numeric_format_hex fi.hfinfo h hd w hw
    have ht : fi.hfinfo.type ∈ uint_types ++ sint_types ++ [FT_FRAMENUM] :=
      List.mem_append_left _ (List.mem_append_left _ h)
    rw [dfilter_integer env renv fi edt a _ ha ht hf, hs,
      dfilter_fits a " == 0x" _ (by
        have := fmt_x_length false (2 * w).toNat (fvalue_get_integer fi.value) hw8
        show 6 + _ ≤ 15
        omega)]

/-- C29 (amended) at the field `foo.id`, Uint16 with the base Dec, holding
300: the filter string is `foo.id == 300`. -/
theorem C29_dfilter_integers_witness :
    proto_construct_dfilter_string plain_env plain_repr (integer_fi hf_id 2 300) none
      = .ok (some ("foo.id" ++ " == " ++ String.mk (fmt_u 300))) ∧
    "foo.id" ++ " == " ++ String.mk (fmt_u 300) = "foo.id == 300" :=
  ⟨(C29_dfilter_integers plain_env plain_repr (integer_fi hf_id 2 300) none "foo.id"
      (by rfl)).1 (Or.inr ⟨by decide, Or.inl (by rfl)⟩),
    by rfl⟩

/-- The failing input of C30: the payload of type None at the octets 5 to 104
of a frame of ten octets, the frame being the context. The length is cut to
ten, the frame length, and the read of the octet at offset 10 raises the
bounded-read fault: no string and no absent result is returned, where the
claim has `frame[5:10] == ` and ten octets. -/
theorem C30_raw_bytes_fallback_counterexample :
    (none_fi 5 100).ds_tvb = frame_edt.tvb.map tvb_get_ds_tvb ∧
    tvb_length frame_edt.tvb = .ok 10 ∧
    0 < min (none_fi 5 100).length 10 ∧
    proto_construct_dfilter_string plain_env plain_repr (none_fi 5 100) (some frame_edt)
      = .error fault.bounds :=
  ⟨by rfl, by rfl, by decide, by rfl⟩

/-- C30, as far as it holds: for a payload of type None whose descriptor has an
abbreviation and whose start and length are below 2^31,
`proto_construct_dfilter_string` returns nothing without a context, for a
context whose frame is not the data source of the payload, and when
`L = min(length, frame length)` is not positive; when `L` is positive and the
octets `S` to `S + L - 1` are inside the frame, `S` being the start, it
returns `frame[S:L] == `, with `S` and `L` in decimal, and those octets, two
lowercase hexadecimal digits each, with `:` between them; and when `L` is positive and they are not all
inside the frame it returns nothing at all: the bounded-read fault is
raised. -/
theorem C30_raw_bytes_fallback (env : label_env) (renv : repr_env) (fi : field_info)
    (a : String) (ht : fi.hfinfo.type = FT_NONE) (ha : fi.hfinfo.abbrev_ = some a)
    (hstart : fi.start < 2 ^ 31) (hlen : fi.length < 2 ^ 31) :
    proto_construct_dfilter_string env renv fi none = .ok none ∧
    (∀ e : epan_dissect_t, fi.ds_tvb ≠ e.tvb.map tvb_get_ds_tvb →
      proto_construct_dfilter_string env renv fi (some e) = .ok none) ∧
    (∀ b : tvbuff, fi.ds_tvb = some b.ds_tvb → min fi.length b.octets.length ≤ 0 →
      proto_construct_dfilter_string env renv fi (some { tvb := some b }) = .ok none) ∧
    (∀ b : tvbuff, fi.ds_tvb = some b.ds_tvb → 0 < min fi.length b.octets.length →
      0 ≤ fi.start → fi.start + min fi.length b.octets.length ≤ b.octets.length →
      proto_construct_dfilter_string env renv fi (some { tvb := some b }) =
        .ok (some ("frame[" ++ Nat.repr fi.start.toNat ++ ":" ++
          Nat.repr (min fi.length b.octets.length).toNat ++ "] == " ++
          String.mk (hex_octets (span b fi.start (min fi.length b.octets.length)))))) ∧
    (∀ b : tvbuff, fi.ds_tvb = some b.ds_tvb → 0 < min fi.length b.octets.length →
      (fi.start < 0 ∨ (b.octets.length : Int) < fi.start + min fi.length b.octets.length) →
      proto_construct_dfilter_string env renv fi (some { tvb := some b })
        = .error fault.bounds) := by
  refine ⟨?_, ?_, ?_, ?_, ?_⟩
  · rw [dfilter_none_eq env renv fi none a ht ha]
    rfl
  · intro e he
    rw [dfilter_none_eq env renv fi _ a ht ha]
    unfold dfilter_raw_bytes
    simp only [if_pos he]
    rfl
  · intro b hds hL
    rw [dfilter_none_eq env renv fi _ a ht ha]
    by_cases hpos : 0 < fi.length
    · rw [raw_bytes_frame fi b hds hpos hlen, if_pos hL]
    · unfold dfilter_raw_bytes
      simp only [hds, Option.map_some', tvb_get_ds_tvb, ne_eq, not_true_eq_false, if_false,
        if_pos (not_lt.1 hpos)]
      rfl
  · intro b hds hL h0 hin
    have hpos : 0 < fi.length := by omega
    have hLn : ((min fi.length (b.octets.length : Int)).toNat : Int)
        = min fi.length b.octets.length := by omega
    have r1 : String.mk (fmt_u fi.start.toNat) = Nat.repr fi.start.toNat := by
      rw [fmt_u_repr, Nat.mod_eq_of_lt (by omega)]
    have r2 : String.mk (fmt_u (min fi.length (b.octets.length : Int)).toNat)
        = Nat.repr (min fi.length (b.octets.length : Int)).toNat := by
      rw [fmt_u_repr, Nat.mod_eq_of_lt (by omega)]
    rw [← r1, ← r2]
    rw [dfilter_none_eq env renv fi _ a ht ha, raw_bytes_frame fi b hds hpos hlen,
      if_neg (by omega), read_octets_ok b _ fi.start h0 (by rw [hLn]; exact hin), hLn]
    obtain ⟨d1, l1⟩ := fmt_d_nonneg fi.start h0 hstart
    obtain ⟨d2, l2⟩ := fmt_d_nonneg (min fi.length b.octets.length) (by omega) (by omega)
    have hsl := span_length b fi.start (min fi.length b.octets.length) h0 (by omega) hin
    have hne : span b fi.start (min fi.length b.octets.length) ≠ [] := by
      intro hnil
      rw [hnil] at hsl
      simp only [List.length_nil, Nat.cast_zero] at hsl
      omega
    have hhex := hex_octets_length _ (span_lt b fi.start (min fi.length b.octets.length)) hne
    simp only [Except.bind, sprintf_frame, d1, d2]
    unfold write_all
    rw [if_pos]
    simp only [String.length_append]
    show "frame[".length + (fmt_u fi.start.toNat).length + ":".length
      + (fmt_u (min fi.length (b.octets.length : Int)).toNat).length + "] == ".length
      + (hex_octets (span b fi.start (min fi.length b.octets.length))).length < _
    have c1 : "frame[".length = 6 := rfl
    have c2 : ":".length = 1 := rfl
    have c3 : "] == ".length = 5 := rfl
    rw [c1, c2, c3]
    omega
  · intro b hds hL hout
    have hpos : 0 < fi.length := by omega
    have hLn : ((min fi.length (b.octets.length : Int)).toNat : Int)
        = min fi.length b.octets.length := by omega
    rw [dfilter_none_eq env renv fi _ a ht ha, raw_bytes_frame fi b hds hpos hlen,
      if_neg (by omega),
      read_octets_fault b _ fi.start (by omega) (by rw [hLn]; exact hout)]
    rfl

/-- C30 on the frame of ten octets `de ad be ef 00 01 02 03 04 05`: the payload
of type None at the octets 1 and 2 gives `frame[1:2] == ad:be`; without a
context nothing is returned. -/
theorem C30_raw_bytes_fallback_witness :
    proto_construct_dfilter_string plain_env plain_repr (none_fi 1 2) (some frame_edt)
      = .ok (some "frame[1:2] == ad:be") ∧
    proto_construct_dfilter_string plain_env plain_repr (none_fi 1 2) none = .ok none :=
  ⟨(C30_raw_bytes_fallback plain_env plain_repr (none_fi 1 2) "" (by rfl) (by rfl)
      (by decide) (by decide)).2.2.2.1 (buffer_of [0xde, 0xad, 0xbe, 0xef, 0, 1, 2, 3, 4, 5])
      (by rfl) (by decide) (by decide) (by decide),
    (C30_raw_bytes_fallback plain_env plain_repr (none_fi 1 2) "" (by rfl) (by rfl)
      (by decide) (by decide)).1⟩

/-- C31 (as stated, refuted): the statement that every field descriptor with
a non-empty name and abbreviation has its abbreviation on an F line of
`proto_registrar_dump_fields` fails: after protocol `Foo` with the filter name
`foo` and a field with the abbreviation `foo`, the dump is the P line alone,
the field having the protocol as its `same_name_prev`. -/
theorem C31_field_dump_counterexample :
    ¬ (∀ (ftype_name : ftenum → String) (r : registrar) (out : List (Nat × String)),
        Reachable r → proto_registrar_dump_fields ftype_name r = .ok out →
        ∀ (i : Nat) (x : header_field_info), r.gpa_hfinfo[i]? = some x →
          filterable x = true → x.parent ≠ -1 →
          ∃ (j : Nat) (y : header_field_info) (line : String), (j, line) ∈ out ∧
            r.gpa_hfinfo[j]? = some y ∧ y.parent ≠ -1 ∧ y.abbrev_ = x.abbrev_) := by
  intro h
  have hd : proto_registrar_dump_fields example_ftype_name shadowed_state =
      .ok [(1, "P\tFoo\tfoo\n")] := by rfl
  obtain ⟨j, y, line, h1, h2, h3, _⟩ :=
    h example_ftype_name shadowed_state _ shadowed_state_reachable hd 2
      { hf_entry "Present" "foo" FT_BOOLEAN 0 none 0 (some "") with
          parent := 1, id := 2, same_name_prev := some 1 }
      (by rfl) (by rfl) (by decide)
  simp only [List.mem_singleton, Prod.mk.injEq] at h1
  obtain ⟨rfl, _⟩ := h1
  have h4 : y = { hf_entry "Foo" "foo" FT_PROTOCOL 0 none 0 (some "") with
           parent := -1, id := 1, same_name_next := some 2 } := by
    have : shadowed_state.gpa_hfinfo[1]? = some { hf_entry "Foo" "foo" FT_PROTOCOL 0 none 0
        (some "") with parent := -1, id := 1, same_name_next := some 2 } := by rfl
    rw [this] at h2
    exact (Option.some.inj h2).symm
  rw [h4] at h3
  exact h3 rfl

/-- C31 (as the code has it): in a registrar reached by registrations,
`proto_registrar_dump_fields` returns once every field descriptor it prints
has a valid parent and a description, and when it returns its lines are in
strictly increasing handle order; no line is printed for a descriptor with an
empty name or abbreviation; every other descriptor with parent -1 gets its P
line of name and abbreviation; a field descriptor gets a line exactly when its
`same_name_prev` is absent, which is when no earlier descriptor, protocol or
field, was entered under its abbreviation, and the line is the F line of
name, abbreviation, type name, parent abbreviation and description; so of the
fields that share an abbreviation at most one is printed, the one registered
first. -/
theorem C31_field_dump (ftype_name : ftenum → String) (r : registrar) (hr : Reachable r) :
    ((∀ (i : Nat) (x : header_field_info), r.gpa_hfinfo[i]? = some x →
        filterable x = true → x.parent ≠ -1 → x.same_name_prev = none →
        (0 ≤ x.parent ∧ x.parent < (r.gpa_hfinfo.length : Int)) ∧ x.blurb ≠ none) →
      ∃ out, proto_registrar_dump_fields ftype_name r = .ok out) ∧
    ∀ out, proto_registrar_dump_fields ftype_name r = .ok out →
      (out.map Prod.fst).Pairwise (fun a b => a < b) ∧
      (∀ (i : Nat) (x : header_field_info), r.gpa_hfinfo[i]? = some x →
        filterable x = false → i ∉ out.map Prod.fst) ∧
      (∀ (i : Nat) (x : header_field_info), r.gpa_hfinfo[i]? = some x →
        filterable x = true → x.parent = -1 →
        ∀ line, (i, line) ∈ out ↔
          line = "P\t" ++ x.name.getD "" ++ "\t" ++ x.abbrev_.getD "" ++ "\n") ∧
      (∀ (i : Nat) (x : header_field_info), r.gpa_hfinfo[i]? = some x →
        filterable x = true → x.parent ≠ -1 →
        (i ∈ out.map Prod.fst ↔ x.same_name_prev = none) ∧
        (x.same_name_prev = none ↔
          ∀ (j : Nat) (y : header_field_info), j < i → r.gpa_hfinfo[j]? = some y →
            under (x.abbrev_.getD "") y = false) ∧
        ∀ line, (i, line) ∈ out →
          ∃ p, proto_registrar_get_nth r x.parent = .ok p ∧
            line = "F\t" ++ x.name.getD "" ++ "\t" ++ x.abbrev_.getD "" ++ "\t" ++
              ftype_name x.type ++ "\t" ++ p.abbrev_.getD "" ++ "\t" ++ x.blurb.getD "" ++
              "\n") ∧
      (∀ (i j : Nat) (x y : header_field_info), r.gpa_hfinfo[i]? = some x →
        r.gpa_hfinfo[j]? = some y → x.parent ≠ -1 → y.parent ≠ -1 →
        x.abbrev_ = y.abbrev_ → i ∈ out.map Prod.fst → j ∈ out.map Prod.fst → i = j) := by
  have ha : accepted_inv r := reachable_accepted _ _ _ accepted_inv_new hr
  have hl : link_inv r := reachable_link _ _ _ link_inv_new hr
  have hrange : ∀ i, i ∈ List.range r.gpa_hfinfo.length →
      ∃ x, r.gpa_hfinfo[i]? = some x := by
    intro i hi
    exact ⟨_, List.getElem?_eq_getElem (List.mem_range.1 hi)⟩
  have hin : ∀ (i : Nat) (x : header_field_info), r.gpa_hfinfo[i]? = some x →
      i ∈ List.range r.gpa_hfinfo.length := by
    intro i x hx
    rw [List.mem_range]
    by_contra hc
    rw [List.getElem?_eq_none (by omega)] at hx
    cases hx
  refine ⟨?_, ?_⟩
  · intro hyp
    refine dump_fields_loop_total ftype_name r _ ?_
    intro i hi
    obtain ⟨x, hx⟩ := hrange i hi
    obtain ⟨c1, c2, c3, _, c5⟩ := dump_fields_entry_cases ftype_name r ha i x hx
    cases hf : filterable x with
    | false => exact ⟨_, c1 hf⟩
    | true =>
      by_cases hp : x.parent = -1
      · exact ⟨_, c2 hf hp⟩
      · by_cases hs : x.same_name_prev = none
        · obtain ⟨h1, h2⟩ := hyp i x hx hf hp hs
          exact c5 hf hp hs h1 h2
        · exact ⟨_, c3 hf hp hs⟩
  · intro out hout
    obtain ⟨hok, hsub, hmem⟩ := dump_fields_loop_mem ftype_name r _ out hout
    have hfst : ∀ i, i ∈ out.map Prod.fst ↔
        ∃ line, dump_fields_entry ftype_name r i = .ok (some line) ∧
          i ∈ List.range r.gpa_hfinfo.length := by
      intro i
      rw [List.mem_map]
      constructor
      · rintro ⟨⟨j, line⟩, h1, h2⟩
        cases h2
        exact ⟨line, ((hmem _ line).1 h1).2, ((hmem _ line).1 h1).1⟩
      · rintro ⟨line, h1, h2⟩
        exact ⟨(i, line), (hmem i line).2 ⟨h2, h1⟩, rfl⟩
    have hfield : ∀ (i : Nat) (x : header_field_info), r.gpa_hfinfo[i]? = some x →
        x.parent ≠ -1 → i ∈ out.map Prod.fst →
        filterable x = true ∧ x.same_name_prev = none := by
      intro i x hx hp hi
      obtain ⟨line, h1, _⟩ := (hfst i).1 hi
      obtain ⟨c1, _, c3, _, _⟩ := dump_fields_entry_cases ftype_name r ha i x hx
      cases hf : filterable x with
      | false => rw [c1 hf] at h1; cases h1
      | true =>
        refine ⟨rfl, ?_⟩
        by_contra hs
        rw [c3 hf hp hs] at h1
        cases h1
    refine ⟨?_, ?_, ?_, ?_, ?_⟩
    · exact List.Pairwise.sublist hsub (List.pairwise_lt_range _)
    · intro i x hx hf hi
      obtain ⟨line, h1, _⟩ := (hfst i).1 hi
      rw [(dump_fields_entry_cases ftype_name r ha i x hx).1 hf] at h1
      cases h1
    · intro i x hx hf hp line
      rw [hmem i line, (dump_fields_entry_cases ftype_name r ha i x hx).2.1 hf hp]
      constructor
      · rintro ⟨_, h1⟩
        cases h1
        rfl
      · intro h1
        exact ⟨hin i x hx, by rw [h1]⟩
    · intro i x hx hf hp
      obtain ⟨_, _, c3, c4, _⟩ := dump_fields_entry_cases ftype_name r ha i x hx
      refine ⟨?_, prev_none_iff r hl i x hx hf, ?_⟩
      · constructor
        · intro hi
          exact (hfield i x hx hp hi).2
        · intro hs
          obtain ⟨e, he⟩ := hok i (hin i x hx)
          obtain ⟨p, _, h2⟩ := c4 hf hp hs e he
          rw [hfst]
          exact ⟨_, by rw [he, h2], hin i x hx⟩
      · intro line h1
        have h2 := (hmem i line).1 h1
        have hs : x.same_name_prev = none :=
          (hfield i x hx hp (List.mem_map.2 ⟨(i, line), h1, rfl⟩)).2
        obtain ⟨p, h3, h4⟩ := c4 hf hp hs _ h2.2
        exact ⟨p, h3, Option.some.inj h4⟩
    · intro i j x y hx hy hpx hpy hab hi hj
      obtain ⟨hfx, hsx⟩ := hfield i x hx hpx hi
      obtain ⟨hfy, hsy⟩ := hfield j y hy hpy hj
      have hx1 := (prev_none_iff r hl i x hx hfx).1 hsx
      have hy1 := (prev_none_iff r hl j y hy hfy).1 hsy
      rcases Nat.lt_trichotomy i j with h | h | h
      · have := hy1 i x h hx
        simp [under, hfx, hab] at this
      · exact h
      · have := hx1 j y h hy
        simp [under, hfy, hab] at this

/-- C31 on a closed example: after protocol `Foo` and two bit-slices under
`foo.flags`, the dump is the P line of the protocol and the F line of the
slice registered first. -/
theorem C31_field_dump_witness :
    Reachable described_state ∧
    proto_registrar_dump_fields example_ftype_name described_state =
      .ok [(1, "P\tFoo\tfoo\n"), (2, "F\tFlags\tfoo.flags\tFT_UINT8\tfoo\tLow bits\n")] ∧
    ([(1, "P\tFoo\tfoo\n"), (2, "F\tFlags\tfoo.flags\tFT_UINT8\tfoo\tLow bits\n")].map
      Prod.fst).Pairwise (fun a b => a < b) :=
  ⟨described_state_reachable, by rfl,
    ((C31_field_dump example_ftype_name described_state described_state_reachable).2 _
      (by rfl)).1⟩

/-- C32: in every registrar reached by registrations the protocol list is
sorted by short name under `g_strcasecmp`, strictly; the iteration with
`proto_get_first_protocol` and `proto_get_next_protocol` until -1 meets the
handles of the protocols of the list in list order, each once, and
`proto_get_first_protocol` returns -1 when the list is empty;
`proto_registrar_dump_protocols` prints the line of name, short name and
filter name of each protocol in the same order. -/
theorem C32_protocol_list_order (r : registrar) (hr : Reachable r) :
    r.protocols.Pairwise (fun p q => g_strcasecmp p.short_name q.short_name < 0) ∧
    protocol_handles r = .ok (r.protocols.map (fun p => p.proto_id)) ∧
    (r.protocols.map (fun p => p.proto_id)).Nodup ∧
    (r.protocols = [] → ∀ cookie, proto_get_first_protocol r cookie = (-1, cookie)) ∧
    proto_registrar_dump_protocols r =
      .ok (r.protocols.map (fun p =>
        p.name ++ "\t" ++ p.short_name ++ "\t" ++ p.filter_name ++ "\n")) := by
  obtain ⟨h1, h2, h3⟩ := reachable_list _ _ r list_inv_new hr
  obtain ⟨_, n2, _⟩ := reachable_names _ _ r names_inv_new hr
  have hne : ∀ p ∈ r.protocols, p.proto_id ≠ -1 := by
    intro p hp
    have := (h3 _ (List.mem_map.2 ⟨p, hp, rfl⟩)).1
    simp only [static_part] at this
    omega
  refine ⟨?_, ?_, h2, ?_, ?_⟩
  · rw [List.pairwise_map] at h1
    have n3 : r.protocols.Pairwise
        (fun p q => casefold p.short_name ≠ casefold q.short_name) := by
      have := n2
      unfold List.Nodup at this
      rw [List.pairwise_map] at this
      exact this
    refine (h1.and n3).imp ?_
    intro p q hpq
    have hle : g_strcasecmp p.short_name q.short_name ≤ 0 := hpq.1
    have hn : g_strcasecmp p.short_name q.short_name ≠ 0 :=
      fun e => hpq.2 ((g_strcasecmp_eq_zero _ _).1 e)
    omega
  · unfold protocol_handles proto_get_first_protocol
    cases hps : r.protocols with
    | nil => rfl
    | cons p rest =>
      rw [hps] at hne
      exact protocol_loop_all (fun i => pure i) (fun p => p.proto_id) rest p
        (fun q hq => ⟨hne q hq, rfl⟩)
  · intro he cookie
    unfold proto_get_first_protocol
    rw [he]
  · unfold proto_registrar_dump_protocols proto_get_first_protocol
    cases hps : r.protocols with
    | nil => rfl
    | cons p rest =>
      refine protocol_loop_all (dump_protocol_line r) _ rest p ?_
      intro q hq
      rw [hps] at hne
      refine ⟨hne q hq, ?_⟩
      have hf := find_protocol_mem r.protocols h2 q (by rw [hps]; exact hq)
      unfold dump_protocol_line find_protocol_by_id
      rw [hf]
      simp only [deref, bind, Except.bind, pure, Except.pure, Except.ok.injEq]
      apply String.ext
      simp [sprintf, expand, String.data_append]

/-- C32 at `two_protocols`, where `Zeta` was registered before `Alpha`: the
list has `alpha` before `ZETA`, the iteration gives the handles 2 and 1, and
the dump prints the line of `Alpha` before that of `Zeta`. -/
theorem C32_protocol_list_order_witness :
    two_protocols.protocols.map (fun p => p.short_name) = ["alpha", "ZETA"] ∧
    protocol_handles two_protocols = .ok [2, 1] ∧
    proto_registrar_dump_protocols two_protocols
      = .ok ["Alpha\talpha\talpha\n", "Zeta\tZETA\tzeta\n"] ∧
    two_protocols.protocols.Pairwise
      (fun p q => g_strcasecmp p.short_name q.short_name < 0) :=
  ⟨rfl, rfl, rfl, (C32_protocol_list_order two_protocols two_protocols_reachable).1⟩

/-- C33: (1) after a successful `proto_register_protocol` on a registrar
reached by registrations, the new protocol is enabled and can be disabled;
(2) for a registered protocol, `proto_set_decoding` fails, on its assertion,
iff `enabled` is false and the protocol cannot be disabled, and otherwise
returns a state in which the protocol has `is_enabled = enabled` and every
other handle finds the record it found before; (3) after
`proto_set_cant_disable` on an enabled protocol, `proto_is_protocol_enabled`
is true in every state that later successful calls of the registration
routines, of `proto_set_decoding` and of `proto_set_cant_disable` lead to. -/
theorem C33_enable_flags (r : registrar) (hr : Reachable r) :
    (∀ chunk name short_name filter_name r1 id,
      proto_register_protocol r chunk name short_name filter_name = .ok (r1, id) →
      proto_is_protocol_enabled r1 id = .ok true ∧
      proto_can_disable_protocol r1 id = .ok true) ∧
    (∀ id p enabled, find_protocol_by_id r id = some p →
      (proto_set_decoding r id enabled = .error fault.assertion ↔
        (enabled = false ∧ p.can_disable = false)) ∧
      (¬ (enabled = false ∧ p.can_disable = false) →
        ∃ r1, proto_set_decoding r id enabled = .ok r1 ∧
          find_protocol_by_id r1 id = some { p with is_enabled := enabled } ∧
          ∀ k, k ≠ id → find_protocol_by_id r1 k = find_protocol_by_id r k)) ∧
    (∀ id p r1 r2, find_protocol_by_id r id = some p → p.is_enabled = true →
      proto_set_cant_disable r id = .ok r1 → Later r1 r2 →
      proto_is_protocol_enabled r2 id = .ok true) := by
  obtain ⟨_, _, hbound⟩ := reachable_list _ _ r list_inv_new hr
  have hb : ∀ q ∈ r.protocols, q.proto_id < (r.gpa_hfinfo.length : Int) :=
    fun q hq => (hbound _ (List.mem_map.2 ⟨q, hq, rfl⟩)).2
  refine ⟨?_, ?_, ?_⟩
  · intro chunk name short_name filter_name r1 id hcall
    obtain ⟨_, hid, _, _, hps⟩ := register_protocol_ok _ _ _ _ _ _ _ hcall
    have hfind : find_protocol_by_id r1 id = some (new_protocol r name short_name filter_name)
        := by
      unfold find_protocol_by_id
      rw [hps]
      refine find_custom_insert_sorted _ _ _ _ ?_ ?_
      · simp [compare_proto_id, new_protocol, hid]
      · intro x hx
        have := hb x hx
        simp only [compare_proto_id]
        rw [if_neg (by omega)]
        decide
    unfold proto_is_protocol_enabled proto_can_disable_protocol
    rw [hfind]
    exact ⟨rfl, rfl⟩
  · intro id p enabled hp
    rw [set_decoding_eq r id enabled p hp]
    refine ⟨?_, ?_⟩
    · constructor
      · intro h
        by_contra hn
        rw [if_neg hn] at h
        cases h
      · intro h
        rw [if_pos h]
    · intro hn
      rw [if_neg hn]
      refine ⟨_, rfl, ?_, ?_⟩
      · unfold find_protocol_by_id at hp ⊢
        simp only []
        rw [find_update id id (fun q => { q with is_enabled := enabled }) (fun _ => rfl),
          if_pos rfl, hp]
        rfl
      · intro k hk
        unfold find_protocol_by_id
        simp only []
        rw [find_update id k (fun q => { q with is_enabled := enabled }) (fun _ => rfl),
          if_neg hk]
  · intro id p r1 r2 hp he hcall hlater
    rw [set_cant_disable_eq r id p hp] at hcall
    simp only [Except.ok.injEq] at hcall
    have hl : locked id r1 := by
      rw [← hcall]
      refine ⟨?_, mem_update_bound id (fun q => { q with can_disable := false })
        (fun _ => rfl) _ _ hb⟩
      unfold find_protocol_by_id at hp ⊢
      simp only []
      rw [find_update id id (fun q => { q with can_disable := false }) (fun _ => rfl),
        if_pos rfl, hp]
      exact ⟨_, rfl, he, rfl⟩
    obtain ⟨⟨q, hq, hqe, _⟩, _⟩ := later_locked id r1 r2 hl hlater
    unfold proto_is_protocol_enabled
    rw [hq]
    simp only [deref, bind, Except.bind, pure, Except.pure, hqe]

/-- C33 at `two_protocols`: `proto_set_decoding(1, FALSE)` succeeds while
`Zeta` can be disabled; after `proto_set_cant_disable(1)` it fails on the
assertion, and `Zeta` is still enabled after `Alpha` was disabled. -/
theorem C33_enable_flags_witness :
    (∃ r1, proto_set_decoding two_protocols 1 false = .ok r1 ∧
      proto_is_protocol_enabled r1 1 = .ok false) ∧
    (∃ r1 r2, proto_set_cant_disable two_protocols 1 = .ok r1 ∧
      proto_set_decoding r1 1 false = .error fault.assertion ∧
      proto_set_decoding r1 2 false = .ok r2 ∧
      proto_is_protocol_enabled r2 2 = .ok false ∧
      proto_is_protocol_enabled r2 1 = .ok true) :=
  ⟨⟨_, rfl, rfl⟩, _, _, rfl, rfl, rfl, rfl,
    (C33_enable_flags two_protocols two_protocols_reachable).2.2 1 _ _ _ (by rfl) (by rfl)
      (by rfl) (@Later.set_decoding _ _ _ 2 false Later.start (by rfl))⟩

/-- C34: for a payload of type Uint8, Uint16, Uint24, Uint32 or FrameNum
without bitmask and value map, whose descriptor has the name `n`,
`proto_item_fill_label` writes the bounded print of `n ++ ": " ++ r`, where
`r` is the stored value in unsigned decimal for a FrameNum and for the base
Dec, in octal for the base Oct, and `0x` followed by the lowercase hexadecimal
digits, with zeros in front up to twice the width in octets, for the base Hex;
a Uint16 Dec field named `Id` that holds 300 gets `Id: 300`. -/
theorem C34_unsigned_label (size : Nat) (env : label_env) (fi : field_info) (n : String)
    (hs : 0 < size) (ht : fi.hfinfo.type ∈ uint_types ++ [FT_FRAMENUM])
    (hm : fi.hfinfo.bitmask = 0) (hstr : fi.hfinfo.strings = none)
    (hn : fi.hfinfo.name = some n) :
    (fi.hfinfo.type = FT_FRAMENUM ∨ fi.hfinfo.display = BASE_DEC →
      proto_item_fill_label size env fi =
        .ok (snprintf size
          (n ++ ": " ++ Nat.repr (fvalue_get_integer fi.value % 2 ^ 32)))) ∧
    (fi.hfinfo.type ≠ FT_FRAMENUM → fi.hfinfo.display = BASE_OCT →
      proto_item_fill_label size env fi =
        .ok (snprintf size
          (n ++ ": " ++ String.mk (Nat.toDigits 8 (fvalue_get_integer fi.value % 2 ^ 32))))) ∧
    (fi.hfinfo.type ≠ FT_FRAMENUM → fi.hfinfo.display = BASE_HEX →
      ∀ w : Int, fixed_width fi.hfinfo.type = some w →
      proto_item_fill_label size env fi =
        .ok (snprintf size
          (n ++ ": 0x" ++ String.mk
            (List.replicate ((2 * w).toNat -
                (Nat.toDigits 16 (fvalue_get_integer fi.value % 2 ^ 32)).length) '0' ++
              Nat.toDigits 16 (fvalue_get_integer fi.value % 2 ^ 32))))) ∧
    (7 < size →
      proto_item_fill_label size env (integer_fi hf_id 2 300) = .ok "Id: 300") := by
  rw [fill_label_plain_uint size env fi ht hm hstr]
  refine ⟨?_, ?_, ?_, ?_⟩
  · intro h
    have hf : hfinfo_uint_format fi.hfinfo = .ok "%s: %u" := by
      unfold hfinfo_uint_format
      rcases h with h | h
      · rw [if_pos h]; rfl
      · by_cases h1 : fi.hfinfo.type = FT_FRAMENUM
        · rw [if_pos h1]; rfl
        · rw [if_neg h1, if_pos h]; rfl
    rw [fill_label_uint_format size hs fi n _ hn hf, sprintf_label_u, fmt_u_repr]
  · intro h1 h2
    have hf : hfinfo_uint_format fi.hfinfo = .ok "%s: %o" := by
      unfold hfinfo_uint_format
      rw [if_neg h1, h2]
      rfl
    rw [fill_label_uint_format size hs fi n _ hn hf, sprintf_label_o, fmt_o_digits]
  · intro h1 h2 w hw
    simp only [uint_types, List.cons_append, List.nil_append, List.mem_cons,
      List.mem_singleton, List.not_mem_nil, or_false] at ht
    rcases ht with h | h | h | h | h
    · have hf : hfinfo_uint_format fi.hfinfo = .ok "%s: 0x%02x" := by
        unfold hfinfo_uint_format
        rw [h, h2]; rfl
      rw [h] at hw
      cases hw
      rw [fill_label_uint_format size hs fi n _ hn hf, sprintf_label_x2, fmt_x_digits]
      rfl
    · have hf : hfinfo_uint_format fi.hfinfo = .ok "%s: 0x%04x" := by
        unfold hfinfo_uint_format
        rw [h, h2]; rfl
      rw [h] at hw
      cases hw
      rw [fill_label_uint_format size hs fi n _ hn hf, sprintf_label_x4, fmt_x_digits]
      rfl
    · have hf : hfinfo_uint_format fi.hfinfo = .ok "%s: 0x%06x" := by
        unfold hfinfo_uint_format
        rw [h, h2]; rfl
      rw [h] at hw
      cases hw
      rw [fill_label_uint_format size hs fi n _ hn hf, sprintf_label_x6, fmt_x_digits]
      rfl
    · have hf : hfinfo_uint_format fi.hfinfo = .ok "%s: 0x%08x" := by
        unfold hfinfo_uint_format
        rw [h, h2]; rfl
      rw [h] at hw
      cases hw
      rw [fill_label_uint_format size hs fi n _ hn hf, sprintf_label_x8, fmt_x_digits]
      rfl
    · exact absurd h h1
  · intro h7
    have e : proto_item_fill_label size env (integer_fi hf_id 2 300) =
        label_write size "" "Id: 300" := by rfl
    rw [e]
    exact label_write_large size "" "Id: 300" (by
      have : ("" ++ "Id: 300" : String).length = 7 := by rfl
      omega)

/-- C34 on a closed example: a Uint8 field named `Version` with the base Hex
that holds 5 gets the label `Version: 0x05` in a buffer of 240 octets. -/
theorem C34_unsigned_label_witness :
    proto_item_fill_label 240 plain_env
        (integer_fi (hf_entry "Version" "foo.ver" FT_UINT8 BASE_HEX none 0 none) 1 5) =
      .ok "Version: 0x05" ∧
    proto_item_fill_label 240 plain_env (integer_fi hf_id 2 300) = .ok "Id: 300" :=
  have h := C34_unsigned_label 240 plain_env
    (integer_fi (hf_entry "Version" "foo.ver" FT_UINT8 BASE_HEX none 0 none) 1 5) "Version"
    (by decide) (by decide) rfl rfl rfl
  ⟨(h.2.2.1 (by decide) rfl 1 rfl).trans (by rfl), h.2.2.2 (by decide)⟩

/-- C35, as stated, fails for a label that does not fit the buffer: for the
Boolean field without bitmask whose name has 300 characters, the value 1 and
the buffer of 240 octets, the label is the first 239 characters of the name,
which does not end with the name followed by `: True`. -/
theorem C35_boolean_truth_counterexample :
    ¬ (∀ (size : Nat) (fi : field_info) (v : Nat) (n t f : String),
        0 < size → v < 2 ^ 32 → fi.hfinfo.type = FT_BOOLEAN →
        fi.hfinfo.bitmask < 2 ^ 32 →
        (fi.hfinfo.bitmask ≠ 0 →
          fi.hfinfo.bitshift = count_trailing_zeros fi.hfinfo.bitmask) →
        fi.hfinfo.name = some n →
        ((fi.hfinfo.strings = none ∧ t = "True" ∧ f = "False") ∨
          fi.hfinfo.strings = some (hf_strings.tfs t f)) →
        ∃ fi1 s pre, proto_tree_set_boolean fi v = .ok fi1 ∧
          fill_label_boolean size fi1 = .ok s ∧
          s = pre ++ (n ++ ": " ++
            (if (if fi.hfinfo.bitmask ≠ 0 then v &&& fi.hfinfo.bitmask ≠ 0 else v ≠ 0)
              then t else f))) := by
  intro h
  obtain ⟨fi1, s, pre, hset, hlab, hs⟩ := h 240 (integer_fi hf_long_name 1 0) 1
    (String.mk (List.replicate 300 'a')) "True" "False" (by decide) (by decide) rfl
    (by decide) (fun h0 => absurd rfl h0) rfl (Or.inl ⟨rfl, rfl, rfl⟩)
  have e1 : proto_tree_set_boolean (integer_fi hf_long_name 1 0) 1 =
      .ok (integer_fi hf_long_name 1 1) := by rfl
  rw [e1] at hset
  cases hset
  rw [fill_label_boolean_unmasked 240 (integer_fi hf_long_name 1 1)
    (String.mk (List.replicate 300 'a')) "True" "False" rfl rfl rfl] at hlab
  have hlt := (label_write_ok 240 _ _ s hlab).2
  have hlen : 300 ≤ s.length := by
    have : (String.mk (List.replicate 300 'a')).length = 300 := by
      show (List.replicate 300 'a').length = 300
      exact List.length_replicate 300 'a'
    rw [hs, String.length_append, String.length_append, String.length_append, this]
    omega
  omega

/-- C35 (as the code has it): for a Boolean field named `n` with the 32-bit
bitmask `m`, whose bitshift is the number of trailing zero bits of `m` when
`m` is not 0, and a 32-bit value `v` set by `proto_tree_set_boolean`, the
stored value is not 0 exactly when `v AND m` is not 0 (when `v` is not 0, for
`m = 0`); with `T` the true string in that case and the false string
otherwise, the strings being the pair of the descriptor, and `True` and
`False` without one, `fill_label_boolean` prints `n ++ ": " ++ T` behind the
bit diagram of `v AND m`, if there is a bitmask, into what is left of the
buffer of `size` octets: the label is the first `size - 1` characters of the
diagram followed by `n ++ ": " ++ T` whenever the diagram, of
`w + (w - 1) / 4 + 3` characters for the display `w`, is shorter than the
buffer, and it is that whole text, which ends with `n ++ ": " ++ T`, when the
text is shorter than the buffer. -/
theorem C35_boolean_truth (size : Nat) (fi : field_info) (v : Nat) (n t f : String)
    (hv : v < 2 ^ 32) (ht : fi.hfinfo.type = FT_BOOLEAN)
    (h32 : fi.hfinfo.bitmask < 2 ^ 32)
    (hbs : fi.hfinfo.bitmask ≠ 0 →
      fi.hfinfo.bitshift = count_trailing_zeros fi.hfinfo.bitmask)
    (hn : fi.hfinfo.name = some n)
    (hstr : (fi.hfinfo.strings = none ∧ t = "True" ∧ f = "False") ∨
      fi.hfinfo.strings = some (hf_strings.tfs t f)) :
    ∃ fi1, proto_tree_set_boolean fi v = .ok fi1 ∧ fi1.hfinfo = fi.hfinfo ∧
      (fvalue_get_integer fi1.value ≠ 0 ↔
        (if fi.hfinfo.bitmask ≠ 0 then v &&& fi.hfinfo.bitmask ≠ 0 else v ≠ 0)) ∧
      (fi.hfinfo.bitmask = 0 →
        fill_label_boolean size fi1 =
          label_write size "" (n ++ ": " ++ (if v ≠ 0 then t else f))) ∧
      (fi.hfinfo.bitmask ≠ 0 →
        fill_label_boolean size fi1 =
          label_write size
            (decode_bitfield_value (v &&& fi.hfinfo.bitmask) fi.hfinfo.bitmask
              fi.hfinfo.display.toNat)
            (n ++ ": " ++ (if v &&& fi.hfinfo.bitmask ≠ 0 then t else f))) ∧
      (fi.hfinfo.bitmask = 0 → (n ++ ": " ++ (if v ≠ 0 then t else f)).length < size →
        fill_label_boolean size fi1 = .ok (n ++ ": " ++ (if v ≠ 0 then t else f))) ∧
      (fi.hfinfo.bitmask ≠ 0 →
        (decode_bitfield_value (v &&& fi.hfinfo.bitmask) fi.hfinfo.bitmask
            fi.hfinfo.display.toNat ++
          (n ++ ": " ++ (if v &&& fi.hfinfo.bitmask ≠ 0 then t else f))).length < size →
        fill_label_boolean size fi1 =
          .ok (decode_bitfield_value (v &&& fi.hfinfo.bitmask) fi.hfinfo.bitmask
              fi.hfinfo.display.toNat ++
            (n ++ ": " ++ (if v &&& fi.hfinfo.bitmask ≠ 0 then t else f)))) ∧
      (fi.hfinfo.bitmask = 0 → 0 < size →
        fill_label_boolean size fi1 =
          .ok (snprintf size (n ++ ": " ++ (if v ≠ 0 then t else f)))) ∧
      (fi.hfinfo.bitmask ≠ 0 →
        fi.hfinfo.display.toNat + (fi.hfinfo.display.toNat - 1) / 4 + 3 < size →
        fill_label_boolean size fi1 =
          .ok (snprintf size
            (decode_bitfield_value (v &&& fi.hfinfo.bitmask) fi.hfinfo.bitmask
                fi.hfinfo.display.toNat ++
              (n ++ ": " ++ (if v &&& fi.hfinfo.bitmask ≠ 0 then t else f))))) := by
  have htf : tfs_of fi.hfinfo.strings = .ok (t, f) := by
    rcases hstr with ⟨h1, h2, h3⟩ | h1
    · rw [h1, h2, h3]; rfl
    · rw [h1]; rfl
  by_cases h0 : fi.hfinfo.bitmask = 0
  · have hset : proto_tree_set_boolean fi v = .ok { fi with value := fvalue.integer v } := by
      unfold proto_tree_set_boolean
      rw [set_uint_ok fi v (Or.inl h0)]
      simp only [bitfield, h0, ne_eq, not_true_eq_false, if_false, Nat.mod_eq_of_lt hv]
    have hlab : fill_label_boolean size { fi with value := fvalue.integer v } =
        label_write size "" (n ++ ": " ++ (if v ≠ 0 then t else f)) := by
      rw [boolean_plain size fi v h0, hn, htf]
      simp only [deref, Except.bind, sprintf_label_s]
    refine ⟨_, hset, rfl, ?_, fun _ => hlab, fun h => absurd h0 h, ?_, fun h => absurd h0 h,
      ?_, fun h => absurd h0 h⟩
    · simp [fvalue_get_integer, h0]
    · intro _ hfit
      rw [hlab]
      exact label_write_large size "" _ (by simpa using hfit)
    · intro _ hsz
      rw [hlab]
      exact label_write_empty size hsz _
  · obtain ⟨hset, hun⟩ := set_uint_unshift fi v h0 h32 (hbs h0)
    rw [Nat.mod_eq_of_lt hv] at hset hun
    have hbw : hfinfo_bitwidth fi.hfinfo = .ok fi.hfinfo.display := by
      unfold hfinfo_bitwidth
      rw [if_neg h0, ht]
      rfl
    have hnz := masked_ne_zero_iff v fi.hfinfo.bitmask h0 h32
    have hlab : fill_label_boolean size
          { fi with
            value := fvalue.integer
              ((v &&& fi.hfinfo.bitmask) >>> count_trailing_zeros fi.hfinfo.bitmask) } =
        label_write size
          (decode_bitfield_value (v &&& fi.hfinfo.bitmask) fi.hfinfo.bitmask
            fi.hfinfo.display.toNat)
          (n ++ ": " ++ (if v &&& fi.hfinfo.bitmask ≠ 0 then t else f)) := by
      rw [boolean_diagram size fi _ _ h0 hun, hbw, hn, htf]
      simp only [deref, Except.bind, sprintf_label_s]
      by_cases hz : v &&& fi.hfinfo.bitmask = 0
      · have : ¬ ((v &&& fi.hfinfo.bitmask) >>> count_trailing_zeros fi.hfinfo.bitmask ≠ 0) := by
          rw [hnz]; simpa using hz
        rw [if_neg this]
        simp [hz]
      · rw [if_pos (hnz.2 hz), if_pos hz]
    refine ⟨_, hset, rfl, ?_, fun h => absurd h h0, fun _ => hlab, fun h => absurd h h0, ?_,
      fun h => absurd h h0, ?_⟩
    · simp only [fvalue_get_integer, h0, ne_eq, not_false_eq_true, if_true]
      exact hnz
    · intro _ hfit
      rw [hlab]
      exact label_write_large size _ _ hfit
    · intro _ hfit
      rw [hlab]
      exact label_write_fits size _ _ (by rw [diagram_length]; exact hfit)

/-- C35 on the scenario of the specification: the flag with the bitmask `0x08`
of eight bits set by the octet `0x5A` gets the diagram and `Urgent: True`, and
`Urgent: False` from the octet `0x52`; in a buffer of 20 octets the label is
cut to its first 19 characters. -/
theorem C35_boolean_truth_witness :
    (∃ fi1, proto_tree_set_boolean
        (integer_fi { hf_entry "Urgent" "foo.urgent" FT_BOOLEAN 8 none 0x08 none with
                      bitshift := 3 } 1 0) 0x5A = .ok fi1 ∧
      fill_label_boolean 240 fi1 = .ok ".... 1... = Urgent: True" ∧
      fill_label_boolean 20 fi1 = .ok ".... 1... = Urgent:") ∧
    (∃ fi1, proto_tree_set_boolean
        (integer_fi { hf_entry "Urgent" "foo.urgent" FT_BOOLEAN 8 none 0x08 none with
                      bitshift := 3 } 1 0) 0x52 = .ok fi1 ∧
      fill_label_boolean 240 fi1 = .ok ".... 0... = Urgent: False") :=
  ⟨match C35_boolean_truth 240
      (integer_fi { hf_entry "Urgent" "foo.urgent" FT_BOOLEAN 8 none 0x08 none with
                    bitshift := 3 } 1 0) 0x5A "Urgent" "True" "False" (by decide) rfl
      (by decide) (fun _ => by decide) rfl (Or.inl ⟨rfl, rfl, rfl⟩) with
    | ⟨fi1, h1, _, _, _, _, _, h6, _, _⟩ =>
      ⟨fi1, h1, (h6 (by decide) (by decide)).trans (by rfl),
        by
          have e : proto_tree_set_boolean
              (integer_fi { hf_entry "Urgent" "foo.urgent" FT_BOOLEAN 8 none 0x08 none with
                            bitshift := 3 } 1 0) 0x5A =
              .ok (integer_fi { hf_entry "Urgent" "foo.urgent" FT_BOOLEAN 8 none 0x08 none
                                with bitshift := 3 } 1 1) := by rfl
          rw [e] at h1
          cases h1
          rfl⟩,
   match C35_boolean_truth 240
      (integer_fi { hf_entry "Urgent" "foo.urgent" FT_BOOLEAN 8 none 0x08 none with
                    bitshift := 3 } 1 0) 0x52 "Urgent" "True" "False" (by decide) rfl
      (by decide) (fun _ => by decide) rfl (Or.inl ⟨rfl, rfl, rfl⟩) with
    | ⟨fi1, h1, _, _, _, _, _, h6, _, _⟩ =>
      ⟨fi1, h1, (h6 (by decide) (by decide)).trans (by rfl)⟩⟩

/-- C36: for a 32-bit value `v` and a descriptor with a non-zero 32-bit
bitmask `m` whose bitshift `s` is the number of trailing zero bits of `m`,
`proto_tree_set_uint` stores `x = (v AND m) >> s`; `(x << s) mod 2^32` is
`v AND m` and `x` is at most `m >> s`; the un-shift of the label routines
gives `v AND m`, and this is the value `fill_label_numeric_bitfield`,
`fill_label_enumerated_bitfield` and `fill_label_boolean` hand to the
bit-diagram renderer. -/
theorem C36_unshift_round_trip (fi : field_info) (v : Nat) (hv : v < 2 ^ 32)
    (h0 : fi.hfinfo.bitmask ≠ 0) (h32 : fi.hfinfo.bitmask < 2 ^ 32)
    (hbs : fi.hfinfo.bitshift = count_trailing_zeros fi.hfinfo.bitmask) :
    ∃ x, x = (v &&& fi.hfinfo.bitmask) >>> fi.hfinfo.bitshift ∧
      proto_tree_set_uint fi v = .ok { fi with value := fvalue.integer x } ∧
      (x <<< fi.hfinfo.bitshift) % 2 ^ 32 = v &&& fi.hfinfo.bitmask ∧
      x ≤ fi.hfinfo.bitmask >>> fi.hfinfo.bitshift ∧
      unshift fi.hfinfo x = .ok (v &&& fi.hfinfo.bitmask) ∧
      (∀ size, fill_label_numeric_bitfield size { fi with value := fvalue.integer x } =
        (hfinfo_bitwidth fi.hfinfo).bind (fun bitwidth =>
          (hfinfo_uint_format fi.hfinfo).bind (fun format =>
            (deref fi.hfinfo.name).bind (fun name =>
              label_write size
                (decode_bitfield_value (v &&& fi.hfinfo.bitmask) fi.hfinfo.bitmask
                  bitwidth.toNat)
                (sprintf format [.str name, .num x]))))) ∧
      (∀ size, fill_label_enumerated_bitfield size { fi with value := fvalue.integer x } =
        (hfinfo_bitwidth fi.hfinfo).bind (fun bitwidth =>
          (hfinfo_uint_vals_format fi.hfinfo).bind (fun format =>
            (deref fi.hfinfo.name).bind (fun name =>
              (cVALS fi.hfinfo.strings).bind (fun table =>
                label_write size
                  (decode_bitfield_value (v &&& fi.hfinfo.bitmask) fi.hfinfo.bitmask
                    bitwidth.toNat)
                  (sprintf format [.str name, .str (val_to_str x table), .num x])))))) ∧
      (∀ size, fill_label_boolean size { fi with value := fvalue.integer x } =
        (hfinfo_bitwidth fi.hfinfo).bind (fun bitwidth =>
          (deref fi.hfinfo.name).bind (fun name =>
            (tfs_of fi.hfinfo.strings).bind (fun tfstring =>
              label_write size
                (decode_bitfield_value (v &&& fi.hfinfo.bitmask) fi.hfinfo.bitmask
                  bitwidth.toNat)
                (sprintf "%s: %s"
                  [.str name, .str (if x ≠ 0 then tfstring.1 else tfstring.2)]))))) := by
  obtain ⟨hk, hrt, hle⟩ := mask_shift_round_trip v fi.hfinfo.bitmask h0 h32
  obtain ⟨hset, hun⟩ := set_uint_unshift fi v h0 h32 hbs
  rw [Nat.mod_eq_of_lt hv] at hset hun
  rw [← hbs] at hrt hle hset hun
  exact ⟨_, rfl, hset, hrt, hle, hun,
    fun size => numeric_bitfield_diagram size fi _ _ hun,
    fun size => enumerated_bitfield_diagram size fi _ _ hun,
    fun size => boolean_diagram size fi _ _ h0 hun⟩

/-- C36 on the scenario of the specification: the octet `0x5A` under the
bitmask `0xF0` is stored as 5, and the un-shift gives `0x50`. -/
theorem C36_unshift_round_trip_witness :
    ∃ x, x = (0x5A &&& 0xF0) >>> 4 ∧
      proto_tree_set_uint
        (integer_fi { hf_entry "Ver" "foo.ver" FT_UINT8 BASE_HEX none 0xF0 none with
                      bitshift := 4 } 1 0) 0x5A =
        .ok (integer_fi { hf_entry "Ver" "foo.ver" FT_UINT8 BASE_HEX none 0xF0 none with
                      bitshift := 4 } 1 x) ∧
      (x <<< 4) % 2 ^ 32 = 0x5A &&& 0xF0 ∧ x ≤ 0xF0 >>> 4 :=
  have h := C36_unshift_round_trip
    (integer_fi { hf_entry "Ver" "foo.ver" FT_UINT8 BASE_HEX none 0xF0 none with
                  bitshift := 4 } 1 0) 0x5A (by decide) (by decide) (by decide) (by decide)
  match h with
  | ⟨x, h1, h2, h3, h4, _⟩ => ⟨x, h1, h2, h3, h4⟩

/-- C37 (as stated, refuted): the statement that the label of a registered
signed field whose value was set by `proto_tree_set_int` is written without an
assertion failure fails for the signed field of one octet with the bitmask
`0x0F`, which `proto_register_field_init` accepts: `proto_item_fill_label`
asserts that a signed field has no bitmask. -/
theorem C37_label_safety_counterexample :
    ¬ (∀ (r : registrar) (i size : Nat) (env : label_env) (fi0 fi : field_info) (v : Int),
        Reachable r → r.gpa_hfinfo[i]? = some fi0.hfinfo →
        fi0.hfinfo.type ∈ sint_types → proto_tree_set_int fi0 v = .ok fi →
        proto_item_fill_label size env fi ≠ .error fault.assertion) := by
  intro h
  exact h signed_mask_state 2 240 plain_env
    (integer_fi { hf_entry "Level" "foo.level" FT_INT8 BASE_DEC none 0x0F none with
                  parent := 1, id := 2 } 1 0)
    (integer_fi { hf_entry "Level" "foo.level" FT_INT8 BASE_DEC none 0x0F none with
                  parent := 1, id := 2 } 1 5) 5
    signed_mask_state_reachable (by rfl) (by decide) (by rfl) (by rfl)

/-- C37 (as the code has it): for a payload whose descriptor is registered,
`proto_item_fill_label` ends in an assertion failure exactly when the field
is a signed integer of at most 32 bits with a bitmask, or an integer of at
most 32 bits other than a frame number whose display base is not Dec, Oct or
Hex, or a 64-bit integer whose display base is not Dec or Hex; unsigned
integers with a bitmask, frame numbers and every other type reach none. An
integer field outside these cases, without bitmask and with no value map or a
table of values, gets its label whenever the buffer has room for the
terminator, and so does a 64-bit field whose value cell points at octets. -/
theorem C37_label_safety (r : registrar) (hr : Reachable r) (i size : Nat)
    (env : label_env) (fi : field_info) (hx : r.gpa_hfinfo[i]? = some fi.hfinfo) :
    (proto_item_fill_label size env fi = .error fault.assertion ↔
      (fi.hfinfo.type ∈ sint_types ∧ fi.hfinfo.bitmask ≠ 0) ∨
      (fi.hfinfo.type ∈ uint_types ++ sint_types ∧
        ¬ (fi.hfinfo.display = BASE_DEC ∨ fi.hfinfo.display = BASE_OCT ∨
          fi.hfinfo.display = BASE_HEX)) ∨
      ((fi.hfinfo.type = FT_UINT64 ∨ fi.hfinfo.type = FT_INT64) ∧
        ¬ (fi.hfinfo.display = BASE_DEC ∨ fi.hfinfo.display = BASE_HEX))) ∧
    (0 < size → fi.hfinfo.type ∈ uint_types ++ sint_types ++ [FT_FRAMENUM] →
      fi.hfinfo.bitmask = 0 →
      (fi.hfinfo.strings = none ∨ ∃ table, fi.hfinfo.strings = some (hf_strings.vals table)) →
      (fi.hfinfo.type = FT_FRAMENUM ∨ fi.hfinfo.display = BASE_DEC ∨
        fi.hfinfo.display = BASE_OCT ∨ fi.hfinfo.display = BASE_HEX) →
      ∃ s, proto_item_fill_label size env fi = .ok s) ∧
    (0 < size → (fi.hfinfo.type = FT_UINT64 ∨ fi.hfinfo.type = FT_INT64) →
      (fi.hfinfo.display = BASE_DEC ∨ fi.hfinfo.display = BASE_HEX) →
      (∃ b, env.fvalue_get fi.value = some b) →
      ∃ s, proto_item_fill_label size env fi = .ok s) := by
  have ha : accepted_inv r := reachable_accepted _ _ _ accepted_inv_new hr
  obtain ⟨n, a, hn, _⟩ := accepted_named r ha i fi.hfinfo hx
  refine ⟨?_, ?_, ?_⟩
  · by_cases hu : fi.hfinfo.type ∈ uint_types
    · rw [fill_label_unsigned_assert size env fi hu]
      have h1 : fi.hfinfo.type ∉ sint_types := by
        simp only [uint_types, sint_types, List.mem_cons, List.mem_singleton,
          List.not_mem_nil, or_false] at hu ⊢
        rcases hu with h | h | h | h <;> simp [h]
      have h2 : ¬ (fi.hfinfo.type = FT_UINT64 ∨ fi.hfinfo.type = FT_INT64) := by
        simp only [uint_types, List.mem_cons, List.mem_singleton,
          List.not_mem_nil, or_false] at hu
        rcases hu with h | h | h | h <;> simp [h]
      simp [h1, h2, hu]
    · by_cases hs : fi.hfinfo.type ∈ sint_types
      · rw [fill_label_signed_assert size env fi hs]
        have h2 : ¬ (fi.hfinfo.type = FT_UINT64 ∨ fi.hfinfo.type = FT_INT64) := by
          simp only [sint_types, List.mem_cons, List.mem_singleton,
            List.not_mem_nil, or_false] at hs
          rcases hs with h | h | h | h <;> simp [h]
        simp [hs, h2]
      · by_cases h64 : fi.hfinfo.type = FT_UINT64 ∨ fi.hfinfo.type = FT_INT64
        · rw [fill_label_64_assert size env fi h64]
          simp [hu, hs, h64]
        · have hno : proto_item_fill_label size env fi ≠ .error fault.assertion := by
            by_cases hf : fi.hfinfo.type = FT_FRAMENUM
            · obtain ⟨hm, hstr⟩ := accepted_framenum r ha i fi.hfinfo hx hf
              exact fill_label_framenum_no_assert size env fi hf hm hstr
            · apply fill_label_other_no_assert
              simp only [List.mem_append, List.mem_cons, List.mem_singleton,
                List.not_mem_nil, or_false, not_or]
              exact ⟨⟨hu, hs⟩, hf, fun h => h64 (Or.inl h), fun h => h64 (Or.inr h)⟩
          simp [hno, hu, hs, h64]
  · intro hsz ht hm hstr hd
    simp only [uint_types, sint_types, List.cons_append, List.nil_append, List.mem_cons,
      List.mem_singleton, List.not_mem_nil, or_false] at ht
    have hfr : fi.hfinfo.type ≠ FT_FRAMENUM → fi.hfinfo.display = BASE_DEC ∨
        fi.hfinfo.display = BASE_OCT ∨ fi.hfinfo.display = BASE_HEX :=
      fun h => hd.resolve_left h
    by_cases hf : fi.hfinfo.type = FT_FRAMENUM
    · obtain ⟨_, hs⟩ := accepted_framenum r ha i fi.hfinfo hx hf
      simp [proto_item_fill_label, fill_label_uint, hfinfo_uint_format, hf, hm, hs, hn,
        deref, label_write_empty size hsz, bind, Except.bind, pure, Except.pure]
    · have hd1 := hfr hf
      rcases hstr with hs | ⟨table, hs⟩
      · rcases ht with h | h | h | h | h | h | h | h | h <;>
          rcases hd1 with d | d | d <;>
          first
          | exact absurd h hf
          | simp [proto_item_fill_label, fill_label_uint, fill_label_int,
              hfinfo_uint_format, hfinfo_int_format, g_assert, h, d, hm, hs, hn, deref,
              label_write_empty size hsz, bind, Except.bind, pure, Except.pure,
              BASE_DEC, BASE_OCT, BASE_HEX]
      · rcases ht with h | h | h | h | h | h | h | h | h <;>
          rcases hd1 with d | d | d <;>
          first
          | exact absurd h hf
          | simp [proto_item_fill_label, fill_label_enumerated_uint,
              fill_label_enumerated_int, hfinfo_uint_vals_format, hfinfo_int_vals_format,
              g_assert, h, d, hm, hs, hn, deref, cVALS,
              label_write_empty size hsz, bind, Except.bind, pure, Except.pure,
              BASE_DEC, BASE_OCT, BASE_HEX]
  · intro hsz ht hd hb
    obtain ⟨b, hb⟩ := hb
    rcases ht with h | h <;> rcases hd with d | d <;>
      simp [proto_item_fill_label, fill_label_uint64, fill_label_int64, h, d, hn, hb, deref,
        label_write_empty size hsz, bind, Except.bind, BASE_DEC, BASE_HEX]

/-- C37 on a closed example: the signed field `Level` with the bitmask `0x0F`
is registered, and its label ends in the assertion failure, by the first of
the three cases. -/
theorem C37_label_safety_witness :
    Reachable signed_mask_state ∧
    proto_item_fill_label 240 plain_env
        (integer_fi { hf_entry "Level" "foo.level" FT_INT8 BASE_DEC none 0x0F none with
                      parent := 1, id := 2 } 1 5) = .error fault.assertion :=
  ⟨signed_mask_state_reachable,
    (C37_label_safety signed_mask_state signed_mask_state_reachable 2 240 plain_env
      (integer_fi { hf_entry "Level" "foo.level" FT_INT8 BASE_DEC none 0x0F none with
                    parent := 1, id := 2 } 1 5) (by rfl)).1.2
      (Or.inl ⟨by decide, by decide⟩)⟩

/-- C38 (as stated, refuted): for the payload of a StringZ field and no
dissection context, `proto_can_match_selected` returns true while
`proto_construct_dfilter_string` returns `NULL`: the first lists StringZ and
UintString among the types that have a value, the second leaves them to the
raw-bytes fallback. -/
theorem C38_match_selected_counterexample :
    ¬ (∀ (env : label_env) (renv : repr_env) (fi : field_info)
        (edt : Option epan_dissect_t),
        proto_can_match_selected fi edt = .ok true ↔
          ∃ s, proto_construct_dfilter_string env renv fi edt = .ok (some s)) := by
  intro h
  obtain ⟨s, hs⟩ := (h plain_env plain_repr stringz_fi none).1 (by rfl)
  have : proto_construct_dfilter_string plain_env plain_repr stringz_fi none = .ok none := by
    rfl
  rw [this] at hs
  cases hs

/-- C38 (what holds): whenever `proto_construct_dfilter_string` returns, for a
payload of a type other than StringZ and UintString `proto_can_match_selected`
returns true exactly when the result is a string, the type None included; for
StringZ and UintString it returns true whatever the context, and the result
without a context is `NULL`. -/
theorem C38_match_selected (env : label_env) (renv : repr_env) (fi : field_info)
    (edt : Option epan_dissect_t) (res : Option String)
    (hc : proto_construct_dfilter_string env renv fi edt = .ok res) :
    (fi.hfinfo.type ≠ FT_STRINGZ → fi.hfinfo.type ≠ FT_UINT_STRING →
      proto_can_match_selected fi edt = .ok res.isSome) ∧
    (fi.hfinfo.type = FT_STRINGZ ∨ fi.hfinfo.type = FT_UINT_STRING →
      proto_can_match_selected fi edt = .ok true ∧ (edt = none → res = none)) := by
  unfold proto_construct_dfilter_string at hc
  dsimp only at hc
  cases ha : fi.hfinfo.abbrev_ with
  | none =>
    rw [ha] at hc
    simp only [deref, bind, Except.bind] at hc
    cases hc
  | some a =>
    rw [ha] at hc
    simp only [deref, bind, Except.bind] at hc
    constructor
    · intro h1 h2
      cases ht : fi.hfinfo.type
      case FT_NONE =>
        rw [ht] at hc
        exact raw_bytes_can_match fi edt ht res hc
      case FT_STRINGZ => exact absurd ht h1
      case FT_UINT_STRING => exact absurd ht h2
      all_goals
        rw [ht] at hc
        simp only [] at hc
        have hsome : res.isSome = true := by
          revert hc
          first
          | (intro hc
             simp only [pure, Except.pure, Except.ok.injEq] at hc
             rw [← hc]
             rfl)
          | (cases hfinfo_numeric_format fi.hfinfo with
             | error e => intro hc; cases hc
             | ok f =>
               intro hc
               simp only [pure, Except.pure, Except.ok.injEq] at hc
               rw [← hc]
               rfl)
          | (cases env.fvalue_get fi.value with
             | none => intro hc; cases hc
             | some b =>
               intro hc
               simp only [pure, Except.pure, Except.ok.injEq] at hc
               rw [← hc]
               rfl)
          | (generalize write_all _ _ = w
             cases w with
             | error e => intro hc; cases hc
             | ok b =>
               intro hc
               simp only [pure, Except.pure, Except.ok.injEq] at hc
               rw [← hc]
               rfl)
        rw [hsome]
        unfold proto_can_match_selected
        simp only [ht]
        rfl
    · intro ht
      constructor
      · unfold proto_can_match_selected
        rcases ht with ht | ht <;> simp only [ht] <;> rfl
      · intro he
        subst he
        rcases ht with ht | ht <;>
          · rw [ht] at hc
            simp only [dfilter_raw_bytes, pure, Except.pure, Except.ok.injEq] at hc
            exact hc.symm

/-- C38 on closed examples: the protocol payload can be matched and gets its
abbreviation; a payload of type None over four octets of the frame can be
matched and gets the raw-bytes string. -/
theorem C38_match_selected_witness :
    proto_can_match_selected (none_fi 0 4) (some frame_edt) = .ok true ∧
    proto_construct_dfilter_string plain_env plain_repr (none_fi 0 4) (some frame_edt) =
      .ok (some "frame[0:4] == de:ad:be:ef") ∧
    proto_can_match_selected (none_fi 0 4) none = .ok false :=
  ⟨(C38_match_selected plain_env plain_repr (none_fi 0 4) (some frame_edt)
      (some "frame[0:4] == de:ad:be:ef") (by rfl)).1 (by decide) (by decide),
   by rfl, by rfl⟩

/-- C39: in every tree built from `proto_tree_create_root` by the add
operations (plain, hidden and format variants), `proto_item_set_text`,
`proto_item_append_text`, `proto_item_set_len`, `proto_item_set_end`,
`proto_item_add_subtree` and `proto_tree_set_visible`, a payload that has a
representation is visible; so `proto_item_set_text` on an item of such a tree
either replaces the label of a visible payload by the new one, or finds a
payload that is not visible and has no label, which it leaves as it is. -/
theorem C39_representation_visible (r : registrar) (num_tree_types : Int) (size : Nat)
    (env : label_env) (t : ptree) (h : Dissected r num_tree_types size env t) :
    (∀ (q : List Nat) (fi : field_info), finfo_at t.root q = some fi →
      fi.representation ≠ none → fi.visible = true) ∧
    (∀ (pi : List Nat) (text : String) (t1 : ptree),
      proto_item_set_text size t (some pi) text = .ok t1 →
      ∃ fi fi1, finfo_at t.root pi = some fi ∧ finfo_at t1.root pi = some fi1 ∧
        ((fi.visible = true ∧ fi1.representation = some (snprintf size text)) ∨
          (fi.visible = false ∧ fi.representation = none ∧ fi1 = fi))) := by
  have hinv := dissected_repr_visible r num_tree_types size env t h
  refine ⟨hinv, ?_⟩
  intro pi text t1 hset
  obtain ⟨fi, hfi, ht1⟩ := set_representation_shape size t t1 pi text hset
  refine ⟨fi, set_representation size fi text, hfi, ?_, ?_⟩
  · rw [ht1]
    simp only [finfo_at_update, if_true, hfi, Option.map_some']
  · unfold set_representation
    cases hv : fi.visible with
    | true => exact Or.inl ⟨rfl, by simp⟩
    | false =>
      refine Or.inr ⟨rfl, ?_, by simp⟩
      by_contra hc
      rw [hinv pi fi hfi hc] at hv
      cases hv

/-- C39 on a closed example: the protocol item added under the root of a
visible tree and given a text is visible, and so is every payload with a
representation. -/
theorem C39_representation_visible_witness :
    ∃ t1 t2, proto_tree_add_item dissect_state 1
        (proto_tree_set_visible proto_tree_create_root true) (some []) 1
        (some (buffer_of [1, 2])) 0 (-1) false = .ok (some [0], t1) ∧
      proto_item_set_text 240 t1 (some [0]) "Foo Protocol" = .ok t2 ∧
      (finfo_at t2.root [0]).map (fun fi => (fi.representation, fi.visible))
        = some (some "Foo Protocol", true) ∧
      ∀ (q : List Nat) (fi : field_info), finfo_at t2.root q = some fi →
        fi.representation ≠ none → fi.visible = true :=
  ⟨_, _, rfl, rfl, rfl,
    (C39_representation_visible dissect_state 1 240 plain_env _
      (Dissected.set_text
        (Dissected.add_item (Dissected.set_visible true Dissected.root)
          (show proto_tree_add_item dissect_state 1
            (proto_tree_set_visible proto_tree_create_root true) (some []) 1
            (some (buffer_of [1, 2])) 0 (-1) false = .ok (some [0], _) from rfl))
        (show proto_item_set_text 240 _ (some [0]) "Foo Protocol" = .ok _ from rfl))).1⟩

/-- C40: (a) in the raw-bytes fallback of `proto_construct_dfilter_string`,
for a payload of the frame with a start from 0 to 2^31 - 1 and a clipped
length `L` of at least 1, the buffer of `32 + 3 * L` octets is never overrun:
the text `frame[S:L] == ` with the `L` octets in hexadecimal, joined by `:`,
has at most `31 + 3 * L` characters, and it is what is returned whenever the
octets can be read; (b) for an integer field the value rendered by the format
of `hfinfo_numeric_format` has at most 11 characters, so the text fits the
buffer of `abbrev_len + 4 + 11 + 1` octets with its terminator and the result
is the whole text. -/
theorem C40_filter_buffer_bounds (env : label_env) (renv : repr_env) (fi : field_info) :
    (∀ b : tvbuff, fi.ds_tvb = some b.ds_tvb → 0 ≤ fi.start → fi.start < 2 ^ 31 →
      fi.length < 2 ^ 31 → 0 < min fi.length b.octets.length →
      dfilter_raw_bytes fi (some { tvb := some b }) ≠ .error fault.undefined ∧
      (∀ res, dfilter_raw_bytes fi (some { tvb := some b }) = .ok res →
        ∃ text, res = some text ∧
          text.length ≤ 31 + 3 * (min fi.length b.octets.length).toNat ∧
          text.length + 1 ≤ 32 + (min fi.length b.octets.length).toNat * 3) ∧
      (fi.start + min fi.length b.octets.length ≤ b.octets.length →
        ∃ text, dfilter_raw_bytes fi (some { tvb := some b }) = .ok (some text))) ∧
    (∀ (edt : Option epan_dissect_t) (a format : String),
      fi.hfinfo.abbrev_ = some a →
      fi.hfinfo.type ∈ uint_types ++ sint_types ++ [FT_FRAMENUM] →
      hfinfo_numeric_format fi.hfinfo = .ok format →
      ∃ value : List Char, value.length ≤ 11 ∧
        sprintf format [.str a, .num (fvalue_get_integer fi.value)]
          = a ++ " == " ++ String.mk value ∧
        (a ++ " == " ++ String.mk value).length + 1 ≤ a.length + 4 + 11 + 1 ∧
        proto_construct_dfilter_string env renv fi edt =
          .ok (some (a ++ " == " ++ String.mk value))) := by
  constructor
  · intro b hds h0 h1 hlen hL
    have hpos : 0 < fi.length := by omega
    have hLn : ((min fi.length (b.octets.length : Int)).toNat : Int)
        = min fi.length b.octets.length := by omega
    rw [raw_bytes_frame fi b hds hpos hlen, if_neg (by omega)]
    by_cases hin : fi.start + min fi.length b.octets.length ≤ b.octets.length
    · have hsl := span_length b fi.start (min fi.length b.octets.length) h0 (by omega) hin
      have hne : span b fi.start (min fi.length b.octets.length) ≠ [] := by
        intro hnil
        rw [hnil] at hsl
        simp only [List.length_nil, Nat.cast_zero] at hsl
        omega
      have hlt := span_lt b fi.start (min fi.length b.octets.length)
      have hbound := raw_text_length fi.start h0 h1 _ hlt hne (by rw [hsl]; omega)
      rw [hsl] at hbound
      have hnat : (span b fi.start (min fi.length b.octets.length)).length
          = (min fi.length (b.octets.length : Int)).toNat := by omega
      rw [hnat] at hbound
      rw [read_octets_ok b _ fi.start h0 (by rw [hLn]; exact hin), hLn]
      simp only [Except.bind]
      have hw : write_all (32 + (min fi.length (b.octets.length : Int)).toNat * 3)
          (sprintf "frame[%d:%d] == "
            [.num (to_guint32 fi.start),
             .num (to_guint32 (min fi.length (b.octets.length : Int)))]
            ++ String.mk (hex_octets (span b fi.start (min fi.length b.octets.length))))
          = .ok (sprintf "frame[%d:%d] == "
            [.num (to_guint32 fi.start),
             .num (to_guint32 (min fi.length (b.octets.length : Int)))]
            ++ String.mk (hex_octets (span b fi.start (min fi.length b.octets.length)))) := by
        unfold write_all
        rw [if_pos (by omega)]
      rw [hw]
      refine ⟨by simp, ?_, fun _ => ⟨_, rfl⟩⟩
      intro res hres
      simp only [Except.ok.injEq] at hres
      exact ⟨_, hres.symm, hbound, by omega⟩
    · rw [read_octets_fault b _ fi.start (by omega) (by rw [hLn]; omega)]
      refine ⟨?_, ?_, fun h => absurd h hin⟩
      · simp [Except.bind]
      · intro res hres
        simp [Except.bind] at hres
  · intro edt a format ha ht hf
    obtain ⟨value, hv, hlen⟩ :=
      numeric_value_length fi.hfinfo format hf a (fvalue_get_integer fi.value)
    refine ⟨value, hlen, hv, ?_, ?_⟩
    · rw [String.length_append, String.length_append]
      show a.length + 4 + value.length + 1 ≤ _
      omega
    · rw [dfilter_integer env renv fi edt a format ha ht hf, hv,
        dfilter_fits a " == " value (by
          have : (" == " : String).length = 4 := rfl
          omega)]

/-- C40 on closed examples: the payload of type None over the octets 1 and 2 of
the frame of ten octets gets its text, which fits the buffer; the field
`foo.id` that holds 300 gets the whole text `foo.id == ` and its value. -/
theorem C40_filter_buffer_bounds_witness :
    (∃ text, dfilter_raw_bytes (none_fi 1 2) (some frame_edt) = .ok (some text)) ∧
    dfilter_raw_bytes (none_fi 1 2) (some frame_edt) = .ok (some "frame[1:2] == ad:be") ∧
    (∃ value : List Char, value.length ≤ 11 ∧
      proto_construct_dfilter_string plain_env plain_repr (integer_fi hf_id 2 300) none =
        .ok (some ("foo.id" ++ " == " ++ String.mk value))) :=
  have h := C40_filter_buffer_bounds plain_env plain_repr
  ⟨((h (none_fi 1 2)).1 (buffer_of [0xde, 0xad, 0xbe, 0xef, 0, 1, 2, 3, 4, 5]) (by rfl)
      (by decide) (by decide) (by decide) (by decide)).2.2 (by decide),
    by rfl,
    match (h (integer_fi hf_id 2 300)).2 none "foo.id" "%s == %u" rfl (by decide) (by rfl) with
    | ⟨value, h1, _, _, h4⟩ => ⟨value, h1, h4⟩⟩

end Proto
